import Mathlib

/-!
Trace-event importer.

A shallow embedding of `chrome/browser/resources/tracing/trace_event_importer.js`
(namespace `tracing`) and of the overlay list of
`chrome/browser/resources/file_manager/js/image_editor/image_buffer.js`
(namespace `ImageBuffer`), followed by smaller embeddings of the flags of
`shared/js/cr/ui/expandable_bubble.js` (namespace `ExpandableBubble`), of the element
`polymer-selection` of `pdf/index.js` (namespace `PolymerSelection`), of
`print_preview/data/ticket_items/fit_to_page.js` (namespace `FitToPage`) and of two
functions of `chrome/common/extensions/docs/js/api_page_generator.js` (namespace
`ApiPageGenerator`).

JavaScript objects that are shared by reference (timeline slices) live in an explicit
heap and are addressed by their allocation index.  JavaScript numbers are the finite
doubles, embedded as rational numbers; division, subtraction and addition round to the
nearest double.  Plain objects used as dictionaries are association lists kept in
property-iteration order.
-/

namespace tracing

/-! Values, events and dictionaries. -/

/-- A JSON value carried in an argument bag. -/
inductive Value where
  | str (s : String)
  | num (q : ℚ)
  | bool (b : Bool)
  | null
  deriving DecidableEq, Repr

/-- Services the importer reads from its surroundings: the colour table
`tracing.getStringColorId`, the conversion of a number to a string used by `+`,
the global variable `name` (the identifier read by `processEnd`, which is
`window.name` in a page), and the key under which a process files a counter. -/
structure Env where
  getStringColorId : String → Nat
  numberToString : ℚ → String
  windowName : String
  counterId : String → String → String

/-- String conversion of a value, as performed by `'...' + v`. -/
def Value.toJSString (numberToString : ℚ → String) : Value → String
  | .str s => s
  | .num q => numberToString q
  | .bool true => "true"
  | .bool false => "false"
  | .null => "null"

/-- Property read `obj[k]` on a dictionary; `none` is `undefined`. -/
def jsGet {κ α : Type} [DecidableEq κ] : List (κ × α) → κ → Option α
  | [], _ => none
  | (k1, v) :: m, k => if k1 = k then some v else jsGet m k

/-- Property write `obj[k] = v`: an existing key keeps its place, a new key goes last. -/
def jsSet {κ α : Type} [DecidableEq κ] : List (κ × α) → κ → α → List (κ × α)
  | [], k, v => [(k, v)]
  | (k1, v1) :: m, k, v => if k1 = k then (k1, v) :: m else (k1, v1) :: jsSet m k v

/-- Property removal `delete obj[k]`. -/
def jsDelete {κ α : Type} [DecidableEq κ] : List (κ × α) → κ → List (κ × α)
  | [], _ => []
  | (k1, v1) :: m, k => if k1 = k then jsDelete m k else (k1, v1) :: jsDelete m k

/-- Truthiness of an optional number: defined and not zero. -/
def truthyNum : Option ℚ → Bool
  | some q => decide (q ≠ 0)
  | none => false

/-- An argument bag, in property-iteration order. -/
abbrev Args := List (String × Value)

/-- One record of the event array. -/
structure TraceEvent where
  ph : String
  pid : Nat
  tid : Nat
  name : String
  cat : String := ""
  ts : ℚ
  uts : Option ℚ := none
  args : Args := []
  id : Option Value := none
  deriving DecidableEq, Repr

/-- The key `pid + ':' + tid`; both parts are numbers, so the string determines the pair. -/
abbrev PTID := Nat × Nat

/-- The PTID of an event. -/
def TraceEvent.ptid (e : TraceEvent) : PTID := (e.pid, e.tid)

/-- The test `event.args['ui-nest'] === '0'`. -/
def TraceEvent.nonNested (e : TraceEvent) : Bool :=
  decide (jsGet e.args "ui-nest" = some (Value.str "0"))

/-- The composite id built by `sliceID = event.name; for (x in args) sliceID += ';' + args[x]`. -/
def sliceIDOf (env : Env) (e : TraceEvent) : String :=
  e.args.foldl (fun acc kv => acc ++ ";" ++ kv.2.toJSString env.numberToString) e.name

/-! The timeline model. -/

/-! Numbers.  A JavaScript number is an IEEE 754 double; the finite doubles are rational
numbers, and an arithmetic operation yields the double nearest to the exact result, the one
with an even significand when two are equally near.  The numbers of an event array (`ts`,
`uts`) are doubles, as `JSON.parse` produces them. -/

/-- The integer nearest to `n / d` for `d > 0`, the even one of the two when `n / d` lies
half-way between two integers. -/
def roundHalfEven (n d : Nat) : Nat :=
  let q := n / d
  let r := n % d
  if 2 * r < d then q
  else if d < 2 * r then q + 1
  else if q % 2 = 0 then q else q + 1

/-- The number of halvings that bring `n` below 2, counted with at most `fuel` steps
(`fuel = n` is enough). -/
def log2Steps : Nat → Nat → Nat
  | 0, _ => 0
  | fuel + 1, n => if n < 2 then 0 else log2Steps fuel (n / 2) + 1

/-- The exponent `e` with `2 ^ e ≤ n / d < 2 ^ (e + 1)`, for `n > 0` and `d > 0`. -/
def floorLog2 (n d : Nat) : Int :=
  let e : Int := (log2Steps n n : Int) - (log2Steps d d : Int)
  if 0 ≤ e then
    if d * 2 ^ e.toNat ≤ n then e else e - 1
  else
    if d ≤ n * 2 ^ (-e).toNat then e else e - 1

/-- The double nearest to a rational number (round to nearest, ties to even): a multiple of
`2 ^ (e - 52)` where `2 ^ e` is the power of two at or below the magnitude, and of
`2 ^ (-1074)` in the subnormal range.  A result beyond the largest finite double, where the
code computes `Infinity`, is outside this embedding; quotients, differences and sums of the
timestamps of an event array stay below it. -/
def roundDouble (q : ℚ) : ℚ :=
  if q = 0 then 0
  else
    let n := q.num.natAbs
    let d := q.den
    let k : Int := max (floorLog2 n d) (-1022) - 52
    let m : Nat :=
      if 0 ≤ k then roundHalfEven n (d * 2 ^ k.toNat) else roundHalfEven (n * 2 ^ (-k).toNat) d
    let sign : Int := if q.num < 0 then -1 else 1
    if 0 ≤ k then mkRat (sign * (m * 2 ^ k.toNat : Nat)) 1
    else mkRat (sign * m) (2 ^ (-k).toNat)

/-- The quotient `a / b` of two numbers, as the code computes it. -/
def jsDiv (a b : ℚ) : ℚ := roundDouble (a / b)

/-- The difference `a - b` of two numbers, as the code computes it. -/
def jsSub (a b : ℚ) : ℚ := roundDouble (a - b)

/-- The sum `a + b` of two numbers, as the code computes it. -/
def jsAdd (a b : ℚ) : ℚ := roundDouble (a + b)

/-- A number that may be `NaN` (the result of subtracting `undefined`). -/
inductive JSNum where
  | nan
  | num (q : ℚ)
  deriving DecidableEq, Repr

/-- The difference `a - b` where `b` may be `undefined`. -/
def subUndef (a : ℚ) : Option ℚ → JSNum
  | some b => .num (jsSub a b)
  | none => .nan

/-- Modelled from the spec: the `TimelineSlice` record built by
`new tracing.TimelineSlice(name, colorId, start, args)`; child slices are heap references. -/
structure TimelineSlice where
  title : String
  colorId : Nat
  start : ℚ
  args : Args
  duration : Option ℚ := none
  didNotFinish : Bool := false
  subSlices : List Nat := []
  startInUserTime : Option ℚ := none
  durationInUserTime : Option JSNum := none
  deriving DecidableEq, Repr

/-- Modelled from the spec: the getter `slice.end`, start plus duration. -/
def TimelineSlice.end? (s : TimelineSlice) : Option ℚ :=
  s.duration.map (fun d => jsAdd s.start d)

/-- Modelled from the spec: a thread of the model, with its subrows of nested slices
(one per nesting depth) and the slices handed to `addNonNestedSlice`, in call order. -/
structure TimelineThread where
  name : Option Value := none
  subRows : List (List Nat) := []
  nonNestedSlices : List Nat := []
  deriving DecidableEq, Repr

/-- A value held in `ctr.samples`: a value of an argument bag (or the number that
`processCounter` pushes itself), or the member `name` that an argument bag inherits from
`Object.prototype`. -/
inductive Sample where
  | value (v : Value)
  | inherited (name : String)
  deriving DecidableEq, Repr

/-- Modelled from the spec: a counter of a process. -/
structure TimelineCounter where
  name : String
  seriesNames : List String := []
  seriesColors : List Nat := []
  timestamps : List ℚ := []
  samples : List Sample := []
  deriving DecidableEq, Repr

/-- Modelled from the spec: the getter `numSeries`. -/
def TimelineCounter.numSeries (c : TimelineCounter) : Nat := c.seriesNames.length

/-- Modelled from the spec: a process, owning threads by tid and counters by key. -/
structure TimelineProcess where
  threads : List (Nat × TimelineThread) := []
  counters : List (String × TimelineCounter) := []
  deriving DecidableEq, Repr

/-- Modelled from the spec: the `TimelineModel` registry with bounds and import errors. -/
structure TimelineModel where
  processes : List (Nat × TimelineProcess) := []
  importErrors : List String := []
  minTimestamp : Option ℚ := none
  maxTimestamp : Option ℚ := none
  deriving DecidableEq, Repr

/-- Modelled from the spec: `thread.getSubrow(i).push(r)`; missing subrows are created empty. -/
def pushAt : List (List Nat) → Nat → Nat → List (List Nat)
  | [], 0, r => [[r]]
  | [], i + 1, r => [] :: pushAt [] i r
  | row :: rows, 0, r => (row ++ [r]) :: rows
  | row :: rows, i + 1, r => row :: pushAt rows i r

/-- Modelled from the spec: the slices of subrow `i` (empty when the subrow does not exist). -/
def TimelineThread.subrow (t : TimelineThread) (i : Nat) : List Nat := (t.subRows[i]?).getD []

/-- Modelled from the spec: `thread.getSubrow(i).push(r)` on a thread. -/
def TimelineThread.pushSubrow (t : TimelineThread) (i r : Nat) : TimelineThread :=
  { t with subRows := pushAt t.subRows i r }

/-- Modelled from the spec: `thread.addNonNestedSlice(r)`. -/
def TimelineThread.addNonNestedSlice (t : TimelineThread) (r : Nat) : TimelineThread :=
  { t with nonNestedSlices := t.nonNestedSlices ++ [r] }

/-- Modelled from the spec: the process `getOrCreateProcess(pid)` returns. -/
def TimelineModel.getProcess (m : TimelineModel) (pid : Nat) : TimelineProcess :=
  (jsGet m.processes pid).getD {}

/-- Modelled from the spec: the thread `getOrCreateThread(tid)` returns. -/
def TimelineProcess.getThread (p : TimelineProcess) (tid : Nat) : TimelineThread :=
  (jsGet p.threads tid).getD {}

/-- The thread of the model for a pid and tid. -/
def TimelineModel.getThread (m : TimelineModel) (pid tid : Nat) : TimelineThread :=
  (m.getProcess pid).getThread tid

/-- Modelled from the spec: `getOrCreateProcess(pid).getOrCreateThread(tid)` followed by a
mutation `f` of that thread; process and thread are created when absent. -/
def TimelineModel.withThread (m : TimelineModel) (pid tid : Nat)
    (f : TimelineThread → TimelineThread) : TimelineModel :=
  let p := m.getProcess pid
  { m with processes :=
      jsSet m.processes pid { p with threads := jsSet p.threads tid (f (p.getThread tid)) } }

/-- The statement `importErrors.push(msg)`. -/
def TimelineModel.pushError (m : TimelineModel) (msg : String) : TimelineModel :=
  { m with importErrors := m.importErrors ++ [msg] }

/-! Importer state. -/

/-- The record `{ index, slice }` kept for an open slice; `slice` is a heap reference.
`durationInUserTime` is the property `processEnd` writes on this record in its
non-nested branch. -/
structure OpenSlice where
  index : Nat
  slice : Nat
  durationInUserTime : Option JSNum := none
  deriving DecidableEq, Repr

/-- Per-PTID state: the stack of open nested slices (last element is the top) and the
dictionary of open non-nested slices. -/
structure ThreadState where
  openSlices : List OpenSlice := []
  openNonNestedSlices : List (String × OpenSlice) := []
  deriving DecidableEq, Repr

/-- The importer: the model it fills, the heap of slice objects, the event array and the
per-PTID states in insertion order. -/
structure TraceEventImporter where
  model : TimelineModel
  heap : List TimelineSlice
  events : List TraceEvent
  threadStateByPTID : List (PTID × ThreadState) := []
  deriving DecidableEq, Repr

/-- The state object of a PTID (a fresh one when none was created yet). -/
def TraceEventImporter.getState (imp : TraceEventImporter) (p : PTID) : ThreadState :=
  (jsGet imp.threadStateByPTID p).getD {}

/-- Write back the state object of a PTID. -/
def TraceEventImporter.setState (imp : TraceEventImporter) (p : PTID) (s : ThreadState) :
    TraceEventImporter :=
  { imp with threadStateByPTID := jsSet imp.threadStateByPTID p s }

/-- In-place mutation of the heap object at reference `r`. -/
def heapModify (heap : List TimelineSlice) (r : Nat) (f : TimelineSlice → TimelineSlice) :
    List TimelineSlice :=
  match heap[r]? with
  | some s => heap.set r (f s)
  | none => heap

/-! The importer operations. -/

/-- The slice object `processBegin` builds for an event: `new TimelineSlice(...)` followed
by `if (event.uts) slice.slice.startInUserTime = event.uts / 1000`. -/
def newSlice (env : Env) (event : TraceEvent) : TimelineSlice :=
  let colorId := env.getStringColorId event.name
  let slice0 : TimelineSlice :=
    { title := event.name, colorId := colorId, start := jsDiv event.ts 1000,
      args := event.args }
  if truthyNum event.uts then
    { slice0 with startInUserTime := event.uts.map (fun u => jsDiv u 1000) }
  else slice0

/-- The method `processBegin(index, state, event)`; the state object is the one of PTID `p`.
The new slice object is allocated at the end of the heap. -/
def processBegin (env : Env) (imp : TraceEventImporter) (index : Nat) (p : PTID)
    (event : TraceEvent) : TraceEventImporter :=
  let slice : OpenSlice := { index := index, slice := imp.heap.length }
  let state := imp.getState p
  if event.nonNested then
    let sliceID := sliceIDOf env event
    { imp with
      heap := imp.heap ++ [newSlice env event],
      model :=
        if (jsGet state.openNonNestedSlices sliceID).isSome then
          imp.model.pushError ("Event " ++ sliceID ++ " already open.")
        else imp.model,
      threadStateByPTID := jsSet imp.threadStateByPTID p
        { state with openNonNestedSlices := jsSet state.openNonNestedSlices sliceID slice } }
  else
    { imp with
      heap := imp.heap ++ [newSlice env event],
      threadStateByPTID := jsSet imp.threadStateByPTID p
        { state with openSlices := state.openSlices ++ [slice] } }

/-- The statement `slice.duration = endTime - slice.start` on the heap object at `r`. -/
def setDuration (heap : List TimelineSlice) (r : Nat) (endTime : ℚ) : List TimelineSlice :=
  heapModify heap r (fun s => { s with duration := some (jsSub endTime s.start) })

/-- The statement `if (event.uts) slice.durationInUserTime = (event.uts / 1000) -
slice.startInUserTime` of the nested branch, on the heap object at `r`. -/
def setUserDuration (heap : List TimelineSlice) (r : Nat) (uts : Option ℚ) :
    List TimelineSlice :=
  if truthyNum uts then
    heapModify heap r (fun s =>
      { s with
        durationInUserTime := uts.map (fun u => subUndef (jsDiv u 1000) s.startInUserTime) })
  else heap

/-- The statements `if (state.openSlices.length) { parentSlice = state.openSlices[length - 1];
parentSlice.slice.subSlices.push(slice) }`, where `rest` is the stack after the pop. -/
def addToParent (heap : List TimelineSlice) (rest : List OpenSlice) (r : Nat) :
    List TimelineSlice :=
  match rest.getLast? with
  | some parentSlice =>
    heapModify heap parentSlice.slice (fun s => { s with subSlices := s.subSlices ++ [r] })
  | none => heap

/-- The record left in the dictionary by the non-nested branch of `processEnd`:
`if (event.uts) slice.durationInUserTime = (event.uts / 1000) - slice.slice.startInUserTime`
writes on the record itself. -/
def setRecordUserDuration (heap : List TimelineSlice) (m : List (String × OpenSlice))
    (sliceID : String) (slice : OpenSlice) (uts : Option ℚ) : List (String × OpenSlice) :=
  let startInUserTime := (heap[slice.slice]?).bind (fun s => s.startInUserTime)
  if truthyNum uts then
    jsSet m sliceID
      { slice with
        durationInUserTime := uts.map (fun u => subUndef (jsDiv u 1000) startInUserTime) }
  else m

/-- The method `processEnd(state, event)`; the state object is the one of PTID `p`. -/
def processEnd (env : Env) (imp : TraceEventImporter) (p : PTID) (event : TraceEvent) :
    TraceEventImporter :=
  let state := imp.getState p
  if event.nonNested then
    let sliceID := sliceIDOf env event
    match jsGet state.openNonNestedSlices sliceID with
    | none => imp
    | some slice =>
      let heap1 := setDuration imp.heap slice.slice (jsDiv event.ts 1000)
      let map1 := setRecordUserDuration heap1 state.openNonNestedSlices sliceID slice event.uts
      let model1 := imp.model.withThread event.pid event.tid
        (fun thread => thread.addNonNestedSlice slice.slice)
      let map2 := jsDelete map1 env.windowName
      { imp with
        heap := heap1, model := model1,
        threadStateByPTID := jsSet imp.threadStateByPTID p
          { state with openNonNestedSlices := map2 } }
  else
    match state.openSlices.getLast? with
    | none => imp
    | some slice =>
      let rest := state.openSlices.dropLast
      let heap1 := setDuration imp.heap slice.slice (jsDiv event.ts 1000)
      let heap2 := setUserDuration heap1 slice.slice event.uts
      let subRowIndex := rest.length
      let model1 := imp.model.withThread event.pid event.tid
        (fun thread => thread.pushSubrow subRowIndex slice.slice)
      let heap3 := addToParent heap2 rest slice.slice
      { imp with
        heap := heap3, model := model1,
        threadStateByPTID := jsSet imp.threadStateByPTID p { state with openSlices := rest } }

/-- Modelled from the spec: every slice reference stored in the threads of the model. -/
def TimelineModel.sliceRefs (m : TimelineModel) : List Nat :=
  m.processes.flatMap (fun p => p.2.threads.flatMap (fun t => t.2.subRows.flatten ++ t.2.nonNestedSlices))

/-- Modelled from the spec: every timestamp of every counter of the model. -/
def TimelineModel.counterTimestamps (m : TimelineModel) : List ℚ :=
  m.processes.flatMap (fun p => p.2.counters.flatMap (fun c => c.2.timestamps))

/-- Start and (when the duration is set) end of the slice at a reference. -/
def sliceStamps (heap : List TimelineSlice) (r : Nat) : List ℚ :=
  match heap[r]? with
  | some s => s.start :: s.end?.toList
  | none => []

/-- The function `Math.max` applied to a list; `none` stands for `-Infinity`. -/
def mathMax : List ℚ → Option ℚ
  | [] => none
  | x :: xs => some (xs.foldl max x)

/-- The function `Math.min` applied to a list; `none` stands for `Infinity`. -/
def mathMin : List ℚ → Option ℚ
  | [] => none
  | x :: xs => some (xs.foldl min x)

/-- Modelled from the spec: `model.updateBounds()` recomputes the bounds from all the data
already in the model: the start and end of every slice of every thread and the timestamps
of every counter; a model without data has no bounds. -/
def updateBounds (m : TimelineModel) (heap : List TimelineSlice) : TimelineModel :=
  let values := m.sliceRefs.flatMap (sliceStamps heap) ++ m.counterTimestamps
  { m with minTimestamp := mathMin values, maxTimestamp := mathMax values }

/-- The list `openTimestamps` collected by `autoCloseOpenSlices`. -/
def openTimestamps (imp : TraceEventImporter) : List ℚ :=
  imp.threadStateByPTID.flatMap fun ps =>
    ps.2.openSlices.flatMap fun slice =>
      match imp.heap[slice.slice]? with
      | none => []
      | some s =>
        s.start :: s.subSlices.flatMap fun c =>
          match imp.heap[c]? with
          | none => []
          | some subSlice =>
            subSlice.start ::
              (if truthyNum subSlice.duration then subSlice.end?.toList else [])

/-- The value `realMaxTimestamp` of `autoCloseOpenSlices`; `none` stands for `-Infinity`. -/
def realMaxTimestamp (maxTimestamp : Option ℚ) (openTimestamps : List ℚ) : Option ℚ :=
  if truthyNum maxTimestamp then
    match maxTimestamp, mathMax openTimestamps with
    | some m, some o => some (max m o)
    | some m, none => some m
    | none, o => o
  else mathMax openTimestamps

/-- The thread `getOrCreateProcess(event.pid).getOrCreateThread(event.tid)` of the event at
`index` receives `r` in subrow `i`. -/
def pushToThreadOfEvent (imp : TraceEventImporter) (index i r : Nat) : TimelineModel :=
  match imp.events[index]? with
  | some event => imp.model.withThread event.pid event.tid (fun thread => thread.pushSubrow i r)
  | none => imp.model

/-- One iteration of the loop `while (state.openSlices.length > 0)` of
`autoCloseOpenSlices`, for the state of PTID `p`. -/
def autoClosePop (T : ℚ) (imp : TraceEventImporter) (p : PTID) : TraceEventImporter :=
  let state := imp.getState p
  match state.openSlices.getLast? with
  | none => imp
  | some slice =>
    let rest := state.openSlices.dropLast
    let heap1 := heapModify (setDuration imp.heap slice.slice T) slice.slice
      (fun s => { s with didNotFinish := true })
    let subRowIndex := rest.length
    let model1 := pushToThreadOfEvent imp slice.index subRowIndex slice.slice
    let heap2 := addToParent heap1 rest slice.slice
    { imp with
      heap := heap2, model := model1,
      threadStateByPTID := jsSet imp.threadStateByPTID p { state with openSlices := rest } }

/-- The loop `while (state.openSlices.length > 0)`, run for `n` iterations. -/
def autoCloseThread (T : ℚ) : Nat → TraceEventImporter → PTID → TraceEventImporter
  | 0, imp, _ => imp
  | n + 1, imp, p => autoCloseThread T n (autoClosePop T imp p) p

/-- The method `autoCloseOpenSlices()`.  When no open timestamp was collected and the model
has no truthy bound, no slice is open and the closing loops have nothing to do. -/
def autoCloseOpenSlices (imp : TraceEventImporter) : TraceEventImporter :=
  let imp1 : TraceEventImporter := { imp with model := updateBounds imp.model imp.heap }
  match realMaxTimestamp imp1.model.maxTimestamp (openTimestamps imp1) with
  | none => imp1
  | some T =>
    (imp1.threadStateByPTID.map Prod.fst).foldl
      (fun acc p => autoCloseThread T (acc.getState p).openSlices.length acc p) imp1

/-- The name under which `processCounter` asks for the counter of an event. -/
def ctrNameOf (env : Env) (event : TraceEvent) : String :=
  match event.id with
  | some v => event.name ++ "[" ++ v.toJSString env.numberToString ++ "]"
  | none => event.name

/-- Modelled from the spec: the counter `getOrCreateCounter(cat, name)` returns; the process
files it under the key `env.counterId cat name`. -/
def TimelineProcess.getCounter (env : Env) (p : TimelineProcess) (cat name : String) :
    TimelineCounter :=
  (jsGet p.counters (env.counterId cat name)).getD { name := name }

/-- The block `if (ctr.numSeries == 0) { for (seriesName in event.args) { ... } }` of
`processCounter`, without the statements that drop the counter. -/
def initSeries (env : Env) (ctr : TimelineCounter) (event : TraceEvent) : TimelineCounter :=
  if ctr.numSeries = 0 then
    { ctr with
      seriesNames := ctr.seriesNames ++ event.args.map Prod.fst,
      seriesColors := ctr.seriesColors ++
        event.args.map (fun kv => env.getStringColorId (ctr.name ++ "." ++ kv.1)) }
  else ctr

/-- The names of the members that every object inherits from `Object.prototype`. -/
def objectPrototypeNames : List String :=
  ["constructor", "toString", "toLocaleString", "valueOf", "hasOwnProperty", "isPrototypeOf",
   "propertyIsEnumerable", "__proto__", "__defineGetter__", "__defineSetter__",
   "__lookupGetter__", "__lookupSetter__"]

/-- The property read `args[name]` on an argument bag: its own value of that name, else the
member of that name inherited from `Object.prototype`, else `undefined` (`none`). -/
def readProperty (args : Args) (name : String) : Option Sample :=
  match jsGet args name with
  | some v => some (.value v)
  | none => if name ∈ objectPrototypeNames then some (.inherited name) else none

/-- The values one sample appends: for each series the value of `event.args[seriesName]`,
or the number 0 when `event.args[seriesName] === undefined`. -/
def sampleRow (seriesNames : List String) (event : TraceEvent) : List Sample :=
  seriesNames.map (fun seriesName =>
    (readProperty event.args seriesName).getD (.value (.num 0)))

/-- The statements under `// Add the sample values.` of `processCounter`. -/
def addSample (ctr : TimelineCounter) (event : TraceEvent) : TimelineCounter :=
  { ctr with
    timestamps := ctr.timestamps ++ [jsDiv event.ts 1000],
    samples := ctr.samples ++ sampleRow ctr.seriesNames event }

/-- The method `processCounter(event)`. -/
def processCounter (env : Env) (imp : TraceEventImporter) (event : TraceEvent) :
    TraceEventImporter :=
  let ctr_name := ctrNameOf env event
  let key := env.counterId event.cat ctr_name
  let proc := imp.model.getProcess event.pid
  let ctr := proc.getCounter env event.cat ctr_name
  let ctr1 := initSeries env ctr event
  if ctr.numSeries = 0 ∧ ctr1.numSeries = 0 then
    { imp with model :=
        { imp.model with
          importErrors := imp.model.importErrors ++
            ["Expected counter " ++ event.name ++
              " to have at least one argument to use as a value."],
          processes := jsSet imp.model.processes event.pid
            { proc with counters := jsDelete (jsSet proc.counters key ctr1) ctr1.name } } }
  else
    { imp with model :=
        { imp.model with
          processes := jsSet imp.model.processes event.pid
            { proc with counters := jsSet proc.counters key (addSample ctr1 event) } } }

/-- The statement `if (!(ptid in threadStateByPTID_)) threadStateByPTID_[ptid] = new ThreadState()`. -/
def ensureState (imp : TraceEventImporter) (ptid : PTID) : TraceEventImporter :=
  if (jsGet imp.threadStateByPTID ptid).isSome then imp else imp.setState ptid {}

/-- The body of the loop of `importEvents` for the event at index `eI`. -/
def importStep (env : Env) (imp : TraceEventImporter) (eI : Nat) (event : TraceEvent) :
    TraceEventImporter :=
  let ptid := event.ptid
  let imp1 := ensureState imp ptid
  if event.ph = "B" then processBegin env imp1 eI ptid event
  else if event.ph = "E" then processEnd env imp1 ptid event
  else if event.ph = "I" then processEnd env (processBegin env imp1 eI ptid event) ptid event
  else if event.ph = "C" then processCounter env imp1 event
  else if event.ph = "M" then
    if event.name = "thread_name" then
      { imp1 with model := imp1.model.withThread event.pid event.tid
                             (fun t => { t with name := jsGet event.args "name" }) }
    else
      { imp1 with model := imp1.model.pushError ("Unrecognized metadata name: " ++ event.name) }
  else
    let msg := "Unrecognized event phase: " ++ event.ph ++ "(" ++ event.name ++ ")"
    { imp1 with model := imp1.model.pushError msg }

/-- The importer after the first `k` iterations of the loop of `importEvents`. -/
def stateAt (env : Env) (imp : TraceEventImporter) : Nat → TraceEventImporter
  | 0 => imp
  | k + 1 =>
    match imp.events[k]? with
    | some event => importStep env (stateAt env imp k) k event
    | none => stateAt env imp k

/-- The flag `hasOpenSlices` computed at the end of `importEvents`. -/
def hasOpenSlices (imp : TraceEventImporter) : Bool :=
  imp.threadStateByPTID.any (fun ps => decide (ps.2.openSlices.length > 0))

/-- The method `importEvents()`. -/
def importEvents (env : Env) (imp : TraceEventImporter) : TraceEventImporter :=
  let imp1 := stateAt env imp imp.events.length
  if hasOpenSlices imp1 then autoCloseOpenSlices imp1 else imp1

/-- The importer the constructor builds for a model and an event array: no thread state yet. -/
def TraceEventImporter.new (model : TimelineModel) (heap : List TimelineSlice)
    (events : List TraceEvent) : TraceEventImporter :=
  { model := model, heap := heap, events := events, threadStateByPTID := [] }

/-- A sample environment: colour 0 for every name, numbers printed as their numerator,
an empty `window.name`, counters filed under category, dot, name. -/
def env0 : Env :=
  { getStringColorId := fun _ => 0,
    numberToString := fun q => toString q.num,
    windowName := "",
    counterId := fun cat name => cat ++ "." ++ name }


/-! Predicates used to state and prove the properties of the importer. -/

/-- The heap references held by a state object: its stack entries, then its dictionary. -/
def ThreadState.openRefs (s : ThreadState) : List Nat :=
  s.openSlices.map (fun w => w.slice) ++ s.openNonNestedSlices.map (fun kv => kv.2.slice)

/-- Every reference held by a state object points into the heap. -/
def RefsBounded (imp : TraceEventImporter) : Prop :=
  ∀ p, ∀ r ∈ (imp.getState p).openRefs, r < imp.heap.length

/-- The footprint of a loop iteration that works on the state object of PTID `q`. -/
structure StepFrame (q : PTID) (imp imp2 : TraceEventImporter) : Prop where
  events_eq : imp2.events = imp.events
  heap_le : imp.heap.length ≤ imp2.heap.length
  state_ne : ∀ p, p ≠ q → imp2.getState p = imp.getState p
  heap_frame : ∀ r, r < imp.heap.length → r ∉ (imp.getState q).openRefs →
    imp2.heap[r]? = imp.heap[r]?
  refs_sub : ∀ x ∈ (imp2.getState q).openRefs,
    x ∈ (imp.getState q).openRefs ∨ (imp.heap.length ≤ x ∧ x < imp2.heap.length)
  thread_ne : ∀ pid tid, (pid, tid) ≠ q →
    imp2.model.getThread pid tid = imp.model.getThread pid tid
  subrow_mono : ∀ pid tid d x, x ∈ (imp.model.getThread pid tid).subrow d →
    x ∈ (imp2.model.getThread pid tid).subrow d

/-- The part of a footprint that concerns the heap and the state objects only. -/
structure HeapFrame (q : PTID) (imp imp2 : TraceEventImporter) : Prop where
  events_eq : imp2.events = imp.events
  heap_le : imp.heap.length ≤ imp2.heap.length
  state_ne : ∀ p, p ≠ q → imp2.getState p = imp.getState p
  heap_frame : ∀ r, r < imp.heap.length → r ∉ (imp.getState q).openRefs →
    imp2.heap[r]? = imp.heap[r]?
  refs_sub : ∀ x ∈ (imp2.getState q).openRefs,
    x ∈ (imp.getState q).openRefs ∨ (imp.heap.length ≤ x ∧ x < imp2.heap.length)
  subrow_mono : ∀ pid tid d x, x ∈ (imp.model.getThread pid tid).subrow d →
    x ∈ (imp2.model.getThread pid tid).subrow d

/-- A reference that no state object holds: the slice is neither on a stack nor in a
dictionary of open non-nested slices. -/
def NotOpen (imp : TraceEventImporter) (r : Nat) : Prop :=
  r < imp.heap.length ∧ ∀ p, r ∉ (imp.getState p).openRefs

/-- A reference that only the state object of PTID `p` may hold. -/
def PrivateTo (imp : TraceEventImporter) (p : PTID) (r : Nat) : Prop :=
  r < imp.heap.length ∧ ∀ q, q ≠ p → r ∉ (imp.getState q).openRefs

/-- The begin event of the sample trace of the specification. -/
def exampleBegin : TraceEvent := { ph := "B", pid := 1, tid := 1, name := "f", ts := 0 }

/-- The end event of the sample trace of the specification. -/
def exampleEnd : TraceEvent := { ph := "E", pid := 1, tid := 1, name := "f", ts := 1000 }

/-- The heap references on the stack of a state object, bottom first. -/
def ThreadState.stackRefs (s : ThreadState) : List Nat := s.openSlices.map (fun w => w.slice)

/-- Well-formedness of the importer state: references point into the heap, the slices on
a stack are distinct objects, a slice on the stack of one PTID is held by no other PTID, and
the `index` of a stack entry is the index of an event of that PTID. -/
structure WellFormed (imp : TraceEventImporter) : Prop where
  bounded : RefsBounded imp
  nodup : ∀ p, (imp.getState p).stackRefs.Nodup
  owned : ∀ p q, p ≠ q → ∀ r ∈ (imp.getState p).stackRefs, r ∉ (imp.getState q).openRefs
  index_ok : ∀ p, ∀ w ∈ (imp.getState p).openSlices,
    ∃ ev, imp.events[w.index]? = some ev ∧ ev.ptid = p

/-- The heap object of a slice after `autoCloseOpenSlices` closed it at time `T`; `next` is
the slice that was right above it on the stack, if any. -/
def closedSlice (T : ℚ) (s : TimelineSlice) (next : Option Nat) : TimelineSlice :=
  { s with duration := some (jsSub T s.start), didNotFinish := true,
           subSlices := s.subSlices ++ next.toList }

/-- The closing loops of `autoCloseOpenSlices`, run over the PTIDs `keys` with closing
time `T`. -/
def autoCloseAll (T : ℚ) (keys : List PTID) (imp : TraceEventImporter) : TraceEventImporter :=
  keys.foldl (fun acc p => autoCloseThread T (acc.getState p).openSlices.length acc p) imp

/-- What the closing loops rely on while the slices `R` of PTID `p` are followed: stacks
hold distinct slices, stack entries carry the index of an event of their PTID, and no
other PTID has a slice of `R` on its stack. -/
structure CloseInv (p : PTID) (R : List Nat) (imp : TraceEventImporter) : Prop where
  nodup : ∀ q, (imp.getState q).stackRefs.Nodup
  index_ok : ∀ q, ∀ w ∈ (imp.getState q).openSlices,
    ∃ ev, imp.events[w.index]? = some ev ∧ ev.ptid = q
  avoid : ∀ q, q ≠ p → ∀ r ∈ (imp.getState q).stackRefs, r ∉ R

/-- A sample trace that ends with three nested slices still open on PTID 1:1. -/
def exampleOpenTrace : List TraceEvent :=
  [{ ph := "B", pid := 1, tid := 1, name := "a", ts := 0 },
   { ph := "B", pid := 1, tid := 1, name := "b", ts := 1000 },
   { ph := "B", pid := 1, tid := 1, name := "c", ts := 3000 }]

/-- A trace with timestamps before the origin of the clock: a slice that ends at time 0 on
PTID 1:1 and a slice left open at time -1 on PTID 1:2. -/
def exampleNegativeTrace : List TraceEvent :=
  [{ ph := "B", pid := 1, tid := 1, name := "done", ts := -2000 },
   { ph := "E", pid := 1, tid := 1, name := "done", ts := 0 },
   { ph := "B", pid := 1, tid := 2, name := "open", ts := -1000 }]

/-- A sample trace in which slice "b" is closed inside slice "a", and "a" is left open. -/
def exampleChildTrace : List TraceEvent :=
  [{ ph := "B", pid := 1, tid := 1, name := "a", ts := 0 },
   { ph := "B", pid := 1, tid := 1, name := "b", ts := 1000 },
   { ph := "E", pid := 1, tid := 1, name := "b", ts := 2000 }]

/-- A non-nested event named "f" on PTID 1:1; its composite id is "f;0". -/
def nonNestedEvent (ph : String) (ts : ℚ) : TraceEvent :=
  { ph := ph, pid := 1, tid := 1, name := "f", ts := ts, args := [("ui-nest", .str "0")] }

/-- A trace with a non-nested slice that is begun, ended, and ended once more. -/
def exampleDoubleEndTrace : List TraceEvent :=
  [nonNestedEvent "B" 0, nonNestedEvent "E" 1000, nonNestedEvent "E" 3000]

/-- A counter sample without arguments, for the counter "ctr" of category "c" in process 1. -/
def exampleEmptyCounterEvent : TraceEvent :=
  { ph := "C", pid := 1, tid := 1, name := "ctr", cat := "c", ts := 0, args := [] }

/-- The sample environment with counters filed under category followed directly by name. -/
def envPlainKey : Env := { env0 with counterId := fun cat name => cat ++ name }

/-- A sample of the counter "ctr" of category "c" in process 1. -/
def counterSample (ts : ℚ) (args : Args) : TraceEvent :=
  { ph := "C", pid := 1, tid := 1, name := "ctr", cat := "c", ts := ts, args := args }

/-- A trace with a non-nested slice that is begun, ended, and begun again. -/
def exampleReopenTrace : List TraceEvent :=
  [nonNestedEvent "B" 0, nonNestedEvent "E" 1000, nonNestedEvent "B" 2000]

/-! The constructor and `canImport`. -/

/-- A JavaScript value, as far as the constructor and `canImport` look at it. -/
inductive JSValue where
  | undefined
  | null
  | bool (b : Bool)
  | num (q : ℚ)
  | str (s : String)
  | array (elems : List JSValue)
  | object (fields : List (String × JSValue))

/-- The exceptions that the constructor and `canImport` can raise. -/
inductive JSError where
  | typeError
  | syntaxError
  deriving DecidableEq, Repr

/-- Truthiness of a value. -/
def JSValue.truthy : JSValue → Bool
  | .undefined => false
  | .null => false
  | .bool b => b
  | .num q => decide (q ≠ 0)
  | .str s => decide (s ≠ "")
  | .array _ => true
  | .object _ => true

/-- Property read `v.k` for a name `k` that no prototype defines (`ph`, `traceEvents`):
a `TypeError` on `undefined` and `null`, the own property of an object, `undefined`
otherwise. -/
def JSValue.getProp (v : JSValue) (k : String) : Except JSError JSValue :=
  match v with
  | .undefined => .error .typeError
  | .null => .error .typeError
  | .object fields => .ok ((fields.lookup k).getD .undefined)
  | _ => .ok .undefined

/-- Element read `xs[0]` on an array. -/
def firstElem (xs : List JSValue) : JSValue := (xs[0]?).getD .undefined

/-- The static method `TraceEventImporter.canImport(eventData)`; the result is the value
the `return` statement yields. -/
def canImport (eventData : JSValue) : Except JSError JSValue :=
  match eventData with
  | .str s => .ok (.bool (decide (s.data.head? = some '{') || decide (s.data.head? = some '[')))
  | _ => do
    let isEventArray ←
      match eventData with
      | .array xs => (firstElem xs).getProp "ph"
      | _ => pure (.bool false)
    if isEventArray.truthy then
      pure (.bool true)
    else
      let traceEvents ← eventData.getProp "traceEvents"
      if traceEvents.truthy then
        match traceEvents with
        | .array ys => (firstElem ys).getProp "ph"
        | _ => pure (.bool false)
      else pure (.bool false)

/-- The character `eventData[i]` of a text; `none` is `undefined` (index out of range). -/
def jsCharAt (cs : List Char) (i : Int) : Option Char :=
  if 0 ≤ i then cs[i.toNat]? else none

/-- The three tests of the constructor that decide whether `']'` is appended to a text
that begins with `'['`. -/
def needsClosingBracket (cs : List Char) : Bool :=
  let n : Int := cs.length
  if jsCharAt cs (n - 1) ≠ some ']' ∧ jsCharAt cs (n - 1) ≠ some '\n' then true
  else if jsCharAt cs (n - 2) ≠ some ']' ∧ jsCharAt cs (n - 1) = some '\n' then true
  else if jsCharAt cs (n - 3) ≠ some ']' ∧ jsCharAt cs (n - 2) = some '\r' ∧
      jsCharAt cs (n - 1) = some '\n' then true
  else false

/-- The text the constructor hands to `JSON.parse`. -/
def repairText (eventData : String) : String :=
  if eventData.data.head? = some '[' then
    if needsClosingBracket eventData.data then eventData ++ "]" else eventData
  else eventData

/-- The fields the constructor sets on the new importer. -/
structure ConstructedImporter where
  model_ : TimelineModel
  events_ : JSValue
  threadStateByPTID_ : List (PTID × ThreadState)

/-- The constructor `TraceEventImporter(model, eventData)`, with `JSON.parse` as a
parameter.  The result is the new importer or the exception raised, paired with the model
as the call leaves it (the constructor has no statement that writes to the model). -/
def construct (jsonParse : String → Except JSError JSValue) (model : TimelineModel)
    (eventData : JSValue) : Except JSError ConstructedImporter × TimelineModel :=
  let result : Except JSError ConstructedImporter := do
    let events ←
      match eventData with
      | .str s => jsonParse (repairText s)
      | v => pure v
    let traceEvents ← events.getProp "traceEvents"
    let events2 := if traceEvents.truthy then traceEvents else events
    pure { model_ := model, events_ := events2, threadStateByPTID_ := [] }
  (result, model)

/-- A sample event `{"ph":"B"}` as a value. -/
def sampleEventValue : JSValue := .object [("ph", .str "B")]

/-- A stand-in for `JSON.parse` that knows one text, `[{"ph":"B"}]`, and rejects every
other text with a `SyntaxError`. -/
def sampleParse (s : String) : Except JSError JSValue :=
  if s = "[\x7b\"ph\":\"B\"\x7d]" then .ok (.array [sampleEventValue]) else .error .syntaxError

end tracing

/-! The overlay stack of `image_buffer.js`. -/

namespace ImageBuffer

/-- An overlay as `ImageBuffer` uses it: the identity of the object, the number its
`getZIndex()` returns, and the value its `getCursorStyle(x, y, mouseDown)` returns (`none`
for `null`). -/
structure Overlay where
  id : Nat
  getZIndex : ℚ
  getCursorStyle : ℚ → ℚ → Bool → Option String

/-- Truthiness of a style: not `null` and not the empty string. -/
def styleTruthy : Option String → Bool
  | some s => decide (s ≠ "")
  | none => false

/-- The value of `i` after the loop of `addOverlay`:
`for (i = 0; i != overlays.length; i++) if (zIndex < overlays[i].getZIndex()) break`. -/
def insertionIndex (zIndex : ℚ) : List Overlay → Nat
  | [] => 0
  | o :: rest => if zIndex < o.getZIndex then 0 else insertionIndex zIndex rest + 1

/-- The method `addOverlay(overlay)`: `overlays_.splice(i, 0, overlay)` at the index the
loop stops at. -/
def addOverlay (overlays : List Overlay) (overlay : Overlay) : List Overlay :=
  let i := insertionIndex overlay.getZIndex overlays
  overlays.take i ++ overlay :: overlays.drop i

/-- The loop of `getCursorStyle` over the overlays still to visit, highest index first;
the result is the style returned and the identities of the overlays whose
`getCursorStyle` was called, in call order. -/
def searchCursorStyle (x y : ℚ) (mouseDown : Bool) : List Overlay → String × List Nat
  | [] => ("default", [])
  | o :: below =>
    match o.getCursorStyle x y mouseDown with
    | some style =>
      if style ≠ "" then (style, [o.id])
      else ((searchCursorStyle x y mouseDown below).1,
            o.id :: (searchCursorStyle x y mouseDown below).2)
    | none => ((searchCursorStyle x y mouseDown below).1,
               o.id :: (searchCursorStyle x y mouseDown below).2)

/-- The method `getCursorStyle(x, y, mouseDown)`, with the overlays it consulted: the loop
runs from index `length - 1` down to 0. -/
def getCursorStyle (overlays : List Overlay) (x y : ℚ) (mouseDown : Bool) :
    String × List Nat :=
  searchCursorStyle x y mouseDown overlays.reverse

/-- The order that `addOverlay` maintains: Z-indexes do not decrease along the list. -/
def ZSorted (overlays : List Overlay) : Prop :=
  overlays.Pairwise (fun a b => a.getZIndex ≤ b.getZIndex)

/-- A sample overlay with a constant cursor style. -/
def sampleOverlay (id : Nat) (z : ℚ) (style : Option String) : Overlay :=
  { id := id, getZIndex := z, getCursorStyle := fun _ _ _ => style }

end ImageBuffer

namespace tracing

/-! Predicates for slices that stay unfinished. -/

/-- The slice reference `r` is stored in the thread: in one of its subrows or among its
non-nested slices. -/
def InThread (t : TimelineThread) (r : Nat) : Prop :=
  (∃ d, r ∈ t.subrow d) ∨ r ∈ t.nonNestedSlices

/-- The state of a slice `r` with contents `s0` that only the dictionary of PTID `p` may
hold, under the key `id`: it is on no stack, its heap object is `s0`, and it is stored in no
thread that did not store it in the model `m0`. -/
structure Abandoned (p : PTID) (id : String) (r : Nat) (s0 : TimelineSlice)
    (m0 : TimelineModel) (imp : TraceEventImporter) : Prop where
  heap_eq : imp.heap[r]? = some s0
  off_stack : ∀ q, r ∉ (imp.getState q).stackRefs
  only_key : ∀ q key w, (key, w) ∈ (imp.getState q).openNonNestedSlices → w.slice = r →
    q = p ∧ key = id
  not_added : ∀ pid tid, InThread (imp.model.getThread pid tid) r →
    InThread (m0.getThread pid tid) r

/-- No two entries of a dictionary have the same key. -/
def KeysNodup {κ α : Type} (m : List (κ × α)) : Prop := (m.map Prod.fst).Nodup

/-- A trace with one non-nested slice that is begun and never ended. -/
def exampleAbandonedTrace : List TraceEvent :=
  [nonNestedEvent "B" 0,
   { ph := "C", pid := 1, tid := 1, name := "ctr", ts := 5000, args := [("a", .num 1)] }]

/-- The thread after the closing loop of `autoCloseOpenSlices` emptied a stack given top
first: each slice goes to the subrow whose index is the number of slices below it. -/
def closeRowsFrom (t : TimelineThread) : List Nat → TimelineThread
  | [] => t
  | top :: below => closeRowsFrom (t.pushSubrow below.length top) below

/-- The thread after the closing loop of `autoCloseOpenSlices` emptied a stack that held
the slices `refs`, bottom first. -/
def closeRows (t : TimelineThread) (refs : List Nat) : TimelineThread :=
  closeRowsFrom t refs.reverse

/-! Predicates for comparing two runs of the importer. -/

/-- An event that `importEvents` reports and otherwise ignores: phase M with a name other
than "thread_name", or a phase that is none of B, E, I, C, M. -/
def TraceEvent.unrecognized (e : TraceEvent) : Bool :=
  if e.ph = "M" then decide (e.name ≠ "thread_name")
  else decide (e.ph ≠ "B" ∧ e.ph ≠ "E" ∧ e.ph ≠ "I" ∧ e.ph ≠ "C")

/-- The string `importEvents` pushes onto `importErrors` for an unrecognized event. -/
def unrecognizedMessage (e : TraceEvent) : String :=
  if e.ph = "M" then "Unrecognized metadata name: " ++ e.name
  else "Unrecognized event phase: " ++ e.ph ++ "(" ++ e.name ++ ")"

/-- An open-slice record without the index of its begin event. -/
def OpenSlice.forgetIndex (w : OpenSlice) : OpenSlice := { w with index := 0 }

/-- A state object without the event indices of its records. -/
def ThreadState.forgetIndex (s : ThreadState) : ThreadState :=
  { openSlices := s.openSlices.map OpenSlice.forgetIndex,
    openNonNestedSlices := s.openNonNestedSlices.map (fun kv => (kv.1, kv.2.forgetIndex)) }

/-- Two importers that hold the same heap, the same processes and bounds, and per PTID
the same state objects up to event indices; their error lists are related by `E`. -/
structure SameData (E : List String → List String → Prop) (a b : TraceEventImporter) :
    Prop where
  heap_eq : a.heap = b.heap
  procs_eq : a.model.processes = b.model.processes
  min_eq : a.model.minTimestamp = b.model.minTimestamp
  max_eq : a.model.maxTimestamp = b.model.maxTimestamp
  errs : E a.model.importErrors b.model.importErrors
  states : ∀ p, (a.getState p).forgetIndex = (b.getState p).forgetIndex

/-- The value `realMaxTimestamp` that `autoCloseOpenSlices` computes for an importer. -/
def closingTime (imp : TraceEventImporter) : Option ℚ :=
  realMaxTimestamp (updateBounds imp.model imp.heap).maxTimestamp
    (openTimestamps { imp with model := updateBounds imp.model imp.heap })

/-- A trace with an unrecognized metadata event between a begin and an end event. -/
def exampleUnrecognizedTrace : List TraceEvent :=
  [exampleBegin,
   { ph := "M", pid := 1, tid := 1, name := "process_name", ts := 0 },
   exampleEnd]

/-- The timestamps `autoCloseOpenSlices` collects for one open slice: its start, and for
each of its sub-slices the start and (when the duration is truthy) the end. -/
def refTimestamps (heap : List TimelineSlice) (r : Nat) : List ℚ :=
  match heap[r]? with
  | none => []
  | some s =>
    s.start :: s.subSlices.flatMap fun c =>
      match heap[c]? with
      | none => []
      | some subSlice =>
        subSlice.start ::
          (if truthyNum subSlice.duration then subSlice.end?.toList else [])

/-! Predicates for comparing the run on an event array with the run on the events of one
PTID. -/

/-- A slice with its sub-slice references renamed by `f`. -/
def renameSlice (f : Nat → Nat) (s : TimelineSlice) : TimelineSlice :=
  { s with subSlices := s.subSlices.map f }

/-- A thread with its slice references renamed by `f`. -/
def renameThread (f : Nat → Nat) (t : TimelineThread) : TimelineThread :=
  { t with subRows := t.subRows.map (fun row => row.map f),
           nonNestedSlices := t.nonNestedSlices.map f }

/-- An open-slice record without its event index and with its slice reference renamed. -/
def OpenSlice.rename (f : Nat → Nat) (w : OpenSlice) : OpenSlice :=
  { index := 0, slice := f w.slice, durationInUserTime := w.durationInUserTime }

/-- A state object without event indices and with its slice references renamed. -/
def ThreadState.rename (f : Nat → Nat) (s : ThreadState) : ThreadState :=
  { openSlices := s.openSlices.map (OpenSlice.rename f),
    openNonNestedSlices := s.openNonNestedSlices.map (fun kv => (kv.1, kv.2.rename f)) }

/-- The part of importer `a` that belongs to PTID `p` is importer `c` with the heap
references of `c` renamed by `f`: `f` is injective on the heap of `c`, the heap objects,
the state object and the thread of `p` correspond, and no other PTID of `a` holds a slice
in the image of `f`. -/
structure Projection (p : PTID) (f : Nat → Nat) (a c : TraceEventImporter) : Prop where
  inj : ∀ x y, x < c.heap.length → y < c.heap.length → f x = f y → x = y
  bound : ∀ x, x < c.heap.length → f x < a.heap.length
  heap_rel : ∀ x, x < c.heap.length → a.heap[f x]? = (c.heap[x]?).map (renameSlice f)
  state_rel : (a.getState p).forgetIndex = (c.getState p).rename f
  thread_rel : a.model.getThread p.1 p.2 = renameThread f (c.model.getThread p.1 p.2)
  foreign : ∀ q, q ≠ p → ∀ x ∈ (a.getState q).openRefs, ∀ y, y < c.heap.length → f y ≠ x

/-- Every slice reference stored in the importer points into its heap. -/
structure Closed (imp : TraceEventImporter) : Prop where
  refs : RefsBounded imp
  rows : ∀ pid tid x, InThread (imp.model.getThread pid tid) x → x < imp.heap.length
  subs : ∀ (r : Nat) (s : TimelineSlice), imp.heap[r]? = some s →
    ∀ x ∈ s.subSlices, x < imp.heap.length

/-- The slices `sA` and `sB` of two runs agree up to the renaming `g` of sub-slice
references; their durations are equal, or both slices were closed by
`autoCloseOpenSlices`, each with the duration `T - start` for the closing time `T` of its
run. -/
def SameSlice (g : Nat → Nat) (TA TB : Option ℚ) (sA sB : TimelineSlice) : Prop :=
  sB.title = sA.title ∧ sB.colorId = sA.colorId ∧ sB.start = sA.start ∧ sB.args = sA.args ∧
  sB.didNotFinish = sA.didNotFinish ∧ sB.subSlices = sA.subSlices.map g ∧
  sB.startInUserTime = sA.startInUserTime ∧ sB.durationInUserTime = sA.durationInUserTime ∧
  (sB.duration = sA.duration ∨
    (sA.didNotFinish = true ∧ ∃ ta tb, TA = some ta ∧ TB = some tb ∧
      sA.duration = some (jsSub ta sA.start) ∧ sB.duration = some (jsSub tb sA.start)))

/-- The events of PTID `p` in an event array, in array order. -/
def eventsOf (p : PTID) (events : List TraceEvent) : List TraceEvent :=
  events.filter (fun e => decide (e.ptid = p))

/-- A counter sample without arguments on thread 1:1. -/
def exampleEmptySample : TraceEvent := { ph := "C", pid := 1, tid := 1, name := "c", ts := 9000 }

/-- A counter sample of the same counter on thread 1:2. -/
def exampleFirstSample : TraceEvent :=
  { ph := "C", pid := 1, tid := 2, name := "c", ts := 0, args := [("a", .num 1)] }

/-- A begin event on thread 1:3 that is never ended. -/
def exampleOpenBegin : TraceEvent := { ph := "B", pid := 1, tid := 3, name := "open", ts := 5000 }

/-- A begin event on thread 1:2. -/
def exampleOtherBegin : TraceEvent := { ph := "B", pid := 1, tid := 2, name := "g", ts := 500 }

/-- No two processes of the model have the same pid and no two threads of a process have
the same tid. -/
def ModelKeys (m : TimelineModel) : Prop :=
  KeysNodup m.processes ∧ ∀ kv ∈ m.processes, KeysNodup kv.2.threads

/-- The C events of an event array, in array order. -/
def counterEvents (events : List TraceEvent) : List TraceEvent :=
  events.filter (fun e => decide (e.ph = "C"))

/-! Predicates and samples for counters, user time and the count of nested slices. -/

/-- The shape of a counter: one sample value per series and timestamp, one colour per
series, and no timestamp as long as the counter has no series. -/
def CounterOk (c : TimelineCounter) : Prop :=
  c.samples.length = c.seriesNames.length * c.timestamps.length ∧
  c.seriesColors.length = c.seriesNames.length ∧
  (c.seriesNames = [] → c.timestamps = [])

/-- Every counter that a process of the model files under some key has the shape
`CounterOk`. -/
def CountersOk (m : TimelineModel) : Prop :=
  ∀ (pid : Nat) (key : String) (c : TimelineCounter),
    jsGet (m.getProcess pid).counters key = some c → CounterOk c

/-- A nested B and E pair on PTID 1:1 with user timestamps 1000 and 3000. -/
def exampleUserTimeTrace : List TraceEvent :=
  [{ ph := "B", pid := 1, tid := 1, name := "f", ts := 0, uts := some 1000 },
   { ph := "E", pid := 1, tid := 1, name := "f", ts := 5000, uts := some 3000 }]

/-- A non-nested B and E pair on PTID 1:1 with user timestamps 1000 and 3000. -/
def exampleUserTimeNonNestedTrace : List TraceEvent :=
  [{ nonNestedEvent "B" 0 with uts := some 1000 },
   { nonNestedEvent "E" 5000 with uts := some 3000 }]

/-- The events that open a nested slice: phase B or I without `args['ui-nest'] === '0'`. -/
def TraceEvent.opensNested (e : TraceEvent) : Bool :=
  (decide (e.ph = "B") || decide (e.ph = "I")) && !e.nonNested

/-- The number of nested B and I events of PTID `p` in an event array. -/
def nestedBegins (p : PTID) (events : List TraceEvent) : Nat :=
  (events.filter (fun e => decide (e.ptid = p) && e.opensNested)).length

/-- The number of slices stored in the subrows of a thread. -/
def TimelineThread.subrowSlices (t : TimelineThread) : Nat := t.subRows.flatten.length

/-- The slices of PTID `q` that are stored in a subrow of its thread or still on its
stack. -/
def nestedCount (imp : TraceEventImporter) (q : PTID) : Nat :=
  (imp.model.getThread q.1 q.2).subrowSlices + (imp.getState q).openSlices.length

/-- A nested B and E pair on PTID 1:1 at 100 and 400 microseconds. -/
def exampleRoundingTrace : List TraceEvent :=
  [{ ph := "B", pid := 1, tid := 1, name := "f", ts := 100 },
   { ph := "E", pid := 1, tid := 1, name := "f", ts := 400 }]

/-- A trace that ends with three nested slices still open on PTID 1:1, begun at 0, 3 and 13
microseconds. -/
def exampleRoundingOpenTrace : List TraceEvent :=
  [{ ph := "B", pid := 1, tid := 1, name := "a", ts := 0 },
   { ph := "B", pid := 1, tid := 1, name := "b", ts := 3 },
   { ph := "B", pid := 1, tid := 1, name := "c", ts := 13 }]

/-- Two samples of one counter whose only series is named "constructor"; the second sample
has no arguments. -/
def examplePrototypeTrace : List TraceEvent :=
  [counterSample 1000 [("constructor", .num 1)], counterSample 2000 []]

/-- Two samples of one counter with the series "a" and "toString"; the second sample
carries "a" only. -/
def exampleInheritedTrace : List TraceEvent :=
  [counterSample 1000 [("a", .num 1), ("toString", .num 2)], counterSample 2000 [("a", .num 3)]]

/-- A trace with two samples of one counter; the second sample lacks the series "b". -/
def exampleCounterTrace : List TraceEvent :=
  [counterSample 1000 [("a", .num 1), ("b", .num 2)], counterSample 2000 [("a", .num 3)]]


end tracing

/-! The overlay stack of `image_buffer.js`: removal. -/

namespace ImageBuffer

/-- The value of `i` at which the loop of `removeOverlay` finds `overlays[i] == overlay`
(objects are compared by identity), or `none` when the loop runs to the end. -/
def findOverlay (overlay : Overlay) : List Overlay → Option Nat
  | [] => none
  | o :: rest =>
    if o.id = overlay.id then some 0 else (findOverlay overlay rest).map (fun i => i + 1)

/-- The method `removeOverlay(overlay)`: the outcome of the call (`.error` for the `Error`
it throws, whose message is 'Cannot remove overlay ' followed by the text of the overlay)
and the overlay list the call leaves. -/
def removeOverlay (overlays : List Overlay) (overlay : Overlay) :
    Except String Unit × List Overlay :=
  match findOverlay overlay overlays with
  | some i => (.ok (), overlays.eraseIdx i)
  | none => (.error "Cannot remove overlay", overlays)

end ImageBuffer

/-! The bubble of `expandable_bubble.js`: the flags `hidden` and `bubbleSuppressed`. -/

namespace ExpandableBubble

/-- The two flags of an `ExpandableBubble` that `decorate`, `show`, `hide` and the setter
`suppressed` write. -/
structure Bubble where
  hidden : Bool
  bubbleSuppressed : Bool
  deriving DecidableEq, Repr

/-- The flags as `decorate()` leaves them: `hidden = true; bubbleSuppressed = false`. -/
def decorate : Bubble := { hidden := true, bubbleSuppressed := false }

/-- The setter `suppressed`: when suppressing, a hidden bubble is left alone and a visible
one is hidden; when un-suppressing, a suppressed bubble is made visible; then
`bubbleSuppressed = suppress`. -/
def setSuppressed (b : Bubble) (suppress : Bool) : Bubble :=
  if suppress then
    if b.hidden then b
    else { hidden := true, bubbleSuppressed := suppress }
  else if b.bubbleSuppressed then { hidden := false, bubbleSuppressed := suppress }
  else { b with bubbleSuppressed := suppress }

/-- The method `show()`: nothing when the bubble is not hidden, otherwise
`hidden = false`; `bubbleSuppressed` is not written. -/
def showBubble (b : Bubble) : Bubble :=
  if !b.hidden then b else { b with hidden := false }

/-- The method `hide()`: `hidden = true; bubbleSuppressed = false`. -/
def hide (_b : Bubble) : Bubble := { hidden := true, bubbleSuppressed := false }

/-- A call on a bubble. -/
inductive Call where
  | showCall
  | hideCall
  | suppressedSet (suppress : Bool)
  deriving DecidableEq, Repr

/-- The flags after one call. -/
def step (b : Bubble) : Call → Bubble
  | .showCall => showBubble b
  | .hideCall => hide b
  | .suppressedSet suppress => setSuppressed b suppress

/-- The flags after `decorate()` followed by a sequence of calls. -/
def run (calls : List Call) : Bubble := calls.foldl step decorate

end ExpandableBubble

/-! The element `polymer-selection` of `pdf/index.js`. -/

namespace PolymerSelection

/-- An item handed to the selection: `undefined`, `null`, the number `NaN`, or any other
value, told apart by `id` (an object by identity, a primitive by value). -/
inductive Item where
  | undefined
  | null
  | nan
  | value (id : Nat)
  deriving DecidableEq, Repr

/-- Strict equality `a === b`: `NaN` equals nothing, not even itself. -/
def strictEq (a b : Item) : Bool :=
  match a, b with
  | .nan, _ => false
  | _, .nan => false
  | a, b => decide (a = b)

/-- The element: the attribute `multi`, the array `selection`, and the details of the
"polymer-select" events fired so far. -/
structure Selection where
  multi : Bool := false
  selection : List Item := []
  fired : List (Bool × Item) := []
  deriving DecidableEq, Repr

/-- The method `Array.prototype.indexOf`, which compares with `===`; `none` is -1. -/
def indexOf : List Item → Item → Option Nat
  | [], _ => none
  | x :: xs, item => if strictEq x item then some 0 else (indexOf xs item).map (fun i => i + 1)

/-- The method `clear()`: `this.selection = []`. -/
def clear (s : Selection) : Selection := { s with selection := [] }

/-- The value of `this.selection[0]`. -/
def first (s : Selection) : Item := (s.selection[0]?).getD .undefined

/-- What `getSelection()` returns: the array when `multi`, else `selection[0]`. -/
def getSelection (s : Selection) : List Item ⊕ Item :=
  if s.multi then .inl s.selection else .inr (first s)

/-- The method `isSelected(item)`: `this.selection.indexOf(item) >= 0`. -/
def isSelected (s : Selection) (item : Item) : Bool := (indexOf s.selection item).isSome

/-- The method `setItemSelected(item, isSelected)`. -/
def setItemSelected (s : Selection) (item : Item) (isSelected : Bool) : Selection :=
  if item ≠ .undefined ∧ item ≠ .null then
    let selection :=
      if isSelected then s.selection ++ [item]
      else
        match indexOf s.selection item with
        | some i => s.selection.eraseIdx i
        | none => s.selection
    { s with selection := selection, fired := s.fired ++ [(isSelected, item)] }
  else s

/-- The method `toggle(item)`. -/
def toggle (s : Selection) (item : Item) : Selection :=
  setItemSelected s item (!isSelected s item)

/-- The method `select(item)`. -/
def select (s : Selection) (item : Item) : Selection :=
  if s.multi then toggle s item
  else if !strictEq (first s) item then
    setItemSelected (setItemSelected s (first s) false) item true
  else s

/-- The element after `clear()` followed by `select` calls on the given items. -/
def selectAll (s : Selection) (items : List Item) : Selection :=
  items.foldl select (clear s)

end PolymerSelection

/-! The ticket item of `fit_to_page.js`. -/

namespace FitToPage

/-- A print destination, as far as `FitToPage` reads it. -/
structure Destination where
  id : String
  deriving DecidableEq, Repr

/-- The destination store: `selectedDestination` is `none` when it is `null`. -/
structure DestinationStore where
  selectedDestination : Option Destination
  deriving DecidableEq, Repr

/-- The document information, as far as `FitToPage` reads it. -/
structure DocumentInfo where
  isModifiable : Bool
  deriving DecidableEq, Repr

/-- The method `isCapabilityAvailable()`; `SAVE_AS_PDF` is the constant
`print_preview.Destination.GooglePromotedId.SAVE_AS_PDF`. -/
def isCapabilityAvailable (SAVE_AS_PDF : String) (documentInfo : DocumentInfo)
    (destinationStore : DestinationStore) : Bool :=
  !documentInfo.isModifiable &&
    (match destinationStore.selectedDestination with
     | none => true
     | some selectedDestination => decide (selectedDestination.id ≠ SAVE_AS_PDF))

/-- The method `getCapabilityNotAvailableValueInternal()`: the value of
`selectedDestination && selectedDestination.id == SAVE_AS_PDF`, which is the falsy
`selectedDestination` itself (`none`) when no destination is selected. -/
def getCapabilityNotAvailableValueInternal (SAVE_AS_PDF : String)
    (destinationStore : DestinationStore) : Option Bool :=
  match destinationStore.selectedDestination with
  | none => none
  | some selectedDestination => some (decide (selectedDestination.id = SAVE_AS_PDF))

end FitToPage

/-! The functions `getPrimitiveValue` and `getPermittedChannels` of
`api_page_generator.js`. -/

namespace ApiPageGenerator

/-- The property `schema.value`, as far as `getPrimitiveValue` tells values apart: a
string, an integer whose `String(...)` is its plain decimal text, or a value of another
type. -/
inductive SchemaValue where
  | string (s : String)
  | number (n : Int)
  | other
  deriving DecidableEq, Repr

/-- What a call returns: `undefined` or a string. -/
inductive Returned where
  | undefined
  | string (s : String)
  deriving DecidableEq, Repr

/-- The loop `while (value.length > 3) { groupsOfThree.unshift(value.slice(value.length - 3));
value = value.slice(0, value.length - 3); }` run for at most `fuel` tests of its condition;
the result is `value` and `groupsOfThree` when the loop ends, `none` when the fuel runs
out first. -/
def groupLoop : Nat → List Char → List String → Option (List Char × List String)
  | 0, _, _ => none
  | fuel + 1, value, groupsOfThree =>
    if value.length > 3 then
      groupLoop fuel (value.take (value.length - 3))
        (String.mk (value.drop (value.length - 3)) :: groupsOfThree)
    else some (value, groupsOfThree)

/-- The function `getPrimitiveValue(schema)`, with the fuel of its loop. -/
def getPrimitiveValue (fuel : Nat) (value : SchemaValue) : Option Returned :=
  match value with
  | .string s => some (.string ("\"" ++ s ++ "\""))
  | .number n =>
    (groupLoop fuel (toString n).data []).map fun r =>
      .string (",".intercalate (String.mk r.1 :: r.2))
  | .other => some .undefined

/-- An entry of the table `permissionFeatures`; `channel` is `none` when the entry has no
such property. -/
structure Feature where
  channel : Option String
  deriving DecidableEq, Repr

/-- The global `module`, as far as `getPermittedChannels` reads and writes it; the list is
`none` when the module has no `documentation_permissions_required`, and `apiNamespace` is
the property `module.namespace`. -/
structure Module where
  documentation_permissions_required : Option (List String)
  apiNamespace : String
  deriving DecidableEq, Repr

/-- The array `allChannels`. -/
def allChannels : List String := ["trunk", "canary", "dev", "beta", "stable"]

/-- The expression `(permissionFeatures[permissionName] || {}).channel || 'stable'`. -/
def supportedChannelOf (permissionFeatures : List (String × Feature))
    (permissionName : String) : String :=
  match (permissionFeatures.lookup permissionName).bind (fun feature => feature.channel) with
  | some channel => if channel ≠ "" then channel else "stable"
  | none => "stable"

/-- The inner loop `for (j = 0; j < allChannels.length; ++j)` from index `j` on, over the
channels still to compare: the new value of `maximumSupportedChannel`. -/
def channelLoop (supportedChannel : String) (maximumSupportedChannel : Nat) :
    Nat → List String → Nat
  | _, [] => maximumSupportedChannel
  | j, channel :: rest =>
    if supportedChannel = channel then min maximumSupportedChannel j
    else channelLoop supportedChannel maximumSupportedChannel (j + 1) rest

/-- The function `getPermittedChannels()`: the list it returns and the module as the call
leaves it (`push` appends the namespace to the module's own list when it has one). -/
def getPermittedChannels (permissionFeatures : List (String × Feature)) (module : Module) :
    List String × Module :=
  let requiredPermissions :=
    (module.documentation_permissions_required.getD []) ++ [module.apiNamespace]
  let module1 : Module :=
    match module.documentation_permissions_required with
    | some _ => { module with documentation_permissions_required := some requiredPermissions }
    | none => module
  let maximumSupportedChannel := requiredPermissions.foldl
    (fun m permissionName =>
      channelLoop (supportedChannelOf permissionFeatures permissionName) m 0 allChannels) 4
  (allChannels.take (maximumSupportedChannel + 1), module1)

/-- The function `isPermittedOnChannel(channel)`. -/
def isPermittedOnChannel (permissionFeatures : List (String × Feature)) (module : Module)
    (channel : String) : Bool :=
  (getPermittedChannels permissionFeatures module).1.any (fun c => decide (c = channel))

/-- The channel a permission counts for in the words of the specification: the channel of
its feature entry when that is one of the five listed channels, and 'stable' otherwise. -/
def countedChannel (permissionFeatures : List (String × Feature)) (permissionName : String) :
    String :=
  match permissionFeatures.lookup permissionName with
  | some feature =>
    match feature.channel with
    | some channel => if channel ∈ allChannels then channel else "stable"
    | none => "stable"
  | none => "stable"

/-- The permissions whose channels the specification takes into account: the entries of
`documentation_permissions_required` and the namespace of the module. -/
def consideredPermissions (module : Module) : List String :=
  (module.documentation_permissions_required.getD []) ++ [module.apiNamespace]

/-- A sample table: permission "experimental" is on 'dev', "tabs" has no channel. -/
def sampleFeatures : List (String × Feature) :=
  [("experimental", { channel := some "dev" }), ("tabs", { channel := none })]

end ApiPageGenerator

namespace tracing

/-! Numbers. -/

theorem roundDouble_zero : roundDouble 0 = 0 := by
  simp [roundDouble]

theorem jsSub_self (a : ℚ) : jsSub a a = 0 := by
  simp [jsSub, roundDouble_zero]

/-! Dictionary lemmas. -/

theorem jsGet_jsSet_self {κ α : Type} [DecidableEq κ] (m : List (κ × α)) (k : κ) (v : α) :
    jsGet (jsSet m k v) k = some v := by
  induction m with
  | nil => simp [jsSet, jsGet]
  | cons x m ih =>
    obtain ⟨k1, v1⟩ := x
    by_cases h : k1 = k
    · simp [jsSet, jsGet, h]
    · simp [jsSet, jsGet, h, ih]

theorem jsGet_jsSet_ne {κ α : Type} [DecidableEq κ] (m : List (κ × α)) (k k2 : κ) (v : α)
    (h : k2 ≠ k) : jsGet (jsSet m k v) k2 = jsGet m k2 := by
  induction m with
  | nil => simp [jsSet, jsGet, Ne.symm h]
  | cons x m ih =>
    obtain ⟨k1, v1⟩ := x
    by_cases h1 : k1 = k
    · subst h1
      simp [jsSet, jsGet, Ne.symm h]
    · by_cases h2 : k1 = k2
      · subst h2
        simp [jsSet, jsGet, h]
      · simp [jsSet, jsGet, h1, h2, ih]

theorem jsGet_jsDelete_self {κ α : Type} [DecidableEq κ] (m : List (κ × α)) (k : κ) :
    jsGet (jsDelete m k) k = none := by
  induction m with
  | nil => simp [jsDelete, jsGet]
  | cons x m ih =>
    obtain ⟨k1, v1⟩ := x
    by_cases h : k1 = k
    · simp [jsDelete, h, ih]
    · simp [jsDelete, jsGet, h, ih]

theorem jsGet_jsDelete_ne {κ α : Type} [DecidableEq κ] (m : List (κ × α)) (k k2 : κ)
    (h : k2 ≠ k) : jsGet (jsDelete m k) k2 = jsGet m k2 := by
  induction m with
  | nil => simp [jsDelete, jsGet]
  | cons x m ih =>
    obtain ⟨k1, v1⟩ := x
    by_cases h1 : k1 = k
    · subst h1
      simp [jsDelete, jsGet, Ne.symm h, ih]
    · by_cases h2 : k1 = k2
      · subst h2
        simp [jsDelete, jsGet, h]
      · simp [jsDelete, jsGet, h1, h2, ih]

theorem mem_values_jsSet {κ α : Type} [DecidableEq κ] (m : List (κ × α)) (k : κ) (v : α)
    (x : κ × α) (hx : x ∈ jsSet m k v) : x = (k, v) ∨ x ∈ m := by
  induction m with
  | nil => simpa [jsSet] using hx
  | cons y m ih =>
    obtain ⟨k1, v1⟩ := y
    by_cases h : k1 = k
    · subst h
      simp only [jsSet, if_true, List.mem_cons] at hx
      rcases hx with hx | hx
      · exact Or.inl hx
      · exact Or.inr (List.mem_cons_of_mem _ hx)
    · simp only [jsSet, h, if_false, List.mem_cons] at hx
      rcases hx with hx | hx
      · exact Or.inr (by simp [hx])
      · rcases ih hx with h1 | h1
        · exact Or.inl h1
        · exact Or.inr (List.mem_cons_of_mem _ h1)

theorem mem_jsDelete {κ α : Type} [DecidableEq κ] (m : List (κ × α)) (k : κ)
    (x : κ × α) (hx : x ∈ jsDelete m k) : x ∈ m := by
  induction m with
  | nil => simp [jsDelete] at hx
  | cons y m ih =>
    obtain ⟨k1, v1⟩ := y
    by_cases h : k1 = k
    · simp only [jsDelete, h, if_true] at hx
      exact List.mem_cons_of_mem _ (ih hx)
    · simp only [jsDelete, h, if_false, List.mem_cons] at hx
      rcases hx with hx | hx
      · simp [hx]
      · exact List.mem_cons_of_mem _ (ih hx)

/-! Heap lemmas. -/

theorem length_heapModify (heap : List TimelineSlice) (r : Nat) (f : TimelineSlice → TimelineSlice) :
    (heapModify heap r f).length = heap.length := by
  unfold heapModify
  split <;> simp

theorem getElem?_heapModify_self (heap : List TimelineSlice) (r : Nat)
    (f : TimelineSlice → TimelineSlice) :
    (heapModify heap r f)[r]? = (heap[r]?).map f := by
  unfold heapModify
  split
  · rename_i s hs
    have hlt : r < heap.length := by
      by_contra hc
      rw [List.getElem?_eq_none (by omega)] at hs
      cases hs
    simp [List.getElem?_set_self hlt, hs]
  · rename_i hs
    simp [hs]

theorem getElem?_heapModify_ne (heap : List TimelineSlice) (r j : Nat)
    (f : TimelineSlice → TimelineSlice) (h : r ≠ j) :
    (heapModify heap r f)[j]? = heap[j]? := by
  unfold heapModify
  split
  · simp [List.getElem?_set_ne h]
  · rfl

/-! Subrow lemmas. -/

theorem getD_pushAt_self (rows : List (List Nat)) (i r : Nat) :
    ((pushAt rows i r)[i]?).getD [] = ((rows[i]?).getD []) ++ [r] := by
  induction rows generalizing i with
  | nil =>
    induction i with
    | zero => simp [pushAt]
    | succ i ih => simpa [pushAt] using ih
  | cons row rows ih =>
    cases i with
    | zero => simp [pushAt]
    | succ i => simpa [pushAt] using ih i

theorem getD_pushAt_ne (rows : List (List Nat)) (i j r : Nat) (h : j ≠ i) :
    ((pushAt rows i r)[j]?).getD [] = (rows[j]?).getD [] := by
  induction rows generalizing i j with
  | nil =>
    induction i generalizing j with
    | zero =>
      cases j with
      | zero => exact absurd rfl h
      | succ j => simp [pushAt]
    | succ i ih =>
      cases j with
      | zero => simp [pushAt]
      | succ j =>
        have := ih j (by omega)
        simpa [pushAt] using this
  | cons row rows ih =>
    cases i with
    | zero =>
      cases j with
      | zero => exact absurd rfl h
      | succ j => simp [pushAt]
    | succ i =>
      cases j with
      | zero => simp [pushAt]
      | succ j => simpa [pushAt] using ih i j (by omega)


/-! Model lemmas. -/

theorem getThread_withThread_self (m : TimelineModel) (pid tid : Nat)
    (f : TimelineThread → TimelineThread) :
    (m.withThread pid tid f).getThread pid tid = f (m.getThread pid tid) := by
  simp [TimelineModel.withThread, TimelineModel.getThread, TimelineModel.getProcess,
    TimelineProcess.getThread, jsGet_jsSet_self]

theorem getThread_withThread_ne (m : TimelineModel) (pid tid pid2 tid2 : Nat)
    (f : TimelineThread → TimelineThread) (h : (pid2, tid2) ≠ (pid, tid)) :
    (m.withThread pid tid f).getThread pid2 tid2 = m.getThread pid2 tid2 := by
  by_cases hp : pid2 = pid
  · subst hp
    have ht : tid2 ≠ tid := fun h2 => h (by rw [h2])
    simp [TimelineModel.withThread, TimelineModel.getThread, TimelineModel.getProcess,
      TimelineProcess.getThread, jsGet_jsSet_self, jsGet_jsSet_ne _ _ _ _ ht]
  · simp [TimelineModel.withThread, TimelineModel.getThread, TimelineModel.getProcess,
      jsGet_jsSet_ne _ _ _ _ hp]

theorem importErrors_withThread (m : TimelineModel) (pid tid : Nat)
    (f : TimelineThread → TimelineThread) :
    (m.withThread pid tid f).importErrors = m.importErrors := rfl

theorem getThread_pushError (m : TimelineModel) (msg : String) (pid tid : Nat) :
    (m.pushError msg).getThread pid tid = m.getThread pid tid := rfl

theorem subrow_pushSubrow_self (t : TimelineThread) (i r : Nat) :
    (t.pushSubrow i r).subrow i = t.subrow i ++ [r] := by
  simp [TimelineThread.pushSubrow, TimelineThread.subrow, getD_pushAt_self]

theorem subrow_pushSubrow_ne (t : TimelineThread) (i j r : Nat) (h : j ≠ i) :
    (t.pushSubrow i r).subrow j = t.subrow j := by
  simp [TimelineThread.pushSubrow, TimelineThread.subrow, getD_pushAt_ne _ _ _ _ h]

theorem mem_subrow_pushSubrow (t : TimelineThread) (i j r x : Nat) (h : x ∈ t.subrow j) :
    x ∈ (t.pushSubrow i r).subrow j := by
  by_cases hj : j = i
  · subst hj
    rw [subrow_pushSubrow_self]
    exact List.mem_append_left _ h
  · rw [subrow_pushSubrow_ne _ _ _ _ hj]
    exact h

theorem subrow_mono_withThread (m : TimelineModel) (pid tid : Nat)
    (f : TimelineThread → TimelineThread)
    (hf : ∀ t d x, x ∈ TimelineThread.subrow t d → x ∈ (f t).subrow d)
    (pid2 tid2 d x : Nat) (h : x ∈ (m.getThread pid2 tid2).subrow d) :
    x ∈ ((m.withThread pid tid f).getThread pid2 tid2).subrow d := by
  by_cases hq : (pid2, tid2) = (pid, tid)
  · cases hq
    rw [getThread_withThread_self]
    exact hf _ _ _ h
  · rw [getThread_withThread_ne _ _ _ _ _ _ hq]
    exact h

/-! Importer state lemmas. -/

theorem getState_setState_self (imp : TraceEventImporter) (p : PTID) (s : ThreadState) :
    (imp.setState p s).getState p = s := by
  simp [TraceEventImporter.setState, TraceEventImporter.getState, jsGet_jsSet_self]

theorem getState_setState_ne (imp : TraceEventImporter) (p q : PTID) (s : ThreadState)
    (h : q ≠ p) : (imp.setState p s).getState q = imp.getState q := by
  simp [TraceEventImporter.setState, TraceEventImporter.getState, jsGet_jsSet_ne _ _ _ _ h]

theorem heap_setState (imp : TraceEventImporter) (p : PTID) (s : ThreadState) :
    (imp.setState p s).heap = imp.heap := rfl

theorem model_setState (imp : TraceEventImporter) (p : PTID) (s : ThreadState) :
    (imp.setState p s).model = imp.model := rfl

theorem events_setState (imp : TraceEventImporter) (p : PTID) (s : ThreadState) :
    (imp.setState p s).events = imp.events := rfl

theorem getState_ensureState (imp : TraceEventImporter) (q p : PTID) :
    (ensureState imp q).getState p = imp.getState p := by
  unfold ensureState
  split
  · rfl
  · rename_i h
    by_cases hp : p = q
    · subst hp
      rw [getState_setState_self]
      simp only [Option.not_isSome_iff_eq_none] at h
      simp [TraceEventImporter.getState, h]
    · exact getState_setState_ne _ _ _ _ hp


theorem heap_ensureState (imp : TraceEventImporter) (q : PTID) :
    (ensureState imp q).heap = imp.heap := by
  unfold ensureState
  split <;> rfl

theorem model_ensureState (imp : TraceEventImporter) (q : PTID) :
    (ensureState imp q).model = imp.model := by
  unfold ensureState
  split <;> rfl

theorem events_ensureState (imp : TraceEventImporter) (q : PTID) :
    (ensureState imp q).events = imp.events := by
  unfold ensureState
  split <;> rfl

theorem jsGet_some_mem {κ α : Type} [DecidableEq κ] (m : List (κ × α)) (k : κ) (v : α)
    (h : jsGet m k = some v) : (k, v) ∈ m := by
  induction m with
  | nil => simp [jsGet] at h
  | cons x m ih =>
    obtain ⟨k1, v1⟩ := x
    by_cases h1 : k1 = k
    · subst h1
      simp [jsGet] at h
      simp [h]
    · simp [jsGet, h1] at h
      exact List.mem_cons_of_mem _ (ih h)


theorem stepFrame_refl (q : PTID) (imp : TraceEventImporter) : StepFrame q imp imp where
  events_eq := rfl
  heap_le := le_refl _
  state_ne := fun _ _ => rfl
  heap_frame := fun _ _ _ => rfl
  refs_sub := fun _ h => Or.inl h
  thread_ne := fun _ _ _ => rfl
  subrow_mono := fun _ _ _ _ h => h

theorem stepFrame_trans {q : PTID} {a b c : TraceEventImporter}
    (h1 : StepFrame q a b) (h2 : StepFrame q b c) : StepFrame q a c where
  events_eq := h2.events_eq.trans h1.events_eq
  heap_le := le_trans h1.heap_le h2.heap_le
  state_ne := fun p hp => (h2.state_ne p hp).trans (h1.state_ne p hp)
  heap_frame := by
    intro r hr hn
    rw [h2.heap_frame r (lt_of_lt_of_le hr h1.heap_le), h1.heap_frame r hr hn]
    intro hm
    rcases h1.refs_sub r hm with h | h
    · exact hn h
    · omega
  refs_sub := by
    intro x hx
    rcases h2.refs_sub x hx with h | h
    · rcases h1.refs_sub x h with h3 | h3
      · exact Or.inl h3
      · exact Or.inr ⟨h3.1, lt_of_lt_of_le h3.2 h2.heap_le⟩
    · exact Or.inr ⟨le_trans h1.heap_le h.1, h.2⟩
  thread_ne := fun pid tid hp => (h2.thread_ne pid tid hp).trans (h1.thread_ne pid tid hp)
  subrow_mono := fun pid tid d x h => h2.subrow_mono pid tid d x (h1.subrow_mono pid tid d x h)

theorem stepFrame_ensureState (q : PTID) (imp : TraceEventImporter) :
    StepFrame q imp (ensureState imp q) where
  events_eq := events_ensureState imp q
  heap_le := by rw [heap_ensureState]
  state_ne := fun p _ => getState_ensureState imp q p
  heap_frame := by
    intro r _ _
    rw [heap_ensureState]
  refs_sub := by
    intro x hx
    rw [getState_ensureState] at hx
    exact Or.inl hx
  thread_ne := by
    intro pid tid _
    rw [model_ensureState]
  subrow_mono := by
    intro pid tid d x h
    rw [model_ensureState]
    exact h

/-! Characterisation of `processBegin`. -/

theorem newSlice_fields (env : Env) (event : TraceEvent) :
    (newSlice env event).title = event.name ∧ (newSlice env event).start = jsDiv event.ts 1000 ∧
    (newSlice env event).duration = none ∧ (newSlice env event).didNotFinish = false ∧
    (newSlice env event).subSlices = [] ∧ (newSlice env event).args = event.args := by
  unfold newSlice
  split <;> exact ⟨rfl, rfl, rfl, rfl, rfl, rfl⟩

theorem processBegin_nested (env : Env) (imp : TraceEventImporter) (index : Nat) (p : PTID)
    (event : TraceEvent) (hn : event.nonNested = false) :
    processBegin env imp index p event =
      { imp with
        heap := imp.heap ++ [newSlice env event],
        threadStateByPTID := jsSet imp.threadStateByPTID p
          { imp.getState p with
            openSlices := (imp.getState p).openSlices ++
              [{ index := index, slice := imp.heap.length }] } } := by
  unfold processBegin
  simp [hn]

theorem processBegin_nonNested (env : Env) (imp : TraceEventImporter) (index : Nat) (p : PTID)
    (event : TraceEvent) (hn : event.nonNested = true) :
    processBegin env imp index p event =
      { imp with
        heap := imp.heap ++ [newSlice env event],
        model :=
          if (jsGet (imp.getState p).openNonNestedSlices (sliceIDOf env event)).isSome then
            imp.model.pushError ("Event " ++ sliceIDOf env event ++ " already open.")
          else imp.model,
        threadStateByPTID := jsSet imp.threadStateByPTID p
          { imp.getState p with
            openNonNestedSlices := jsSet (imp.getState p).openNonNestedSlices
              (sliceIDOf env event) { index := index, slice := imp.heap.length } } } := by
  unfold processBegin
  simp [hn]

theorem mem_openRefs_jsSet (m : List (String × OpenSlice)) (k : String) (w : OpenSlice) (x : Nat)
    (hx : x ∈ (jsSet m k w).map (fun kv => kv.2.slice)) :
    x = w.slice ∨ x ∈ m.map (fun kv => kv.2.slice) := by
  rw [List.mem_map] at hx
  obtain ⟨kv, hkv, rfl⟩ := hx
  rcases mem_values_jsSet m k w kv hkv with h | h
  · left
    rw [h]
  · right
    exact List.mem_map.mpr ⟨kv, h, rfl⟩

theorem mem_openRefs_jsDelete (m : List (String × OpenSlice)) (k : String) (x : Nat)
    (hx : x ∈ (jsDelete m k).map (fun kv => kv.2.slice)) :
    x ∈ m.map (fun kv => kv.2.slice) := by
  rw [List.mem_map] at hx
  obtain ⟨kv, hkv, rfl⟩ := hx
  exact List.mem_map.mpr ⟨kv, mem_jsDelete m k kv hkv, rfl⟩

theorem stepFrame_processBegin (env : Env) (imp : TraceEventImporter) (index : Nat) (p : PTID)
    (event : TraceEvent) : StepFrame p imp (processBegin env imp index p event) := by
  by_cases hn : event.nonNested = true
  · rw [processBegin_nonNested env imp index p event hn]
    refine ⟨rfl, by simp, ?_, ?_, ?_, ?_, ?_⟩
    · intro q hq
      simp [TraceEventImporter.getState, jsGet_jsSet_ne _ _ _ _ hq]
    · intro r hr _
      simp [List.getElem?_append_left hr]
    · intro x hx
      simp only [TraceEventImporter.getState, jsGet_jsSet_self, Option.getD_some,
        ThreadState.openRefs, List.mem_append] at hx
      rcases hx with hx | hx
      · left
        simp only [ThreadState.openRefs, List.mem_append]
        exact Or.inl hx
      · rcases mem_openRefs_jsSet _ _ _ _ hx with h | h
        · right
          simp [h]
        · left
          simp only [ThreadState.openRefs, List.mem_append]
          exact Or.inr h
    · intro pid tid _
      dsimp only
      split <;> rfl
    · intro pid tid d x h
      dsimp only
      split <;> exact h
  · simp only [Bool.not_eq_true] at hn
    rw [processBegin_nested env imp index p event hn]
    refine ⟨rfl, by simp, ?_, ?_, ?_, ?_, ?_⟩
    · intro q hq
      simp [TraceEventImporter.getState, jsGet_jsSet_ne _ _ _ _ hq]
    · intro r hr _
      simp [List.getElem?_append_left hr]
    · intro x hx
      simp only [TraceEventImporter.getState, jsGet_jsSet_self, Option.getD_some,
        ThreadState.openRefs, List.mem_append, List.map_append, List.map_cons, List.map_nil,
        List.mem_singleton] at hx
      rcases hx with (hx | hx) | hx
      · left
        simp only [ThreadState.openRefs, List.mem_append]
        exact Or.inl hx
      · right
        simp [hx]
      · left
        simp only [ThreadState.openRefs, List.mem_append]
        exact Or.inr hx
    · intro pid tid _
      rfl
    · intro pid tid d x h
      exact h


/-! Heap statements of `processEnd`. -/

theorem length_setDuration (heap : List TimelineSlice) (r : Nat) (t : ℚ) :
    (setDuration heap r t).length = heap.length := length_heapModify _ _ _

theorem length_setUserDuration (heap : List TimelineSlice) (r : Nat) (uts : Option ℚ) :
    (setUserDuration heap r uts).length = heap.length := by
  unfold setUserDuration
  split
  · exact length_heapModify _ _ _
  · rfl

theorem length_addToParent (heap : List TimelineSlice) (rest : List OpenSlice) (r : Nat) :
    (addToParent heap rest r).length = heap.length := by
  unfold addToParent
  split
  · exact length_heapModify _ _ _
  · rfl

theorem getElem?_setDuration_ne (heap : List TimelineSlice) (r j : Nat) (t : ℚ) (h : r ≠ j) :
    (setDuration heap r t)[j]? = heap[j]? := getElem?_heapModify_ne _ _ _ _ h

theorem getElem?_setUserDuration_ne (heap : List TimelineSlice) (r j : Nat) (uts : Option ℚ)
    (h : r ≠ j) : (setUserDuration heap r uts)[j]? = heap[j]? := by
  unfold setUserDuration
  split
  · exact getElem?_heapModify_ne _ _ _ _ h
  · rfl

theorem getElem?_addToParent_ne (heap : List TimelineSlice) (rest : List OpenSlice) (r j : Nat)
    (h : ∀ w ∈ rest, w.slice ≠ j) : (addToParent heap rest r)[j]? = heap[j]? := by
  unfold addToParent
  split
  · rename_i parentSlice hp
    exact getElem?_heapModify_ne _ _ _ _ (h _ (List.mem_of_getLast?_eq_some hp))
  · rfl

/-! Characterisation of `processEnd`. -/

theorem processEnd_nested_empty (env : Env) (imp : TraceEventImporter) (p : PTID)
    (event : TraceEvent) (hn : event.nonNested = false)
    (hs : (imp.getState p).openSlices = []) : processEnd env imp p event = imp := by
  unfold processEnd
  simp [hn, hs]

theorem processEnd_nested_pop (env : Env) (imp : TraceEventImporter) (p : PTID)
    (event : TraceEvent) (hn : event.nonNested = false) (rest : List OpenSlice) (top : OpenSlice)
    (hs : (imp.getState p).openSlices = rest ++ [top]) :
    processEnd env imp p event =
      { imp with
        heap := addToParent
          (setUserDuration (setDuration imp.heap top.slice (jsDiv event.ts 1000)) top.slice event.uts)
          rest top.slice,
        model := imp.model.withThread event.pid event.tid
          (fun t => t.pushSubrow rest.length top.slice),
        threadStateByPTID := jsSet imp.threadStateByPTID p
          { imp.getState p with openSlices := rest } } := by
  unfold processEnd
  simp [hn, hs]

theorem processEnd_nonNested_none (env : Env) (imp : TraceEventImporter) (p : PTID)
    (event : TraceEvent) (hn : event.nonNested = true)
    (hs : jsGet (imp.getState p).openNonNestedSlices (sliceIDOf env event) = none) :
    processEnd env imp p event = imp := by
  unfold processEnd
  simp [hn, hs]

theorem processEnd_nonNested_some (env : Env) (imp : TraceEventImporter) (p : PTID)
    (event : TraceEvent) (hn : event.nonNested = true) (slice : OpenSlice)
    (hs : jsGet (imp.getState p).openNonNestedSlices (sliceIDOf env event) = some slice) :
    processEnd env imp p event =
      { imp with
        heap := setDuration imp.heap slice.slice (jsDiv event.ts 1000),
        model := imp.model.withThread event.pid event.tid
          (fun t => t.addNonNestedSlice slice.slice),
        threadStateByPTID := jsSet imp.threadStateByPTID p
          { imp.getState p with
            openNonNestedSlices := jsDelete
              (setRecordUserDuration (setDuration imp.heap slice.slice (jsDiv event.ts 1000))
                (imp.getState p).openNonNestedSlices (sliceIDOf env event) slice event.uts)
              env.windowName } } := by
  unfold processEnd
  simp [hn, hs]

theorem eq_nil_or_concat_list {α : Type} (l : List α) :
    l = [] ∨ ∃ rest top, l = rest ++ [top] := by
  rcases List.eq_nil_or_concat l with h | ⟨rest, top, h⟩
  · exact Or.inl h
  · exact Or.inr ⟨rest, top, by simpa using h⟩

theorem subrow_addNonNestedSlice (t : TimelineThread) (r d : Nat) :
    (t.addNonNestedSlice r).subrow d = t.subrow d := rfl

theorem mem_openRefs_setRecordUserDuration (heap : List TimelineSlice)
    (m : List (String × OpenSlice)) (k : String) (slice : OpenSlice) (uts : Option ℚ) (x : Nat)
    (hx : x ∈ (setRecordUserDuration heap m k slice uts).map (fun kv => kv.2.slice)) :
    x = slice.slice ∨ x ∈ m.map (fun kv => kv.2.slice) := by
  unfold setRecordUserDuration at hx
  dsimp only at hx
  split at hx
  · have h := mem_openRefs_jsSet m k _ x hx
    exact h
  · exact Or.inr hx

theorem stepFrame_processEnd (env : Env) (imp : TraceEventImporter) (event : TraceEvent) :
    StepFrame event.ptid imp (processEnd env imp event.ptid event) := by
  by_cases hn : event.nonNested = true
  · cases hs : jsGet (imp.getState event.ptid).openNonNestedSlices (sliceIDOf env event) with
    | none =>
      rw [processEnd_nonNested_none env imp _ event hn hs]
      exact stepFrame_refl _ _
    | some slice =>
      rw [processEnd_nonNested_some env imp _ event hn slice hs]
      have hmem : slice.slice ∈ (imp.getState event.ptid).openRefs := by
        simp only [ThreadState.openRefs, List.mem_append]
        right
        exact List.mem_map.mpr ⟨_, jsGet_some_mem _ _ _ hs, rfl⟩
      refine ⟨rfl, by simp [length_setDuration], ?_, ?_, ?_, ?_, ?_⟩
      · intro q hq
        simp [TraceEventImporter.getState, jsGet_jsSet_ne _ _ _ _ hq]
      · intro r _ hr
        have hne : slice.slice ≠ r := fun h => hr (h ▸ hmem)
        simp [getElem?_setDuration_ne _ _ _ _ hne]
      · intro x hx
        left
        simp only [TraceEventImporter.getState, jsGet_jsSet_self, Option.getD_some,
          ThreadState.openRefs, List.mem_append] at hx
        rcases hx with hx | hx
        · simp only [ThreadState.openRefs, List.mem_append]
          exact Or.inl hx
        · rcases mem_openRefs_setRecordUserDuration _ _ _ _ _ _
            (mem_openRefs_jsDelete _ _ _ hx) with h | h
          · rw [h]
            exact hmem
          · simp only [ThreadState.openRefs, List.mem_append]
            exact Or.inr h
      · intro pid tid hq
        exact getThread_withThread_ne _ _ _ _ _ _ hq
      · intro pid tid d x h
        exact subrow_mono_withThread imp.model event.pid event.tid
          (fun t => t.addNonNestedSlice slice.slice) (fun t d x hx => hx) pid tid d x h
  · simp only [Bool.not_eq_true] at hn
    rcases eq_nil_or_concat_list (imp.getState event.ptid).openSlices with hs | ⟨rest, top, hs⟩
    · rw [processEnd_nested_empty env imp _ event hn hs]
      exact stepFrame_refl _ _
    · rw [processEnd_nested_pop env imp _ event hn rest top hs]
      have hmem : ∀ w ∈ rest ++ [top], w.slice ∈ (imp.getState event.ptid).openRefs := by
        intro w hw
        simp only [ThreadState.openRefs, List.mem_append]
        left
        rw [hs]
        exact List.mem_map.mpr ⟨w, hw, rfl⟩
      have htop : top.slice ∈ (imp.getState event.ptid).openRefs := hmem top (by simp)
      refine ⟨rfl, ?_, ?_, ?_, ?_, ?_, ?_⟩
      · simp [length_addToParent, length_setUserDuration, length_setDuration]
      · intro q hq
        simp [TraceEventImporter.getState, jsGet_jsSet_ne _ _ _ _ hq]
      · intro r _ hr
        have hne : top.slice ≠ r := fun h => hr (h ▸ htop)
        have hne2 : ∀ w ∈ rest, w.slice ≠ r :=
          fun w hw h => hr (h ▸ hmem w (List.mem_append_left _ hw))
        simp only [getElem?_addToParent_ne _ _ _ _ hne2, getElem?_setUserDuration_ne _ _ _ _ hne,
          getElem?_setDuration_ne _ _ _ _ hne]
      · intro x hx
        left
        simp only [TraceEventImporter.getState, jsGet_jsSet_self, Option.getD_some,
          ThreadState.openRefs, List.mem_append] at hx
        simp only [ThreadState.openRefs, List.mem_append]
        rcases hx with hx | hx
        · left
          rw [hs]
          simp only [List.map_append, List.mem_append]
          exact Or.inl hx
        · exact Or.inr hx
      · intro pid tid hq
        exact getThread_withThread_ne _ _ _ _ _ _ hq
      · intro pid tid d x h
        exact subrow_mono_withThread imp.model event.pid event.tid
          (fun t => t.pushSubrow rest.length top.slice)
          (fun t d x hx => mem_subrow_pushSubrow t _ d _ x hx) pid tid d x h


/-! Footprint of the remaining branches of the loop body. -/

theorem getThread_setCounters (m : TimelineModel) (pid : Nat)
    (c : List (String × TimelineCounter)) (errs : List String) (pid2 tid2 : Nat) :
    TimelineModel.getThread
      { m with
        importErrors := errs,
        processes := jsSet m.processes pid { m.getProcess pid with counters := c } }
      pid2 tid2 = m.getThread pid2 tid2 := by
  by_cases hp : pid2 = pid
  · subst hp
    simp [TimelineModel.getThread, TimelineModel.getProcess, TimelineProcess.getThread,
      jsGet_jsSet_self]
  · simp [TimelineModel.getThread, TimelineModel.getProcess, jsGet_jsSet_ne _ _ _ _ hp]

theorem processCounter_heap (env : Env) (imp : TraceEventImporter) (event : TraceEvent) :
    (processCounter env imp event).heap = imp.heap := by
  unfold processCounter
  dsimp only
  split <;> rfl

theorem processCounter_events (env : Env) (imp : TraceEventImporter) (event : TraceEvent) :
    (processCounter env imp event).events = imp.events := by
  unfold processCounter
  dsimp only
  split <;> rfl

theorem processCounter_states (env : Env) (imp : TraceEventImporter) (event : TraceEvent) :
    (processCounter env imp event).threadStateByPTID = imp.threadStateByPTID := by
  unfold processCounter
  dsimp only
  split <;> rfl

theorem processCounter_getThread (env : Env) (imp : TraceEventImporter) (event : TraceEvent)
    (pid tid : Nat) :
    (processCounter env imp event).model.getThread pid tid = imp.model.getThread pid tid := by
  unfold processCounter
  dsimp only
  split
  · exact getThread_setCounters imp.model event.pid _ _ pid tid
  · exact getThread_setCounters imp.model event.pid _ _ pid tid

theorem stepFrame_of_model (q : PTID) (imp imp2 : TraceEventImporter)
    (he : imp2.events = imp.events) (hh : imp2.heap = imp.heap)
    (hs : imp2.threadStateByPTID = imp.threadStateByPTID)
    (ht : ∀ pid tid, (pid, tid) ≠ q → imp2.model.getThread pid tid = imp.model.getThread pid tid)
    (hm : ∀ pid tid d x, x ∈ (imp.model.getThread pid tid).subrow d →
      x ∈ (imp2.model.getThread pid tid).subrow d) :
    StepFrame q imp imp2 where
  events_eq := he
  heap_le := by rw [hh]
  state_ne := fun p _ => by simp [TraceEventImporter.getState, hs]
  heap_frame := fun r _ _ => by rw [hh]
  refs_sub := fun x hx => by
    left
    simpa [TraceEventImporter.getState, hs] using hx
  thread_ne := ht
  subrow_mono := hm

theorem stepFrame_importStep (env : Env) (imp : TraceEventImporter) (eI : Nat)
    (event : TraceEvent) : StepFrame event.ptid imp (importStep env imp eI event) := by
  have h0 := stepFrame_ensureState event.ptid imp
  refine stepFrame_trans h0 ?_
  unfold tracing.importStep
  dsimp only
  split
  · exact stepFrame_processBegin _ _ _ _ _
  split
  · exact stepFrame_processEnd _ _ _
  split
  · exact stepFrame_trans (stepFrame_processBegin _ _ _ _ _) (stepFrame_processEnd _ _ _)
  split
  · refine stepFrame_of_model _ _ _ (processCounter_events _ _ _) (processCounter_heap _ _ _)
      (processCounter_states _ _ _) (fun pid tid _ => processCounter_getThread _ _ _ pid tid) ?_
    intro pid tid d x h
    rw [processCounter_getThread]
    exact h
  split
  · split
    · refine stepFrame_of_model _ _ _ rfl rfl rfl ?_ ?_
      · intro pid tid hq
        exact getThread_withThread_ne _ _ _ _ _ _ hq
      · intro pid tid d x h
        exact subrow_mono_withThread (tracing.ensureState imp event.ptid).model event.pid event.tid
          (fun t => { t with name := jsGet event.args "name" }) (fun t d x hx => hx) pid tid d x h
    · exact stepFrame_of_model _ _ _ rfl rfl rfl (fun _ _ _ => rfl) (fun _ _ _ _ h => h)
  · exact stepFrame_of_model _ _ _ rfl rfl rfl (fun _ _ _ => rfl) (fun _ _ _ _ h => h)

/-! Reachable states. -/

theorem refsBounded_step {q : PTID} {imp imp2 : TraceEventImporter} (h : StepFrame q imp imp2)
    (hb : RefsBounded imp) : RefsBounded imp2 := by
  intro p r hr
  by_cases hp : p = q
  · subst hp
    rcases h.refs_sub r hr with h1 | h1
    · exact lt_of_lt_of_le (hb _ r h1) h.heap_le
    · exact h1.2
  · rw [h.state_ne p hp] at hr
    exact lt_of_lt_of_le (hb _ r hr) h.heap_le

theorem getState_new (model : TimelineModel) (heap : List TimelineSlice)
    (events : List TraceEvent) (p : PTID) :
    (TraceEventImporter.new model heap events).getState p = {} := rfl

theorem refsBounded_new (model : TimelineModel) (heap : List TimelineSlice)
    (events : List TraceEvent) : RefsBounded (TraceEventImporter.new model heap events) := by
  intro p r hr
  rw [getState_new] at hr
  simp [ThreadState.openRefs] at hr

theorem stateAt_succ (env : Env) (imp : TraceEventImporter) (k : Nat) (event : TraceEvent)
    (h : imp.events[k]? = some event) :
    stateAt env imp (k + 1) = importStep env (stateAt env imp k) k event := by
  simp [stateAt, h]

theorem stateAt_succ_none (env : Env) (imp : TraceEventImporter) (k : Nat)
    (h : imp.events[k]? = none) : stateAt env imp (k + 1) = stateAt env imp k := by
  simp [stateAt, h]

theorem refsBounded_stateAt (env : Env) (imp : TraceEventImporter) (hb : RefsBounded imp)
    (k : Nat) : RefsBounded (stateAt env imp k) := by
  induction k with
  | zero => exact hb
  | succ k ih =>
    cases he : imp.events[k]? with
    | none =>
      rw [stateAt_succ_none env imp k he]
      exact ih
    | some event =>
      rw [stateAt_succ env imp k event he]
      exact refsBounded_step (stepFrame_importStep env _ k event) ih

theorem events_stateAt (env : Env) (imp : TraceEventImporter) (k : Nat) :
    (stateAt env imp k).events = imp.events := by
  induction k with
  | zero => rfl
  | succ k ih =>
    cases he : imp.events[k]? with
    | none => rw [stateAt_succ_none env imp k he, ih]
    | some event =>
      rw [stateAt_succ env imp k event he, (stepFrame_importStep env _ k event).events_eq, ih]


theorem stepFrame_toHeapFrame {q : PTID} {a b : TraceEventImporter} (h : StepFrame q a b) :
    HeapFrame q a b :=
  ⟨h.events_eq, h.heap_le, h.state_ne, h.heap_frame, h.refs_sub, h.subrow_mono⟩

theorem heapFrame_refl (q : PTID) (imp : TraceEventImporter) : HeapFrame q imp imp :=
  stepFrame_toHeapFrame (stepFrame_refl q imp)

theorem heapFrame_trans {q : PTID} {a b c : TraceEventImporter}
    (h1 : HeapFrame q a b) (h2 : HeapFrame q b c) : HeapFrame q a c where
  events_eq := h2.events_eq.trans h1.events_eq
  heap_le := le_trans h1.heap_le h2.heap_le
  state_ne := fun p hp => (h2.state_ne p hp).trans (h1.state_ne p hp)
  heap_frame := by
    intro r hr hn
    rw [h2.heap_frame r (lt_of_lt_of_le hr h1.heap_le), h1.heap_frame r hr hn]
    intro hm
    rcases h1.refs_sub r hm with h | h
    · exact hn h
    · omega
  refs_sub := by
    intro x hx
    rcases h2.refs_sub x hx with h | h
    · rcases h1.refs_sub x h with h3 | h3
      · exact Or.inl h3
      · exact Or.inr ⟨h3.1, lt_of_lt_of_le h3.2 h2.heap_le⟩
    · exact Or.inr ⟨le_trans h1.heap_le h.1, h.2⟩
  subrow_mono := fun pid tid d x h => h2.subrow_mono pid tid d x (h1.subrow_mono pid tid d x h)

/-- A slice that is not open stays untouched and not open. -/
theorem heapFrame_notOpen {q : PTID} {a b : TraceEventImporter} (h : HeapFrame q a b) (r : Nat)
    (hr : NotOpen a r) : NotOpen b r ∧ b.heap[r]? = a.heap[r]? := by
  refine ⟨⟨lt_of_lt_of_le hr.1 h.heap_le, ?_⟩, h.heap_frame r hr.1 (hr.2 q)⟩
  intro p hp
  by_cases hq : p = q
  · subst hq
    rcases h.refs_sub r hp with h1 | h1
    · exact hr.2 _ h1
    · have := hr.1
      omega
  · rw [h.state_ne p hq] at hp
    exact hr.2 p hp

/-! Characterisation of `autoClosePop`. -/

theorem autoClosePop_empty (T : ℚ) (imp : TraceEventImporter) (p : PTID)
    (hs : (imp.getState p).openSlices = []) : autoClosePop T imp p = imp := by
  unfold autoClosePop
  simp [hs]

theorem autoClosePop_pop (T : ℚ) (imp : TraceEventImporter) (p : PTID)
    (rest : List OpenSlice) (top : OpenSlice)
    (hs : (imp.getState p).openSlices = rest ++ [top]) :
    autoClosePop T imp p =
      { imp with
        heap := addToParent
          (heapModify (setDuration imp.heap top.slice T) top.slice
            (fun s => { s with didNotFinish := true }))
          rest top.slice,
        model := pushToThreadOfEvent imp top.index rest.length top.slice,
        threadStateByPTID := jsSet imp.threadStateByPTID p
          { imp.getState p with openSlices := rest } } := by
  unfold autoClosePop
  simp [hs]

theorem subrow_mono_pushToThreadOfEvent (imp : TraceEventImporter) (index i r : Nat)
    (pid tid d x : Nat) (h : x ∈ (imp.model.getThread pid tid).subrow d) :
    x ∈ ((pushToThreadOfEvent imp index i r).getThread pid tid).subrow d := by
  unfold pushToThreadOfEvent
  split
  · rename_i event _
    exact subrow_mono_withThread imp.model event.pid event.tid
      (fun t => t.pushSubrow i r) (fun t d x hx => mem_subrow_pushSubrow t _ d _ x hx) pid tid d x h
  · exact h

theorem heapFrame_autoClosePop (T : ℚ) (imp : TraceEventImporter) (p : PTID) :
    HeapFrame p imp (autoClosePop T imp p) := by
  rcases eq_nil_or_concat_list (imp.getState p).openSlices with hs | ⟨rest, top, hs⟩
  · rw [autoClosePop_empty T imp p hs]
    exact heapFrame_refl _ _
  · rw [autoClosePop_pop T imp p rest top hs]
    have hmem : ∀ w ∈ rest ++ [top], w.slice ∈ (imp.getState p).openRefs := by
      intro w hw
      simp only [ThreadState.openRefs, List.mem_append]
      left
      rw [hs]
      exact List.mem_map.mpr ⟨w, hw, rfl⟩
    have htop : top.slice ∈ (imp.getState p).openRefs := hmem top (by simp)
    refine ⟨rfl, ?_, ?_, ?_, ?_, ?_⟩
    · simp [length_addToParent, length_heapModify, length_setDuration]
    · intro q hq
      simp [TraceEventImporter.getState, jsGet_jsSet_ne _ _ _ _ hq]
    · intro r _ hr
      have hne : top.slice ≠ r := fun h => hr (h ▸ htop)
      have hne2 : ∀ w ∈ rest, w.slice ≠ r :=
        fun w hw h => hr (h ▸ hmem w (List.mem_append_left _ hw))
      simp only [getElem?_addToParent_ne _ _ _ _ hne2, getElem?_heapModify_ne _ _ _ _ hne,
        getElem?_setDuration_ne _ _ _ _ hne]
    · intro x hx
      left
      simp only [TraceEventImporter.getState, jsGet_jsSet_self, Option.getD_some,
        ThreadState.openRefs, List.mem_append] at hx
      simp only [ThreadState.openRefs, List.mem_append]
      rcases hx with hx | hx
      · left
        rw [hs]
        simp only [List.map_append, List.mem_append]
        exact Or.inl hx
      · exact Or.inr hx
    · intro pid tid d x h
      exact subrow_mono_pushToThreadOfEvent imp _ _ _ pid tid d x h

theorem heapFrame_autoCloseThread (T : ℚ) (n : Nat) (imp : TraceEventImporter) (p : PTID) :
    HeapFrame p imp (autoCloseThread T n imp p) := by
  induction n generalizing imp with
  | zero => exact heapFrame_refl _ _
  | succ n ih =>
    exact heapFrame_trans (heapFrame_autoClosePop T imp p) (ih (tracing.autoClosePop T imp p))

/-- The effect of the closing loops on slices that are not open, and on subrows. -/
theorem autoClose_fold_notOpen (T : ℚ) (keys : List PTID) (imp : TraceEventImporter) (r : Nat)
    (hr : NotOpen imp r) :
    NotOpen (keys.foldl
      (fun acc p => autoCloseThread T (acc.getState p).openSlices.length acc p) imp) r ∧
    (keys.foldl
      (fun acc p => autoCloseThread T (acc.getState p).openSlices.length acc p) imp).heap[r]?
      = imp.heap[r]? := by
  induction keys generalizing imp with
  | nil => exact ⟨hr, rfl⟩
  | cons p keys ih =>
    have h1 := heapFrame_notOpen (heapFrame_autoCloseThread T (imp.getState p).openSlices.length imp p) r hr
    have h2 := ih (autoCloseThread T (imp.getState p).openSlices.length imp p) h1.1
    exact ⟨h2.1, h2.2.trans h1.2⟩

theorem autoCloseOpenSlices_notOpen (imp : TraceEventImporter) (r : Nat) (hr : NotOpen imp r) :
    (autoCloseOpenSlices imp).heap[r]? = imp.heap[r]? := by
  unfold autoCloseOpenSlices
  dsimp only
  split
  · rfl
  · rename_i T _
    exact (autoClose_fold_notOpen T (imp.threadStateByPTID.map Prod.fst)
      { imp with model := updateBounds imp.model imp.heap } r hr).2

theorem importEvents_heap_notOpen (env : Env) (imp : TraceEventImporter) (r : Nat)
    (hr : NotOpen (stateAt env imp imp.events.length) r) :
    (importEvents env imp).heap[r]? = (stateAt env imp imp.events.length).heap[r]? := by
  unfold importEvents
  dsimp only
  split
  · exact autoCloseOpenSlices_notOpen _ r hr
  · rfl

theorem stateAt_notOpen (env : Env) (imp : TraceEventImporter) (r k : Nat)
    (hr : NotOpen (stateAt env imp k) r) (n : Nat) :
    NotOpen (stateAt env imp (k + n)) r ∧
      (stateAt env imp (k + n)).heap[r]? = (stateAt env imp k).heap[r]? := by
  induction n with
  | zero => exact ⟨hr, rfl⟩
  | succ n ih =>
    cases he : imp.events[k + n]? with
    | none =>
      rw [← Nat.add_assoc, stateAt_succ_none env imp (k + n) he]
      exact ih
    | some event =>
      rw [← Nat.add_assoc, stateAt_succ env imp (k + n) event he]
      have h := heapFrame_notOpen
        (stepFrame_toHeapFrame (stepFrame_importStep env (stateAt env imp (k + n)) (k + n) event))
        r ih.1
      exact ⟨h.1, h.2.trans ih.2⟩


theorem getElem?_setDuration_self (heap : List TimelineSlice) (r : Nat) (t : ℚ) :
    (setDuration heap r t)[r]? =
      (heap[r]?).map (fun s => { s with duration := some (jsSub t s.start) }) :=
  getElem?_heapModify_self _ _ _

theorem getElem?_setUserDuration_self (heap : List TimelineSlice) (r : Nat) (uts : Option ℚ)
    (s : TimelineSlice) (h : heap[r]? = some s) :
    ∃ s2, (setUserDuration heap r uts)[r]? = some s2 ∧ s2.title = s.title ∧
      s2.start = s.start ∧ s2.duration = s.duration ∧ s2.didNotFinish = s.didNotFinish ∧
      s2.subSlices = s.subSlices ∧ s2.startInUserTime = s.startInUserTime := by
  unfold setUserDuration
  split
  · rw [getElem?_heapModify_self, h]
    exact ⟨_, rfl, rfl, rfl, rfl, rfl, rfl, rfl⟩
  · exact ⟨s, h, rfl, rfl, rfl, rfl, rfl, rfl⟩

theorem stateAt_subrow_mono (env : Env) (imp : TraceEventImporter) (k n : Nat)
    (pid tid d x : Nat) (h : x ∈ ((stateAt env imp k).model.getThread pid tid).subrow d) :
    x ∈ ((stateAt env imp (k + n)).model.getThread pid tid).subrow d := by
  induction n with
  | zero => exact h
  | succ n ih =>
    cases he : imp.events[k + n]? with
    | none =>
      rw [← Nat.add_assoc, stateAt_succ_none env imp (k + n) he]
      exact ih
    | some event =>
      rw [← Nat.add_assoc, stateAt_succ env imp (k + n) event he]
      exact (stepFrame_importStep env _ (k + n) event).subrow_mono pid tid d x ih

theorem autoClose_fold_subrow_mono (T : ℚ) (keys : List PTID) (imp : TraceEventImporter)
    (pid tid d x : Nat) (h : x ∈ (imp.model.getThread pid tid).subrow d) :
    x ∈ ((keys.foldl
      (fun acc p => autoCloseThread T (acc.getState p).openSlices.length acc p)
        imp).model.getThread pid tid).subrow d := by
  induction keys generalizing imp with
  | nil => exact h
  | cons p keys ih =>
    exact ih _ ((heapFrame_autoCloseThread T _ imp p).subrow_mono pid tid d x h)

theorem importEvents_subrow_mono (env : Env) (imp : TraceEventImporter) (pid tid d x : Nat)
    (h : x ∈ ((stateAt env imp imp.events.length).model.getThread pid tid).subrow d) :
    x ∈ ((importEvents env imp).model.getThread pid tid).subrow d := by
  unfold importEvents
  dsimp only
  split
  · unfold autoCloseOpenSlices
    dsimp only
    split
    · exact h
    · rename_i T _
      exact autoClose_fold_subrow_mono T _
        { stateAt env imp imp.events.length with
          model := updateBounds (stateAt env imp imp.events.length).model
            (stateAt env imp imp.events.length).heap } pid tid d x h
  · exact h

theorem getState_mk_jsSet_self (m : TimelineModel) (h : List TimelineSlice)
    (e : List TraceEvent) (ts : List (PTID × ThreadState)) (p : PTID) (s : ThreadState) :
    (TraceEventImporter.mk m h e (jsSet ts p s)).getState p = s := by
  simp [TraceEventImporter.getState, jsGet_jsSet_self]

/-- The step of a nested begin event. -/
theorem importStep_begin_nested (env : Env) (imp : TraceEventImporter) (eI : Nat)
    (b : TraceEvent) (hb : b.ph = "B") (hn : b.nonNested = false) :
    (importStep env imp eI b).heap = imp.heap ++ [newSlice env b] ∧
    (importStep env imp eI b).model = imp.model ∧
    (importStep env imp eI b).getState b.ptid =
      { imp.getState b.ptid with
        openSlices := (imp.getState b.ptid).openSlices ++
          [{ index := eI, slice := imp.heap.length }] } := by
  unfold importStep
  simp only [hb, if_true]
  rw [processBegin_nested env _ eI _ b hn]
  refine ⟨?_, ?_, ?_⟩
  · simp only [heap_ensureState]
  · simp only [model_ensureState]
  · rw [getState_mk_jsSet_self, getState_ensureState, heap_ensureState]

/-- The step of a nested end event that finds `top` on top of the stack. -/
theorem importStep_end_nested (env : Env) (imp : TraceEventImporter) (eI : Nat)
    (e : TraceEvent) (he : e.ph = "E") (hn : e.nonNested = false)
    (rest : List OpenSlice) (top : OpenSlice)
    (hs : (imp.getState e.ptid).openSlices = rest ++ [top]) :
    (importStep env imp eI e).heap = addToParent
      (setUserDuration (setDuration imp.heap top.slice (jsDiv e.ts 1000)) top.slice e.uts)
      rest top.slice ∧
    (importStep env imp eI e).model = imp.model.withThread e.pid e.tid
      (fun t => t.pushSubrow rest.length top.slice) ∧
    (importStep env imp eI e).getState e.ptid =
      { imp.getState e.ptid with openSlices := rest } := by
  unfold importStep
  have hne : ¬ (e.ph = "B") := by rw [he]; decide
  dsimp only
  rw [if_neg hne, if_pos he]
  have hs2 : ((ensureState imp e.ptid).getState e.ptid).openSlices = rest ++ [top] := by
    rw [getState_ensureState]
    exact hs
  rw [processEnd_nested_pop env _ _ e hn rest top hs2]
  refine ⟨?_, ?_, ?_⟩
  · simp only [heap_ensureState]
  · simp only [model_ensureState]
  · rw [getState_mk_jsSet_self, getState_ensureState]


/-- Events of other PTIDs leave the state object, the thread and the private slices of a
PTID untouched. -/
theorem stateAt_other_ptid (env : Env) (imp : TraceEventImporter) (p : PTID) (k n : Nat)
    (hmid : ∀ m ev, k ≤ m → m < k + n → imp.events[m]? = some ev → ev.ptid ≠ p) :
    (stateAt env imp (k + n)).getState p = (stateAt env imp k).getState p ∧
    (stateAt env imp (k + n)).model.getThread p.1 p.2 =
      (stateAt env imp k).model.getThread p.1 p.2 ∧
    ∀ r, PrivateTo (stateAt env imp k) p r →
      PrivateTo (stateAt env imp (k + n)) p r ∧
        (stateAt env imp (k + n)).heap[r]? = (stateAt env imp k).heap[r]? := by
  induction n with
  | zero => exact ⟨rfl, rfl, fun r hr => ⟨hr, rfl⟩⟩
  | succ n ih =>
    have ih2 := ih (fun m ev h1 h2 h3 => hmid m ev h1 (by omega) h3)
    cases he : imp.events[k + n]? with
    | none =>
      rw [← Nat.add_assoc, stateAt_succ_none env imp (k + n) he]
      exact ih2
    | some event =>
      rw [← Nat.add_assoc, stateAt_succ env imp (k + n) event he]
      have hne : event.ptid ≠ p := hmid (k + n) event (by omega) (by omega) he
      have F := stepFrame_importStep env (stateAt env imp (k + n)) (k + n) event
      refine ⟨?_, ?_, ?_⟩
      · rw [F.state_ne p (Ne.symm hne)]
        exact ih2.1
      · rw [F.thread_ne p.1 p.2 (Ne.symm hne)]
        exact ih2.2.1
      · intro r hr
        obtain ⟨hp, hh⟩ := ih2.2.2 r hr
        refine ⟨⟨lt_of_lt_of_le hp.1 F.heap_le, ?_⟩, ?_⟩
        · intro q hq hmem
          by_cases hqe : q = event.ptid
          · subst hqe
            rcases F.refs_sub r hmem with h1 | h1
            · exact hp.2 _ hq h1
            · have := hp.1
              omega
          · rw [F.state_ne q hqe] at hmem
            exact hp.2 q hq hmem
        · rw [F.heap_frame r hp.1 (hp.2 _ hne)]
          exact hh



theorem stateAt_between (env : Env) (imp : TraceEventImporter) (p : PTID) (k j : Nat)
    (hkj : k ≤ j)
    (hmid : ∀ m ev, k ≤ m → m < j → imp.events[m]? = some ev → ev.ptid ≠ p) :
    (stateAt env imp j).getState p = (stateAt env imp k).getState p ∧
    (stateAt env imp j).model.getThread p.1 p.2 = (stateAt env imp k).model.getThread p.1 p.2 ∧
    ∀ r, PrivateTo (stateAt env imp k) p r →
      PrivateTo (stateAt env imp j) p r ∧
        (stateAt env imp j).heap[r]? = (stateAt env imp k).heap[r]? := by
  obtain ⟨n, hn⟩ : ∃ n, j = k + n := ⟨j - k, by omega⟩
  subst hn
  exact stateAt_other_ptid env imp p k n hmid

theorem privateTo_fresh {p : PTID} {a b : TraceEventImporter} (hb : RefsBounded a)
    (F : StepFrame p a b) (hlt : a.heap.length < b.heap.length) :
    PrivateTo b p a.heap.length := by
  refine ⟨hlt, ?_⟩
  intro q hq hmem
  rw [F.state_ne q hq] at hmem
  exact absurd (hb q _ hmem) (lt_irrefl _)

theorem privateTo_step_self {p : PTID} {a b : TraceEventImporter} (F : StepFrame p a b)
    (r : Nat) (h : PrivateTo a p r) : PrivateTo b p r := by
  refine ⟨lt_of_lt_of_le h.1 F.heap_le, ?_⟩
  intro q hq hmem
  rw [F.state_ne q hq] at hmem
  exact h.2 q hq hmem

/-- The loop iteration of a nested begin event, in the run of an importer. -/
theorem stateAt_begin_nested (env : Env) (imp : TraceEventImporter) (i : Nat) (b : TraceEvent)
    (hi : imp.events[i]? = some b) (hb : b.ph = "B") (hn : b.nonNested = false) :
    (stateAt env imp (i + 1)).heap = (stateAt env imp i).heap ++ [newSlice env b] ∧
    (stateAt env imp (i + 1)).model = (stateAt env imp i).model ∧
    (stateAt env imp (i + 1)).getState b.ptid =
      { (stateAt env imp i).getState b.ptid with
        openSlices := ((stateAt env imp i).getState b.ptid).openSlices ++
          [{ index := i, slice := (stateAt env imp i).heap.length }] } ∧
    StepFrame b.ptid (stateAt env imp i) (stateAt env imp (i + 1)) := by
  rw [stateAt_succ env imp i b hi]
  obtain ⟨h1, h2, h3⟩ := importStep_begin_nested env (stateAt env imp i) i b hb hn
  exact ⟨h1, h2, h3, stepFrame_importStep env _ i b⟩

/-- The loop iteration of a nested end event, in the run of an importer. -/
theorem stateAt_end_nested (env : Env) (imp : TraceEventImporter) (j : Nat) (e : TraceEvent)
    (hj : imp.events[j]? = some e) (he : e.ph = "E") (hn : e.nonNested = false)
    (rest : List OpenSlice) (top : OpenSlice)
    (hs : ((stateAt env imp j).getState e.ptid).openSlices = rest ++ [top]) :
    (stateAt env imp (j + 1)).heap = addToParent
      (setUserDuration (setDuration (stateAt env imp j).heap top.slice (jsDiv e.ts 1000))
        top.slice e.uts) rest top.slice ∧
    (stateAt env imp (j + 1)).model = (stateAt env imp j).model.withThread e.pid e.tid
      (fun t => t.pushSubrow rest.length top.slice) ∧
    (stateAt env imp (j + 1)).getState e.ptid =
      { (stateAt env imp j).getState e.ptid with openSlices := rest } ∧
    StepFrame e.ptid (stateAt env imp j) (stateAt env imp (j + 1)) := by
  rw [stateAt_succ env imp j e hj]
  obtain ⟨h1, h2, h3⟩ := importStep_end_nested env (stateAt env imp j) j e he hn rest top hs
  exact ⟨h1, h2, h3, stepFrame_importStep env _ j e⟩

theorem getElem?_addToParent_self (heap : List TimelineSlice) (rest : List OpenSlice)
    (parent : OpenSlice) (r : Nat) :
    (addToParent heap (rest ++ [parent]) r)[parent.slice]? =
      (heap[parent.slice]?).map (fun s => { s with subSlices := s.subSlices ++ [r] }) := by
  unfold addToParent
  simp [getElem?_heapModify_self]

/-- What closing the slice at `r` does to that heap object: the duration is set, the other
fields that matter are kept. -/
theorem close_slice_fields (heap : List TimelineSlice) (r : Nat) (t : ℚ) (uts : Option ℚ)
    (s : TimelineSlice) (h : heap[r]? = some s) :
    ∃ s2, (setUserDuration (setDuration heap r t) r uts)[r]? = some s2 ∧ s2.title = s.title ∧
      s2.start = s.start ∧ s2.duration = some (jsSub t s.start) ∧
      s2.didNotFinish = s.didNotFinish ∧ s2.subSlices = s.subSlices := by
  have h1 := getElem?_setDuration_self heap r t
  rw [h, Option.map_some'] at h1
  obtain ⟨s2, h2, h3, h4, h5, h6, h7, _⟩ := getElem?_setUserDuration_self _ _ uts _ h1
  exact ⟨s2, h2, h3, h4, h5, h6, h7⟩


theorem processBegin_stack (env : Env) (imp : TraceEventImporter) (index : Nat) (p : PTID)
    (event : TraceEvent) :
    ((processBegin env imp index p event).getState p).openSlices =
      if event.nonNested then (imp.getState p).openSlices
      else (imp.getState p).openSlices ++ [{ index := index, slice := imp.heap.length }] := by
  by_cases hn : event.nonNested = true
  · rw [processBegin_nonNested env imp index p event hn, getState_mk_jsSet_self]
    simp [hn]
  · simp only [Bool.not_eq_true] at hn
    rw [processBegin_nested env imp index p event hn, getState_mk_jsSet_self]
    simp [hn]

theorem processEnd_stack (env : Env) (imp : TraceEventImporter) (p : PTID)
    (event : TraceEvent) :
    ((processEnd env imp p event).getState p).openSlices =
      if event.nonNested then (imp.getState p).openSlices
      else (imp.getState p).openSlices.dropLast := by
  by_cases hn : event.nonNested = true
  · cases hs : jsGet (imp.getState p).openNonNestedSlices (sliceIDOf env event) with
    | none =>
      rw [processEnd_nonNested_none env imp p event hn hs]
      simp [hn]
    | some slice =>
      rw [processEnd_nonNested_some env imp p event hn slice hs, getState_mk_jsSet_self]
      simp [hn]
  · simp only [Bool.not_eq_true] at hn
    rcases eq_nil_or_concat_list (imp.getState p).openSlices with hs | ⟨rest, top, hs⟩
    · rw [processEnd_nested_empty env imp p event hn hs]
      simp [hn, hs]
    · rw [processEnd_nested_pop env imp p event hn rest top hs, getState_mk_jsSet_self]
      simp [hn, hs]

theorem processBegin_heap_length (env : Env) (imp : TraceEventImporter) (index : Nat) (p : PTID)
    (event : TraceEvent) :
    (processBegin env imp index p event).heap.length = imp.heap.length + 1 := by
  by_cases hn : event.nonNested = true
  · rw [processBegin_nonNested env imp index p event hn]
    simp
  · simp only [Bool.not_eq_true] at hn
    rw [processBegin_nested env imp index p event hn]
    simp

/-- The stack of the PTID of an event after its loop iteration is an initial segment of the
old stack extended by the entry of this event. -/
theorem importStep_stack (env : Env) (imp : TraceEventImporter) (eI : Nat) (event : TraceEvent) :
    ∃ t, ((importStep env imp eI event).getState event.ptid).openSlices ++ t =
      (imp.getState event.ptid).openSlices ++ [{ index := eI, slice := imp.heap.length }] := by
  unfold importStep
  dsimp only
  split
  · rw [processBegin_stack, getState_ensureState, heap_ensureState]
    split
    · exact ⟨_, rfl⟩
    · exact ⟨[], by simp⟩
  split
  · rw [processEnd_stack, getState_ensureState]
    split
    · exact ⟨_, rfl⟩
    · rcases eq_nil_or_concat_list (imp.getState event.ptid).openSlices with hs | ⟨rest, top, hs⟩
      · rw [hs]
        exact ⟨_, rfl⟩
      · rw [hs]
        exact ⟨[top, { index := eI, slice := imp.heap.length }], by simp⟩
  split
  · rw [processEnd_stack, processBegin_stack, getState_ensureState, heap_ensureState]
    split
    · exact ⟨_, rfl⟩
    · exact ⟨[{ index := eI, slice := imp.heap.length }], by simp⟩
  split
  · refine ⟨[{ index := eI, slice := imp.heap.length }], ?_⟩
    simp [TraceEventImporter.getState, processCounter_states]
    rw [← TraceEventImporter.getState.eq_1, getState_ensureState]
    rfl
  split
  · split
    · refine ⟨[{ index := eI, slice := imp.heap.length }], ?_⟩
      show ((ensureState imp event.ptid).getState event.ptid).openSlices ++ _ = _
      rw [getState_ensureState]
    · refine ⟨[{ index := eI, slice := imp.heap.length }], ?_⟩
      show ((ensureState imp event.ptid).getState event.ptid).openSlices ++ _ = _
      rw [getState_ensureState]
  · refine ⟨[{ index := eI, slice := imp.heap.length }], ?_⟩
    show ((ensureState imp event.ptid).getState event.ptid).openSlices ++ _ = _
    rw [getState_ensureState]


theorem mem_stackRefs_openRefs (s : ThreadState) (r : Nat) (h : r ∈ s.stackRefs) :
    r ∈ s.openRefs := by
  simp only [ThreadState.openRefs, List.mem_append]
  exact Or.inl h

theorem wellFormed_importStep (env : Env) (imp : TraceEventImporter) (eI : Nat)
    (event : TraceEvent) (hev : imp.events[eI]? = some event) (h : WellFormed imp) :
    WellFormed (importStep env imp eI event) := by
  have F := stepFrame_importStep env imp eI event
  obtain ⟨t, ht⟩ := importStep_stack env imp eI event
  have hmem : ∀ w ∈ ((importStep env imp eI event).getState event.ptid).openSlices,
      w ∈ (imp.getState event.ptid).openSlices ∨ w = { index := eI, slice := imp.heap.length } := by
    intro w hw
    have : w ∈ (imp.getState event.ptid).openSlices ++
        [{ index := eI, slice := imp.heap.length }] := by
      rw [← ht]
      exact List.mem_append_left _ hw
    simpa using this
  have hmemr : ∀ r ∈ ((importStep env imp eI event).getState event.ptid).stackRefs,
      r ∈ (imp.getState event.ptid).stackRefs ∨ r = imp.heap.length := by
    intro r hr
    obtain ⟨w, hw, rfl⟩ := List.mem_map.mp hr
    rcases hmem w hw with h1 | h1
    · exact Or.inl (List.mem_map.mpr ⟨w, h1, rfl⟩)
    · right
      rw [h1]
  refine ⟨refsBounded_step F h.bounded, ?_, ?_, ?_⟩
  · intro p
    by_cases hp : p = event.ptid
    · subst hp
      have hnd : ((imp.getState event.ptid).stackRefs ++ [imp.heap.length]).Nodup := by
        rw [List.nodup_append]
        refine ⟨h.nodup _, by simp, ?_⟩
        intro r hr1 hr2
        rw [List.mem_singleton] at hr2
        have := h.bounded event.ptid r (mem_stackRefs_openRefs _ _ hr1)
        omega
      have e : ((importStep env imp eI event).getState event.ptid).stackRefs ++
          t.map (fun w => w.slice) = (imp.getState event.ptid).stackRefs ++ [imp.heap.length] := by
        simp only [ThreadState.stackRefs]
        rw [← List.map_append, ht]
        simp
      rw [← e] at hnd
      exact (List.nodup_append.mp hnd).1
    · rw [F.state_ne p hp]
      exact h.nodup p
  · intro p q hpq r hr hr2
    by_cases hp : p = event.ptid
    · subst hp
      rw [F.state_ne q (Ne.symm hpq)] at hr2
      rcases hmemr r hr with h1 | h1
      · exact h.owned _ q hpq r h1 hr2
      · have := h.bounded q r hr2
        omega
    · rw [F.state_ne p hp] at hr
      by_cases hq : q = event.ptid
      · subst hq
        rcases F.refs_sub r hr2 with h1 | h1
        · exact h.owned p _ hpq r hr h1
        · have := h.bounded p r (mem_stackRefs_openRefs _ _ hr)
          omega
      · rw [F.state_ne q hq] at hr2
        exact h.owned p q hpq r hr hr2
  · intro p w hw
    rw [F.events_eq]
    by_cases hp : p = event.ptid
    · subst hp
      rcases hmem w hw with h1 | h1
      · exact h.index_ok _ w h1
      · rw [h1]
        exact ⟨event, hev, rfl⟩
    · rw [F.state_ne p hp] at hw
      exact h.index_ok p w hw

theorem wellFormed_new (model : TimelineModel) (heap : List TimelineSlice)
    (events : List TraceEvent) : WellFormed (TraceEventImporter.new model heap events) := by
  refine ⟨refsBounded_new _ _ _, ?_, ?_, ?_⟩
  · intro p
    rw [getState_new]
    simp [ThreadState.stackRefs]
  · intro p q _ r hr
    rw [getState_new] at hr
    simp [ThreadState.stackRefs] at hr
  · intro p w hw
    rw [getState_new] at hw
    simp at hw

theorem wellFormed_stateAt (env : Env) (imp : TraceEventImporter) (h : WellFormed imp)
    (k : Nat) : WellFormed (stateAt env imp k) := by
  induction k with
  | zero => exact h
  | succ k ih =>
    cases he : imp.events[k]? with
    | none =>
      rw [stateAt_succ_none env imp k he]
      exact ih
    | some event =>
      rw [stateAt_succ env imp k event he]
      exact wellFormed_importStep env _ k event (by rw [events_stateAt]; exact he) ih


theorem getElem?_concat_cases {α : Type} (rest : List α) (top : α) (k : Nat) (w : α)
    (h : (rest ++ [top])[k]? = some w) :
    (k < rest.length ∧ rest[k]? = some w) ∨ (k = rest.length ∧ w = top) := by
  by_cases hk : k < rest.length
  · left
    rw [List.getElem?_append_left hk] at h
    exact ⟨hk, h⟩
  · right
    rw [List.getElem?_append_right (by omega)] at h
    have hk2 : k - rest.length = 0 := by
      by_contra hc
      have : k - rest.length = (k - rest.length - 1) + 1 := by omega
      rw [this] at h
      simp at h
    rw [hk2] at h
    simp at h
    exact ⟨by omega, h.symm⟩

/-- The effect of `addToParent` on the heap object of a stack entry. -/
theorem getElem?_addToParent_entry (heap : List TimelineSlice) (rest : List OpenSlice) (r : Nat)
    (hnd : (rest.map (fun w => w.slice)).Nodup) (k : Nat) (w : OpenSlice)
    (hk : rest[k]? = some w) :
    (addToParent heap rest r)[w.slice]? =
      if k + 1 = rest.length then
        (heap[w.slice]?).map (fun s => { s with subSlices := s.subSlices ++ [r] })
      else heap[w.slice]? := by
  rcases eq_nil_or_concat_list rest with hs | ⟨rest2, parent, hs⟩
  · subst hs
    simp at hk
  · subst hs
    rcases getElem?_concat_cases rest2 parent k w hk with ⟨h1, h2⟩ | ⟨h1, h2⟩
    · have hne : k + 1 ≠ (rest2 ++ [parent]).length := by
        simp
        omega
      rw [if_neg hne]
      have hpw : parent.slice ≠ w.slice := by
        intro heq
        rw [List.map_append, List.nodup_append] at hnd
        have hw : w ∈ rest2 := List.getElem?_mem h2
        exact hnd.2.2 (List.mem_map.mpr ⟨w, hw, rfl⟩) (by simp [heq])
      unfold addToParent
      simp only [List.getLast?_concat]
      exact getElem?_heapModify_ne _ _ _ _ hpw
    · subst h2
      rw [if_pos (by simp [h1])]
      exact getElem?_addToParent_self heap rest2 w r


/-- What the loop `while (state.openSlices.length > 0)` does for the state object of PTID
`q` whose stack is `ws`. -/
theorem autoCloseThread_spec (T : ℚ) (q : PTID) (ws : List OpenSlice)
    (acc : TraceEventImporter) (hs : (acc.getState q).openSlices = ws)
    (hnd : (ws.map (fun w => w.slice)).Nodup)
    (hidx : ∀ w ∈ ws, ∃ ev, acc.events[w.index]? = some ev ∧ ev.ptid = q) :
    ((autoCloseThread T ws.length acc q).getState q).openSlices = [] ∧
    (∀ r, r ∉ ws.map (fun w => w.slice) →
      (autoCloseThread T ws.length acc q).heap[r]? = acc.heap[r]?) ∧
    (∀ k w, ws[k]? = some w →
      (autoCloseThread T ws.length acc q).heap[w.slice]? =
        (acc.heap[w.slice]?).map
          (fun s => closedSlice T s ((ws[k + 1]?).map (fun w => w.slice)))) ∧
    (∀ pid tid, (pid, tid) ≠ q →
      (autoCloseThread T ws.length acc q).model.getThread pid tid =
        acc.model.getThread pid tid) ∧
    (∀ k, ((autoCloseThread T ws.length acc q).model.getThread q.1 q.2).subrow k =
      (acc.model.getThread q.1 q.2).subrow k ++ ((ws[k]?).map (fun w => w.slice)).toList) := by
  induction ws using List.reverseRecOn generalizing acc with
  | nil =>
    refine ⟨hs, fun _ _ => rfl, ?_, fun _ _ _ => rfl, ?_⟩
    · intro k w hk
      simp at hk
    · intro k
      simp [autoCloseThread]
  | append_singleton rest top ih =>
    have hlen : (rest ++ [top]).length = rest.length + 1 := by simp
    rw [hlen]
    show _ ∧ _ ∧ _ ∧ _ ∧ _
    simp only [autoCloseThread]
    have hpop := autoClosePop_pop T acc q rest top hs
    have hs2 : ((autoClosePop T acc q).getState q).openSlices = rest := by
      rw [hpop, getState_mk_jsSet_self]
    rw [List.map_append, List.nodup_append] at hnd
    obtain ⟨hnd1, _, hnd3⟩ := hnd
    have htop : ∀ w ∈ rest, w.slice ≠ top.slice := by
      intro w hw heq
      exact hnd3 (List.mem_map.mpr ⟨w, hw, rfl⟩) (by simp [heq])
    have hev : (autoClosePop T acc q).events = acc.events := by
      rw [hpop]
    obtain ⟨i1, i2, i3, i4, i5⟩ := ih (autoClosePop T acc q) hs2 hnd1
      (fun w hw => by rw [hev]; exact hidx w (List.mem_append_left _ hw))
    have hheap : (autoClosePop T acc q).heap = addToParent
        (heapModify (setDuration acc.heap top.slice T) top.slice
          (fun s => { s with didNotFinish := true })) rest top.slice := by
      rw [hpop]
    obtain ⟨ev, hev1, hev2⟩ := hidx top (by simp)
    have hmodel : (autoClosePop T acc q).model =
        acc.model.withThread q.1 q.2 (fun t => t.pushSubrow rest.length top.slice) := by
      rw [hpop]
      simp only [pushToThreadOfEvent, hev1]
      rw [← hev2]
      rfl
    refine ⟨i1, ?_, ?_, ?_, ?_⟩
    · intro r hr
      simp only [List.map_append, List.mem_append, List.map_cons, List.map_nil,
        List.mem_singleton, not_or] at hr
      rw [i2 r hr.1, hheap, getElem?_addToParent_ne, getElem?_heapModify_ne _ _ _ _
        (Ne.symm hr.2), getElem?_setDuration_ne _ _ _ _ (Ne.symm hr.2)]
      intro w hw heq
      exact hr.1 (List.mem_map.mpr ⟨w, hw, heq⟩)
    · intro k w hk
      rcases getElem?_concat_cases rest top k w hk with ⟨h1, h2⟩ | ⟨h1, h2⟩
      · rw [i3 k w h2, hheap, getElem?_addToParent_entry _ _ _ hnd1 k w h2,
          apply_ite (fun o => Option.map _ o)]
        have hne : top.slice ≠ w.slice := Ne.symm (htop w (List.getElem?_mem h2))
        rw [getElem?_heapModify_ne _ _ _ _ hne, getElem?_setDuration_ne _ _ _ _ hne]
        by_cases hk1 : k + 1 = rest.length
        · rw [if_pos hk1]
          have e1 : rest[k + 1]? = none := List.getElem?_eq_none (by omega)
          have e2 : (rest ++ [top])[k + 1]? = some top := by
            rw [List.getElem?_append_right (by omega)]
            simp [hk1]
          rw [e1, e2]
          cases acc.heap[w.slice]? with
          | none => rfl
          | some s => simp [closedSlice]
        · rw [if_neg hk1]
          have e2 : (rest ++ [top])[k + 1]? = rest[k + 1]? :=
            List.getElem?_append_left (by omega)
          rw [e2]
      · subst h2
        have e2 : (rest ++ [w])[k + 1]? = none := List.getElem?_eq_none (by simp; omega)
        rw [e2, i2 w.slice (fun hm => by
          obtain ⟨w2, hw2, heq⟩ := List.mem_map.mp hm
          exact htop w2 hw2 heq), hheap, getElem?_addToParent_ne _ _ _ _ htop,
          getElem?_heapModify_self, getElem?_setDuration_self]
        cases acc.heap[w.slice]? with
        | none => rfl
        | some s => simp [closedSlice]
    · intro pid tid hne
      rw [i4 pid tid hne, hmodel]
      exact getThread_withThread_ne _ _ _ _ _ _ hne
    · intro k
      rw [i5 k, hmodel, getThread_withThread_self]
      by_cases hk : k = rest.length
      · subst hk
        rw [subrow_pushSubrow_self]
        simp
      · rw [subrow_pushSubrow_ne _ _ _ _ hk]
        by_cases hk2 : k < rest.length
        · rw [List.getElem?_append_left hk2]
        · rw [List.getElem?_eq_none (by omega), List.getElem?_eq_none (by simp; omega)]


theorem autoCloseOpenSlices_eq (imp : TraceEventImporter) :
    autoCloseOpenSlices imp =
      match realMaxTimestamp (updateBounds imp.model imp.heap).maxTimestamp
          (openTimestamps { imp with model := updateBounds imp.model imp.heap }) with
      | none => { imp with model := updateBounds imp.model imp.heap }
      | some T => autoCloseAll T (imp.threadStateByPTID.map Prod.fst)
          { imp with model := updateBounds imp.model imp.heap } := by
  unfold autoCloseOpenSlices autoCloseAll
  rfl

theorem autoCloseAll_cons (T : ℚ) (q : PTID) (keys : List PTID) (acc : TraceEventImporter) :
    autoCloseAll T (q :: keys) acc =
      autoCloseAll T keys (autoCloseThread T (acc.getState q).openSlices.length acc q) := rfl

theorem closeInv_of_wellFormed (imp : TraceEventImporter) (h : WellFormed imp) (p : PTID) :
    CloseInv p (imp.getState p).stackRefs imp := by
  refine ⟨h.nodup, h.index_ok, ?_⟩
  intro q hq r hr hr2
  exact h.owned q p hq r hr (mem_stackRefs_openRefs _ _ hr2)

/-- Closing the stack of one PTID keeps the invariant of the closing loops. -/
theorem closeInv_autoCloseThread (T : ℚ) (p q : PTID) (R : List Nat)
    (acc : TraceEventImporter) (h : CloseInv p R acc) :
    CloseInv p R (autoCloseThread T (acc.getState q).openSlices.length acc q) := by
  have F := heapFrame_autoCloseThread T (acc.getState q).openSlices.length acc q
  obtain ⟨s1, _, _, _, _⟩ := autoCloseThread_spec T q _ acc rfl (h.nodup q) (h.index_ok q)
  refine ⟨?_, ?_, ?_⟩
  · intro q2
    by_cases hq : q2 = q
    · subst hq
      simp [ThreadState.stackRefs, s1]
    · rw [F.state_ne q2 hq]
      exact h.nodup q2
  · intro q2 w hw
    rw [F.events_eq]
    by_cases hq : q2 = q
    · subst hq
      rw [s1] at hw
      simp at hw
    · rw [F.state_ne q2 hq] at hw
      exact h.index_ok q2 w hw
  · intro q2 hq2 r hr
    by_cases hq : q2 = q
    · subst hq
      simp [ThreadState.stackRefs, s1] at hr
    · rw [F.state_ne q2 hq] at hr
      exact h.avoid q2 hq2 r hr

/-- Once the stack of `p` is empty, the closing loops leave the slices `R`, the stack and
the subrows of `p` as they are. -/
theorem autoCloseAll_after (T : ℚ) (p : PTID) (R : List Nat) (keys : List PTID)
    (acc : TraceEventImporter) (h : CloseInv p R acc)
    (hs : (acc.getState p).openSlices = []) :
    ((autoCloseAll T keys acc).getState p).openSlices = [] ∧
    (∀ r ∈ R, (autoCloseAll T keys acc).heap[r]? = acc.heap[r]?) ∧
    (autoCloseAll T keys acc).model.getThread p.1 p.2 = acc.model.getThread p.1 p.2 := by
  induction keys generalizing acc with
  | nil => exact ⟨hs, fun _ _ => rfl, rfl⟩
  | cons q keys ih =>
    rw [autoCloseAll_cons]
    have hinv := closeInv_autoCloseThread T p q R acc h
    by_cases hq : q = p
    · subst hq
      rw [hs] at hinv ⊢
      exact ih acc hinv hs
    · have F := heapFrame_autoCloseThread T (acc.getState q).openSlices.length acc q
      obtain ⟨_, s2, _, s4, _⟩ := autoCloseThread_spec T q _ acc rfl (h.nodup q) (h.index_ok q)
      have hs2 : ((autoCloseThread T (acc.getState q).openSlices.length acc q).getState
          p).openSlices = [] := by
        rw [F.state_ne p (Ne.symm hq)]
        exact hs
      obtain ⟨i1, i2, i3⟩ := ih _ hinv hs2
      refine ⟨i1, ?_, ?_⟩
      · intro r hr
        rw [i2 r hr]
        exact s2 r (fun hm => h.avoid q hq r hm hr)
      · rw [i3]
        exact s4 p.1 p.2 (Ne.symm hq)

/-- The closing loops on the slices of PTID `p`, whose stack is `ws`. -/
theorem autoCloseAll_spec (T : ℚ) (p : PTID) (ws : List OpenSlice) (keys : List PTID)
    (acc : TraceEventImporter) (h : CloseInv p (ws.map (fun w => w.slice)) acc)
    (hs : (acc.getState p).openSlices = ws) (hp : p ∈ keys) :
    ((autoCloseAll T keys acc).getState p).openSlices = [] ∧
    (∀ k w, ws[k]? = some w →
      (autoCloseAll T keys acc).heap[w.slice]? =
        (acc.heap[w.slice]?).map
          (fun s => closedSlice T s ((ws[k + 1]?).map (fun w => w.slice)))) ∧
    (∀ k, ((autoCloseAll T keys acc).model.getThread p.1 p.2).subrow k =
      (acc.model.getThread p.1 p.2).subrow k ++ ((ws[k]?).map (fun w => w.slice)).toList) := by
  induction keys generalizing acc with
  | nil => simp at hp
  | cons q keys ih =>
    rw [autoCloseAll_cons]
    have hinv := closeInv_autoCloseThread T p q _ acc h
    by_cases hq : q = p
    · subst hq
      rw [hs] at hinv ⊢
      have hnd := h.nodup q
      have hix := h.index_ok q
      simp only [ThreadState.stackRefs, hs] at hnd
      rw [hs] at hix
      obtain ⟨s1, _, s3, _, s5⟩ := autoCloseThread_spec T q ws acc hs hnd hix
      obtain ⟨a1, a2, a3⟩ := autoCloseAll_after T q _ keys _ hinv s1
      refine ⟨a1, ?_, ?_⟩
      · intro k w hk
        rw [a2 w.slice (List.mem_map.mpr ⟨w, List.getElem?_mem hk, rfl⟩)]
        exact s3 k w hk
      · intro k
        rw [a3]
        exact s5 k
    · have F := heapFrame_autoCloseThread T (acc.getState q).openSlices.length acc q
      obtain ⟨_, s2, _, s4, _⟩ := autoCloseThread_spec T q _ acc rfl (h.nodup q) (h.index_ok q)
      have hs2 : ((autoCloseThread T (acc.getState q).openSlices.length acc q).getState
          p).openSlices = ws := by
        rw [F.state_ne p (Ne.symm hq)]
        exact hs
      have hp2 : p ∈ keys := by
        rcases List.mem_cons.mp hp with h1 | h1
        · exact absurd h1.symm hq
        · exact h1
      obtain ⟨i1, i2, i3⟩ := ih _ hinv hs2 hp2
      refine ⟨i1, ?_, ?_⟩
      · intro k w hk
        rw [i2 k w hk, s2 w.slice (fun hm =>
          h.avoid q hq w.slice hm (List.mem_map.mpr ⟨w, List.getElem?_mem hk, rfl⟩))]
      · intro k
        rw [i3 k, s4 p.1 p.2 (Ne.symm hq)]


theorem entry_of_open_stack (imp : TraceEventImporter) (p : PTID)
    (h : (imp.getState p).openSlices ≠ []) : (p, imp.getState p) ∈ imp.threadStateByPTID := by
  cases hj : jsGet imp.threadStateByPTID p with
  | none =>
    exfalso
    apply h
    simp [TraceEventImporter.getState, hj]
  | some st =>
    have : imp.getState p = st := by simp [TraceEventImporter.getState, hj]
    rw [this]
    exact jsGet_some_mem _ _ _ hj

theorem hasOpenSlices_of_open_stack (imp : TraceEventImporter) (p : PTID)
    (h : (imp.getState p).openSlices ≠ []) : hasOpenSlices imp = true := by
  unfold hasOpenSlices
  rw [List.any_eq_true]
  refine ⟨_, entry_of_open_stack imp p h, ?_⟩
  simp only [decide_eq_true_eq]
  exact List.length_pos.mpr h

theorem mathMax_ne_none (l : List ℚ) (h : l ≠ []) : ∃ m, mathMax l = some m := by
  cases l with
  | nil => exact absurd rfl h
  | cons x xs => exact ⟨_, rfl⟩

theorem realMaxTimestamp_some (m : Option ℚ) (l : List ℚ) (h : l ≠ []) :
    ∃ T, realMaxTimestamp m l = some T := by
  obtain ⟨o, ho⟩ := mathMax_ne_none l h
  unfold realMaxTimestamp
  split
  · rw [ho]
    cases m with
    | none => exact ⟨o, rfl⟩
    | some v => exact ⟨max v o, rfl⟩
  · exact ⟨o, ho⟩

theorem openTimestamps_ne_nil (imp : TraceEventImporter) (p : PTID) (hb : RefsBounded imp)
    (h : (imp.getState p).openSlices ≠ []) : openTimestamps imp ≠ [] := by
  obtain ⟨w, hw⟩ := List.exists_mem_of_ne_nil _ h
  have hlt : w.slice < imp.heap.length := hb p w.slice (by
    simp only [ThreadState.openRefs, List.mem_append]
    exact Or.inl (List.mem_map.mpr ⟨w, hw, rfl⟩))
  have hmem : imp.heap[w.slice].start ∈ openTimestamps imp := by
    unfold openTimestamps
    rw [List.mem_flatMap]
    refine ⟨_, entry_of_open_stack imp p h, ?_⟩
    rw [List.mem_flatMap]
    refine ⟨w, hw, ?_⟩
    rw [List.getElem?_eq_getElem hlt]
    simp
  exact List.ne_nil_of_mem hmem


/-- The loop iteration of a nested instant event. -/
theorem importStep_instant_nested (env : Env) (imp : TraceEventImporter) (eI : Nat)
    (ev : TraceEvent) (hph : ev.ph = "I") (hn : ev.nonNested = false) :
    (importStep env imp eI ev).heap = addToParent
      (setUserDuration
        (setDuration (imp.heap ++ [newSlice env ev]) imp.heap.length (jsDiv ev.ts 1000))
        imp.heap.length ev.uts)
      (imp.getState ev.ptid).openSlices imp.heap.length ∧
    (importStep env imp eI ev).model = imp.model.withThread ev.pid ev.tid
      (fun t => t.pushSubrow (imp.getState ev.ptid).openSlices.length imp.heap.length) ∧
    (importStep env imp eI ev).getState ev.ptid = imp.getState ev.ptid := by
  unfold importStep
  have h1 : ¬ (ev.ph = "B") := by rw [hph]; decide
  have h2 : ¬ (ev.ph = "E") := by rw [hph]; decide
  dsimp only
  rw [if_neg h1, if_neg h2, if_pos hph]
  have hs : ((processBegin env (ensureState imp ev.ptid) eI ev.ptid ev).getState
      ev.ptid).openSlices = (imp.getState ev.ptid).openSlices ++
        [{ index := eI, slice := imp.heap.length }] := by
    rw [processBegin_stack, getState_ensureState, heap_ensureState]
    simp [hn]
  rw [processEnd_nested_pop env _ _ ev hn _ _ hs]
  rw [processBegin_nested env _ eI _ ev hn]
  refine ⟨?_, ?_, ?_⟩
  · simp only [heap_ensureState]
  · simp only [model_ensureState]
  · rw [getState_mk_jsSet_self, getState_mk_jsSet_self, getState_ensureState]

/-- The statements of `processEnd` that set durations leave `subSlices` alone. -/
theorem subSlices_setDuration (heap : List TimelineSlice) (r j : Nat) (t : ℚ) :
    ((setDuration heap r t)[j]?).map (fun s => s.subSlices) =
      (heap[j]?).map (fun s => s.subSlices) := by
  by_cases h : r = j
  · subst h
    rw [getElem?_setDuration_self]
    cases heap[r]? <;> rfl
  · rw [getElem?_setDuration_ne _ _ _ _ h]

theorem subSlices_heapModify_keep (heap : List TimelineSlice) (r j : Nat)
    (f : TimelineSlice → TimelineSlice) (hf : ∀ s, (f s).subSlices = s.subSlices) :
    ((heapModify heap r f)[j]?).map (fun s => s.subSlices) =
      (heap[j]?).map (fun s => s.subSlices) := by
  by_cases h : r = j
  · subst h
    rw [getElem?_heapModify_self]
    cases heap[r]? with
    | none => rfl
    | some s => simp [hf]
  · rw [getElem?_heapModify_ne _ _ _ _ h]

theorem subSlices_setUserDuration (heap : List TimelineSlice) (r j : Nat) (uts : Option ℚ) :
    ((setUserDuration heap r uts)[j]?).map (fun s => s.subSlices) =
      (heap[j]?).map (fun s => s.subSlices) := by
  unfold setUserDuration
  split
  · exact subSlices_heapModify_keep _ _ _ _ (fun _ => rfl)
  · rfl

/-- The one change `addToParent` makes to the child lists of the heap: the closed slice
`r` is appended to the list of the entry on top of the remaining stack. -/
theorem subSlices_addToParent (heap : List TimelineSlice) (rest : List OpenSlice) (r j : Nat) :
    ((addToParent heap rest r)[j]?).map (fun s => s.subSlices) =
      if (rest.getLast?).map (fun w => w.slice) = some j then
        (heap[j]?).map (fun s => s.subSlices ++ [r])
      else (heap[j]?).map (fun s => s.subSlices) := by
  unfold addToParent
  cases hp : rest.getLast? with
  | none => simp
  | some parent =>
    simp only [Option.map_some', Option.some.injEq]
    by_cases h : parent.slice = j
    · subst h
      rw [if_pos rfl, getElem?_heapModify_self]
      cases heap[parent.slice]? <;> rfl
    · rw [if_neg h, getElem?_heapModify_ne _ _ _ _ h]


/-- The closing loops touch no heap object that is on no stack. -/
theorem autoCloseAll_frame (T : ℚ) (p : PTID) (R : List Nat) (keys : List PTID)
    (acc : TraceEventImporter) (h : CloseInv p R acc) (r : Nat)
    (hr : ∀ q, r ∉ (acc.getState q).stackRefs) :
    (autoCloseAll T keys acc).heap[r]? = acc.heap[r]? := by
  induction keys generalizing acc with
  | nil => rfl
  | cons q keys ih =>
    rw [autoCloseAll_cons]
    have hinv := closeInv_autoCloseThread T p q R acc h
    have F := heapFrame_autoCloseThread T (acc.getState q).openSlices.length acc q
    obtain ⟨s1, s2, _, _, _⟩ := autoCloseThread_spec T q _ acc rfl (h.nodup q) (h.index_ok q)
    rw [ih _ hinv]
    · exact s2 r (hr q)
    · intro q2
      by_cases hq : q2 = q
      · subst hq
        simp [ThreadState.stackRefs, s1]
      · rw [F.state_ne q2 hq]
        exact hr q2

theorem no_open_stack_of_hasOpenSlices_false (imp : TraceEventImporter)
    (h : hasOpenSlices imp = false) (p : PTID) : (imp.getState p).openSlices = [] := by
  by_contra hc
  rw [hasOpenSlices_of_open_stack imp p hc] at h
  cases h

theorem realMaxTimestamp_none (m : Option ℚ) (l : List ℚ) (h : realMaxTimestamp m l = none) :
    l = [] := by
  by_contra hc
  obtain ⟨T, hT⟩ := realMaxTimestamp_some m l hc
  rw [hT] at h
  cases h

/-- Placement of the slices that `autoCloseOpenSlices` closes, for a well-formed state:
the stack `ws` of PTID `p` goes to the subrows of the thread of `p`, entry `k` to subrow
`k`, each entry is appended to the child list of the entry below it, and heap objects that
are on no stack are left as they are. -/
theorem autoCloseOpenSlices_placement (imp : TraceEventImporter) (hwf : WellFormed imp)
    (p : PTID) (ws : List OpenSlice) (hws : (imp.getState p).openSlices = ws) :
    ((autoCloseOpenSlices imp).getState p).openSlices = [] ∧
    (∀ k, ((autoCloseOpenSlices imp).model.getThread p.1 p.2).subrow k =
      (imp.model.getThread p.1 p.2).subrow k ++ ((ws[k]?).map (fun w => w.slice)).toList) ∧
    (∀ k w, ws[k]? = some w →
      ((autoCloseOpenSlices imp).heap[w.slice]?).map (fun s => s.subSlices) =
        (imp.heap[w.slice]?).map
          (fun s => s.subSlices ++ ((ws[k + 1]?).map (fun w => w.slice)).toList)) ∧
    (∀ r, (∀ q, r ∉ (imp.getState q).stackRefs) →
      (autoCloseOpenSlices imp).heap[r]? = imp.heap[r]?) := by
  have hinv := closeInv_of_wellFormed imp hwf p
  simp only [ThreadState.stackRefs, hws] at hinv
  have hinv2 : CloseInv p (ws.map (fun w => w.slice))
      { imp with model := updateBounds imp.model imp.heap } :=
    ⟨hinv.nodup, hinv.index_ok, hinv.avoid⟩
  rw [autoCloseOpenSlices_eq]
  cases hT : realMaxTimestamp (updateBounds imp.model imp.heap).maxTimestamp
      (openTimestamps { imp with model := updateBounds imp.model imp.heap }) with
  | none =>
    have hnil : ws = [] := by
      by_contra hc
      exact openTimestamps_ne_nil { imp with model := updateBounds imp.model imp.heap } p
        hwf.bounded (by rw [← hws] at hc; exact hc) (realMaxTimestamp_none _ _ hT)
    subst hnil
    refine ⟨hws, ?_, ?_, fun _ _ => rfl⟩
    · intro k
      simp
      rfl
    · intro k w hk
      simp at hk
  | some T =>
    dsimp only
    refine ⟨?_, ?_, ?_, ?_⟩
    · by_cases hne : ws = []
      · subst hne
        exact (autoCloseAll_after T p _ _ _ hinv2 hws).1
      · have hkey : p ∈ imp.threadStateByPTID.map Prod.fst :=
          List.mem_map.mpr ⟨_, entry_of_open_stack imp p (by rw [hws]; exact hne), rfl⟩
        exact (autoCloseAll_spec T p ws _ _ hinv2 hws hkey).1
    · intro k
      by_cases hne : ws = []
      · subst hne
        rw [(autoCloseAll_after T p _ _ _ hinv2 hws).2.2]
        simp
        rfl
      · have hkey : p ∈ imp.threadStateByPTID.map Prod.fst :=
          List.mem_map.mpr ⟨_, entry_of_open_stack imp p (by rw [hws]; exact hne), rfl⟩
        exact (autoCloseAll_spec T p ws _ _ hinv2 hws hkey).2.2 k
    · intro k w hk
      have hne : ws ≠ [] := List.ne_nil_of_mem (List.getElem?_mem hk)
      have hkey : p ∈ imp.threadStateByPTID.map Prod.fst :=
        List.mem_map.mpr ⟨_, entry_of_open_stack imp p (by rw [hws]; exact hne), rfl⟩
      rw [(autoCloseAll_spec T p ws _ _ hinv2 hws hkey).2.1 k w hk]
      show Option.map _ (Option.map _ imp.heap[w.slice]?) = _
      cases imp.heap[w.slice]? with
      | none => rfl
      | some s => simp [closedSlice]
    · intro r hr
      exact autoCloseAll_frame T p _ _ _ hinv2 r hr

/-- What `processCounter` leaves in the registry of the process when the first sample of a
counter that was not there has no arguments: one import error, and the counter is gone
exactly when the process files it under its bare name. -/
theorem processCounter_empty_first_sample (env : Env) (imp : TraceEventImporter)
    (event : TraceEvent) (hargs : event.args = [])
    (habs : jsGet (imp.model.getProcess event.pid).counters
      (env.counterId event.cat (ctrNameOf env event)) = none) :
    (processCounter env imp event).model.importErrors = imp.model.importErrors ++
      ["Expected counter " ++ event.name ++
        " to have at least one argument to use as a value."] ∧
    jsGet ((processCounter env imp event).model.getProcess event.pid).counters
      (env.counterId event.cat (ctrNameOf env event)) =
        if env.counterId event.cat (ctrNameOf env event) = ctrNameOf env event then none
        else some { name := ctrNameOf env event } := by
  have hctr : (imp.model.getProcess event.pid).getCounter env event.cat (ctrNameOf env event) =
      { name := ctrNameOf env event } := by
    simp [TimelineProcess.getCounter, habs]
  have hinit : initSeries env { name := ctrNameOf env event } event =
      { name := ctrNameOf env event } := by
    simp [initSeries, hargs, TimelineCounter.numSeries]
  unfold processCounter
  simp only [hctr, hinit]
  rw [if_pos (by simp [TimelineCounter.numSeries])]
  refine ⟨rfl, ?_⟩
  simp only [TimelineModel.getProcess, jsGet_jsSet_self, Option.getD_some]
  split
  · rename_i h
    rw [h]
    exact jsGet_jsDelete_self _ _
  · rename_i h
    rw [jsGet_jsDelete_ne _ _ _ h, jsGet_jsSet_self]


/-- The loop iteration of a non-nested instant event. -/
theorem importStep_instant_nonNested (env : Env) (imp : TraceEventImporter) (eI : Nat)
    (ev : TraceEvent) (hph : ev.ph = "I") (hn : ev.nonNested = true) :
    (importStep env imp eI ev).heap =
      setDuration (imp.heap ++ [newSlice env ev]) imp.heap.length (jsDiv ev.ts 1000) ∧
    (importStep env imp eI ev).model.getThread ev.pid ev.tid =
      (imp.model.getThread ev.pid ev.tid).addNonNestedSlice imp.heap.length ∧
    ((importStep env imp eI ev).getState ev.ptid).openSlices =
      (imp.getState ev.ptid).openSlices := by
  unfold importStep
  have h1 : ¬ (ev.ph = "B") := by rw [hph]; decide
  have h2 : ¬ (ev.ph = "E") := by rw [hph]; decide
  dsimp only
  rw [if_neg h1, if_neg h2, if_pos hph]
  have hs : jsGet ((processBegin env (ensureState imp ev.ptid) eI ev.ptid ev).getState
      ev.ptid).openNonNestedSlices (sliceIDOf env ev) =
        some { index := eI, slice := imp.heap.length } := by
    rw [processBegin_nonNested env _ eI _ ev hn, getState_mk_jsSet_self, heap_ensureState]
    exact jsGet_jsSet_self _ _ _
  have hst := processEnd_stack env (processBegin env (ensureState imp ev.ptid) eI ev.ptid ev)
    ev.ptid ev
  rw [processBegin_stack, getState_ensureState] at hst
  simp only [hn, if_true] at hst
  refine ⟨?_, ?_, hst⟩
  · rw [processEnd_nonNested_some env _ _ ev hn _ hs, processBegin_nonNested env _ eI _ ev hn]
    simp only [heap_ensureState]
  · rw [processEnd_nonNested_some env _ _ ev hn _ hs, processBegin_nonNested env _ eI _ ev hn]
    simp only [model_ensureState]
    rw [getThread_withThread_self]
    split <;> rfl


theorem getProcess_counters_processCounter (env : Env) (imp : TraceEventImporter)
    (e : TraceEvent) :
    ((processCounter env imp e).model.getProcess e.pid).counters =
      if ((imp.model.getProcess e.pid).getCounter env e.cat (ctrNameOf env e)).numSeries = 0 ∧
          (initSeries env ((imp.model.getProcess e.pid).getCounter env e.cat (ctrNameOf env e))
            e).numSeries = 0 then
        jsDelete (jsSet (imp.model.getProcess e.pid).counters
            (env.counterId e.cat (ctrNameOf env e))
            (initSeries env ((imp.model.getProcess e.pid).getCounter env e.cat (ctrNameOf env e))
              e))
          (initSeries env ((imp.model.getProcess e.pid).getCounter env e.cat (ctrNameOf env e))
            e).name
      else
        jsSet (imp.model.getProcess e.pid).counters (env.counterId e.cat (ctrNameOf env e))
          (addSample
            (initSeries env ((imp.model.getProcess e.pid).getCounter env e.cat (ctrNameOf env e))
              e) e) := by
  unfold processCounter
  dsimp only
  split <;> simp [TimelineModel.getProcess, jsGet_jsSet_self]

/-- A sample for a counter that already has series. -/
theorem processCounter_sample (env : Env) (imp : TraceEventImporter) (e : TraceEvent)
    (ctr : TimelineCounter)
    (hc : jsGet (imp.model.getProcess e.pid).counters (env.counterId e.cat (ctrNameOf env e)) =
      some ctr)
    (hn : ctr.seriesNames ≠ []) :
    jsGet ((processCounter env imp e).model.getProcess e.pid).counters
      (env.counterId e.cat (ctrNameOf env e)) = some (addSample ctr e) := by
  have hctr : (imp.model.getProcess e.pid).getCounter env e.cat (ctrNameOf env e) = ctr := by
    simp [TimelineProcess.getCounter, hc]
  have hpos : ctr.numSeries ≠ 0 := by
    simp only [TimelineCounter.numSeries, ne_eq, List.length_eq_zero]
    exact hn
  have hinit : initSeries env ctr e = ctr := by
    simp [initSeries, hpos]
  rw [getProcess_counters_processCounter, hctr, hinit, if_neg (fun h => hpos h.1)]
  exact jsGet_jsSet_self _ _ _

theorem readProperty_own (a : Args) (n : String) (v : Value) (h : jsGet a n = some v) :
    readProperty a n = some (.value v) := by
  simp [readProperty, h]

theorem readProperty_missing (a : Args) (n : String) (h : jsGet a n = none)
    (hn : n ∉ objectPrototypeNames) : readProperty a n = none := by
  simp [readProperty, h, hn]

theorem readProperty_inherited (a : Args) (n : String) (h : jsGet a n = none)
    (hn : n ∈ objectPrototypeNames) : readProperty a n = some (.inherited n) := by
  simp [readProperty, h, hn]

/-- The first sample of a counter, with at least one argument. -/
theorem processCounter_first (env : Env) (imp : TraceEventImporter) (e : TraceEvent)
    (hne : e.args ≠ [])
    (hnew : ((imp.model.getProcess e.pid).getCounter env e.cat
      (ctrNameOf env e)).numSeries = 0) :
    ∃ ctr, jsGet ((processCounter env imp e).model.getProcess e.pid).counters
        (env.counterId e.cat (ctrNameOf env e)) = some ctr ∧
      ctr.seriesNames = e.args.map Prod.fst ∧
      ctr.samples = ((imp.model.getProcess e.pid).getCounter env e.cat
          (ctrNameOf env e)).samples ++
        (e.args.map Prod.fst).map
          (fun n => (readProperty e.args n).getD (Sample.value (Value.num 0))) ∧
      ctr.timestamps = ((imp.model.getProcess e.pid).getCounter env e.cat
          (ctrNameOf env e)).timestamps ++ [jsDiv e.ts 1000] := by
  have hnil : ((imp.model.getProcess e.pid).getCounter env e.cat
      (ctrNameOf env e)).seriesNames = [] := List.length_eq_zero.mp hnew
  have hinit : (initSeries env ((imp.model.getProcess e.pid).getCounter env e.cat
      (ctrNameOf env e)) e).seriesNames = e.args.map Prod.fst := by
    simp [initSeries, hnew, hnil]
  have hpos : (initSeries env ((imp.model.getProcess e.pid).getCounter env e.cat
      (ctrNameOf env e)) e).numSeries ≠ 0 := by
    simp only [TimelineCounter.numSeries, hinit, List.length_map, ne_eq, List.length_eq_zero]
    exact hne
  rw [getProcess_counters_processCounter, if_neg (fun h => hpos h.2), jsGet_jsSet_self]
  refine ⟨_, rfl, ?_, ?_, ?_⟩
  · exact hinit
  · simp only [addSample, sampleRow, hinit]
    simp [initSeries, hnew]
  · simp only [addSample]
    simp [initSeries, hnew]


/-- An E event that finds nothing to close (nested: empty stack; non-nested: no record
under its composite id) changes neither the model nor the heap. -/
theorem importStep_end_unmatched (env : Env) (imp : TraceEventImporter) (eI : Nat)
    (e : TraceEvent) (he : e.ph = "E")
    (hun : (e.nonNested = false ∧ (imp.getState e.ptid).openSlices = []) ∨
      (e.nonNested = true ∧
        jsGet (imp.getState e.ptid).openNonNestedSlices (sliceIDOf env e) = none)) :
    (importStep env imp eI e).model = imp.model ∧ (importStep env imp eI e).heap = imp.heap := by
  unfold importStep
  have hne : ¬ (e.ph = "B") := by rw [he]; decide
  dsimp only
  rw [if_neg hne, if_pos he]
  rcases hun with ⟨hn, hs⟩ | ⟨hn, hs⟩
  · rw [processEnd_nested_empty env _ _ e hn (by rw [getState_ensureState]; exact hs)]
    exact ⟨model_ensureState _ _, heap_ensureState _ _⟩
  · rw [processEnd_nonNested_none env _ _ e hn (by rw [getState_ensureState]; exact hs)]
    exact ⟨model_ensureState _ _, heap_ensureState _ _⟩

theorem foldl_max_ge (l : List ℚ) (x : ℚ) :
    x ≤ l.foldl max x ∧ ∀ y ∈ l, y ≤ l.foldl max x := by
  induction l generalizing x with
  | nil => simp
  | cons a l ih =>
    obtain ⟨h1, h2⟩ := ih (max x a)
    refine ⟨le_trans (le_max_left x a) h1, ?_⟩
    intro y hy
    rcases List.mem_cons.mp hy with h | h
    · rw [h]
      exact le_trans (le_max_right x a) h1
    · exact h2 y h

theorem mathMax_ge (l : List ℚ) (o : ℚ) (h : mathMax l = some o) : ∀ y ∈ l, y ≤ o := by
  cases l with
  | nil => simp [mathMax] at h
  | cons x xs =>
    simp only [mathMax, Option.some.injEq] at h
    subst h
    intro y hy
    rcases List.mem_cons.mp hy with h1 | h1
    · rw [h1]
      exact (foldl_max_ge xs x).1
    · exact (foldl_max_ge xs x).2 y h1

/-- The closing time is at least every collected open timestamp, and at least the model
bound when that bound is defined and not zero. -/
theorem realMaxTimestamp_ge (m : Option ℚ) (l : List ℚ) (T : ℚ)
    (h : realMaxTimestamp m l = some T) :
    (∀ y ∈ l, y ≤ T) ∧ (∀ v, m = some v → v ≠ 0 → v ≤ T) := by
  unfold realMaxTimestamp at h
  split at h
  · rename_i ht
    cases m with
    | none => simp [truthyNum] at ht
    | some v =>
      cases ho : mathMax l with
      | none =>
        rw [ho] at h
        simp only [Option.some.injEq] at h
        subst h
        refine ⟨?_, ?_⟩
        · intro y hy
          cases l with
          | nil => simp at hy
          | cons a as => simp [mathMax] at ho
        · intro v2 hv _
          simp only [Option.some.injEq] at hv
          rw [hv]
      | some o =>
        rw [ho] at h
        simp only [Option.some.injEq] at h
        subst h
        refine ⟨?_, ?_⟩
        · intro y hy
          exact le_trans (mathMax_ge l o ho y hy) (le_max_right v o)
        · intro v2 hv _
          simp only [Option.some.injEq] at hv
          rw [← hv]
          exact le_max_left v o
  · rename_i ht
    refine ⟨mathMax_ge l T h, ?_⟩
    intro v hv hne
    subst hv
    simp [truthyNum, hne] at ht


/-! Bracket repair of the constructor. -/

theorem jsCharAt_last (cs : List Char) : jsCharAt cs ((cs.length : Int) - 1) = cs.getLast? := by
  unfold jsCharAt
  cases cs with
  | nil => simp
  | cons c cs =>
    have h : (0 : Int) ≤ ((c :: cs).length : Int) - 1 := by
      simp
    rw [if_pos h, List.getLast?_eq_getElem?]
    congr 1
    simp

/-- The text handed to the parser when the last character is neither `']'` nor a newline. -/
theorem repairText_append (s : String) (h0 : s.data.head? = some '[')
    (h1 : s.data.getLast? ≠ some ']') (h2 : s.data.getLast? ≠ some '\n') :
    repairText s = s ++ "]" := by
  have hl := jsCharAt_last s.data
  unfold repairText needsClosingBracket
  rw [if_pos h0]
  dsimp only
  rw [hl]
  simp [h1, h2]


/-! Slices that stay unfinished. -/

theorem inThread_withThread (m : TimelineModel) (pid tid : Nat)
    (f : TimelineThread → TimelineThread) (r : Nat)
    (hf : ∀ t, InThread (f t) r → InThread t r) (pid2 tid2 : Nat)
    (h : InThread ((m.withThread pid tid f).getThread pid2 tid2) r) :
    InThread (m.getThread pid2 tid2) r := by
  by_cases hq : (pid2, tid2) = (pid, tid)
  · cases hq
    rw [getThread_withThread_self] at h
    exact hf _ h
  · rw [getThread_withThread_ne _ _ _ _ _ _ hq] at h
    exact h

theorem inThread_pushSubrow (t : TimelineThread) (i x r : Nat) (hx : x ≠ r)
    (h : InThread (t.pushSubrow i x) r) : InThread t r := by
  rcases h with ⟨d, hd⟩ | h
  · left
    refine ⟨d, ?_⟩
    by_cases hdi : d = i
    · subst hdi
      rw [subrow_pushSubrow_self] at hd
      rcases List.mem_append.mp hd with h1 | h1
      · exact h1
      · simp only [List.mem_singleton] at h1
        exact absurd h1.symm hx
    · rw [subrow_pushSubrow_ne _ _ _ _ hdi] at hd
      exact hd
  · right
    exact h

theorem inThread_addNonNestedSlice (t : TimelineThread) (x r : Nat) (hx : x ≠ r)
    (h : InThread (t.addNonNestedSlice x) r) : InThread t r := by
  rcases h with ⟨d, hd⟩ | h
  · left
    exact ⟨d, hd⟩
  · right
    simp only [TimelineThread.addNonNestedSlice, List.mem_append, List.mem_singleton] at h
    rcases h with h | h
    · exact h
    · exact absurd h.symm hx

theorem abandoned_lt {p : PTID} {id : String} {r : Nat} {s0 : TimelineSlice}
    {m0 : TimelineModel} {imp : TraceEventImporter} (h : Abandoned p id r s0 m0 imp) :
    r < imp.heap.length := by
  have := h.heap_eq
  by_contra hc
  rw [List.getElem?_eq_none (by omega)] at this
  cases this

theorem abandoned_ensureState {p : PTID} {id : String} {r : Nat} {s0 : TimelineSlice}
    {m0 : TimelineModel} {imp : TraceEventImporter} (h : Abandoned p id r s0 m0 imp)
    (q : PTID) : Abandoned p id r s0 m0 (ensureState imp q) where
  heap_eq := by rw [heap_ensureState]; exact h.heap_eq
  off_stack := by
    intro q2
    rw [getState_ensureState]
    exact h.off_stack q2
  only_key := by
    intro q2 key w
    rw [getState_ensureState]
    exact h.only_key q2 key w
  not_added := by
    intro pid tid
    rw [model_ensureState]
    exact h.not_added pid tid

theorem abandoned_processBegin {p : PTID} {id : String} {r : Nat} {s0 : TimelineSlice}
    {m0 : TimelineModel} {imp : TraceEventImporter} (h : Abandoned p id r s0 m0 imp)
    (env : Env) (index : Nat) (q : PTID) (event : TraceEvent) :
    Abandoned p id r s0 m0 (processBegin env imp index q event) := by
  have hlt := abandoned_lt h
  by_cases hn : event.nonNested = true
  · rw [processBegin_nonNested env imp index q event hn]
    refine ⟨?_, ?_, ?_, ?_⟩
    · show (imp.heap ++ [newSlice env event])[r]? = some s0
      rw [List.getElem?_append_left hlt]
      exact h.heap_eq
    · intro q2
      by_cases hq : q2 = q
      · subst hq
        rw [getState_mk_jsSet_self]
        exact h.off_stack q2
      · have : ∀ (m : TimelineModel) (hp : List TimelineSlice) (st : ThreadState),
            (TraceEventImporter.mk m hp imp.events (jsSet imp.threadStateByPTID q st)).getState q2
              = imp.getState q2 := by
          intro m hp st
          simp [TraceEventImporter.getState, jsGet_jsSet_ne _ _ _ _ hq]
        rw [this]
        exact h.off_stack q2
    · intro q2 key w hmem hw
      by_cases hq : q2 = q
      · subst hq
        rw [getState_mk_jsSet_self] at hmem
        rcases mem_values_jsSet _ _ _ _ hmem with he | hm
        · exfalso
          have : w.slice = imp.heap.length := by
            have := congrArg Prod.snd he
            simp only at this
            rw [this]
          omega
        · exact h.only_key q2 key w hm hw
      · have : ∀ (m : TimelineModel) (hp : List TimelineSlice) (st : ThreadState),
            (TraceEventImporter.mk m hp imp.events (jsSet imp.threadStateByPTID q st)).getState q2
              = imp.getState q2 := by
          intro m hp st
          simp [TraceEventImporter.getState, jsGet_jsSet_ne _ _ _ _ hq]
        rw [this] at hmem
        exact h.only_key q2 key w hmem hw
    · intro pid tid hin
      apply h.not_added pid tid
      dsimp only at hin
      split at hin
      · exact hin
      · exact hin
  · simp only [Bool.not_eq_true] at hn
    rw [processBegin_nested env imp index q event hn]
    refine ⟨?_, ?_, ?_, ?_⟩
    · show (imp.heap ++ [newSlice env event])[r]? = some s0
      rw [List.getElem?_append_left hlt]
      exact h.heap_eq
    · intro q2
      by_cases hq : q2 = q
      · subst hq
        rw [getState_mk_jsSet_self]
        simp only [ThreadState.stackRefs, List.map_append, List.mem_append, List.map_cons,
          List.map_nil, List.mem_singleton, not_or]
        exact ⟨h.off_stack q2, by omega⟩
      · have : ∀ (m : TimelineModel) (hp : List TimelineSlice) (st : ThreadState),
            (TraceEventImporter.mk m hp imp.events (jsSet imp.threadStateByPTID q st)).getState q2
              = imp.getState q2 := by
          intro m hp st
          simp [TraceEventImporter.getState, jsGet_jsSet_ne _ _ _ _ hq]
        rw [this]
        exact h.off_stack q2
    · intro q2 key w hmem hw
      by_cases hq : q2 = q
      · subst hq
        rw [getState_mk_jsSet_self] at hmem
        exact h.only_key q2 key w hmem hw
      · have : ∀ (m : TimelineModel) (hp : List TimelineSlice) (st : ThreadState),
            (TraceEventImporter.mk m hp imp.events (jsSet imp.threadStateByPTID q st)).getState q2
              = imp.getState q2 := by
          intro m hp st
          simp [TraceEventImporter.getState, jsGet_jsSet_ne _ _ _ _ hq]
        rw [this] at hmem
        exact h.only_key q2 key w hmem hw
    · intro pid tid hin
      exact h.not_added pid tid hin

theorem getState_mk_jsSet_other (imp : TraceEventImporter) (m : TimelineModel)
    (hp : List TimelineSlice) (ev : List TraceEvent) (q q2 : PTID) (st : ThreadState)
    (hq : q2 ≠ q) :
    (TraceEventImporter.mk m hp ev (jsSet imp.threadStateByPTID q st)).getState q2 =
      imp.getState q2 := by
  simp [TraceEventImporter.getState, jsGet_jsSet_ne _ _ _ _ hq]

theorem abandoned_processEnd {p : PTID} {id : String} {r : Nat} {s0 : TimelineSlice}
    {m0 : TimelineModel} {imp : TraceEventImporter} (h : Abandoned p id r s0 m0 imp)
    (env : Env) (q : PTID) (event : TraceEvent)
    (hother : event.nonNested = true → ∀ w,
      jsGet (imp.getState q).openNonNestedSlices (sliceIDOf env event) = some w → w.slice ≠ r) :
    Abandoned p id r s0 m0 (processEnd env imp q event) := by
  by_cases hn : event.nonNested = true
  · cases hg : jsGet (imp.getState q).openNonNestedSlices (sliceIDOf env event) with
    | none =>
      rw [processEnd_nonNested_none env imp q event hn hg]
      exact h
    | some slice =>
      have hne : slice.slice ≠ r := hother hn slice hg
      rw [processEnd_nonNested_some env imp q event hn slice hg]
      refine ⟨?_, ?_, ?_, ?_⟩
      · show (setDuration imp.heap slice.slice (jsDiv event.ts 1000))[r]? = some s0
        rw [getElem?_setDuration_ne _ _ _ _ hne]
        exact h.heap_eq
      · intro q2
        by_cases hq : q2 = q
        · subst hq
          rw [getState_mk_jsSet_self]
          exact h.off_stack q2
        · rw [getState_mk_jsSet_other imp _ _ _ q q2 _ hq]
          exact h.off_stack q2
      · intro q2 key w hmem hw
        by_cases hq : q2 = q
        · subst hq
          rw [getState_mk_jsSet_self] at hmem
          have hmem2 := mem_jsDelete _ _ _ hmem
          unfold setRecordUserDuration at hmem2
          dsimp only at hmem2
          split at hmem2
          · rcases mem_values_jsSet _ _ _ _ hmem2 with he | hm
            · exfalso
              apply hne
              have := congrArg Prod.snd he
              simp only at this
              rw [← hw, this]
            · exact h.only_key q2 key w hm hw
          · exact h.only_key q2 key w hmem2 hw
        · rw [getState_mk_jsSet_other imp _ _ _ q q2 _ hq] at hmem
          exact h.only_key q2 key w hmem hw
      · intro pid tid hin
        apply h.not_added pid tid
        exact inThread_withThread imp.model event.pid event.tid _ r
          (fun t ht => inThread_addNonNestedSlice t _ r hne ht) pid tid hin
  · simp only [Bool.not_eq_true] at hn
    rcases eq_nil_or_concat_list (imp.getState q).openSlices with hs | ⟨rest, top, hs⟩
    · rw [processEnd_nested_empty env imp q event hn hs]
      exact h
    · rw [processEnd_nested_pop env imp q event hn rest top hs]
      have hoff := h.off_stack q
      simp only [ThreadState.stackRefs, hs, List.map_append, List.mem_append, List.map_cons,
        List.map_nil, List.mem_singleton, not_or] at hoff
      have hne : top.slice ≠ r := fun hc => hoff.2 hc.symm
      have hrest : ∀ w ∈ rest, w.slice ≠ r :=
        fun w hw hc => hoff.1 (List.mem_map.mpr ⟨w, hw, hc⟩)
      refine ⟨?_, ?_, ?_, ?_⟩
      · show (addToParent (setUserDuration (setDuration imp.heap top.slice (jsDiv event.ts 1000))
          top.slice event.uts) rest top.slice)[r]? = some s0
        rw [getElem?_addToParent_ne _ _ _ _ hrest, getElem?_setUserDuration_ne _ _ _ _ hne,
          getElem?_setDuration_ne _ _ _ _ hne]
        exact h.heap_eq
      · intro q2
        by_cases hq : q2 = q
        · subst hq
          rw [getState_mk_jsSet_self]
          simp only [ThreadState.stackRefs]
          exact hoff.1
        · rw [getState_mk_jsSet_other imp _ _ _ q q2 _ hq]
          exact h.off_stack q2
      · intro q2 key w hmem hw
        by_cases hq : q2 = q
        · subst hq
          rw [getState_mk_jsSet_self] at hmem
          exact h.only_key q2 key w hmem hw
        · rw [getState_mk_jsSet_other imp _ _ _ q q2 _ hq] at hmem
          exact h.only_key q2 key w hmem hw
      · intro pid tid hin
        apply h.not_added pid tid
        exact inThread_withThread imp.model event.pid event.tid _ r
          (fun t ht => inThread_pushSubrow t _ _ r hne ht) pid tid hin

theorem abandoned_importStep {p : PTID} {id : String} {r : Nat} {s0 : TimelineSlice}
    {m0 : TimelineModel} {imp : TraceEventImporter} (h : Abandoned p id r s0 m0 imp)
    (env : Env) (eI : Nat) (event : TraceEvent)
    (hno : ¬ (event.ph = "E" ∧ event.ptid = p ∧ event.nonNested = true ∧
      sliceIDOf env event = id)) :
    Abandoned p id r s0 m0 (importStep env imp eI event) := by
  have h1 := abandoned_ensureState h event.ptid
  have hlt := abandoned_lt h
  unfold importStep
  dsimp only
  split
  · exact abandoned_processBegin h1 env eI event.ptid event
  split
  · rename_i _ hE
    apply abandoned_processEnd h1 env event.ptid event
    intro hn w hg hw
    have hmem := jsGet_some_mem _ _ _ hg
    obtain ⟨e1, e2⟩ := h1.only_key _ _ _ hmem hw
    exact hno ⟨hE, e1, hn, e2⟩
  split
  · apply abandoned_processEnd (abandoned_processBegin h1 env eI event.ptid event) env
      event.ptid event
    intro hn w hg hw
    rw [processBegin_nonNested env _ eI event.ptid event hn, getState_mk_jsSet_self] at hg
    simp only [jsGet_jsSet_self, Option.some.injEq] at hg
    rw [← hg, heap_ensureState] at hw
    simp only at hw
    omega
  split
  · refine ⟨?_, ?_, ?_, ?_⟩
    · rw [processCounter_heap]
      exact h1.heap_eq
    · intro q
      have : (processCounter env (ensureState imp event.ptid) event).getState q =
          (ensureState imp event.ptid).getState q := by
        simp [TraceEventImporter.getState, processCounter_states]
      rw [this]
      exact h1.off_stack q
    · intro q key w
      have : (processCounter env (ensureState imp event.ptid) event).getState q =
          (ensureState imp event.ptid).getState q := by
        simp [TraceEventImporter.getState, processCounter_states]
      rw [this]
      exact h1.only_key q key w
    · intro pid tid
      rw [processCounter_getThread]
      exact h1.not_added pid tid
  split
  · split
    · refine ⟨h1.heap_eq, h1.off_stack, h1.only_key, ?_⟩
      intro pid tid hin
      apply h1.not_added pid tid
      exact inThread_withThread _ event.pid event.tid
        (fun t => { t with name := jsGet event.args "name" }) r (fun t ht => ht) pid tid hin
    · exact ⟨h1.heap_eq, h1.off_stack, h1.only_key, h1.not_added⟩
  · exact ⟨h1.heap_eq, h1.off_stack, h1.only_key, h1.not_added⟩

/-- The state right after a non-nested B event was handled. -/
theorem abandoned_begin (env : Env) (imp : TraceEventImporter) (hb : RefsBounded imp)
    (eI : Nat) (b : TraceEvent) (hph : b.ph = "B") (hn : b.nonNested = true)
    (m0 : TimelineModel)
    (hm : ∀ pid tid, InThread (imp.model.getThread pid tid) imp.heap.length →
      InThread (m0.getThread pid tid) imp.heap.length) :
    Abandoned b.ptid (sliceIDOf env b) imp.heap.length (newSlice env b) m0
      (importStep env imp eI b) := by
  have hb1 : RefsBounded (ensureState imp b.ptid) := by
    intro q x hx
    rw [getState_ensureState] at hx
    rw [heap_ensureState]
    exact hb q x hx
  unfold importStep
  dsimp only
  rw [if_pos hph, processBegin_nonNested env _ eI b.ptid b hn]
  simp only [heap_ensureState, getState_ensureState, model_ensureState, events_ensureState]
  refine ⟨?_, ?_, ?_, ?_⟩
  · show (imp.heap ++ [newSlice env b])[imp.heap.length]? = some (newSlice env b)
    simp
  · intro q hq
    by_cases hqp : q = b.ptid
    · subst hqp
      rw [getState_mk_jsSet_self] at hq
      have := hb _ _ (mem_stackRefs_openRefs _ _ hq)
      omega
    · rw [getState_mk_jsSet_other (ensureState imp b.ptid) _ _ _ b.ptid q _ hqp,
        getState_ensureState] at hq
      have := hb _ _ (mem_stackRefs_openRefs _ _ hq)
      omega
  · intro q key w hmem hw
    by_cases hqp : q = b.ptid
    · subst hqp
      refine ⟨rfl, ?_⟩
      rw [getState_mk_jsSet_self] at hmem
      rcases mem_values_jsSet _ _ _ _ hmem with he | hm2
      · exact congrArg Prod.fst he
      · exfalso
        have : w.slice ∈ (imp.getState b.ptid).openRefs := by
          simp only [ThreadState.openRefs, List.mem_append]
          right
          exact List.mem_map.mpr ⟨_, hm2, rfl⟩
        have := hb _ _ this
        omega
    · exfalso
      rw [getState_mk_jsSet_other (ensureState imp b.ptid) _ _ _ b.ptid q _ hqp,
        getState_ensureState] at hmem
      have : w.slice ∈ (imp.getState q).openRefs := by
        simp only [ThreadState.openRefs, List.mem_append]
        right
        exact List.mem_map.mpr ⟨_, hmem, rfl⟩
      have := hb _ _ this
      omega
  · intro pid tid hin
    apply hm pid tid
    dsimp only at hin
    split at hin
    · exact hin
    · exact hin

theorem abandoned_stateAt {p : PTID} {id : String} {r : Nat} {s0 : TimelineSlice}
    {m0 : TimelineModel} (env : Env) (imp : TraceEventImporter) (k : Nat)
    (h : Abandoned p id r s0 m0 (stateAt env imp k))
    (hno : ∀ j e, k ≤ j → imp.events[j]? = some e → e.ph = "E" → e.ptid = p →
      e.nonNested = true → sliceIDOf env e ≠ id) (n : Nat) :
    Abandoned p id r s0 m0 (stateAt env imp (k + n)) := by
  induction n with
  | zero => exact h
  | succ n ih =>
    cases hev : imp.events[k + n]? with
    | none =>
      rw [← Nat.add_assoc, stateAt_succ_none env imp _ hev]
      exact ih
    | some e =>
      rw [← Nat.add_assoc, stateAt_succ env imp _ e hev]
      apply abandoned_importStep ih
      rintro ⟨h1, h2, h3, h4⟩
      exact hno (k + n) e (by omega) hev h1 h2 h3 h4

/-! The model after the closing loops. -/

theorem closeRows_nil (t : TimelineThread) : closeRows t [] = t := rfl

theorem closeRows_concat (t : TimelineThread) (rest : List Nat) (top : Nat) :
    closeRows t (rest ++ [top]) = closeRows (t.pushSubrow rest.length top) rest := by
  unfold closeRows
  rw [List.reverse_append, List.reverse_singleton, List.singleton_append, closeRowsFrom,
    List.length_reverse]

theorem counters_withThread (m : TimelineModel) (pid tid : Nat)
    (f : TimelineThread → TimelineThread) (pid2 : Nat) :
    ((m.withThread pid tid f).getProcess pid2).counters = (m.getProcess pid2).counters := by
  by_cases hp : pid2 = pid
  · subst hp
    simp [TimelineModel.withThread, TimelineModel.getProcess, jsGet_jsSet_self]
  · simp [TimelineModel.withThread, TimelineModel.getProcess, jsGet_jsSet_ne _ _ _ _ hp]

theorem pushToThreadOfEvent_eq (imp : TraceEventImporter) (index i r : Nat) (ev : TraceEvent)
    (h : imp.events[index]? = some ev) :
    pushToThreadOfEvent imp index i r =
      imp.model.withThread ev.pid ev.tid (fun thread => thread.pushSubrow i r) := by
  unfold pushToThreadOfEvent
  rw [h]

/-- What one closing loop does to the model: the thread of the PTID receives the slices of
the stack, other threads, the counters, the errors and the bounds stay. -/
theorem autoCloseThread_model (T : ℚ) (q : PTID) (ws : List OpenSlice)
    (acc : TraceEventImporter) (hs : (acc.getState q).openSlices = ws)
    (hidx : ∀ w ∈ ws, ∃ ev, acc.events[w.index]? = some ev ∧ ev.ptid = q) :
    (autoCloseThread T ws.length acc q).model.getThread q.1 q.2 =
      closeRows (acc.model.getThread q.1 q.2) (ws.map (fun w => w.slice)) ∧
    (∀ pid, ((autoCloseThread T ws.length acc q).model.getProcess pid).counters =
      (acc.model.getProcess pid).counters) ∧
    (autoCloseThread T ws.length acc q).model.importErrors = acc.model.importErrors ∧
    (autoCloseThread T ws.length acc q).model.minTimestamp = acc.model.minTimestamp ∧
    (autoCloseThread T ws.length acc q).model.maxTimestamp = acc.model.maxTimestamp ∧
    (autoCloseThread T ws.length acc q).events = acc.events ∧
    ((autoCloseThread T ws.length acc q).getState q).openNonNestedSlices =
      (acc.getState q).openNonNestedSlices ∧
    ((autoCloseThread T ws.length acc q).getState q).openSlices = [] ∧
    (∀ pid tid, (pid, tid) ≠ q →
      (autoCloseThread T ws.length acc q).model.getThread pid tid =
        acc.model.getThread pid tid) := by
  induction ws using List.reverseRecOn generalizing acc with
  | nil => exact ⟨rfl, fun _ => rfl, rfl, rfl, rfl, rfl, rfl, hs, fun _ _ _ => rfl⟩
  | append_singleton rest top ih =>
    have hlen : (rest ++ [top]).length = rest.length + 1 := by simp
    have hunf : autoCloseThread T (rest.length + 1) acc q =
        autoCloseThread T rest.length (autoClosePop T acc q) q := rfl
    rw [hlen, hunf]
    obtain ⟨ev, hev, hevq⟩ := hidx top (by simp)
    have hpop := autoClosePop_pop T acc q rest top hs
    have hst : ((autoClosePop T acc q).getState q).openSlices = rest := by
      rw [hpop, getState_mk_jsSet_self]
    have hev1 : (autoClosePop T acc q).events = acc.events := by rw [hpop]
    have hmodel : (autoClosePop T acc q).model =
        acc.model.withThread q.1 q.2 (fun thread => thread.pushSubrow rest.length top.slice) := by
      rw [hpop]
      show pushToThreadOfEvent acc top.index rest.length top.slice = _
      rw [pushToThreadOfEvent_eq acc _ _ _ ev hev, ← hevq]
      rfl
    have hmap : ((autoClosePop T acc q).getState q).openNonNestedSlices =
        (acc.getState q).openNonNestedSlices := by
      rw [hpop, getState_mk_jsSet_self]
    obtain ⟨i1, i2, i3, i4, i5, i6, i7, i8, i9⟩ := ih (autoClosePop T acc q) hst (by
      intro w hw
      rw [hev1]
      exact hidx w (List.mem_append_left _ hw))
    refine ⟨?_, ?_, ?_, ?_, ?_, ?_, ?_, i8, ?_⟩
    · rw [i1, hmodel, getThread_withThread_self, List.map_append, List.map_cons, List.map_nil,
        closeRows_concat, List.length_map]
    · intro pid
      rw [i2, hmodel, counters_withThread]
    · rw [i3, hmodel]
      rfl
    · rw [i4, hmodel]
      rfl
    · rw [i5, hmodel]
      rfl
    · rw [i6, hev1]
    · rw [i7, hmap]
    · intro pid tid hne
      rw [i9 pid tid hne, hmodel, getThread_withThread_ne _ _ _ _ _ _ hne]

/-- What the closing loops do to the model, thread by thread: a thread receives the slices
of the stack of its PTID; the counters, the errors and the bounds stay. -/
theorem autoCloseAll_model (T : ℚ) (keys : List PTID) (acc : TraceEventImporter)
    (hidx : ∀ q, ∀ w ∈ (acc.getState q).openSlices,
      ∃ ev, acc.events[w.index]? = some ev ∧ ev.ptid = q)
    (hk : ∀ q, (acc.getState q).openSlices ≠ [] → q ∈ keys) :
    (∀ pid tid, (autoCloseAll T keys acc).model.getThread pid tid =
      closeRows (acc.model.getThread pid tid) ((acc.getState (pid, tid)).stackRefs)) ∧
    (∀ pid, ((autoCloseAll T keys acc).model.getProcess pid).counters =
      (acc.model.getProcess pid).counters) ∧
    (autoCloseAll T keys acc).model.importErrors = acc.model.importErrors ∧
    (autoCloseAll T keys acc).model.minTimestamp = acc.model.minTimestamp ∧
    (autoCloseAll T keys acc).model.maxTimestamp = acc.model.maxTimestamp ∧
    (∀ q, ((autoCloseAll T keys acc).getState q).openNonNestedSlices =
      (acc.getState q).openNonNestedSlices) ∧
    (∀ q, ((autoCloseAll T keys acc).getState q).openSlices = []) := by
  induction keys generalizing acc with
  | nil =>
    have hall : ∀ q, (acc.getState q).openSlices = [] := by
      intro q
      by_contra hc
      simpa using hk q hc
    refine ⟨?_, fun _ => rfl, rfl, rfl, rfl, fun _ => rfl, hall⟩
    intro pid tid
    simp only [ThreadState.stackRefs, hall, List.map_nil]
    rfl
  | cons q keys ih =>
    rw [autoCloseAll_cons]
    obtain ⟨m1, m2, m3, m4, m5, m6, m7, m8, m9⟩ :=
      autoCloseThread_model T q (acc.getState q).openSlices acc rfl (hidx q)
    have F := heapFrame_autoCloseThread T (acc.getState q).openSlices.length acc q
    have hidx1 : ∀ q2, ∀ w ∈
        ((autoCloseThread T (acc.getState q).openSlices.length acc q).getState q2).openSlices,
        ∃ ev, (autoCloseThread T (acc.getState q).openSlices.length acc q).events[w.index]? =
          some ev ∧ ev.ptid = q2 := by
      intro q2 w hw
      by_cases hq : q2 = q
      · subst hq
        rw [m8] at hw
        cases hw
      · rw [F.state_ne q2 hq] at hw
        rw [m6]
        exact hidx q2 w hw
    have hk1 : ∀ q2,
        ((autoCloseThread T (acc.getState q).openSlices.length acc q).getState q2).openSlices
          ≠ [] → q2 ∈ keys := by
      intro q2 hne
      by_cases hq : q2 = q
      · subst hq
        exact absurd m8 hne
      · rw [F.state_ne q2 hq] at hne
        rcases List.mem_cons.mp (hk q2 hne) with h1 | h1
        · exact absurd h1 hq
        · exact h1
    obtain ⟨a1, a2, a3, a4, a5, a6, a7⟩ := ih _ hidx1 hk1
    refine ⟨?_, ?_, ?_, ?_, ?_, ?_, a7⟩
    · intro pid tid
      rw [a1]
      by_cases hq : (pid, tid) = q
      · subst hq
        rw [m1]
        simp only [ThreadState.stackRefs, m8, List.map_nil]
        rfl
      · rw [m9 pid tid hq, F.state_ne _ hq]
    · intro pid
      rw [a2, m2]
    · rw [a3, m3]
    · rw [a4, m4]
    · rw [a5, m5]
    · intro q2
      rw [a6]
      by_cases hq : q2 = q
      · subst hq
        exact m7
      · rw [F.state_ne q2 hq]

theorem inThread_closeRows (t : TimelineThread) (refs : List Nat) (r : Nat)
    (h : InThread (closeRows t refs) r) : InThread t r ∨ r ∈ refs := by
  induction refs using List.reverseRecOn generalizing t with
  | nil => exact Or.inl h
  | append_singleton rest top ih =>
    rw [closeRows_concat] at h
    rcases ih _ h with h1 | h1
    · by_cases hr : top = r
      · right
        simp [hr]
      · left
        exact inThread_pushSubrow t _ _ r hr h1
    · right
      exact List.mem_append_left _ h1

/-- What `autoCloseOpenSlices` does to the model, thread by thread. -/
theorem autoCloseOpenSlices_model (imp : TraceEventImporter) (hwf : WellFormed imp) :
    (∀ pid tid, (autoCloseOpenSlices imp).model.getThread pid tid =
      closeRows (imp.model.getThread pid tid) ((imp.getState (pid, tid)).stackRefs)) ∧
    (∀ pid, ((autoCloseOpenSlices imp).model.getProcess pid).counters =
      (imp.model.getProcess pid).counters) ∧
    (autoCloseOpenSlices imp).model.importErrors = imp.model.importErrors ∧
    (∀ q, ((autoCloseOpenSlices imp).getState q).openNonNestedSlices =
      (imp.getState q).openNonNestedSlices) ∧
    (∀ q, ((autoCloseOpenSlices imp).getState q).openSlices = []) := by
  rw [autoCloseOpenSlices_eq]
  cases hT : realMaxTimestamp (updateBounds imp.model imp.heap).maxTimestamp
      (openTimestamps { imp with model := updateBounds imp.model imp.heap }) with
  | none =>
    have hall : ∀ q, (imp.getState q).openSlices = [] := by
      intro q
      by_contra hc
      exact openTimestamps_ne_nil { imp with model := updateBounds imp.model imp.heap } q
        hwf.bounded hc (realMaxTimestamp_none _ _ hT)
    refine ⟨?_, fun _ => rfl, rfl, fun _ => rfl, hall⟩
    intro pid tid
    simp only [ThreadState.stackRefs, hall, List.map_nil]
    rfl
  | some T =>
    obtain ⟨a1, a2, a3, _, _, a6, a7⟩ := autoCloseAll_model T
      (imp.threadStateByPTID.map Prod.fst)
      { imp with model := updateBounds imp.model imp.heap } hwf.index_ok
      (fun q hq => List.mem_map.mpr ⟨_, entry_of_open_stack imp q hq, rfl⟩)
    exact ⟨a1, a2, a3, a6, a7⟩

/-! Uniqueness of dictionary keys. -/

/-- What `importEvents` leaves in the model, thread by thread, in terms of the state at the
end of its loop. -/
theorem importEvents_model (env : Env) (imp : TraceEventImporter) (hwf : WellFormed imp) :
    (∀ pid tid, (importEvents env imp).model.getThread pid tid =
      closeRows ((stateAt env imp imp.events.length).model.getThread pid tid)
        (((stateAt env imp imp.events.length).getState (pid, tid)).stackRefs)) ∧
    (∀ pid, ((importEvents env imp).model.getProcess pid).counters =
      ((stateAt env imp imp.events.length).model.getProcess pid).counters) ∧
    (importEvents env imp).model.importErrors =
      (stateAt env imp imp.events.length).model.importErrors ∧
    (∀ q, ((importEvents env imp).getState q).openSlices = []) := by
  have hwf2 := wellFormed_stateAt env imp hwf imp.events.length
  unfold importEvents
  dsimp only
  split
  · obtain ⟨a1, a2, a3, _, a5⟩ := autoCloseOpenSlices_model _ hwf2
    exact ⟨a1, a2, a3, a5⟩
  · rename_i hno
    simp only [Bool.not_eq_true] at hno
    have hall := no_open_stack_of_hasOpenSlices_false _ hno
    refine ⟨?_, fun _ => rfl, rfl, hall⟩
    intro pid tid
    simp only [ThreadState.stackRefs, hall, List.map_nil]
    rfl

theorem keys_jsSet {κ α : Type} [DecidableEq κ] (m : List (κ × α)) (k : κ) (v : α) :
    (jsSet m k v).map Prod.fst =
      if k ∈ m.map Prod.fst then m.map Prod.fst else m.map Prod.fst ++ [k] := by
  induction m with
  | nil => simp [jsSet]
  | cons x m ih =>
    obtain ⟨k1, v1⟩ := x
    unfold jsSet
    by_cases h : k1 = k
    · subst h
      simp
    · have h2 : ¬ k = k1 := fun hc => h hc.symm
      simp only [if_neg h, List.map_cons, ih, List.mem_cons, h2, false_or]
      split <;> simp

theorem keysNodup_jsSet {κ α : Type} [DecidableEq κ] (m : List (κ × α)) (k : κ) (v : α)
    (h : KeysNodup m) : KeysNodup (jsSet m k v) := by
  unfold KeysNodup at *
  rw [keys_jsSet]
  split
  · exact h
  · rename_i hk
    rw [List.nodup_append]
    refine ⟨h, List.nodup_singleton k, ?_⟩
    intro a ha hb
    simp only [List.mem_singleton] at hb
    subst hb
    exact hk ha

theorem jsGet_of_mem {κ α : Type} [DecidableEq κ] (m : List (κ × α)) (k : κ) (v : α)
    (h : KeysNodup m) (hm : (k, v) ∈ m) : jsGet m k = some v := by
  induction m with
  | nil => cases hm
  | cons x m ih =>
    obtain ⟨k1, v1⟩ := x
    unfold KeysNodup at h
    simp only [List.map_cons, List.nodup_cons] at h
    unfold jsGet
    rcases List.mem_cons.mp hm with he | hm2
    · cases he
      simp
    · have hne : k1 ≠ k := by
        intro hc
        subst hc
        exact h.1 (List.mem_map.mpr ⟨(k1, v), hm2, rfl⟩)
      rw [if_neg hne]
      exact ih h.2 hm2

theorem keysNodup_importStep (env : Env) (imp : TraceEventImporter) (eI : Nat)
    (event : TraceEvent) (h : KeysNodup imp.threadStateByPTID) :
    KeysNodup (importStep env imp eI event).threadStateByPTID := by
  have h1 : KeysNodup (ensureState imp event.ptid).threadStateByPTID := by
    unfold ensureState
    split
    · exact h
    · exact keysNodup_jsSet _ _ _ h
  have hB : ∀ (a : TraceEventImporter) (i : Nat), KeysNodup a.threadStateByPTID →
      KeysNodup (processBegin env a i event.ptid event).threadStateByPTID := by
    intro a i ha
    unfold processBegin
    dsimp only
    split
    · exact keysNodup_jsSet _ _ _ ha
    · exact keysNodup_jsSet _ _ _ ha
  have hE : ∀ (a : TraceEventImporter), KeysNodup a.threadStateByPTID →
      KeysNodup (processEnd env a event.ptid event).threadStateByPTID := by
    intro a ha
    unfold processEnd
    dsimp only
    split
    · split
      · exact ha
      · exact keysNodup_jsSet _ _ _ ha
    · split
      · exact ha
      · exact keysNodup_jsSet _ _ _ ha
  unfold importStep
  dsimp only
  split
  · exact hB _ _ h1
  split
  · exact hE _ h1
  split
  · exact hE _ (hB _ _ h1)
  split
  · rw [processCounter_states]
    exact h1
  split
  · split
    · exact h1
    · exact h1
  · exact h1

theorem keysNodup_stateAt (env : Env) (imp : TraceEventImporter)
    (h : KeysNodup imp.threadStateByPTID) (k : Nat) :
    KeysNodup (stateAt env imp k).threadStateByPTID := by
  induction k with
  | zero => exact h
  | succ k ih =>
    cases hev : imp.events[k]? with
    | none =>
      rw [stateAt_succ_none env imp _ hev]
      exact ih
    | some e =>
      rw [stateAt_succ env imp _ e hev]
      exact keysNodup_importStep env _ k e ih

theorem hasOpenSlices_eq_false (imp : TraceEventImporter)
    (hk : KeysNodup imp.threadStateByPTID)
    (h : ∀ q, (imp.getState q).openSlices = []) : hasOpenSlices imp = false := by
  unfold hasOpenSlices
  rw [List.any_eq_false]
  rintro ⟨q, st⟩ hmem
  have hg := jsGet_of_mem _ _ _ hk hmem
  have : imp.getState q = st := by simp [TraceEventImporter.getState, hg]
  have h2 := h q
  rw [this] at h2
  simp [h2]

/-! The loop stores only slices of the heap. -/

theorem inThread_pushSubrow_cases (t : TimelineThread) (i x r : Nat)
    (h : InThread (t.pushSubrow i x) r) : InThread t r ∨ r = x := by
  by_cases hx : x = r
  · exact Or.inr hx.symm
  · exact Or.inl (inThread_pushSubrow t i x r hx h)

theorem inThread_addNonNestedSlice_cases (t : TimelineThread) (x r : Nat)
    (h : InThread (t.addNonNestedSlice x) r) : InThread t r ∨ r = x := by
  by_cases hx : x = r
  · exact Or.inr hx.symm
  · exact Or.inl (inThread_addNonNestedSlice t x r hx h)

theorem inThread_processBegin (env : Env) (imp : TraceEventImporter) (index : Nat) (q : PTID)
    (event : TraceEvent) (pid tid x : Nat)
    (h : InThread ((processBegin env imp index q event).model.getThread pid tid) x) :
    InThread (imp.model.getThread pid tid) x := by
  unfold processBegin at h
  dsimp only at h
  split at h
  · dsimp only at h
    split at h
    · exact h
    · exact h
  · exact h

theorem inThread_processEnd (env : Env) (imp : TraceEventImporter) (q : PTID)
    (event : TraceEvent) (hb : RefsBounded imp) (pid tid x : Nat)
    (h : InThread ((processEnd env imp q event).model.getThread pid tid) x) :
    InThread (imp.model.getThread pid tid) x ∨ x < imp.heap.length := by
  by_cases hn : event.nonNested = true
  · cases hg : jsGet (imp.getState q).openNonNestedSlices (sliceIDOf env event) with
    | none =>
      rw [processEnd_nonNested_none env imp q event hn hg] at h
      exact Or.inl h
    | some slice =>
      rw [processEnd_nonNested_some env imp q event hn slice hg] at h
      by_cases hx : slice.slice = x
      · right
        rw [← hx]
        apply hb q
        simp only [ThreadState.openRefs, List.mem_append]
        right
        exact List.mem_map.mpr ⟨_, jsGet_some_mem _ _ _ hg, rfl⟩
      · left
        exact inThread_withThread imp.model event.pid event.tid _ x
          (fun t ht => inThread_addNonNestedSlice t _ x hx ht) pid tid h
  · simp only [Bool.not_eq_true] at hn
    rcases eq_nil_or_concat_list (imp.getState q).openSlices with hs | ⟨rest, top, hs⟩
    · rw [processEnd_nested_empty env imp q event hn hs] at h
      exact Or.inl h
    · rw [processEnd_nested_pop env imp q event hn rest top hs] at h
      by_cases hx : top.slice = x
      · right
        rw [← hx]
        apply hb q
        simp only [ThreadState.openRefs, List.mem_append, hs]
        left
        exact List.mem_map.mpr ⟨top, by simp, rfl⟩
      · left
        exact inThread_withThread imp.model event.pid event.tid _ x
          (fun t ht => inThread_pushSubrow t _ _ x hx ht) pid tid h

theorem refsBounded_ensureState (imp : TraceEventImporter) (q : PTID) (hb : RefsBounded imp) :
    RefsBounded (ensureState imp q) := by
  intro p x hx
  rw [getState_ensureState] at hx
  rw [heap_ensureState]
  exact hb p x hx

/-- A loop iteration stores in the threads only slices of the heap. -/
theorem inThread_importStep (env : Env) (imp : TraceEventImporter) (eI : Nat)
    (event : TraceEvent) (hb : RefsBounded imp) (pid tid x : Nat)
    (h : InThread ((importStep env imp eI event).model.getThread pid tid) x) :
    InThread (imp.model.getThread pid tid) x ∨
      x < (importStep env imp eI event).heap.length := by
  have hb1 := refsBounded_ensureState imp event.ptid hb
  unfold importStep at h ⊢
  dsimp only at h ⊢
  by_cases hB : event.ph = "B"
  · simp only [if_pos hB] at h ⊢
    left
    have := inThread_processBegin env _ eI event.ptid event pid tid x h
    rw [model_ensureState] at this
    exact this
  simp only [if_neg hB] at h ⊢
  by_cases hE : event.ph = "E"
  · simp only [if_pos hE] at h ⊢
    have F := stepFrame_processEnd env (ensureState imp event.ptid) event
    rcases inThread_processEnd env _ event.ptid event hb1 pid tid x h with h1 | h1
    · left
      rw [model_ensureState] at h1
      exact h1
    · right
      exact lt_of_lt_of_le h1 F.heap_le
  simp only [if_neg hE] at h ⊢
  by_cases hI : event.ph = "I"
  · simp only [if_pos hI] at h ⊢
    have hb2 : RefsBounded (processBegin env (ensureState imp event.ptid) eI event.ptid event) :=
      refsBounded_step (stepFrame_processBegin env _ eI event.ptid event) hb1
    have F := stepFrame_processEnd env
      (processBegin env (ensureState imp event.ptid) eI event.ptid event) event
    rcases inThread_processEnd env _ event.ptid event hb2 pid tid x h with h1 | h1
    · left
      have := inThread_processBegin env _ eI event.ptid event pid tid x h1
      rw [model_ensureState] at this
      exact this
    · right
      exact lt_of_lt_of_le h1 F.heap_le
  simp only [if_neg hI] at h ⊢
  left
  split at h
  · rw [processCounter_getThread, model_ensureState] at h
    exact h
  split at h
  · split at h
    · have := inThread_withThread _ event.pid event.tid
        (fun t => { t with name := jsGet event.args "name" }) x (fun t ht => ht) pid tid h
      rw [model_ensureState] at this
      exact this
    · have h2 : InThread ((ensureState imp event.ptid).model.getThread pid tid) x := h
      rw [model_ensureState] at h2
      exact h2
  · have h2 : InThread ((ensureState imp event.ptid).model.getThread pid tid) x := h
    rw [model_ensureState] at h2
    exact h2

/-! Two runs in step. -/

/-- The loop stores in the threads only slices of the heap. -/
theorem inThread_stateAt (env : Env) (imp : TraceEventImporter) (hb : RefsBounded imp)
    (k : Nat) (pid tid x : Nat)
    (h : InThread ((stateAt env imp k).model.getThread pid tid) x) :
    InThread (imp.model.getThread pid tid) x ∨ x < (stateAt env imp k).heap.length := by
  induction k with
  | zero => exact Or.inl h
  | succ k ih =>
    cases hev : imp.events[k]? with
    | none =>
      rw [stateAt_succ_none env imp _ hev] at h ⊢
      exact ih h
    | some e =>
      rw [stateAt_succ env imp _ e hev] at h ⊢
      rcases inThread_importStep env _ k e (refsBounded_stateAt env imp hb k) pid tid x h
        with h1 | h1
      · rcases ih h1 with h2 | h2
        · exact Or.inl h2
        · right
          exact lt_of_lt_of_le h2 (stepFrame_importStep env _ k e).heap_le
      · exact Or.inr h1

theorem jsGet_map_values {κ α β : Type} [DecidableEq κ] (m : List (κ × α)) (g : α → β) (k : κ) :
    jsGet (m.map (fun kv => (kv.1, g kv.2))) k = (jsGet m k).map g := by
  induction m with
  | nil => rfl
  | cons x m ih =>
    obtain ⟨k1, v1⟩ := x
    simp only [List.map_cons, jsGet]
    split
    · rfl
    · exact ih

theorem jsSet_map_values {κ α β : Type} [DecidableEq κ] (m : List (κ × α)) (g : α → β) (k : κ)
    (v : α) :
    (jsSet m k v).map (fun kv => (kv.1, g kv.2)) =
      jsSet (m.map (fun kv => (kv.1, g kv.2))) k (g v) := by
  induction m with
  | nil => rfl
  | cons x m ih =>
    obtain ⟨k1, v1⟩ := x
    simp only [List.map_cons, jsSet]
    split
    · rfl
    · simp only [List.map_cons, ih]

theorem jsDelete_map_values {κ α β : Type} [DecidableEq κ] (m : List (κ × α)) (g : α → β)
    (k : κ) :
    (jsDelete m k).map (fun kv => (kv.1, g kv.2)) =
      jsDelete (m.map (fun kv => (kv.1, g kv.2))) k := by
  induction m with
  | nil => rfl
  | cons x m ih =>
    obtain ⟨k1, v1⟩ := x
    simp only [List.map_cons, jsDelete]
    split
    · exact ih
    · simp only [List.map_cons, ih]

theorem sameData_stack {E : List String → List String → Prop} {a b : TraceEventImporter}
    (h : SameData E a b) (p : PTID) :
    (a.getState p).openSlices.map OpenSlice.forgetIndex =
      (b.getState p).openSlices.map OpenSlice.forgetIndex :=
  congrArg ThreadState.openSlices (h.states p)

theorem sameData_dict {E : List String → List String → Prop} {a b : TraceEventImporter}
    (h : SameData E a b) (p : PTID) :
    (a.getState p).openNonNestedSlices.map (fun kv => (kv.1, kv.2.forgetIndex)) =
      (b.getState p).openNonNestedSlices.map (fun kv => (kv.1, kv.2.forgetIndex)) :=
  congrArg ThreadState.openNonNestedSlices (h.states p)

theorem sameData_jsGet {E : List String → List String → Prop} {a b : TraceEventImporter}
    (h : SameData E a b) (p : PTID) (k : String) :
    (jsGet (a.getState p).openNonNestedSlices k).map OpenSlice.forgetIndex =
      (jsGet (b.getState p).openNonNestedSlices k).map OpenSlice.forgetIndex := by
  rw [← jsGet_map_values, ← jsGet_map_values, sameData_dict h p]

theorem sameData_stackRefs {E : List String → List String → Prop} {a b : TraceEventImporter}
    (h : SameData E a b) (p : PTID) :
    (a.getState p).stackRefs = (b.getState p).stackRefs := by
  have := congrArg (List.map (fun w : OpenSlice => w.slice)) (sameData_stack h p)
  simpa [ThreadState.stackRefs, List.map_map, Function.comp_def, OpenSlice.forgetIndex]
    using this

theorem sameData_ensureState {E : List String → List String → Prop}
    {a b : TraceEventImporter} (h : SameData E a b) (p q : PTID) :
    SameData E (ensureState a p) (ensureState b q) where
  heap_eq := by rw [heap_ensureState, heap_ensureState]; exact h.heap_eq
  procs_eq := by rw [model_ensureState, model_ensureState]; exact h.procs_eq
  min_eq := by rw [model_ensureState, model_ensureState]; exact h.min_eq
  max_eq := by rw [model_ensureState, model_ensureState]; exact h.max_eq
  errs := by rw [model_ensureState, model_ensureState]; exact h.errs
  states := by
    intro r
    rw [getState_ensureState, getState_ensureState]
    exact h.states r

theorem sameData_processBegin {E : List String → List String → Prop}
    (hE : ∀ x y d, E x y → E (x ++ d) (y ++ d))
    {a b : TraceEventImporter} (h : SameData E a b) (env : Env) (ia ib : Nat) (p : PTID)
    (event : TraceEvent) :
    SameData E (processBegin env a ia p event) (processBegin env b ib p event) := by
  by_cases hn : event.nonNested = true
  · rw [processBegin_nonNested env a ia p event hn, processBegin_nonNested env b ib p event hn]
    have hsome : (jsGet (a.getState p).openNonNestedSlices (sliceIDOf env event)).isSome =
        (jsGet (b.getState p).openNonNestedSlices (sliceIDOf env event)).isSome := by
      have := congrArg Option.isSome (sameData_jsGet h p (sliceIDOf env event))
      simpa using this
    refine ⟨?_, ?_, ?_, ?_, ?_, ?_⟩
    · show a.heap ++ _ = b.heap ++ _
      rw [h.heap_eq]
    · dsimp only
      rw [hsome]
      split
      · exact h.procs_eq
      · exact h.procs_eq
    · dsimp only
      rw [hsome]
      split
      · exact h.min_eq
      · exact h.min_eq
    · dsimp only
      rw [hsome]
      split
      · exact h.max_eq
      · exact h.max_eq
    · dsimp only
      rw [hsome]
      split
      · exact hE _ _ _ h.errs
      · exact h.errs
    · intro q
      by_cases hq : q = p
      · subst hq
        rw [getState_mk_jsSet_self, getState_mk_jsSet_self]
        simp only [ThreadState.forgetIndex, jsSet_map_values]
        rw [sameData_stack h q, sameData_dict h q, h.heap_eq]
        rfl
      · rw [getState_mk_jsSet_other a _ _ _ p q _ hq, getState_mk_jsSet_other b _ _ _ p q _ hq]
        exact h.states q
  · simp only [Bool.not_eq_true] at hn
    rw [processBegin_nested env a ia p event hn, processBegin_nested env b ib p event hn]
    refine ⟨?_, h.procs_eq, h.min_eq, h.max_eq, h.errs, ?_⟩
    · show a.heap ++ _ = b.heap ++ _
      rw [h.heap_eq]
    · intro q
      by_cases hq : q = p
      · subst hq
        rw [getState_mk_jsSet_self, getState_mk_jsSet_self]
        simp only [ThreadState.forgetIndex, List.map_append, List.map_cons, List.map_nil]
        rw [sameData_stack h q, sameData_dict h q, h.heap_eq]
        rfl
      · rw [getState_mk_jsSet_other a _ _ _ p q _ hq, getState_mk_jsSet_other b _ _ _ p q _ hq]
        exact h.states q

theorem processes_withThread_congr (m1 m2 : TimelineModel) (h : m1.processes = m2.processes)
    (pid tid : Nat) (f : TimelineThread → TimelineThread) :
    (m1.withThread pid tid f).processes = (m2.withThread pid tid f).processes := by
  simp [TimelineModel.withThread, TimelineModel.getProcess, h]

theorem setRecordUserDuration_forgetIndex (heap : List TimelineSlice)
    (m : List (String × OpenSlice)) (k : String) (w : OpenSlice) (uts : Option ℚ) :
    (setRecordUserDuration heap m k w uts).map (fun kv => (kv.1, kv.2.forgetIndex)) =
      setRecordUserDuration heap (m.map (fun kv => (kv.1, kv.2.forgetIndex))) k w.forgetIndex
        uts := by
  unfold setRecordUserDuration
  dsimp only
  split
  · rw [jsSet_map_values]
    rfl
  · rfl

theorem addToParent_congr (heap : List TimelineSlice) (rest1 rest2 : List OpenSlice) (r : Nat)
    (h : rest1.map OpenSlice.forgetIndex = rest2.map OpenSlice.forgetIndex) :
    addToParent heap rest1 r = addToParent heap rest2 r := by
  have h2 : rest1.getLast?.map OpenSlice.forgetIndex =
      rest2.getLast?.map OpenSlice.forgetIndex := by
    rw [← List.getLast?_map, ← List.getLast?_map, h]
  unfold addToParent
  cases h1 : rest1.getLast? with
  | none =>
    rw [h1] at h2
    cases h3 : rest2.getLast? with
    | none => rfl
    | some w2 => rw [h3] at h2; cases h2
  | some w1 =>
    rw [h1] at h2
    cases h3 : rest2.getLast? with
    | none => rw [h3] at h2; cases h2
    | some w2 =>
      rw [h3] at h2
      have : w1.slice = w2.slice := by
        have := congrArg (fun o : Option OpenSlice => o.map (fun w => w.slice)) h2
        simpa [OpenSlice.forgetIndex] using this
      simp only [this]

theorem forgetIndex_concat_eq (rest1 : List OpenSlice) (top1 : OpenSlice) (l2 : List OpenSlice)
    (h : (rest1 ++ [top1]).map OpenSlice.forgetIndex = l2.map OpenSlice.forgetIndex) :
    ∃ rest2 top2, l2 = rest2 ++ [top2] ∧
      rest1.map OpenSlice.forgetIndex = rest2.map OpenSlice.forgetIndex ∧
      top1.forgetIndex = top2.forgetIndex := by
  rcases eq_nil_or_concat_list l2 with h2 | ⟨rest2, top2, h2⟩
  · subst h2
    simp at h
  · subst h2
    refine ⟨rest2, top2, rfl, ?_⟩
    simp only [List.map_append, List.map_cons, List.map_nil] at h
    have hlen : (rest1.map OpenSlice.forgetIndex).length =
        (rest2.map OpenSlice.forgetIndex).length := by
      have := congrArg List.length h
      simp only [List.length_append, List.length_map, List.length_cons, List.length_nil] at this
      simp only [List.length_map]
      omega
    obtain ⟨e1, e2⟩ := List.append_inj h hlen
    exact ⟨e1, by simpa using e2⟩

theorem sameData_processEnd {E : List String → List String → Prop}
    {a b : TraceEventImporter} (h : SameData E a b) (env : Env) (p : PTID)
    (event : TraceEvent) :
    SameData E (processEnd env a p event) (processEnd env b p event) := by
  by_cases hn : event.nonNested = true
  · have hg := sameData_jsGet h p (sliceIDOf env event)
    cases ha : jsGet (a.getState p).openNonNestedSlices (sliceIDOf env event) with
    | none =>
      rw [ha] at hg
      cases hb : jsGet (b.getState p).openNonNestedSlices (sliceIDOf env event) with
      | some wb => rw [hb] at hg; cases hg
      | none =>
        rw [processEnd_nonNested_none env a p event hn ha,
          processEnd_nonNested_none env b p event hn hb]
        exact h
    | some wa =>
      rw [ha] at hg
      cases hb : jsGet (b.getState p).openNonNestedSlices (sliceIDOf env event) with
      | none => rw [hb] at hg; cases hg
      | some wb =>
        rw [hb] at hg
        have hw : wa.forgetIndex = wb.forgetIndex := by simpa using hg
        have hsl : wa.slice = wb.slice := by
          have := congrArg OpenSlice.slice hw
          exact this
        rw [processEnd_nonNested_some env a p event hn wa ha,
          processEnd_nonNested_some env b p event hn wb hb]
        refine ⟨?_, ?_, h.min_eq, h.max_eq, h.errs, ?_⟩
        · show setDuration a.heap _ _ = setDuration b.heap _ _
          rw [h.heap_eq, hsl]
        · show (a.model.withThread _ _ _).processes = (b.model.withThread _ _ _).processes
          rw [hsl]
          exact processes_withThread_congr _ _ h.procs_eq _ _ _
        · intro q
          by_cases hq : q = p
          · subst hq
            rw [getState_mk_jsSet_self, getState_mk_jsSet_self]
            simp only [ThreadState.forgetIndex, jsDelete_map_values,
              setRecordUserDuration_forgetIndex]
            rw [sameData_stack h q, sameData_dict h q, h.heap_eq, hsl, hw]
          · rw [getState_mk_jsSet_other a _ _ _ p q _ hq,
              getState_mk_jsSet_other b _ _ _ p q _ hq]
            exact h.states q
  · simp only [Bool.not_eq_true] at hn
    have hst := sameData_stack h p
    rcases eq_nil_or_concat_list (a.getState p).openSlices with hs | ⟨rest, top, hs⟩
    · have hsb : (b.getState p).openSlices = [] := by
        rw [hs] at hst
        simpa using hst.symm
      rw [processEnd_nested_empty env a p event hn hs,
        processEnd_nested_empty env b p event hn hsb]
      exact h
    · rw [hs] at hst
      obtain ⟨rest2, top2, hsb, hrest, htop⟩ := forgetIndex_concat_eq rest top _ hst
      have hsl : top.slice = top2.slice := by
        have := congrArg OpenSlice.slice htop
        exact this
      have hlen : rest.length = rest2.length := by
        have := congrArg List.length hrest
        simpa using this
      rw [processEnd_nested_pop env a p event hn rest top hs,
        processEnd_nested_pop env b p event hn rest2 top2 hsb]
      refine ⟨?_, ?_, h.min_eq, h.max_eq, h.errs, ?_⟩
      · show addToParent _ rest _ = addToParent _ rest2 _
        rw [h.heap_eq, hsl, addToParent_congr _ rest rest2 _ hrest]
      · show (a.model.withThread _ _ _).processes = (b.model.withThread _ _ _).processes
        rw [hsl, hlen]
        exact processes_withThread_congr _ _ h.procs_eq _ _ _
      · intro q
        by_cases hq : q = p
        · subst hq
          rw [getState_mk_jsSet_self, getState_mk_jsSet_self]
          simp only [ThreadState.forgetIndex]
          rw [hrest, sameData_dict h q]
        · rw [getState_mk_jsSet_other a _ _ _ p q _ hq,
            getState_mk_jsSet_other b _ _ _ p q _ hq]
          exact h.states q

theorem sameData_processCounter {E : List String → List String → Prop}
    (hE : ∀ x y d, E x y → E (x ++ d) (y ++ d))
    {a b : TraceEventImporter} (h : SameData E a b) (env : Env) (event : TraceEvent) :
    SameData E (processCounter env a event) (processCounter env b event) := by
  have hp : a.model.getProcess event.pid = b.model.getProcess event.pid := by
    simp [TimelineModel.getProcess, h.procs_eq]
  have hst : ∀ q, (processCounter env a event).getState q = a.getState q := by
    intro q
    simp [TraceEventImporter.getState, processCounter_states]
  have hst2 : ∀ q, (processCounter env b event).getState q = b.getState q := by
    intro q
    simp [TraceEventImporter.getState, processCounter_states]
  refine ⟨?_, ?_, ?_, ?_, ?_, ?_⟩
  · rw [processCounter_heap, processCounter_heap]
    exact h.heap_eq
  · unfold processCounter
    dsimp only
    rw [hp, h.procs_eq]
    split <;> rfl
  · unfold processCounter
    dsimp only
    rw [hp]
    split
    · exact h.min_eq
    · exact h.min_eq
  · unfold processCounter
    dsimp only
    rw [hp]
    split
    · exact h.max_eq
    · exact h.max_eq
  · unfold processCounter
    dsimp only
    rw [hp]
    split
    · exact hE _ _ _ h.errs
    · exact h.errs
  · intro q
    rw [hst, hst2]
    exact h.states q

theorem sameData_of_model {E : List String → List String → Prop}
    {a b : TraceEventImporter} (h : SameData E a b) (ma mb : TimelineModel)
    (hp : ma.processes = mb.processes) (hmin : ma.minTimestamp = mb.minTimestamp)
    (hmax : ma.maxTimestamp = mb.maxTimestamp) (he : E ma.importErrors mb.importErrors) :
    SameData E { a with model := ma } { b with model := mb } :=
  ⟨h.heap_eq, hp, hmin, hmax, he, h.states⟩

/-- A loop iteration for the same event keeps two importers in step. -/
theorem sameData_importStep {E : List String → List String → Prop}
    (hE : ∀ x y d, E x y → E (x ++ d) (y ++ d))
    {a b : TraceEventImporter} (h : SameData E a b) (env : Env) (ia ib : Nat)
    (event : TraceEvent) :
    SameData E (importStep env a ia event) (importStep env b ib event) := by
  have h1 := sameData_ensureState h event.ptid event.ptid
  unfold importStep
  dsimp only
  split
  · exact sameData_processBegin hE h1 env ia ib event.ptid event
  split
  · exact sameData_processEnd h1 env event.ptid event
  split
  · exact sameData_processEnd (sameData_processBegin hE h1 env ia ib event.ptid event) env
      event.ptid event
  split
  · exact sameData_processCounter hE h1 env event
  split
  · split
    · exact sameData_of_model h1 _ _ (processes_withThread_congr _ _ h1.procs_eq _ _ _)
        h1.min_eq h1.max_eq h1.errs
    · exact sameData_of_model h1 _ _ h1.procs_eq h1.min_eq h1.max_eq (hE _ _ _ h1.errs)
  · exact sameData_of_model h1 _ _ h1.procs_eq h1.min_eq h1.max_eq (hE _ _ _ h1.errs)

/-! The closing time. -/

/-- The loop iteration for an unrecognized event pushes one string onto `importErrors` and
changes nothing else in the model or the heap. -/
theorem importStep_unrecognized (env : Env) (imp : TraceEventImporter) (eI : Nat)
    (event : TraceEvent) (hbad : event.unrecognized = true) :
    (importStep env imp eI event).model = imp.model.pushError (unrecognizedMessage event) ∧
    (importStep env imp eI event).heap = imp.heap ∧
    (importStep env imp eI event).events = imp.events ∧
    ∀ q, (importStep env imp eI event).getState q = imp.getState q := by
  unfold TraceEvent.unrecognized at hbad
  unfold importStep unrecognizedMessage
  dsimp only
  by_cases hM : event.ph = "M"
  · have hB : event.ph ≠ "B" := by rw [hM]; decide
    have hE : event.ph ≠ "E" := by rw [hM]; decide
    have hI : event.ph ≠ "I" := by rw [hM]; decide
    have hC : event.ph ≠ "C" := by rw [hM]; decide
    rw [if_pos hM] at hbad
    simp only [decide_eq_true_eq] at hbad
    simp only [if_neg hB, if_neg hE, if_neg hI, if_neg hC, if_pos hM, if_neg hbad]
    refine ⟨?_, ?_, ?_, ?_⟩
    · show (ensureState imp event.ptid).model.pushError _ = _
      rw [model_ensureState]
    · exact heap_ensureState _ _
    · exact events_ensureState _ _
    · intro q
      exact getState_ensureState _ _ _
  · rw [if_neg hM] at hbad
    simp only [decide_eq_true_eq] at hbad
    obtain ⟨hB, hE, hI, hC⟩ := hbad
    simp only [if_neg hB, if_neg hE, if_neg hI, if_neg hC, if_neg hM]
    refine ⟨?_, ?_, ?_, ?_⟩
    · show (ensureState imp event.ptid).model.pushError _ = _
      rw [model_ensureState]
    · exact heap_ensureState _ _
    · exact events_ensureState _ _
    · intro q
      exact getState_ensureState _ _ _

theorem foldl_max_mem (l : List ℚ) (x : ℚ) : l.foldl max x = x ∨ l.foldl max x ∈ l := by
  induction l generalizing x with
  | nil => exact Or.inl rfl
  | cons a l ih =>
    simp only [List.foldl_cons]
    rcases ih (max x a) with h | h
    · rw [h]
      rcases max_choice x a with h2 | h2
      · exact Or.inl h2
      · right
        rw [h2]
        exact List.mem_cons_self _ _
    · exact Or.inr (List.mem_cons_of_mem _ h)

theorem mathMax_mem (l : List ℚ) (o : ℚ) (h : mathMax l = some o) : o ∈ l := by
  cases l with
  | nil => simp [mathMax] at h
  | cons x xs =>
    simp only [mathMax, Option.some.injEq] at h
    subst h
    rcases foldl_max_mem xs x with h1 | h1
    · rw [h1]
      exact List.mem_cons_self _ _
    · exact List.mem_cons_of_mem _ h1

/-- The function `Math.max` depends only on the set of its arguments. -/
theorem mathMax_congr (l1 l2 : List ℚ) (h : ∀ x, x ∈ l1 ↔ x ∈ l2) :
    mathMax l1 = mathMax l2 := by
  cases h1 : mathMax l1 with
  | none =>
    have : l1 = [] := by
      cases l1 with
      | nil => rfl
      | cons x xs => simp [mathMax] at h1
    subst this
    cases l2 with
    | nil => rfl
    | cons y ys => exact absurd ((h y).mpr (List.mem_cons_self _ _)) (List.not_mem_nil _)
  | some m1 =>
    cases h2 : mathMax l2 with
    | none =>
      have : l2 = [] := by
        cases l2 with
        | nil => rfl
        | cons x xs => simp [mathMax] at h2
      subst this
      exact absurd ((h m1).mp (mathMax_mem l1 m1 h1)) (List.not_mem_nil _)
    | some m2 =>
      have a1 := mathMax_ge l1 m1 h1 m2 ((h m2).mpr (mathMax_mem l2 m2 h2))
      have a2 := mathMax_ge l2 m2 h2 m1 ((h m1).mp (mathMax_mem l1 m1 h1))
      rw [le_antisymm a2 a1]

theorem openTimestamps_eq (imp : TraceEventImporter) :
    openTimestamps imp = imp.threadStateByPTID.flatMap fun ps =>
      ps.2.openSlices.flatMap fun w => refTimestamps imp.heap w.slice := rfl

/-- The collected open timestamps, as a set, in terms of the state objects. -/
theorem mem_openTimestamps (imp : TraceEventImporter) (hk : KeysNodup imp.threadStateByPTID)
    (x : ℚ) :
    x ∈ openTimestamps imp ↔
      ∃ p, ∃ r ∈ (imp.getState p).stackRefs, x ∈ refTimestamps imp.heap r := by
  rw [openTimestamps_eq]
  simp only [List.mem_flatMap]
  constructor
  · rintro ⟨⟨p, st⟩, hmem, w, hw, hx⟩
    have hg := jsGet_of_mem _ _ _ hk hmem
    have hst : imp.getState p = st := by simp [TraceEventImporter.getState, hg]
    exact ⟨p, w.slice, by rw [hst]; exact List.mem_map.mpr ⟨w, hw, rfl⟩, hx⟩
  · rintro ⟨p, r, hr, hx⟩
    obtain ⟨w, hw, rfl⟩ := List.mem_map.mp hr
    have hne : (imp.getState p).openSlices ≠ [] := List.ne_nil_of_mem hw
    exact ⟨(p, imp.getState p), entry_of_open_stack imp p hne, w, hw, hx⟩

theorem closingTime_congr (a b : TraceEventImporter)
    (hka : KeysNodup a.threadStateByPTID) (hkb : KeysNodup b.threadStateByPTID)
    (hh : a.heap = b.heap) (hp : a.model.processes = b.model.processes)
    (hs : ∀ p, (a.getState p).stackRefs = (b.getState p).stackRefs) :
    closingTime a = closingTime b := by
  have hmax : (updateBounds a.model a.heap).maxTimestamp =
      (updateBounds b.model b.heap).maxTimestamp := by
    simp [updateBounds, TimelineModel.sliceRefs, TimelineModel.counterTimestamps, hh, hp]
  have hot : mathMax (openTimestamps { a with model := updateBounds a.model a.heap }) =
      mathMax (openTimestamps { b with model := updateBounds b.model b.heap }) := by
    apply mathMax_congr
    intro x
    rw [mem_openTimestamps { a with model := updateBounds a.model a.heap } hka,
      mem_openTimestamps { b with model := updateBounds b.model b.heap } hkb]
    constructor
    · rintro ⟨p, r, hr, hx⟩
      refine ⟨p, r, ?_, ?_⟩
      · have := hs p
        simp only [TraceEventImporter.getState] at this hr ⊢
        rw [← this]
        exact hr
      · rw [← hh]
        exact hx
    · rintro ⟨p, r, hr, hx⟩
      refine ⟨p, r, ?_, ?_⟩
      · have := hs p
        simp only [TraceEventImporter.getState] at this hr ⊢
        rw [this]
        exact hr
      · show x ∈ refTimestamps a.heap r
        rw [hh]
        exact hx
  unfold closingTime realMaxTimestamp
  rw [hmax, hot]

theorem exists_open_stack (imp : TraceEventImporter) (hk : KeysNodup imp.threadStateByPTID)
    (h : hasOpenSlices imp = true) : ∃ p, (imp.getState p).openSlices ≠ [] := by
  by_contra hc
  simp only [not_exists, not_not] at hc
  rw [hasOpenSlices_eq_false imp hk hc] at h
  cases h

theorem hasOpenSlices_congr (a b : TraceEventImporter)
    (hka : KeysNodup a.threadStateByPTID) (hkb : KeysNodup b.threadStateByPTID)
    (hs : ∀ p, (a.getState p).stackRefs = (b.getState p).stackRefs) :
    hasOpenSlices a = hasOpenSlices b := by
  have key : ∀ (x y : TraceEventImporter), KeysNodup x.threadStateByPTID →
      (∀ p, (x.getState p).stackRefs = (y.getState p).stackRefs) →
      hasOpenSlices x = true → hasOpenSlices y = true := by
    intro x y hx hxy h
    obtain ⟨p, hp⟩ := exists_open_stack x hx h
    apply hasOpenSlices_of_open_stack y p
    intro hc
    apply hp
    have := hxy p
    simp only [ThreadState.stackRefs, hc, List.map_nil, List.map_eq_nil_iff] at this
    exact this
  cases ha : hasOpenSlices a with
  | true => exact (key a b hka hs ha).symm
  | false =>
    cases hb : hasOpenSlices b with
    | false => rfl
    | true =>
      rw [key b a hkb (fun p => (hs p).symm) hb] at ha
      cases ha

/-- The heap object of a slice that is on a stack when `autoCloseOpenSlices` starts. -/
theorem autoCloseOpenSlices_heap (imp : TraceEventImporter) (hwf : WellFormed imp)
    (p : PTID) (k : Nat) (w : OpenSlice) (hk : (imp.getState p).openSlices[k]? = some w) :
    ∃ T, closingTime imp = some T ∧
      (autoCloseOpenSlices imp).heap[w.slice]? =
        (imp.heap[w.slice]?).map (fun s => closedSlice T s
          (((imp.getState p).openSlices[k + 1]?).map (fun w => w.slice))) := by
  have hne : (imp.getState p).openSlices ≠ [] := by
    intro hc
    rw [hc] at hk
    cases hk
  obtain ⟨T, hT⟩ := realMaxTimestamp_some (updateBounds imp.model imp.heap).maxTimestamp
    (openTimestamps { imp with model := updateBounds imp.model imp.heap })
    (openTimestamps_ne_nil { imp with model := updateBounds imp.model imp.heap } p
      hwf.bounded hne)
  refine ⟨T, hT, ?_⟩
  have hinv := closeInv_of_wellFormed imp hwf p
  have hkey : p ∈ imp.threadStateByPTID.map Prod.fst :=
    List.mem_map.mpr ⟨_, entry_of_open_stack imp p hne, rfl⟩
  obtain ⟨_, c2, _⟩ := autoCloseAll_spec T p (imp.getState p).openSlices
    (imp.threadStateByPTID.map Prod.fst)
    { imp with model := updateBounds imp.model imp.heap }
    ⟨hinv.nodup, hinv.index_ok, hinv.avoid⟩ rfl hkey
  rw [autoCloseOpenSlices_eq, hT]
  exact c2 k w hk

/-- After the loop, `importEvents` yields the same heap for two importers that hold the
same heap, the same processes and the same stacks up to event indices. -/
theorem finish_heap_congr (a b : TraceEventImporter) (hwa : WellFormed a) (hwb : WellFormed b)
    (hka : KeysNodup a.threadStateByPTID) (hkb : KeysNodup b.threadStateByPTID)
    (hh : a.heap = b.heap) (hp : a.model.processes = b.model.processes)
    (hst : ∀ p, (a.getState p).openSlices.map OpenSlice.forgetIndex =
      (b.getState p).openSlices.map OpenSlice.forgetIndex) :
    (if hasOpenSlices a then autoCloseOpenSlices a else a).heap =
      (if hasOpenSlices b then autoCloseOpenSlices b else b).heap := by
  have hrefs : ∀ p, (a.getState p).stackRefs = (b.getState p).stackRefs := by
    intro p
    have := congrArg (List.map (fun w : OpenSlice => w.slice)) (hst p)
    simpa [ThreadState.stackRefs, List.map_map, Function.comp_def, OpenSlice.forgetIndex]
      using this
  have hget : ∀ (p : PTID) (k : Nat),
      ((a.getState p).openSlices[k]?).map (fun w : OpenSlice => w.slice) =
      ((b.getState p).openSlices[k]?).map (fun w : OpenSlice => w.slice) := by
    intro p k
    have := congrArg (fun l : List Nat => l[k]?) (hrefs p)
    simpa [ThreadState.stackRefs, List.getElem?_map] using this
  rw [hasOpenSlices_congr a b hka hkb hrefs]
  split
  · apply List.ext_getElem?
    intro r
    by_cases hr : ∃ p, r ∈ (a.getState p).stackRefs
    · obtain ⟨p, hr⟩ := hr
      obtain ⟨w, hw, rfl⟩ := List.mem_map.mp hr
      obtain ⟨k, hk⟩ := List.getElem?_of_mem hw
      have hkb2 := hget p k
      rw [hk] at hkb2
      cases hb : (b.getState p).openSlices[k]? with
      | none => rw [hb] at hkb2; cases hkb2
      | some w2 =>
        rw [hb] at hkb2
        have hsl : w.slice = w2.slice := by simpa using hkb2
        obtain ⟨Ta, hTa, ea⟩ := autoCloseOpenSlices_heap a hwa p k w hk
        obtain ⟨Tb, hTb, eb⟩ := autoCloseOpenSlices_heap b hwb p k w2 hb
        have hT : Ta = Tb := by
          have := closingTime_congr a b hka hkb hh hp hrefs
          rw [hTa, hTb] at this
          exact Option.some.inj this
        rw [ea, hsl, eb, hget p (k + 1), hh, hT]
    · simp only [not_exists] at hr
      have hrb : ∀ q, r ∉ (b.getState q).stackRefs := by
        intro q
        rw [← hrefs q]
        exact hr q
      rw [(autoCloseOpenSlices_placement a hwa (0, 0) _ rfl).2.2.2 r hr,
        (autoCloseOpenSlices_placement b hwb (0, 0) _ rfl).2.2.2 r hrb, hh]
  · exact hh

/-- Two importers that are in step stay in step while the loop handles the same events. -/
theorem sameData_stateAt {E : List String → List String → Prop}
    (hE : ∀ x y d, E x y → E (x ++ d) (y ++ d)) (env : Env) (A B : TraceEventImporter)
    (ka kb : Nat) (h : SameData E (stateAt env A ka) (stateAt env B kb)) (m : Nat)
    (hev : ∀ j, j < m → A.events[ka + j]? = B.events[kb + j]?) :
    SameData E (stateAt env A (ka + m)) (stateAt env B (kb + m)) := by
  induction m with
  | zero => exact h
  | succ m ih =>
    have ih2 := ih (fun j hj => hev j (by omega))
    have hm := hev m (by omega)
    rw [← Nat.add_assoc, ← Nat.add_assoc]
    cases ha : A.events[ka + m]? with
    | none =>
      rw [ha] at hm
      rw [stateAt_succ_none env A _ ha, stateAt_succ_none env B _ hm.symm]
      exact ih2
    | some e =>
      rw [ha] at hm
      rw [stateAt_succ env A _ e ha, stateAt_succ env B _ e hm.symm]
      exact sameData_importStep hE ih2 env _ _ e

theorem eraseIdx_rel_append (n : Nat) (msg : String) (x y d : List String)
    (h : x[n]? = some msg ∧ y = x.eraseIdx n) :
    (x ++ d)[n]? = some msg ∧ y ++ d = (x ++ d).eraseIdx n := by
  obtain ⟨h1, h2⟩ := h
  have hlt : n < x.length := by
    by_contra hc
    rw [List.getElem?_eq_none (by omega)] at h1
    cases h1
  refine ⟨?_, ?_⟩
  · rw [List.getElem?_append_left hlt]
    exact h1
  · rw [h2, List.eraseIdx_append_of_lt_length hlt]

/-! Renaming of heap references. -/

theorem renameSlice_congr (f g : Nat → Nat) (s : TimelineSlice)
    (h : ∀ x ∈ s.subSlices, g x = f x) : renameSlice g s = renameSlice f s := by
  unfold renameSlice
  rw [List.map_congr_left h]

theorem subrow_of_mem_subRows (t : TimelineThread) (row : List Nat) (h : row ∈ t.subRows) :
    ∃ d, t.subrow d = row := by
  obtain ⟨d, hd⟩ := List.getElem?_of_mem h
  exact ⟨d, by simp [TimelineThread.subrow, hd]⟩

theorem renameThread_congr (f g : Nat → Nat) (t : TimelineThread)
    (h : ∀ x, InThread t x → g x = f x) : renameThread g t = renameThread f t := by
  unfold renameThread
  have h1 : t.subRows.map (fun row => row.map g) = t.subRows.map (fun row => row.map f) := by
    apply List.map_congr_left
    intro row hrow
    apply List.map_congr_left
    intro x hx
    obtain ⟨d, hd⟩ := subrow_of_mem_subRows t row hrow
    exact h x (Or.inl ⟨d, by rw [hd]; exact hx⟩)
  have h2 : t.nonNestedSlices.map g = t.nonNestedSlices.map f :=
    List.map_congr_left (fun x hx => h x (Or.inr hx))
  rw [h1, h2]

theorem renameState_congr (f g : Nat → Nat) (s : ThreadState)
    (h : ∀ x ∈ s.openRefs, g x = f x) : s.rename g = s.rename f := by
  unfold ThreadState.rename
  have h1 : s.openSlices.map (OpenSlice.rename g) = s.openSlices.map (OpenSlice.rename f) := by
    apply List.map_congr_left
    intro w hw
    unfold OpenSlice.rename
    rw [h w.slice (by
      simp only [ThreadState.openRefs, List.mem_append]
      exact Or.inl (List.mem_map.mpr ⟨w, hw, rfl⟩))]
  have h2 : s.openNonNestedSlices.map (fun kv => (kv.1, kv.2.rename g)) =
      s.openNonNestedSlices.map (fun kv => (kv.1, kv.2.rename f)) := by
    apply List.map_congr_left
    intro kv hkv
    unfold OpenSlice.rename
    rw [h kv.2.slice (by
      simp only [ThreadState.openRefs, List.mem_append]
      exact Or.inr (List.mem_map.mpr ⟨kv, hkv, rfl⟩))]
  rw [h1, h2]

theorem pushAt_map (f : Nat → Nat) (rows : List (List Nat)) (i r : Nat) :
    (pushAt rows i r).map (fun row => row.map f) =
      pushAt (rows.map (fun row => row.map f)) i (f r) := by
  induction rows generalizing i with
  | nil =>
    induction i with
    | zero => rfl
    | succ i ih =>
      simp only [pushAt, List.map_cons, List.map_nil] at ih ⊢
      rw [ih]
  | cons row rows ih =>
    cases i with
    | zero => simp [pushAt]
    | succ i => simp [pushAt, ih]

theorem renameThread_pushSubrow (f : Nat → Nat) (t : TimelineThread) (i r : Nat) :
    renameThread f (t.pushSubrow i r) = (renameThread f t).pushSubrow i (f r) := by
  simp only [renameThread, TimelineThread.pushSubrow, pushAt_map]

theorem renameThread_addNonNestedSlice (f : Nat → Nat) (t : TimelineThread) (r : Nat) :
    renameThread f (t.addNonNestedSlice r) = (renameThread f t).addNonNestedSlice (f r) := by
  simp [renameThread, TimelineThread.addNonNestedSlice]

theorem closeRows_rename (f : Nat → Nat) (t : TimelineThread) (refs : List Nat) :
    closeRows (renameThread f t) (refs.map f) = renameThread f (closeRows t refs) := by
  induction refs using List.reverseRecOn generalizing t with
  | nil => rfl
  | append_singleton rest top ih =>
    rw [List.map_append, List.map_cons, List.map_nil, closeRows_concat, closeRows_concat,
      List.length_map, ← renameThread_pushSubrow, ih]

/-! References stay inside the heap. -/

/-- A heap update at corresponding references keeps two heaps in correspondence. -/
theorem heapRel_heapModify (f : Nat → Nat) (ha hc : List TimelineSlice) (n : Nat)
    (hinj : ∀ x y, x < n → y < n → f x = f y → x = y)
    (hrel : ∀ x, x < n → ha[f x]? = (hc[x]?).map (renameSlice f))
    (r : Nat) (hr : r < n) (ga gc : TimelineSlice → TimelineSlice)
    (hg : ∀ s, ga (renameSlice f s) = renameSlice f (gc s)) :
    ∀ x, x < n → (heapModify ha (f r) ga)[f x]? =
      ((heapModify hc r gc)[x]?).map (renameSlice f) := by
  intro x hx
  by_cases hxr : r = x
  · subst hxr
    rw [getElem?_heapModify_self, getElem?_heapModify_self, hrel r hr]
    cases hc[r]? with
    | none => rfl
    | some s => simp [hg]
  · have hne : f r ≠ f x := fun h => hxr (hinj r x hr hx h)
    rw [getElem?_heapModify_ne _ _ _ _ hne, getElem?_heapModify_ne _ _ _ _ hxr]
    exact hrel x hx

theorem subsBounded_heapModify (heap : List TimelineSlice) (r n : Nat)
    (g : TimelineSlice → TimelineSlice)
    (h : ∀ (j : Nat) (s : TimelineSlice), heap[j]? = some s → ∀ x ∈ s.subSlices, x < n)
    (hg : ∀ s : TimelineSlice, (∀ x ∈ s.subSlices, x < n) → ∀ x ∈ (g s).subSlices, x < n) :
    ∀ (j : Nat) (s : TimelineSlice), (heapModify heap r g)[j]? = some s →
      ∀ x ∈ s.subSlices, x < n := by
  intro j s hj
  by_cases hr : r = j
  · subst hr
    rw [getElem?_heapModify_self] at hj
    cases h0 : heap[r]? with
    | none => rw [h0] at hj; cases hj
    | some s0 =>
      rw [h0] at hj
      simp only [Option.map_some', Option.some.injEq] at hj
      subst hj
      exact hg s0 (h r s0 h0)
  · rw [getElem?_heapModify_ne _ _ _ _ hr] at hj
    exact h j s hj

theorem subsBounded_setDuration (heap : List TimelineSlice) (r n : Nat) (t : ℚ)
    (h : ∀ (j : Nat) (s : TimelineSlice), heap[j]? = some s → ∀ x ∈ s.subSlices, x < n) :
    ∀ (j : Nat) (s : TimelineSlice), (setDuration heap r t)[j]? = some s →
      ∀ x ∈ s.subSlices, x < n :=
  subsBounded_heapModify heap r n _ h (fun _ hs => hs)

theorem subsBounded_setUserDuration (heap : List TimelineSlice) (r n : Nat) (uts : Option ℚ)
    (h : ∀ (j : Nat) (s : TimelineSlice), heap[j]? = some s → ∀ x ∈ s.subSlices, x < n) :
    ∀ (j : Nat) (s : TimelineSlice), (setUserDuration heap r uts)[j]? = some s →
      ∀ x ∈ s.subSlices, x < n := by
  unfold setUserDuration
  split
  · exact subsBounded_heapModify heap r n _ h (fun _ hs => hs)
  · exact h

theorem subsBounded_addToParent (heap : List TimelineSlice) (rest : List OpenSlice) (r n : Nat)
    (hr : r < n)
    (h : ∀ (j : Nat) (s : TimelineSlice), heap[j]? = some s → ∀ x ∈ s.subSlices, x < n) :
    ∀ (j : Nat) (s : TimelineSlice), (addToParent heap rest r)[j]? = some s →
      ∀ x ∈ s.subSlices, x < n := by
  unfold addToParent
  split
  · apply subsBounded_heapModify heap _ n _ h
    intro s hs x hx
    simp only [List.mem_append, List.mem_singleton] at hx
    rcases hx with hx | hx
    · exact hs x hx
    · rw [hx]
      exact hr
  · exact h

theorem subsBounded_processBegin (env : Env) (imp : TraceEventImporter) (index : Nat)
    (q : PTID) (event : TraceEvent)
    (h : ∀ (j : Nat) (s : TimelineSlice), imp.heap[j]? = some s →
      ∀ x ∈ s.subSlices, x < imp.heap.length) :
    ∀ (j : Nat) (s : TimelineSlice), (processBegin env imp index q event).heap[j]? = some s →
      ∀ x ∈ s.subSlices, x < (processBegin env imp index q event).heap.length := by
  have hheap : (processBegin env imp index q event).heap = imp.heap ++ [newSlice env event] := by
    unfold processBegin
    dsimp only
    split <;> rfl
  rw [hheap]
  intro j s hj x hx
  rw [List.length_append, List.length_singleton]
  by_cases hlt : j < imp.heap.length
  · rw [List.getElem?_append_left hlt] at hj
    exact Nat.lt_succ_of_lt (h j s hj x hx)
  · rw [List.getElem?_append_right (by omega)] at hj
    cases hjj : j - imp.heap.length with
    | zero =>
      rw [hjj] at hj
      simp only [List.getElem?_cons_zero, Option.some.injEq] at hj
      subst hj
      rw [(newSlice_fields env event).2.2.2.2.1] at hx
      cases hx
    | succ m =>
      rw [hjj] at hj
      simp at hj

theorem subsBounded_processEnd (env : Env) (imp : TraceEventImporter) (q : PTID)
    (event : TraceEvent) (hb : RefsBounded imp)
    (h : ∀ (j : Nat) (s : TimelineSlice), imp.heap[j]? = some s →
      ∀ x ∈ s.subSlices, x < imp.heap.length) :
    ∀ (j : Nat) (s : TimelineSlice), (processEnd env imp q event).heap[j]? = some s →
      ∀ x ∈ s.subSlices, x < (processEnd env imp q event).heap.length := by
  by_cases hn : event.nonNested = true
  · cases hg : jsGet (imp.getState q).openNonNestedSlices (sliceIDOf env event) with
    | none =>
      rw [processEnd_nonNested_none env imp q event hn hg]
      exact h
    | some slice =>
      rw [processEnd_nonNested_some env imp q event hn slice hg]
      show ∀ (j : Nat) (s : TimelineSlice), (setDuration imp.heap _ _)[j]? = some s →
        ∀ x ∈ s.subSlices, x < (setDuration imp.heap _ _).length
      rw [length_setDuration]
      exact subsBounded_setDuration _ _ _ _ h
  · simp only [Bool.not_eq_true] at hn
    rcases eq_nil_or_concat_list (imp.getState q).openSlices with hs | ⟨rest, top, hs⟩
    · rw [processEnd_nested_empty env imp q event hn hs]
      exact h
    · rw [processEnd_nested_pop env imp q event hn rest top hs]
      show ∀ (j : Nat) (s : TimelineSlice), (addToParent _ rest _)[j]? = some s →
        ∀ x ∈ s.subSlices, x < (addToParent _ rest _).length
      rw [length_addToParent, length_setUserDuration, length_setDuration]
      apply subsBounded_addToParent
      · apply hb q
        simp only [ThreadState.openRefs, List.mem_append, hs]
        left
        exact List.mem_map.mpr ⟨top, by simp, rfl⟩
      · exact subsBounded_setUserDuration _ _ _ _ (subsBounded_setDuration _ _ _ _ h)

theorem subsBounded_importStep (env : Env) (imp : TraceEventImporter) (eI : Nat)
    (event : TraceEvent) (hb : RefsBounded imp)
    (h : ∀ (j : Nat) (s : TimelineSlice), imp.heap[j]? = some s →
      ∀ x ∈ s.subSlices, x < imp.heap.length) :
    ∀ (j : Nat) (s : TimelineSlice), (importStep env imp eI event).heap[j]? = some s →
      ∀ x ∈ s.subSlices, x < (importStep env imp eI event).heap.length := by
  have hb1 := refsBounded_ensureState imp event.ptid hb
  have h1 : ∀ (j : Nat) (s : TimelineSlice), (ensureState imp event.ptid).heap[j]? = some s →
      ∀ x ∈ s.subSlices, x < (ensureState imp event.ptid).heap.length := by
    rw [heap_ensureState]
    exact h
  unfold importStep
  dsimp only
  split
  · exact subsBounded_processBegin env _ eI event.ptid event h1
  split
  · exact subsBounded_processEnd env _ event.ptid event hb1 h1
  split
  · exact subsBounded_processEnd env _ event.ptid event
      (refsBounded_step (stepFrame_processBegin env _ eI event.ptid event) hb1)
      (subsBounded_processBegin env _ eI event.ptid event h1)
  split
  · rw [processCounter_heap]
    exact h1
  split
  · split
    · exact h1
    · exact h1
  · exact h1

theorem heap_le_stateAt (env : Env) (imp : TraceEventImporter) (k : Nat) :
    imp.heap.length ≤ (stateAt env imp k).heap.length := by
  induction k with
  | zero => exact le_refl _
  | succ k ih =>
    cases hev : imp.events[k]? with
    | none =>
      rw [stateAt_succ_none env imp _ hev]
      exact ih
    | some e =>
      rw [stateAt_succ env imp _ e hev]
      exact le_trans ih (stepFrame_importStep env _ k e).heap_le

/-- The loop keeps every stored slice reference inside the heap. -/
theorem closed_stateAt (env : Env) (imp : TraceEventImporter) (h : Closed imp) (k : Nat) :
    Closed (stateAt env imp k) where
  refs := refsBounded_stateAt env imp h.refs k
  rows := by
    intro pid tid x hx
    rcases inThread_stateAt env imp h.refs k pid tid x hx with h1 | h1
    · exact lt_of_lt_of_le (h.rows pid tid x h1) (heap_le_stateAt env imp k)
    · exact h1
  subs := by
    induction k with
    | zero => exact h.subs
    | succ k ih =>
      cases hev : imp.events[k]? with
      | none =>
        rw [stateAt_succ_none env imp _ hev]
        exact ih
      | some e =>
        rw [stateAt_succ env imp _ e hev]
        exact subsBounded_importStep env _ k e (refsBounded_stateAt env imp h.refs k) ih

theorem closed_new (events : List TraceEvent) : Closed (TraceEventImporter.new {} [] events) where
  refs := refsBounded_new _ _ _
  rows := by
    intro pid tid x hx
    rcases hx with ⟨d, hd⟩ | hd
    · simp [TraceEventImporter.new, TimelineModel.getThread, TimelineModel.getProcess,
        TimelineProcess.getThread, jsGet, TimelineThread.subrow] at hd
    · simp [TraceEventImporter.new, TimelineModel.getThread, TimelineModel.getProcess,
        TimelineProcess.getThread, jsGet] at hd
  subs := by
    intro r s hr
    simp [TraceEventImporter.new] at hr

/-! The run seen from one PTID. -/

theorem projection_stack {p : PTID} {f : Nat → Nat} {a c : TraceEventImporter}
    (h : Projection p f a c) :
    (a.getState p).openSlices.map OpenSlice.forgetIndex =
      (c.getState p).openSlices.map (OpenSlice.rename f) :=
  congrArg ThreadState.openSlices h.state_rel

theorem projection_dict {p : PTID} {f : Nat → Nat} {a c : TraceEventImporter}
    (h : Projection p f a c) :
    (a.getState p).openNonNestedSlices.map (fun kv => (kv.1, kv.2.forgetIndex)) =
      (c.getState p).openNonNestedSlices.map (fun kv => (kv.1, kv.2.rename f)) :=
  congrArg ThreadState.openNonNestedSlices h.state_rel

theorem projection_jsGet {p : PTID} {f : Nat → Nat} {a c : TraceEventImporter}
    (h : Projection p f a c) (k : String) :
    (jsGet (a.getState p).openNonNestedSlices k).map OpenSlice.forgetIndex =
      (jsGet (c.getState p).openNonNestedSlices k).map (OpenSlice.rename f) := by
  rw [← jsGet_map_values, ← jsGet_map_values, projection_dict h]

theorem projection_stackRefs {p : PTID} {f : Nat → Nat} {a c : TraceEventImporter}
    (h : Projection p f a c) :
    (a.getState p).stackRefs = (c.getState p).stackRefs.map f := by
  have := congrArg (List.map (fun w : OpenSlice => w.slice)) (projection_stack h)
  simpa [ThreadState.stackRefs, List.map_map, Function.comp_def, OpenSlice.forgetIndex,
    OpenSlice.rename] using this

theorem map_concat_eq {α β : Type} (F G : α → β) (rest1 : List α) (top1 : α) (l2 : List α)
    (h : (rest1 ++ [top1]).map F = l2.map G) :
    ∃ rest2 top2, l2 = rest2 ++ [top2] ∧ rest1.map F = rest2.map G ∧ F top1 = G top2 := by
  rcases List.eq_nil_or_concat l2 with h2 | ⟨rest2, top2, h2⟩
  · subst h2
    simp at h
  · subst h2
    refine ⟨rest2, top2, by simp, ?_⟩
    simp only [List.map_append, List.map_cons, List.map_nil, List.concat_eq_append] at h
    have hlen : (rest1.map F).length = (rest2.map G).length := by
      have := congrArg List.length h
      simp only [List.length_append, List.length_map, List.length_cons, List.length_nil] at this
      simp only [List.length_map]
      omega
    obtain ⟨e1, e2⟩ := List.append_inj h hlen
    exact ⟨e1, by simpa using e2⟩

theorem projection_ensureState {p : PTID} {f : Nat → Nat} {a c : TraceEventImporter}
    (h : Projection p f a c) (q1 q2 : PTID) :
    Projection p f (ensureState a q1) (ensureState c q2) where
  inj := by rw [heap_ensureState]; exact h.inj
  bound := by rw [heap_ensureState, heap_ensureState]; exact h.bound
  heap_rel := by rw [heap_ensureState, heap_ensureState]; exact h.heap_rel
  state_rel := by rw [getState_ensureState, getState_ensureState]; exact h.state_rel
  thread_rel := by rw [model_ensureState, model_ensureState]; exact h.thread_rel
  foreign := by
    intro q hq x hx
    rw [getState_ensureState] at hx
    rw [heap_ensureState]
    exact h.foreign q hq x hx

/-- A loop iteration for an event of another PTID does not disturb the projection. -/
theorem projection_foreign_step {p : PTID} {f : Nat → Nat} {a c : TraceEventImporter}
    (h : Projection p f a c) (env : Env) (eI : Nat) (event : TraceEvent)
    (hne : event.ptid ≠ p) : Projection p f (importStep env a eI event) c := by
  have F := stepFrame_importStep env a eI event
  have hne2 : p ≠ event.ptid := fun hc => hne hc.symm
  refine ⟨h.inj, ?_, ?_, ?_, ?_, ?_⟩
  · intro x hx
    exact lt_of_lt_of_le (h.bound x hx) F.heap_le
  · intro x hx
    rw [F.heap_frame (f x) (h.bound x hx)
      (fun hc => h.foreign event.ptid hne (f x) hc x hx rfl)]
    exact h.heap_rel x hx
  · rw [F.state_ne p hne2]
    exact h.state_rel
  · rw [F.thread_ne p.1 p.2 hne2]
    exact h.thread_rel
  · intro q hq x hx y hy
    by_cases hqe : q = event.ptid
    · subst hqe
      rcases F.refs_sub x hx with h1 | h1
      · exact h.foreign _ hq x h1 y hy
      · have := h.bound y hy
        omega
    · rw [F.state_ne q hqe] at hx
      exact h.foreign q hq x hx y hy

theorem getThread_processBegin (env : Env) (imp : TraceEventImporter) (index : Nat) (q : PTID)
    (event : TraceEvent) (pid tid : Nat) :
    (processBegin env imp index q event).model.getThread pid tid =
      imp.model.getThread pid tid := by
  unfold processBegin
  dsimp only
  split
  · dsimp only
    split <;> rfl
  · rfl

theorem heap_processBegin (env : Env) (imp : TraceEventImporter) (index : Nat) (q : PTID)
    (event : TraceEvent) :
    (processBegin env imp index q event).heap = imp.heap ++ [newSlice env event] := by
  unfold processBegin
  dsimp only
  split <;> rfl

theorem renameSlice_newSlice (f : Nat → Nat) (env : Env) (event : TraceEvent) :
    renameSlice f (newSlice env event) = newSlice env event := by
  have h := (newSlice_fields env event).2.2.2.2.1
  generalize newSlice env event = s at h
  cases s
  simp only at h
  subst h
  rfl

/-- The method `processBegin` for the PTID of the projection: the new slice of the one run
corresponds to the new slice of the other. -/
theorem projection_processBegin {p : PTID} {f : Nat → Nat} {a c : TraceEventImporter}
    (h : Projection p f a c) (hba : RefsBounded a) (hcc : Closed c) (env : Env) (ia ic : Nat)
    (event : TraceEvent) :
    Projection p (Function.update f c.heap.length a.heap.length)
      (processBegin env a ia p event) (processBegin env c ic p event) := by
  have hold : ∀ x, x < c.heap.length →
      Function.update f c.heap.length a.heap.length x = f x := by
    intro x hx
    exact Function.update_noteq (by omega) _ _
  have hnew : Function.update f c.heap.length a.heap.length c.heap.length = a.heap.length :=
    Function.update_same _ _ _
  have hstate : (c.getState p).rename (Function.update f c.heap.length a.heap.length) =
      (c.getState p).rename f :=
    renameState_congr _ _ _ (fun x hx => hold x (hcc.refs p x hx))
  have hlenA := processBegin_heap_length env a ia p event
  have hlenC := processBegin_heap_length env c ic p event
  refine ⟨?_, ?_, ?_, ?_, ?_, ?_⟩
  · intro x y hx hy hxy
    rw [hlenC] at hx hy
    by_cases hx2 : x < c.heap.length
    · by_cases hy2 : y < c.heap.length
      · rw [hold x hx2, hold y hy2] at hxy
        exact h.inj x y hx2 hy2 hxy
      · have : y = c.heap.length := by omega
        subst this
        rw [hold x hx2, hnew] at hxy
        have := h.bound x hx2
        omega
    · have : x = c.heap.length := by omega
      subst this
      by_cases hy2 : y < c.heap.length
      · rw [hold y hy2, hnew] at hxy
        have := h.bound y hy2
        omega
      · omega
  · intro x hx
    rw [hlenC] at hx
    rw [hlenA]
    by_cases hx2 : x < c.heap.length
    · rw [hold x hx2]
      have := h.bound x hx2
      omega
    · have : x = c.heap.length := by omega
      subst this
      rw [hnew]
      omega
  · intro x hx
    rw [hlenC] at hx
    rw [heap_processBegin, heap_processBegin]
    by_cases hx2 : x < c.heap.length
    · rw [hold x hx2, List.getElem?_append_left (h.bound x hx2), List.getElem?_append_left hx2,
        h.heap_rel x hx2]
      cases hs : c.heap[x]? with
      | none => rfl
      | some s =>
        simp only [Option.map_some', Option.some.injEq]
        exact (renameSlice_congr f _ s (fun y hy => hold y (hcc.subs x s hs y hy))).symm
    · have : x = c.heap.length := by omega
      subst this
      rw [hnew]
      simp [renameSlice_newSlice]
  · by_cases hn : event.nonNested = true
    · rw [processBegin_nonNested env a ia p event hn, processBegin_nonNested env c ic p event hn,
        getState_mk_jsSet_self, getState_mk_jsSet_self]
      have hs := congrArg ThreadState.openSlices (h.state_rel.trans hstate.symm)
      have hd := congrArg ThreadState.openNonNestedSlices (h.state_rel.trans hstate.symm)
      simp only [ThreadState.forgetIndex, ThreadState.rename] at hs hd
      simp only [ThreadState.forgetIndex, ThreadState.rename, jsSet_map_values]
      rw [hs, hd]
      simp only [OpenSlice.forgetIndex, OpenSlice.rename, hnew]
    · simp only [Bool.not_eq_true] at hn
      rw [processBegin_nested env a ia p event hn, processBegin_nested env c ic p event hn,
        getState_mk_jsSet_self, getState_mk_jsSet_self]
      have hs := congrArg ThreadState.openSlices (h.state_rel.trans hstate.symm)
      have hd := congrArg ThreadState.openNonNestedSlices (h.state_rel.trans hstate.symm)
      simp only [ThreadState.forgetIndex, ThreadState.rename] at hs hd
      simp only [ThreadState.forgetIndex, ThreadState.rename, List.map_append, List.map_cons,
        List.map_nil]
      rw [hs, hd]
      simp only [OpenSlice.forgetIndex, OpenSlice.rename, hnew]
  · rw [getThread_processBegin, getThread_processBegin, h.thread_rel]
    exact (renameThread_congr f _ _ (fun x hx => hold x (hcc.rows p.1 p.2 x hx))).symm
  · intro q hq x hx y hy
    rw [(stepFrame_processBegin env a ia p event).state_ne q hq] at hx
    rw [hlenC] at hy
    by_cases hy2 : y < c.heap.length
    · rw [hold y hy2]
      exact h.foreign q hq x hx y hy2
    · have : y = c.heap.length := by omega
      subst this
      rw [hnew]
      have := hba q x hx
      omega

theorem heapRel_setDuration (f : Nat → Nat) (ha hc : List TimelineSlice) (n : Nat)
    (hinj : ∀ x y, x < n → y < n → f x = f y → x = y)
    (hrel : ∀ x, x < n → ha[f x]? = (hc[x]?).map (renameSlice f))
    (r : Nat) (hr : r < n) (t : ℚ) :
    ∀ x, x < n → (setDuration ha (f r) t)[f x]? =
      ((setDuration hc r t)[x]?).map (renameSlice f) :=
  heapRel_heapModify f ha hc n hinj hrel r hr _ _ (fun _ => rfl)

theorem heapRel_setUserDuration (f : Nat → Nat) (ha hc : List TimelineSlice) (n : Nat)
    (hinj : ∀ x y, x < n → y < n → f x = f y → x = y)
    (hrel : ∀ x, x < n → ha[f x]? = (hc[x]?).map (renameSlice f))
    (r : Nat) (hr : r < n) (uts : Option ℚ) :
    ∀ x, x < n → (setUserDuration ha (f r) uts)[f x]? =
      ((setUserDuration hc r uts)[x]?).map (renameSlice f) := by
  unfold setUserDuration
  split
  · exact heapRel_heapModify f ha hc n hinj hrel r hr _ _ (fun _ => rfl)
  · exact hrel

theorem heapRel_addToParent (f : Nat → Nat) (ha hc : List TimelineSlice) (n : Nat)
    (hinj : ∀ x y, x < n → y < n → f x = f y → x = y)
    (hrel : ∀ x, x < n → ha[f x]? = (hc[x]?).map (renameSlice f))
    (restA restC : List OpenSlice)
    (hrest : restA.map OpenSlice.forgetIndex = restC.map (OpenSlice.rename f))
    (hb : ∀ w ∈ restC, w.slice < n) (r : Nat) :
    ∀ x, x < n → (addToParent ha restA (f r))[f x]? =
      ((addToParent hc restC r)[x]?).map (renameSlice f) := by
  have h2 : restA.getLast?.map OpenSlice.forgetIndex =
      restC.getLast?.map (OpenSlice.rename f) := by
    rw [← List.getLast?_map, ← List.getLast?_map, hrest]
  unfold addToParent
  cases h1 : restA.getLast? with
  | none =>
    rw [h1] at h2
    cases h3 : restC.getLast? with
    | none => exact hrel
    | some w2 => rw [h3] at h2; cases h2
  | some w1 =>
    rw [h1] at h2
    cases h3 : restC.getLast? with
    | none => rw [h3] at h2; cases h2
    | some w2 =>
      rw [h3] at h2
      have hsl : w1.slice = f w2.slice := by
        have := congrArg (fun o : Option OpenSlice => o.map (fun w => w.slice)) h2
        simpa [OpenSlice.forgetIndex, OpenSlice.rename] using this
      dsimp only
      rw [hsl]
      apply heapRel_heapModify f ha hc n hinj hrel w2.slice
        (hb w2 (List.mem_of_getLast?_eq_some h3))
      intro s
      simp [renameSlice]

theorem projection_concat {p : PTID} {f : Nat → Nat} {a c : TraceEventImporter}
    (h : Projection p f a c) (rest : List OpenSlice) (top : OpenSlice)
    (hs : (a.getState p).openSlices = rest ++ [top]) :
    ∃ rest2 top2, (c.getState p).openSlices = rest2 ++ [top2] ∧
      rest.map OpenSlice.forgetIndex = rest2.map (OpenSlice.rename f) ∧
      top.slice = f top2.slice ∧ rest.length = rest2.length := by
  have hst := projection_stack h
  rw [hs] at hst
  obtain ⟨rest2, top2, e1, e2, e3⟩ := map_concat_eq _ _ rest top _ hst
  refine ⟨rest2, top2, e1, e2, ?_, ?_⟩
  · have := congrArg OpenSlice.slice e3
    exact this
  · have := congrArg List.length e2
    simpa using this

/-- The method `processEnd` for the PTID of the projection. -/
theorem projection_processEnd {p : PTID} {f : Nat → Nat} {a c : TraceEventImporter}
    (h : Projection p f a c) (hbc : RefsBounded c) (env : Env) (event : TraceEvent)
    (hp : event.ptid = p) :
    Projection p f (processEnd env a p event) (processEnd env c p event) := by
  have hpid : event.pid = p.1 := by rw [← hp]; rfl
  have htid : event.tid = p.2 := by rw [← hp]; rfl
  have Fa := stepFrame_processEnd env a event
  have Fc := stepFrame_processEnd env c event
  rw [hp] at Fa Fc
  have hforeign : ∀ q, q ≠ p → ∀ x ∈ ((processEnd env a p event).getState q).openRefs,
      ∀ y, y < (processEnd env c p event).heap.length → f y ≠ x := by
    intro q hq x hx y hy
    rw [Fa.state_ne q hq] at hx
    have hlen : (processEnd env c p event).heap.length = c.heap.length := by
      unfold processEnd
      dsimp only
      split
      · split
        · rfl
        · exact length_setDuration _ _ _
      · split
        · rfl
        · simp [length_addToParent, length_setUserDuration, length_setDuration]
    rw [hlen] at hy
    exact h.foreign q hq x hx y hy
  by_cases hn : event.nonNested = true
  · have hg := projection_jsGet h (sliceIDOf env event)
    cases ha : jsGet (a.getState p).openNonNestedSlices (sliceIDOf env event) with
    | none =>
      rw [ha] at hg
      cases hb : jsGet (c.getState p).openNonNestedSlices (sliceIDOf env event) with
      | some wb => rw [hb] at hg; cases hg
      | none =>
        rw [processEnd_nonNested_none env a p event hn ha,
          processEnd_nonNested_none env c p event hn hb]
        exact h
    | some wa =>
      rw [ha] at hg
      cases hb : jsGet (c.getState p).openNonNestedSlices (sliceIDOf env event) with
      | none => rw [hb] at hg; cases hg
      | some wc =>
        rw [hb] at hg
        have hw : wa.forgetIndex = wc.rename f := by simpa using hg
        have hsl : wa.slice = f wc.slice := by
          have := congrArg OpenSlice.slice hw
          exact this
        have hwc : wc.slice < c.heap.length := by
          apply hbc p
          simp only [ThreadState.openRefs, List.mem_append]
          right
          exact List.mem_map.mpr ⟨_, jsGet_some_mem _ _ _ hb, rfl⟩
        have hrel1 := heapRel_setDuration f a.heap c.heap c.heap.length h.inj h.heap_rel
          wc.slice hwc (jsDiv event.ts 1000)
        rw [processEnd_nonNested_some env a p event hn wa ha,
          processEnd_nonNested_some env c p event hn wc hb] at hforeign ⊢
        refine ⟨?_, ?_, ?_, ?_, ?_, hforeign⟩
        · intro x y hx hy
          rw [show (setDuration c.heap wc.slice (jsDiv event.ts 1000)).length = c.heap.length from
            length_setDuration _ _ _] at hx hy
          exact h.inj x y hx hy
        · intro x hx
          rw [show (setDuration c.heap wc.slice (jsDiv event.ts 1000)).length = c.heap.length from
            length_setDuration _ _ _] at hx
          show f x < (setDuration a.heap _ _).length
          rw [length_setDuration]
          exact h.bound x hx
        · intro x hx
          rw [show (setDuration c.heap wc.slice (jsDiv event.ts 1000)).length = c.heap.length from
            length_setDuration _ _ _] at hx
          show (setDuration a.heap wa.slice _)[f x]? = _
          rw [hsl]
          exact hrel1 x hx
        · rw [getState_mk_jsSet_self, getState_mk_jsSet_self]
          have hs := projection_stack h
          have hd := projection_dict h
          have hstart : ((setDuration a.heap wa.slice (jsDiv event.ts 1000))[wa.slice]?).bind
              (fun s => s.startInUserTime) =
              ((setDuration c.heap wc.slice (jsDiv event.ts 1000))[wc.slice]?).bind
                (fun s => s.startInUserTime) := by
            rw [hsl, hrel1 wc.slice hwc]
            cases (setDuration c.heap wc.slice (jsDiv event.ts 1000))[wc.slice]? <;> rfl
          simp only [ThreadState.forgetIndex, ThreadState.rename, jsDelete_map_values]
          rw [hs]
          congr 2
          unfold setRecordUserDuration
          dsimp only
          rw [hstart]
          split
          · rw [jsSet_map_values, jsSet_map_values, hd]
            congr 1
            simp only [OpenSlice.forgetIndex, OpenSlice.rename, hsl]
          · exact hd
        · show (a.model.withThread event.pid event.tid _).getThread p.1 p.2 =
            renameThread f ((c.model.withThread event.pid event.tid _).getThread p.1 p.2)
          rw [hpid, htid, getThread_withThread_self, getThread_withThread_self, h.thread_rel,
            renameThread_addNonNestedSlice, hsl]
  · simp only [Bool.not_eq_true] at hn
    rcases eq_nil_or_concat_list (a.getState p).openSlices with hs | ⟨rest, top, hs⟩
    · have hsc : (c.getState p).openSlices = [] := by
        have := projection_stack h
        rw [hs] at this
        simpa using this.symm
      rw [processEnd_nested_empty env a p event hn hs,
        processEnd_nested_empty env c p event hn hsc]
      exact h
    · obtain ⟨rest2, top2, hsc, hrest, hsl, hlen⟩ := projection_concat h rest top hs
      have htop : top2.slice < c.heap.length := by
        apply hbc p
        simp only [ThreadState.openRefs, List.mem_append, hsc]
        left
        exact List.mem_map.mpr ⟨top2, by simp, rfl⟩
      have hrestb : ∀ w ∈ rest2, w.slice < c.heap.length := by
        intro w hw
        apply hbc p
        simp only [ThreadState.openRefs, List.mem_append, hsc]
        left
        exact List.mem_map.mpr ⟨w, by simp [hw], rfl⟩
      have hrel1 := heapRel_setDuration f a.heap c.heap c.heap.length h.inj h.heap_rel
        top2.slice htop (jsDiv event.ts 1000)
      have hrel2 := heapRel_setUserDuration f _ _ c.heap.length h.inj hrel1 top2.slice htop
        event.uts
      have hrel3 := heapRel_addToParent f _ _ c.heap.length h.inj hrel2 rest rest2 hrest hrestb
        top2.slice
      rw [processEnd_nested_pop env a p event hn rest top hs,
        processEnd_nested_pop env c p event hn rest2 top2 hsc] at hforeign ⊢
      have hlc : (addToParent (setUserDuration (setDuration c.heap top2.slice (jsDiv event.ts 1000))
          top2.slice event.uts) rest2 top2.slice).length = c.heap.length := by
        rw [length_addToParent, length_setUserDuration, length_setDuration]
      refine ⟨?_, ?_, ?_, ?_, ?_, hforeign⟩
      · intro x y hx hy
        rw [hlc] at hx hy
        exact h.inj x y hx hy
      · intro x hx
        rw [hlc] at hx
        show f x < (addToParent _ rest _).length
        rw [length_addToParent, length_setUserDuration, length_setDuration]
        exact h.bound x hx
      · intro x hx
        rw [hlc] at hx
        show (addToParent (setUserDuration (setDuration a.heap top.slice _) top.slice _) rest
          top.slice)[f x]? = _
        rw [hsl]
        exact hrel3 x hx
      · rw [getState_mk_jsSet_self, getState_mk_jsSet_self]
        have hd := projection_dict h
        simp only [ThreadState.forgetIndex, ThreadState.rename]
        rw [hrest, hd]
      · show (a.model.withThread event.pid event.tid _).getThread p.1 p.2 =
          renameThread f ((c.model.withThread event.pid event.tid _).getThread p.1 p.2)
        rw [hpid, htid, getThread_withThread_self, getThread_withThread_self, h.thread_rel,
          renameThread_pushSubrow, hsl, hlen]

theorem projection_of_eq {p : PTID} {f : Nat → Nat} {a c : TraceEventImporter}
    (h : Projection p f a c) (a2 c2 : TraceEventImporter)
    (hha : a2.heap = a.heap) (hhc : c2.heap = c.heap)
    (hsa : ∀ q, a2.getState q = a.getState q) (hsc : c2.getState p = c.getState p)
    (ht : a2.model.getThread p.1 p.2 = renameThread f (c2.model.getThread p.1 p.2)) :
    Projection p f a2 c2 where
  inj := by rw [hhc]; exact h.inj
  bound := by rw [hhc, hha]; exact h.bound
  heap_rel := by rw [hhc, hha]; exact h.heap_rel
  state_rel := by rw [hsa, hsc]; exact h.state_rel
  thread_rel := ht
  foreign := by
    intro q hq x hx
    rw [hsa] at hx
    rw [hhc]
    exact h.foreign q hq x hx

theorem closed_ensureState (imp : TraceEventImporter) (q : PTID) (h : Closed imp) :
    Closed (ensureState imp q) where
  refs := refsBounded_ensureState imp q h.refs
  rows := by rw [model_ensureState, heap_ensureState]; exact h.rows
  subs := by rw [heap_ensureState]; exact h.subs

theorem getState_processCounter (env : Env) (imp : TraceEventImporter) (event : TraceEvent)
    (q : PTID) : (processCounter env imp event).getState q = imp.getState q := by
  simp [TraceEventImporter.getState, processCounter_states]

/-- A loop iteration for an event of the PTID of the projection, run on both importers,
keeps the projection, with a renaming that extends the old one. -/
theorem projection_own_step {p : PTID} {f : Nat → Nat} {a c : TraceEventImporter}
    (h : Projection p f a c) (hba : RefsBounded a) (hcc : Closed c) (env : Env) (ia ic : Nat)
    (event : TraceEvent) (hp : event.ptid = p) :
    ∃ g, (∀ x, x < c.heap.length → g x = f x) ∧
      Projection p g (importStep env a ia event) (importStep env c ic event) := by
  have h1 := projection_ensureState h event.ptid event.ptid
  have hba1 := refsBounded_ensureState a event.ptid hba
  have hcc1 := closed_ensureState c event.ptid hcc
  have hext : ∀ x, x < c.heap.length →
      Function.update f (ensureState c event.ptid).heap.length
        (ensureState a event.ptid).heap.length x = f x := by
    intro x hx
    rw [heap_ensureState, heap_ensureState]
    exact Function.update_noteq (by omega) _ _
  have hpid : event.pid = p.1 := by rw [← hp]; rfl
  have htid : event.tid = p.2 := by rw [← hp]; rfl
  unfold importStep
  dsimp only
  by_cases hB : event.ph = "B"
  · simp only [if_pos hB]
    refine ⟨_, hext, ?_⟩
    rw [hp] at h1 hba1 hcc1 ⊢
    exact projection_processBegin h1 hba1 hcc1 env ia ic event
  simp only [if_neg hB]
  by_cases hE : event.ph = "E"
  · simp only [if_pos hE]
    refine ⟨f, fun _ _ => rfl, ?_⟩
    rw [hp] at h1 hcc1 ⊢
    exact projection_processEnd h1 hcc1.refs env event hp
  simp only [if_neg hE]
  by_cases hI : event.ph = "I"
  · simp only [if_pos hI]
    refine ⟨_, hext, ?_⟩
    rw [hp] at h1 hba1 hcc1 ⊢
    exact projection_processEnd (projection_processBegin h1 hba1 hcc1 env ia ic event)
      (refsBounded_step (stepFrame_processBegin env _ ic p event) hcc1.refs) env event hp
  simp only [if_neg hI]
  refine ⟨f, fun _ _ => rfl, ?_⟩
  split
  · apply projection_of_eq h1
    · exact processCounter_heap _ _ _
    · exact processCounter_heap _ _ _
    · exact getState_processCounter _ _ _
    · exact getState_processCounter _ _ _ _
    · rw [processCounter_getThread, processCounter_getThread]
      exact h1.thread_rel
  split
  · split
    · refine projection_of_eq h1 _ _ rfl rfl (fun _ => rfl) rfl ?_
      show ((ensureState a event.ptid).model.withThread event.pid event.tid _).getThread p.1 p.2 =
        renameThread f
          (((ensureState c event.ptid).model.withThread event.pid event.tid _).getThread p.1 p.2)
      rw [hpid, htid, getThread_withThread_self, getThread_withThread_self, h1.thread_rel]
      rfl
    · exact projection_of_eq h1 _ _ rfl rfl (fun _ => rfl) rfl h1.thread_rel
  · exact projection_of_eq h1 _ _ rfl rfl (fun _ => rfl) rfl h1.thread_rel

theorem eventsOf_append (p : PTID) (l1 l2 : List TraceEvent) :
    eventsOf p (l1 ++ l2) = eventsOf p l1 ++ eventsOf p l2 := by
  simp [eventsOf, List.filter_append]

theorem eventsOf_take_succ (p : PTID) (evs : List TraceEvent) (k : Nat) (e : TraceEvent)
    (h : evs[k]? = some e) :
    eventsOf p (evs.take (k + 1)) =
      eventsOf p (evs.take k) ++ (if e.ptid = p then [e] else []) := by
  rw [List.take_succ, h, eventsOf_append]
  congr 1
  simp only [Option.toList, eventsOf, List.filter]
  split
  · rename_i hd
    simp only [decide_eq_true_eq] at hd
    rw [if_pos hd]
  · rename_i hd
    simp only [decide_eq_false_iff_not] at hd
    rw [if_neg hd]

theorem eventsOf_take_none (p : PTID) (evs : List TraceEvent) (k : Nat) (h : evs[k]? = none) :
    eventsOf p (evs.take (k + 1)) = eventsOf p (evs.take k) := by
  rw [List.take_succ, h]
  simp

theorem getElem?_eventsOf (p : PTID) (evs : List TraceEvent) (k : Nat) (e : TraceEvent)
    (h : evs[k]? = some e) (hp : e.ptid = p) :
    (eventsOf p evs)[(eventsOf p (evs.take k)).length]? = some e := by
  have hk : k < evs.length := by
    by_contra hc
    rw [List.getElem?_eq_none (by omega)] at h
    cases h
  have hsplit : evs = evs.take (k + 1) ++ evs.drop (k + 1) := (List.take_append_drop _ _).symm
  rw [hsplit, eventsOf_append, ← hsplit, eventsOf_take_succ p evs k e h, if_pos hp,
    List.append_assoc, List.getElem?_append_right (le_refl _), Nat.sub_self]
  simp

/-- The run on an event array, seen from PTID `p`, is the run on the events of `p`. -/
theorem projection_stateAt (env : Env) (A P : TraceEventImporter) (p : PTID)
    (f0 : Nat → Nat) (hev : P.events = eventsOf p A.events) (h0 : Projection p f0 A P)
    (hba : RefsBounded A) (hcc : Closed P) (k : Nat) :
    ∃ f, (∀ x, x < P.heap.length → f x = f0 x) ∧
      Projection p f (stateAt env A k)
        (stateAt env P (eventsOf p (A.events.take k)).length) := by
  induction k with
  | zero => exact ⟨f0, fun _ _ => rfl, h0⟩
  | succ k ih =>
    obtain ⟨f, hf, hproj⟩ := ih
    cases hk : A.events[k]? with
    | none =>
      rw [stateAt_succ_none env A k hk, eventsOf_take_none p _ k hk]
      exact ⟨f, hf, hproj⟩
    | some e =>
      rw [stateAt_succ env A k e hk, eventsOf_take_succ p _ k e hk]
      by_cases hp : e.ptid = p
      · rw [if_pos hp, List.length_append, List.length_singleton]
        have hke : P.events[(eventsOf p (A.events.take k)).length]? = some e := by
          rw [hev]
          exact getElem?_eventsOf p _ k e hk hp
        rw [stateAt_succ env P _ e hke]
        obtain ⟨g, hg, hproj2⟩ := projection_own_step hproj (refsBounded_stateAt env A hba k)
          (closed_stateAt env P hcc _) env k (eventsOf p (A.events.take k)).length e hp
        refine ⟨g, ?_, hproj2⟩
        intro x hx
        rw [hg x (lt_of_lt_of_le hx (heap_le_stateAt env P _)), hf x hx]
      · rw [if_neg hp, List.append_nil]
        exact ⟨f, hf, projection_foreign_step hproj env k e hp⟩

theorem projection_loop_end (env : Env) (A P : TraceEventImporter) (p : PTID)
    (f0 : Nat → Nat) (hev : P.events = eventsOf p A.events) (h0 : Projection p f0 A P)
    (hba : RefsBounded A) (hcc : Closed P) :
    ∃ f, (∀ x, x < P.heap.length → f x = f0 x) ∧
      Projection p f (stateAt env A A.events.length) (stateAt env P P.events.length) := by
  obtain ⟨f, hf, hproj⟩ := projection_stateAt env A P p f0 hev h0 hba hcc A.events.length
  rw [List.take_length, ← hev] at hproj
  exact ⟨f, hf, hproj⟩

theorem renameSlice_id (s : TimelineSlice) : renameSlice id s = s := by
  simp [renameSlice]

theorem renameThread_id (t : TimelineThread) : renameThread id t = t := by
  simp [renameThread]

/-- Two fresh importers on the same model and heap are in projection. -/
theorem projection_new (model : TimelineModel) (heap : List TimelineSlice)
    (evs1 evs2 : List TraceEvent) (p : PTID) :
    Projection p id (TraceEventImporter.new model heap evs1)
      (TraceEventImporter.new model heap evs2) where
  inj := fun _ _ _ _ h => h
  bound := fun _ hx => hx
  heap_rel := by
    intro x _
    show heap[x]? = (heap[x]?).map (renameSlice id)
    cases heap[x]? with
    | none => rfl
    | some s => simp [renameSlice_id]
  state_rel := rfl
  thread_rel := (renameThread_id _).symm
  foreign := by
    intro q _ x hx
    simp [TraceEventImporter.new, TraceEventImporter.getState, jsGet, ThreadState.openRefs] at hx

theorem renameSlice_closedSlice (f : Nat → Nat) (T : ℚ) (s : TimelineSlice)
    (next : Option Nat) :
    closedSlice T (renameSlice f s) (next.map f) = renameSlice f (closedSlice T s next) := by
  cases next <;> simp [closedSlice, renameSlice]

theorem renameThread_comp (f g : Nat → Nat) (t : TimelineThread) :
    renameThread g (renameThread f t) = renameThread (g ∘ f) t := by
  simp [renameThread, List.map_map, Function.comp_def]

theorem subrow_renameThread (f : Nat → Nat) (t : TimelineThread) (d : Nat) :
    (renameThread f t).subrow d = (t.subrow d).map f := by
  simp only [TimelineThread.subrow, renameThread, List.getElem?_map]
  cases t.subRows[d]? <;> rfl

theorem inThread_renameThread (f : Nat → Nat) (t : TimelineThread) (r : Nat)
    (h : InThread (renameThread f t) r) : ∃ x, InThread t x ∧ r = f x := by
  rcases h with ⟨d, hd⟩ | hd
  · rw [subrow_renameThread] at hd
    obtain ⟨x, hx, rfl⟩ := List.mem_map.mp hd
    exact ⟨x, Or.inl ⟨d, hx⟩, rfl⟩
  · obtain ⟨x, hx, rfl⟩ := List.mem_map.mp hd
    exact ⟨x, Or.inr hx, rfl⟩

/-- The heap objects of the slices of PTID `p` when `importEvents` returns, in terms of the
run on the events of `p`: a slice that was on the stack of `p` after the loop is closed at
the closing time of the whole run, any other slice is as the loop left it. -/
theorem projection_final_heap (env : Env) (A : TraceEventImporter) (hwA : WellFormed A)
    (c : TraceEventImporter) (hbc : RefsBounded c) (p : PTID) (f : Nat → Nat)
    (h : Projection p f (stateAt env A A.events.length) c) (x : Nat) (hx : x < c.heap.length) :
    (x ∉ (c.getState p).stackRefs →
      (importEvents env A).heap[f x]? = (c.heap[x]?).map (renameSlice f)) ∧
    (∀ k, (c.getState p).stackRefs[k]? = some x →
      ∃ T, closingTime (stateAt env A A.events.length) = some T ∧
        (importEvents env A).heap[f x]? =
          (c.heap[x]?).map (fun s =>
            renameSlice f (closedSlice T s ((c.getState p).stackRefs[k + 1]?)))) := by
  have hwf := wellFormed_stateAt env A hwA A.events.length
  have hrefs := projection_stackRefs h
  constructor
  · intro hnot
    have hoff : ∀ q, f x ∉ ((stateAt env A A.events.length).getState q).stackRefs := by
      intro q hq
      by_cases hqp : q = p
      · subst hqp
        rw [hrefs] at hq
        obtain ⟨y, hy, hxy⟩ := List.mem_map.mp hq
        have hyb : y < c.heap.length := hbc q y (mem_stackRefs_openRefs _ _ hy)
        have := h.inj y x hyb hx hxy
        subst this
        exact hnot hy
      · exact h.foreign q hqp (f x) (mem_stackRefs_openRefs _ _ hq) x hx rfl
    rw [← h.heap_rel x hx]
    unfold importEvents
    dsimp only
    split
    · exact (autoCloseOpenSlices_placement _ hwf p _ rfl).2.2.2 _ hoff
    · rfl
  · intro k hk
    have hkA : ((stateAt env A A.events.length).getState p).stackRefs[k]? = some (f x) := by
      rw [hrefs, List.getElem?_map, hk]
      rfl
    simp only [ThreadState.stackRefs, List.getElem?_map] at hkA
    cases hw : ((stateAt env A A.events.length).getState p).openSlices[k]? with
    | none => rw [hw] at hkA; cases hkA
    | some w =>
      rw [hw] at hkA
      have hsl : w.slice = f x := by simpa using hkA
      obtain ⟨T, hT, heq⟩ := autoCloseOpenSlices_heap _ hwf p k w hw
      refine ⟨T, hT, ?_⟩
      have hopen : hasOpenSlices (stateAt env A A.events.length) = true := by
        apply hasOpenSlices_of_open_stack _ p
        intro hc
        rw [hc] at hw
        cases hw
      have hnext : (((stateAt env A A.events.length).getState p).openSlices[k + 1]?).map
          (fun w => w.slice) = ((c.getState p).stackRefs[k + 1]?).map f := by
        have := congrArg (fun l : List Nat => l[k + 1]?) hrefs
        simpa [ThreadState.stackRefs, List.getElem?_map] using this
      unfold importEvents
      dsimp only
      rw [if_pos hopen, ← hsl, heq, hsl, h.heap_rel x hx, hnext]
      cases c.heap[x]? with
      | none => rfl
      | some s => simp [renameSlice_closedSlice]

/-- The thread of PTID `p` when `importEvents` returns, in terms of the run on the events
of `p`. -/
theorem projection_final_thread (env : Env) (A : TraceEventImporter) (hwA : WellFormed A)
    (c : TraceEventImporter) (p : PTID) (f : Nat → Nat)
    (h : Projection p f (stateAt env A A.events.length) c) :
    (importEvents env A).model.getThread p.1 p.2 =
      renameThread f (closeRows (c.model.getThread p.1 p.2) (c.getState p).stackRefs) := by
  obtain ⟨a1, _, _, _⟩ := importEvents_model env A hwA
  rw [a1, h.thread_rel, projection_stackRefs h, closeRows_rename]

/-- An inverse of a renaming that is injective below `n`, composed with a second renaming. -/
theorem exists_transfer (fA fB : Nat → Nat) (n : Nat)
    (hinj : ∀ x y, x < n → y < n → fA x = fA y → x = y) :
    ∃ g : Nat → Nat, ∀ x, x < n → g (fA x) = fB x := by
  have hI : Set.InjOn fA (Set.Iio n) := by
    intro x hx y hy hxy
    exact hinj x y hx hy hxy
  refine ⟨fun r => fB (Function.invFunOn fA (Set.Iio n) r), ?_⟩
  intro x hx
  have := hI.leftInvOn_invFunOn (Set.mem_Iio.mpr hx)
  simp only [this]

/-! The bounds of the model after the loop. -/

/-- Two runs whose parts for PTID `p` are renamings of one importer `c` leave the same
thread for `p`, up to the renaming of slice references and the closing times. -/
theorem same_thread_of_projections (env : Env) (A B c : TraceEventImporter)
    (hwA : WellFormed A) (hwB : WellFormed B) (hcc : Closed c) (p : PTID) (fA fB : Nat → Nat)
    (hA : Projection p fA (stateAt env A A.events.length) c)
    (hB : Projection p fB (stateAt env B B.events.length) c) :
    ∃ g : Nat → Nat,
      (importEvents env B).model.getThread p.1 p.2 =
        renameThread g ((importEvents env A).model.getThread p.1 p.2) ∧
      (∀ r r2, InThread ((importEvents env A).model.getThread p.1 p.2) r →
        InThread ((importEvents env A).model.getThread p.1 p.2) r2 → g r = g r2 → r = r2) ∧
      (∀ r, InThread ((importEvents env A).model.getThread p.1 p.2) r →
        ∃ sA sB, (importEvents env A).heap[r]? = some sA ∧
          (importEvents env B).heap[g r]? = some sB ∧
          SameSlice g (closingTime (stateAt env A A.events.length))
            (closingTime (stateAt env B B.events.length)) sA sB) := by
  obtain ⟨g, hg⟩ := exists_transfer fA fB c.heap.length hA.inj
  have hstack : ∀ x ∈ (c.getState p).stackRefs, x < c.heap.length :=
    fun x hx => hcc.refs p x (mem_stackRefs_openRefs _ _ hx)
  have hX : ∀ x, InThread (closeRows (c.model.getThread p.1 p.2) (c.getState p).stackRefs) x →
      x < c.heap.length := by
    intro x hx
    rcases inThread_closeRows _ _ _ hx with h1 | h1
    · exact hcc.rows p.1 p.2 x h1
    · exact hstack x h1
  have htA := projection_final_thread env A hwA c p fA hA
  have htB := projection_final_thread env B hwB c p fB hB
  refine ⟨g, ?_, ?_, ?_⟩
  · rw [htA, htB, renameThread_comp]
    exact (renameThread_congr fB (g ∘ fA) _ (fun x hx => hg x (hX x hx))).symm
  · intro r r2 hr hr2 hgr
    rw [htA] at hr hr2
    obtain ⟨x, hx, rfl⟩ := inThread_renameThread _ _ _ hr
    obtain ⟨y, hy, rfl⟩ := inThread_renameThread _ _ _ hr2
    rw [hg x (hX x hx), hg y (hX y hy)] at hgr
    rw [hB.inj x y (hX x hx) (hX y hy) hgr]
  · intro r hr
    rw [htA] at hr
    obtain ⟨x, hx, rfl⟩ := inThread_renameThread _ _ _ hr
    have hxn := hX x hx
    rw [hg x hxn]
    obtain ⟨a1, a2⟩ := projection_final_heap env A hwA c hcc.refs p fA hA x hxn
    obtain ⟨b1, b2⟩ := projection_final_heap env B hwB c hcc.refs p fB hB x hxn
    have hs : c.heap[x]? = some c.heap[x] := List.getElem?_eq_getElem hxn
    have hsub : ∀ y ∈ (c.heap[x]).subSlices, g (fA y) = fB y :=
      fun y hy => hg y (hcc.subs x _ hs y hy)
    by_cases hon : x ∈ (c.getState p).stackRefs
    · obtain ⟨k, hk⟩ := List.getElem?_of_mem hon
      obtain ⟨TA, hTA, eA⟩ := a2 k hk
      obtain ⟨TB, hTB, eB⟩ := b2 k hk
      rw [hs] at eA eB
      refine ⟨_, _, eA, eB, rfl, rfl, rfl, rfl, rfl, ?_, rfl, rfl, ?_⟩
      · simp only [renameSlice, closedSlice, List.map_append, List.map_map]
        congr 1
        · exact (List.map_congr_left hsub).symm
        · cases hnext : (c.getState p).stackRefs[k + 1]? with
          | none => rfl
          | some y =>
            simp only [Option.toList, List.map_cons, List.map_nil, Function.comp_apply]
            rw [hg y (hstack y (List.getElem?_mem hnext))]
      · right
        exact ⟨rfl, TA, TB, hTA, hTB, rfl, rfl⟩
    · have eA := a1 hon
      have eB := b1 hon
      rw [hs] at eA eB
      refine ⟨_, _, eA, eB, rfl, rfl, rfl, rfl, rfl, ?_, rfl, rfl, Or.inl rfl⟩
      simp only [renameSlice, List.map_map]
      exact (List.map_congr_left hsub).symm

theorem modelKeys_withThread (m : TimelineModel) (pid tid : Nat)
    (f : TimelineThread → TimelineThread) (h : ModelKeys m) :
    ModelKeys (m.withThread pid tid f) := by
  obtain ⟨h1, h2⟩ := h
  unfold TimelineModel.withThread
  refine ⟨keysNodup_jsSet _ _ _ h1, ?_⟩
  intro kv hkv
  rcases mem_values_jsSet _ _ _ _ hkv with he | hm
  · subst he
    apply keysNodup_jsSet
    unfold TimelineModel.getProcess
    cases hg : jsGet m.processes pid with
    | none => exact List.nodup_nil
    | some proc => exact h2 _ (jsGet_some_mem _ _ _ hg)
  · exact h2 kv hm

theorem modelKeys_processCounter (env : Env) (imp : TraceEventImporter) (event : TraceEvent)
    (h : ModelKeys imp.model) : ModelKeys (processCounter env imp event).model := by
  obtain ⟨h1, h2⟩ := h
  have hproc : KeysNodup (imp.model.getProcess event.pid).threads := by
    unfold TimelineModel.getProcess
    cases hg : jsGet imp.model.processes event.pid with
    | none => exact List.nodup_nil
    | some proc => exact h2 _ (jsGet_some_mem _ _ _ hg)
  unfold processCounter
  dsimp only
  split
  · refine ⟨keysNodup_jsSet _ _ _ h1, ?_⟩
    intro kv hkv
    rcases mem_values_jsSet _ _ _ _ hkv with he | hm
    · subst he
      exact hproc
    · exact h2 kv hm
  · refine ⟨keysNodup_jsSet _ _ _ h1, ?_⟩
    intro kv hkv
    rcases mem_values_jsSet _ _ _ _ hkv with he | hm
    · subst he
      exact hproc
    · exact h2 kv hm

theorem modelKeys_processBegin (env : Env) (imp : TraceEventImporter) (index : Nat) (q : PTID)
    (event : TraceEvent) (h : ModelKeys imp.model) :
    ModelKeys (processBegin env imp index q event).model := by
  unfold processBegin
  dsimp only
  split
  · dsimp only
    split
    · exact h
    · exact h
  · exact h

theorem modelKeys_processEnd (env : Env) (imp : TraceEventImporter) (q : PTID)
    (event : TraceEvent) (h : ModelKeys imp.model) :
    ModelKeys (processEnd env imp q event).model := by
  unfold processEnd
  dsimp only
  split
  · split
    · exact h
    · exact modelKeys_withThread _ _ _ _ h
  · split
    · exact h
    · exact modelKeys_withThread _ _ _ _ h

theorem modelKeys_importStep (env : Env) (imp : TraceEventImporter) (eI : Nat)
    (event : TraceEvent) (h : ModelKeys imp.model) :
    ModelKeys (importStep env imp eI event).model := by
  have h1 : ModelKeys (ensureState imp event.ptid).model := by
    rw [model_ensureState]
    exact h
  unfold importStep
  dsimp only
  split
  · exact modelKeys_processBegin env _ eI _ event h1
  split
  · exact modelKeys_processEnd env _ _ event h1
  split
  · exact modelKeys_processEnd env _ _ event (modelKeys_processBegin env _ eI _ event h1)
  split
  · exact modelKeys_processCounter env _ event h1
  split
  · split
    · exact modelKeys_withThread _ _ _ _ h1
    · exact h1
  · exact h1

theorem modelKeys_stateAt (env : Env) (imp : TraceEventImporter) (h : ModelKeys imp.model)
    (k : Nat) : ModelKeys (stateAt env imp k).model := by
  induction k with
  | zero => exact h
  | succ k ih =>
    cases hev : imp.events[k]? with
    | none =>
      rw [stateAt_succ_none env imp _ hev]
      exact ih
    | some e =>
      rw [stateAt_succ env imp _ e hev]
      exact modelKeys_importStep env _ k e ih

theorem mem_rows_iff (t : TimelineThread) (r : Nat) :
    r ∈ t.subRows.flatten ++ t.nonNestedSlices ↔ InThread t r := by
  simp only [List.mem_append, List.mem_flatten, InThread]
  constructor
  · rintro (⟨row, hrow, hr⟩ | h)
    · obtain ⟨d, hd⟩ := subrow_of_mem_subRows t row hrow
      exact Or.inl ⟨d, by rw [hd]; exact hr⟩
    · exact Or.inr h
  · rintro (⟨d, hd⟩ | h)
    · left
      unfold TimelineThread.subrow at hd
      cases hrow : t.subRows[d]? with
      | none => rw [hrow] at hd; simp at hd
      | some row =>
        rw [hrow] at hd
        exact ⟨row, List.getElem?_mem hrow, hd⟩
    · exact Or.inr h

/-- The slice references of the model, as a set, in terms of its threads. -/
theorem mem_sliceRefs (m : TimelineModel) (hk : ModelKeys m) (r : Nat) :
    r ∈ m.sliceRefs ↔ ∃ pid tid, InThread (m.getThread pid tid) r := by
  obtain ⟨h1, h2⟩ := hk
  unfold TimelineModel.sliceRefs
  simp only [List.mem_flatMap]
  constructor
  · rintro ⟨⟨pid, proc⟩, hp, ⟨tid, thr⟩, ht, hr⟩
    refine ⟨pid, tid, ?_⟩
    have e1 := jsGet_of_mem _ _ _ h1 hp
    have e2 := jsGet_of_mem _ _ _ (h2 _ hp) ht
    have : m.getThread pid tid = thr := by
      simp only [TimelineModel.getThread, TimelineModel.getProcess, TimelineProcess.getThread,
        e1, Option.getD_some]
      simp only at e2
      rw [e2]
      rfl
    rw [this]
    exact (mem_rows_iff thr r).mp hr
  · rintro ⟨pid, tid, hr⟩
    unfold TimelineModel.getThread TimelineModel.getProcess TimelineProcess.getThread at hr
    cases e1 : jsGet m.processes pid with
    | none =>
      rw [e1] at hr
      rcases hr with ⟨d, hd⟩ | hd
      · simp [jsGet, TimelineThread.subrow] at hd
      · simp [jsGet] at hd
    | some proc =>
      rw [e1] at hr
      simp only [Option.getD_some] at hr
      cases e2 : jsGet proc.threads tid with
      | none =>
        rw [e2] at hr
        rcases hr with ⟨d, hd⟩ | hd
        · simp [TimelineThread.subrow] at hd
        · simp at hd
      | some thr =>
        rw [e2] at hr
        simp only [Option.getD_some] at hr
        exact ⟨(pid, proc), jsGet_some_mem _ _ _ e1, (tid, thr), jsGet_some_mem _ _ _ e2,
          (mem_rows_iff thr r).mpr hr⟩

/-- The counter timestamps of the model, as a set, in terms of its processes. -/
theorem mem_counterTimestamps (m : TimelineModel) (hk : ModelKeys m) (x : ℚ) :
    x ∈ m.counterTimestamps ↔
      ∃ pid, ∃ kv ∈ (m.getProcess pid).counters, x ∈ kv.2.timestamps := by
  obtain ⟨h1, _⟩ := hk
  unfold TimelineModel.counterTimestamps
  simp only [List.mem_flatMap]
  constructor
  · rintro ⟨⟨pid, proc⟩, hp, kv, hkv, hx⟩
    have e1 := jsGet_of_mem _ _ _ h1 hp
    refine ⟨pid, kv, ?_, hx⟩
    simp only [TimelineModel.getProcess, e1, Option.getD_some]
    exact hkv
  · rintro ⟨pid, kv, hkv, hx⟩
    unfold TimelineModel.getProcess at hkv
    cases e1 : jsGet m.processes pid with
    | none =>
      rw [e1] at hkv
      simp at hkv
    | some proc =>
      rw [e1] at hkv
      exact ⟨(pid, proc), jsGet_some_mem _ _ _ e1, kv, hkv, hx⟩

theorem sliceStamps_projection {p : PTID} {f : Nat → Nat} {a c : TraceEventImporter}
    (h : Projection p f a c) (y : Nat) (hy : y < c.heap.length) :
    sliceStamps a.heap (f y) = sliceStamps c.heap y := by
  unfold sliceStamps
  rw [h.heap_rel y hy]
  cases c.heap[y]? <;> rfl

theorem refTimestamps_projection {p : PTID} {f : Nat → Nat} {a c : TraceEventImporter}
    (h : Projection p f a c) (hcc : Closed c) (y : Nat) (hy : y < c.heap.length) :
    refTimestamps a.heap (f y) = refTimestamps c.heap y := by
  unfold refTimestamps
  rw [h.heap_rel y hy]
  cases hs : c.heap[y]? with
  | none => rfl
  | some s =>
    simp only [Option.map_some', renameSlice, List.flatMap_map]
    congr 1
    apply List.flatMap_congr
    intro x hx
    rw [h.heap_rel x (hcc.subs y s hs x hx)]
    cases c.heap[x]? <;> rfl

theorem inThread_renameThread_of (f : Nat → Nat) (t : TimelineThread) (y : Nat)
    (h : InThread t y) : InThread (renameThread f t) (f y) := by
  rcases h with ⟨d, hd⟩ | hd
  · left
    exact ⟨d, by rw [subrow_renameThread]; exact List.mem_map_of_mem f hd⟩
  · right
    exact List.mem_map_of_mem f hd

theorem counters_processCounter_ne (env : Env) (imp : TraceEventImporter) (e : TraceEvent)
    (pid : Nat) (h : pid ≠ e.pid) :
    ((processCounter env imp e).model.getProcess pid).counters =
      (imp.model.getProcess pid).counters := by
  unfold processCounter
  dsimp only
  split <;> simp [TimelineModel.getProcess, jsGet_jsSet_ne _ _ _ _ h]

/-- The counters after `processCounter` depend only on the counters before. -/
theorem counters_processCounter_congr (env : Env) (a c : TraceEventImporter) (e : TraceEvent)
    (h : ∀ pid, (a.model.getProcess pid).counters = (c.model.getProcess pid).counters)
    (pid : Nat) :
    ((processCounter env a e).model.getProcess pid).counters =
      ((processCounter env c e).model.getProcess pid).counters := by
  by_cases hp : pid = e.pid
  · subst hp
    have hc : (a.model.getProcess e.pid).getCounter env e.cat (ctrNameOf env e) =
        (c.model.getProcess e.pid).getCounter env e.cat (ctrNameOf env e) := by
      simp [TimelineProcess.getCounter, h e.pid]
    rw [getProcess_counters_processCounter, getProcess_counters_processCounter, hc, h e.pid]
  · rw [counters_processCounter_ne env a e pid hp, counters_processCounter_ne env c e pid hp]
    exact h pid

theorem counters_processBegin (env : Env) (imp : TraceEventImporter) (index : Nat) (q : PTID)
    (event : TraceEvent) (pid : Nat) :
    ((processBegin env imp index q event).model.getProcess pid).counters =
      (imp.model.getProcess pid).counters := by
  unfold processBegin
  dsimp only
  split
  · dsimp only
    split <;> rfl
  · rfl

theorem counters_processEnd (env : Env) (imp : TraceEventImporter) (q : PTID)
    (event : TraceEvent) (pid : Nat) :
    ((processEnd env imp q event).model.getProcess pid).counters =
      (imp.model.getProcess pid).counters := by
  unfold processEnd
  dsimp only
  split
  · split
    · rfl
    · exact counters_withThread _ _ _ _ _
  · split
    · rfl
    · exact counters_withThread _ _ _ _ _

/-- A loop iteration for an event that is not a C event leaves the counters alone. -/
theorem counters_importStep_other (env : Env) (imp : TraceEventImporter) (eI : Nat)
    (event : TraceEvent) (hC : event.ph ≠ "C") (pid : Nat) :
    ((importStep env imp eI event).model.getProcess pid).counters =
      (imp.model.getProcess pid).counters := by
  unfold importStep
  dsimp only
  split
  · rw [counters_processBegin, model_ensureState]
  split
  · rw [counters_processEnd, model_ensureState]
  split
  · rw [counters_processEnd, counters_processBegin, model_ensureState]
  split
  · split
    · show (((ensureState imp event.ptid).model.withThread _ _ _).getProcess pid).counters = _
      rw [counters_withThread, model_ensureState]
    · show (((ensureState imp event.ptid).model.pushError _).getProcess pid).counters = _
      rw [model_ensureState]
      rfl
  · show (((ensureState imp event.ptid).model.pushError _).getProcess pid).counters = _
    rw [model_ensureState]
    rfl

theorem counters_importStep_counter (env : Env) (a c : TraceEventImporter) (ia ic : Nat)
    (event : TraceEvent) (hC : event.ph = "C")
    (h : ∀ pid, (a.model.getProcess pid).counters = (c.model.getProcess pid).counters)
    (pid : Nat) :
    ((importStep env a ia event).model.getProcess pid).counters =
      ((importStep env c ic event).model.getProcess pid).counters := by
  have hB : event.ph ≠ "B" := by rw [hC]; decide
  have hE : event.ph ≠ "E" := by rw [hC]; decide
  have hI : event.ph ≠ "I" := by rw [hC]; decide
  unfold importStep
  dsimp only
  rw [if_neg hB, if_neg hE, if_neg hI, if_pos hC, if_neg hB, if_neg hE, if_neg hI, if_pos hC]
  apply counters_processCounter_congr
  intro pid2
  rw [model_ensureState, model_ensureState]
  exact h pid2

theorem counterEvents_take_succ (evs : List TraceEvent) (k : Nat) (e : TraceEvent)
    (h : evs[k]? = some e) :
    counterEvents (evs.take (k + 1)) =
      counterEvents (evs.take k) ++ (if e.ph = "C" then [e] else []) := by
  rw [List.take_succ, h]
  unfold counterEvents
  rw [List.filter_append]
  congr 1
  simp only [Option.toList, List.filter]
  split
  · rename_i hd
    simp only [decide_eq_true_eq] at hd
    rw [if_pos hd]
  · rename_i hd
    simp only [decide_eq_false_iff_not] at hd
    rw [if_neg hd]

theorem counterEvents_take_none (evs : List TraceEvent) (k : Nat) (h : evs[k]? = none) :
    counterEvents (evs.take (k + 1)) = counterEvents (evs.take k) := by
  rw [List.take_succ, h]
  simp

theorem getElem?_counterEvents (evs : List TraceEvent) (k : Nat) (e : TraceEvent)
    (h : evs[k]? = some e) (hp : e.ph = "C") :
    (counterEvents evs)[(counterEvents (evs.take k)).length]? = some e := by
  have hsplit : evs = evs.take (k + 1) ++ evs.drop (k + 1) := (List.take_append_drop _ _).symm
  have h1 : counterEvents evs =
      counterEvents (evs.take (k + 1)) ++ counterEvents (evs.drop (k + 1)) := by
    unfold counterEvents
    rw [← List.filter_append, ← hsplit]
  rw [h1, counterEvents_take_succ evs k e h, if_pos hp, List.append_assoc,
    List.getElem?_append_right (le_refl _), Nat.sub_self]
  simp

/-- The counters of the run on an event array are those of the run on its C events. -/
theorem counters_stateAt (env : Env) (A C : TraceEventImporter)
    (hev : C.events = counterEvents A.events) (hm : A.model = C.model) (k : Nat) (pid : Nat) :
    ((stateAt env A k).model.getProcess pid).counters =
      ((stateAt env C (counterEvents (A.events.take k)).length).model.getProcess pid).counters
    := by
  induction k generalizing pid with
  | zero =>
    show (A.model.getProcess pid).counters = (C.model.getProcess pid).counters
    rw [hm]
  | succ k ih =>
    cases hk : A.events[k]? with
    | none =>
      rw [stateAt_succ_none env A k hk, counterEvents_take_none _ k hk]
      exact ih pid
    | some e =>
      rw [stateAt_succ env A k e hk, counterEvents_take_succ _ k e hk]
      by_cases hp : e.ph = "C"
      · rw [if_pos hp, List.length_append, List.length_singleton]
        have hke : C.events[(counterEvents (A.events.take k)).length]? = some e := by
          rw [hev]
          exact getElem?_counterEvents _ k e hk hp
        rw [stateAt_succ env C _ e hke]
        exact counters_importStep_counter env _ _ _ _ e hp ih pid
      · rw [if_neg hp, List.append_nil, counters_importStep_other env _ k e hp]
        exact ih pid

theorem closed_new_events (model : TimelineModel) (heap : List TimelineSlice)
    (evs1 evs2 : List TraceEvent) (h : Closed (TraceEventImporter.new model heap evs1)) :
    Closed (TraceEventImporter.new model heap evs2) :=
  ⟨refsBounded_new _ _ _, h.rows, h.subs⟩

/-- The run on an event array, seen from any PTID, is a renaming of the run on the events
of that PTID. -/
theorem run_projection (env : Env) (model : TimelineModel) (heap : List TimelineSlice)
    (evs : List TraceEvent) (hclosed : Closed (TraceEventImporter.new model heap []))
    (p : PTID) :
    ∃ f, Projection p f (stateAt env (TraceEventImporter.new model heap evs) evs.length)
      (stateAt env (TraceEventImporter.new model heap (eventsOf p evs))
        (eventsOf p evs).length) := by
  obtain ⟨f, _, hf⟩ := projection_loop_end env (TraceEventImporter.new model heap evs)
    (TraceEventImporter.new model heap (eventsOf p evs)) p id rfl
    (projection_new model heap _ _ _) (refsBounded_new _ _ _)
    (closed_new_events model heap _ _ hclosed)
  exact ⟨f, hf⟩

/-- The slice timestamps from which `updateBounds` computes the bounds after the loop, as a
set, in terms of the runs on the events of each PTID. -/
theorem run_sliceStamps (env : Env) (model : TimelineModel) (heap : List TimelineSlice)
    (evs : List TraceEvent) (hclosed : Closed (TraceEventImporter.new model heap []))
    (hkeys : ModelKeys model) (x : ℚ) :
    x ∈ (stateAt env (TraceEventImporter.new model heap evs) evs.length).model.sliceRefs.flatMap
        (sliceStamps (stateAt env (TraceEventImporter.new model heap evs) evs.length).heap) ↔
      ∃ pid tid y,
        InThread ((stateAt env (TraceEventImporter.new model heap (eventsOf (pid, tid) evs))
          (eventsOf (pid, tid) evs).length).model.getThread pid tid) y ∧
        x ∈ sliceStamps (stateAt env (TraceEventImporter.new model heap
          (eventsOf (pid, tid) evs)) (eventsOf (pid, tid) evs).length).heap y := by
  have hk := modelKeys_stateAt env (TraceEventImporter.new model heap evs) hkeys evs.length
  simp only [List.mem_flatMap]
  constructor
  · rintro ⟨r, hr, hx⟩
    obtain ⟨pid, tid, hin⟩ := (mem_sliceRefs _ hk r).mp hr
    obtain ⟨f, hf⟩ := run_projection env model heap evs hclosed (pid, tid)
    have hcc := closed_stateAt env _ (closed_new_events model heap [] (eventsOf (pid, tid) evs)
      hclosed) (eventsOf (pid, tid) evs).length
    rw [hf.thread_rel] at hin
    obtain ⟨y, hy, rfl⟩ := inThread_renameThread _ _ _ hin
    refine ⟨pid, tid, y, hy, ?_⟩
    rw [← sliceStamps_projection hf y (hcc.rows pid tid y hy)]
    exact hx
  · rintro ⟨pid, tid, y, hy, hx⟩
    obtain ⟨f, hf⟩ := run_projection env model heap evs hclosed (pid, tid)
    have hcc := closed_stateAt env _ (closed_new_events model heap [] (eventsOf (pid, tid) evs)
      hclosed) (eventsOf (pid, tid) evs).length
    refine ⟨f y, ?_, ?_⟩
    · apply (mem_sliceRefs _ hk (f y)).mpr
      refine ⟨pid, tid, ?_⟩
      rw [hf.thread_rel]
      exact inThread_renameThread_of f _ y hy
    · rw [sliceStamps_projection hf y (hcc.rows pid tid y hy)]
      exact hx

/-- The open timestamps collected after the loop, as a set, in terms of the runs on the
events of each PTID. -/
theorem run_openTimestamps (env : Env) (model : TimelineModel) (heap : List TimelineSlice)
    (evs : List TraceEvent) (hclosed : Closed (TraceEventImporter.new model heap []))
    (m2 : TimelineModel) (x : ℚ) :
    x ∈ openTimestamps
        { stateAt env (TraceEventImporter.new model heap evs) evs.length with model := m2 } ↔
      ∃ p y,
        y ∈ ((stateAt env (TraceEventImporter.new model heap (eventsOf p evs))
          (eventsOf p evs).length).getState p).stackRefs ∧
        x ∈ refTimestamps (stateAt env (TraceEventImporter.new model heap (eventsOf p evs))
          (eventsOf p evs).length).heap y := by
  have hk : KeysNodup
      (stateAt env (TraceEventImporter.new model heap evs) evs.length).threadStateByPTID :=
    keysNodup_stateAt env (TraceEventImporter.new model heap evs) List.nodup_nil _
  rw [mem_openTimestamps
    { stateAt env (TraceEventImporter.new model heap evs) evs.length with model := m2 } hk]
  constructor
  · rintro ⟨p, r, hr, hx⟩
    obtain ⟨f, hf⟩ := run_projection env model heap evs hclosed p
    have hcc := closed_stateAt env _ (closed_new_events model heap [] (eventsOf p evs)
      hclosed) (eventsOf p evs).length
    have hr2 : r ∈ ((stateAt env (TraceEventImporter.new model heap evs)
        evs.length).getState p).stackRefs := hr
    rw [projection_stackRefs hf] at hr2
    obtain ⟨y, hy, rfl⟩ := List.mem_map.mp hr2
    refine ⟨p, y, hy, ?_⟩
    rw [← refTimestamps_projection hf hcc y (hcc.refs p y (mem_stackRefs_openRefs _ _ hy))]
    exact hx
  · rintro ⟨p, y, hy, hx⟩
    obtain ⟨f, hf⟩ := run_projection env model heap evs hclosed p
    have hcc := closed_stateAt env _ (closed_new_events model heap [] (eventsOf p evs)
      hclosed) (eventsOf p evs).length
    refine ⟨p, f y, ?_, ?_⟩
    · show f y ∈ ((stateAt env (TraceEventImporter.new model heap evs)
        evs.length).getState p).stackRefs
      rw [projection_stackRefs hf]
      exact List.mem_map_of_mem f hy
    · show x ∈ refTimestamps (stateAt env (TraceEventImporter.new model heap evs)
        evs.length).heap (f y)
      rw [refTimestamps_projection hf hcc y (hcc.refs p y (mem_stackRefs_openRefs _ _ hy))]
      exact hx

/-- The counter timestamps after the loop, as a set, in terms of the run on the C events. -/
theorem run_counterTimestamps (env : Env) (model : TimelineModel) (heap : List TimelineSlice)
    (evs : List TraceEvent) (hkeys : ModelKeys model) (x : ℚ) :
    x ∈ (stateAt env (TraceEventImporter.new model heap evs)
        evs.length).model.counterTimestamps ↔
      ∃ pid, ∃ kv ∈ ((stateAt env (TraceEventImporter.new model heap (counterEvents evs))
        (counterEvents evs).length).model.getProcess pid).counters, x ∈ kv.2.timestamps := by
  have hk := modelKeys_stateAt env (TraceEventImporter.new model heap evs) hkeys evs.length
  rw [mem_counterTimestamps _ hk]
  have hc : ∀ pid, ((stateAt env (TraceEventImporter.new model heap evs)
      evs.length).model.getProcess pid).counters =
      ((stateAt env (TraceEventImporter.new model heap (counterEvents evs))
        (counterEvents evs).length).model.getProcess pid).counters := by
    intro pid
    have := counters_stateAt env (TraceEventImporter.new model heap evs)
      (TraceEventImporter.new model heap (counterEvents evs)) rfl rfl evs.length pid
    rw [show (TraceEventImporter.new model heap evs).events = evs from rfl,
      List.take_length] at this
    exact this
  simp only [hc]

/-- Two event arrays with the same events of every PTID in the same order and the same C
events in the same order give the same closing time. -/
theorem closingTime_eq_of_same_events (env : Env) (model : TimelineModel)
    (heap : List TimelineSlice) (eventsA eventsB : List TraceEvent)
    (hclosed : Closed (TraceEventImporter.new model heap [])) (hkeys : ModelKeys model)
    (hsame : ∀ p, eventsOf p eventsA = eventsOf p eventsB)
    (hC : counterEvents eventsA = counterEvents eventsB) :
    closingTime (stateAt env (TraceEventImporter.new model heap eventsA) eventsA.length) =
      closingTime (stateAt env (TraceEventImporter.new model heap eventsB) eventsB.length) := by
  have h1 : mathMax
      ((stateAt env (TraceEventImporter.new model heap eventsA)
          eventsA.length).model.sliceRefs.flatMap
        (sliceStamps (stateAt env (TraceEventImporter.new model heap eventsA)
          eventsA.length).heap) ++
        (stateAt env (TraceEventImporter.new model heap eventsA)
          eventsA.length).model.counterTimestamps) =
      mathMax
      ((stateAt env (TraceEventImporter.new model heap eventsB)
          eventsB.length).model.sliceRefs.flatMap
        (sliceStamps (stateAt env (TraceEventImporter.new model heap eventsB)
          eventsB.length).heap) ++
        (stateAt env (TraceEventImporter.new model heap eventsB)
          eventsB.length).model.counterTimestamps) := by
    apply mathMax_congr
    intro x
    rw [List.mem_append, List.mem_append, run_sliceStamps env model heap eventsA hclosed hkeys,
      run_sliceStamps env model heap eventsB hclosed hkeys,
      run_counterTimestamps env model heap eventsA hkeys,
      run_counterTimestamps env model heap eventsB hkeys, hC]
    simp only [hsame]
  have h2 : ∀ mA mB, mathMax (openTimestamps
      { stateAt env (TraceEventImporter.new model heap eventsA) eventsA.length with
        model := mA }) =
      mathMax (openTimestamps
      { stateAt env (TraceEventImporter.new model heap eventsB) eventsB.length with
        model := mB }) := by
    intro mA mB
    apply mathMax_congr
    intro x
    rw [run_openTimestamps env model heap eventsA hclosed,
      run_openTimestamps env model heap eventsB hclosed]
    simp only [hsame]
  unfold closingTime realMaxTimestamp
  have h3 : ∀ (m : TimelineModel) (hp : List TimelineSlice),
      (updateBounds m hp).maxTimestamp =
        mathMax (m.sliceRefs.flatMap (sliceStamps hp) ++ m.counterTimestamps) := fun _ _ => rfl
  rw [h3, h3, h1, h2]

theorem sameSlice_eq (g : Nat → Nat) (T : Option ℚ) (sA sB : TimelineSlice)
    (h : SameSlice g T T sA sB) : sB = renameSlice g sA := by
  obtain ⟨h1, h2, h3, h4, h5, h6, h7, h8, h9⟩ := h
  have hd : sB.duration = sA.duration := by
    rcases h9 with h9 | ⟨_, ta, tb, e1, e2, e3, e4⟩
    · exact h9
    · rw [e1] at e2
      have : ta = tb := Option.some.inj e2
      rw [e3, e4, this]
  cases sA
  cases sB
  simp only [renameSlice] at *
  simp only [h1, h2, h3, h4, h5, h6, h7, h8, hd]

/-! Counting the slices of the subrows. -/

theorem flatten_length_pushAt (rows : List (List Nat)) :
    ∀ i r, (pushAt rows i r).flatten.length = rows.flatten.length + 1 := by
  induction rows with
  | nil =>
    intro i
    induction i with
    | zero => intro r; simp [pushAt]
    | succ i ih => intro r; simp [pushAt, ih r]
  | cons row rows ih =>
    intro i r
    cases i with
    | zero => simp [pushAt]; omega
    | succ i => simp [pushAt, ih i r]; omega

theorem subrowSlices_pushSubrow (t : TimelineThread) (i r : Nat) :
    (t.pushSubrow i r).subrowSlices = t.subrowSlices + 1 := by
  simp only [TimelineThread.pushSubrow, TimelineThread.subrowSlices]
  exact flatten_length_pushAt _ _ _

theorem subrowSlices_closeRowsFrom (refs : List Nat) :
    ∀ t : TimelineThread, (closeRowsFrom t refs).subrowSlices = t.subrowSlices + refs.length := by
  induction refs with
  | nil => intro t; simp [closeRowsFrom]
  | cons top below ih =>
    intro t
    simp only [closeRowsFrom, ih, subrowSlices_pushSubrow, List.length_cons]
    omega

theorem subrowSlices_closeRows (t : TimelineThread) (refs : List Nat) :
    (closeRows t refs).subrowSlices = t.subrowSlices + refs.length := by
  simp [closeRows, subrowSlices_closeRowsFrom]

theorem nestedCount_ensureState (imp : TraceEventImporter) (p q : PTID) :
    nestedCount (ensureState imp p) q = nestedCount imp q := by
  simp [nestedCount, getState_ensureState, model_ensureState]

theorem nestedCount_processBegin (env : Env) (imp : TraceEventImporter) (index : Nat)
    (event : TraceEvent) (q : PTID) :
    nestedCount (processBegin env imp index event.ptid event) q =
      nestedCount imp q +
        if event.ptid = q ∧ event.nonNested = false then 1 else 0 := by
  unfold nestedCount
  rw [getThread_processBegin]
  by_cases hq : event.ptid = q
  · subst hq
    rw [processBegin_stack]
    cases hn : event.nonNested <;> simp
    omega
  · have hs : (processBegin env imp index event.ptid event).getState q = imp.getState q :=
      (stepFrame_processBegin env imp index event.ptid event).state_ne q (Ne.symm hq)
    rw [hs]
    simp [hq]

theorem nestedCount_processEnd (env : Env) (imp : TraceEventImporter)
    (event : TraceEvent) (q : PTID) :
    nestedCount (processEnd env imp event.ptid event) q = nestedCount imp q := by
  cases hn : event.nonNested with
  | true =>
    cases hs : jsGet (imp.getState event.ptid).openNonNestedSlices (sliceIDOf env event) with
    | none => rw [processEnd_nonNested_none env imp _ event hn hs]
    | some slice =>
      rw [processEnd_nonNested_some env imp _ event hn slice hs]
      unfold nestedCount
      by_cases hq : q = event.ptid
      · subst hq
        rw [getState_mk_jsSet_self]
        show ((imp.model.withThread event.pid event.tid _).getThread event.pid
          event.tid).subrowSlices + _ = _
        rw [getThread_withThread_self]
        rfl
      · rw [getState_mk_jsSet_other imp _ _ _ _ _ _ hq]
        show ((imp.model.withThread event.pid event.tid _).getThread q.1 q.2).subrowSlices + _ = _
        rw [getThread_withThread_ne _ _ _ _ _ _ (by exact hq)]
  | false =>
    rcases eq_nil_or_concat_list (imp.getState event.ptid).openSlices with hs | ⟨rest, top, hs⟩
    · rw [processEnd_nested_empty env imp _ event hn hs]
    · rw [processEnd_nested_pop env imp _ event hn rest top hs]
      unfold nestedCount
      by_cases hq : q = event.ptid
      · subst hq
        rw [getState_mk_jsSet_self]
        show ((imp.model.withThread event.pid event.tid _).getThread event.pid
          event.tid).subrowSlices + _ = _
        rw [getThread_withThread_self, subrowSlices_pushSubrow, hs]
        have he : imp.model.getThread event.ptid.1 event.ptid.2 =
            imp.model.getThread event.pid event.tid := rfl
        rw [he]
        simp only [List.length_append, List.length_singleton]
        omega
      · rw [getState_mk_jsSet_other imp _ _ _ _ _ _ hq]
        show ((imp.model.withThread event.pid event.tid _).getThread q.1 q.2).subrowSlices + _ = _
        rw [getThread_withThread_ne _ _ _ _ _ _ (by exact hq)]

theorem nestedCount_of_eq (a b : TraceEventImporter) (q : PTID)
    (hs : a.threadStateByPTID = b.threadStateByPTID)
    (ht : (a.model.getThread q.1 q.2).subrowSlices = (b.model.getThread q.1 q.2).subrowSlices) :
    nestedCount a q = nestedCount b q := by
  unfold nestedCount TraceEventImporter.getState
  rw [hs, ht]

theorem nestedCount_importStep (env : Env) (imp : TraceEventImporter) (eI : Nat)
    (event : TraceEvent) (q : PTID) :
    nestedCount (importStep env imp eI event) q =
      nestedCount imp q +
        if (decide (event.ptid = q) && event.opensNested) = true then 1 else 0 := by
  rw [← nestedCount_ensureState imp event.ptid q]
  unfold importStep TraceEvent.opensNested
  simp only
  by_cases hB : event.ph = "B"
  · rw [if_pos hB, nestedCount_processBegin]
    by_cases hq : event.ptid = q <;> cases hn : event.nonNested <;> simp [hB, hq, hn]
  · rw [if_neg hB]
    by_cases hE : event.ph = "E"
    · rw [if_pos hE, nestedCount_processEnd]
      simp [hE]
    · rw [if_neg hE]
      by_cases hI : event.ph = "I"
      · rw [if_pos hI, nestedCount_processEnd, nestedCount_processBegin]
        by_cases hq : event.ptid = q <;> cases hn : event.nonNested <;> simp [hI, hq, hn]
      · rw [if_neg hI]
        have h0 : (if (decide (event.ptid = q) &&
            ((decide (event.ph = "B") || decide (event.ph = "I")) && !event.nonNested)) = true
            then 1 else 0) = 0 := by simp [hB, hI]
        rw [h0, Nat.add_zero]
        by_cases hC : event.ph = "C"
        · rw [if_pos hC]
          exact nestedCount_of_eq _ _ q (processCounter_states _ _ _)
            (by rw [processCounter_getThread])
        · rw [if_neg hC]
          by_cases hM : event.ph = "M"
          · rw [if_pos hM]
            by_cases hN : event.name = "thread_name"
            · rw [if_pos hN]
              refine nestedCount_of_eq _ _ q rfl ?_
              show ((TimelineModel.withThread _ event.pid event.tid _).getThread q.1
                q.2).subrowSlices = _
              by_cases hq : (q.1, q.2) = (event.pid, event.tid)
              · rw [Prod.mk.injEq] at hq
                rw [hq.1, hq.2, getThread_withThread_self]
                rfl
              · rw [getThread_withThread_ne _ _ _ _ _ _ hq]
            · rw [if_neg hN]
              exact nestedCount_of_eq _ _ q rfl rfl
          · rw [if_neg hM]
            exact nestedCount_of_eq _ _ q rfl rfl

theorem nestedBegins_append (q : PTID) (l : List TraceEvent) (e : TraceEvent) :
    nestedBegins q (l ++ [e]) =
      nestedBegins q l + if (decide (e.ptid = q) && e.opensNested) = true then 1 else 0 := by
  unfold nestedBegins
  rw [List.filter_append, List.length_append]
  congr 1
  by_cases h : (decide (e.ptid = q) && e.opensNested) = true
  · simp [List.filter_cons, h]
  · simp [List.filter_cons, h]

theorem nestedCount_stateAt (env : Env) (imp : TraceEventImporter) (q : PTID) (k : Nat) :
    nestedCount (stateAt env imp k) q =
      nestedCount imp q + nestedBegins q (imp.events.take k) := by
  induction k with
  | zero => simp [stateAt, nestedBegins]
  | succ k ih =>
    cases he : imp.events[k]? with
    | none =>
      have hunf : stateAt env imp (k + 1) = stateAt env imp k := by
        simp only [stateAt, he]
      have hlen : imp.events.length ≤ k := List.getElem?_eq_none_iff.1 he
      rw [hunf, ih, List.take_of_length_le hlen, List.take_of_length_le (by omega)]
    | some e =>
      have hunf : stateAt env imp (k + 1) = importStep env (stateAt env imp k) k e := by
        simp only [stateAt, he]
      rw [hunf, nestedCount_importStep, ih, List.take_succ, he, Option.toList_some,
        nestedBegins_append, Nat.add_assoc]

/-! The shape of the counters. -/

theorem counterOk_default (name : String) : CounterOk { name := name } := by
  simp [CounterOk]

theorem counterOk_getCounter (env : Env) (m : TimelineModel) (h : CountersOk m)
    (pid : Nat) (cat name : String) :
    CounterOk ((m.getProcess pid).getCounter env cat name) := by
  unfold TimelineProcess.getCounter
  cases hc : jsGet (m.getProcess pid).counters (env.counterId cat name) with
  | none => exact counterOk_default name
  | some c => exact h pid _ c hc

theorem counterOk_initSeries (env : Env) (c : TimelineCounter) (e : TraceEvent)
    (h : CounterOk c) (hn : (initSeries env c e).numSeries = 0) :
    CounterOk (initSeries env c e) := by
  obtain ⟨h1, h2, h3⟩ := h
  unfold initSeries at hn ⊢
  by_cases h0 : c.numSeries = 0
  · rw [if_pos h0] at hn ⊢
    have hnames : c.seriesNames = [] := List.length_eq_zero.1 h0
    have hargs : e.args = [] := by
      simpa [TimelineCounter.numSeries, hnames] using hn
    rw [hnames] at h1 h2
    simp only [List.length_nil, Nat.zero_mul, List.length_eq_zero] at h1 h2
    simp [CounterOk, hnames, hargs, h3 hnames, h1, h2]
  · rw [if_neg h0]
    exact ⟨h1, h2, h3⟩

theorem counterOk_addSample (env : Env) (c : TimelineCounter) (e : TraceEvent)
    (h : CounterOk c) (hn : ¬ (c.numSeries = 0 ∧ (initSeries env c e).numSeries = 0)) :
    CounterOk (addSample (initSeries env c e) e) := by
  obtain ⟨h1, h2, h3⟩ := h
  unfold initSeries at hn ⊢
  by_cases h0 : c.numSeries = 0
  · rw [if_pos h0] at hn ⊢
    have hnames : c.seriesNames = [] := List.length_eq_zero.1 h0
    have hts := h3 hnames
    rw [hnames] at h1 h2
    have hargs : e.args ≠ [] := by
      intro ha
      apply hn
      refine ⟨h0, ?_⟩
      simp [TimelineCounter.numSeries, hnames, ha]
    simp only [List.length_nil, Nat.zero_mul, List.length_eq_zero] at h1 h2
    simp [CounterOk, addSample, sampleRow, hnames, hts, h1, h2, hargs]
  · rw [if_neg h0]
    refine ⟨?_, h2, ?_⟩
    · simp only [addSample, sampleRow, List.length_append, List.length_map, h1,
        List.length_singleton, Nat.mul_add, Nat.mul_one]
    · intro hnil
      have hnil2 : c.seriesNames = [] := hnil
      exact absurd (by simp [TimelineCounter.numSeries, hnil2]) h0

theorem countersOk_congr (a b : TimelineModel)
    (h : ∀ pid, (a.getProcess pid).counters = (b.getProcess pid).counters)
    (hb : CountersOk b) : CountersOk a := by
  intro pid key c hc
  rw [h pid] at hc
  exact hb pid key c hc

theorem countersOk_processCounter (env : Env) (imp : TraceEventImporter) (e : TraceEvent)
    (h : CountersOk imp.model) : CountersOk (processCounter env imp e).model := by
  intro pid key c hc
  by_cases hp : pid = e.pid
  · subst hp
    rw [getProcess_counters_processCounter] at hc
    have hctr := counterOk_getCounter env imp.model h e.pid e.cat (ctrNameOf env e)
    split at hc
    · rename_i hdrop
      by_cases hk : key = (initSeries env ((imp.model.getProcess e.pid).getCounter env e.cat
          (ctrNameOf env e)) e).name
      · rw [hk, jsGet_jsDelete_self] at hc
        exact Option.noConfusion hc
      · rw [jsGet_jsDelete_ne _ _ _ hk] at hc
        by_cases hk2 : key = env.counterId e.cat (ctrNameOf env e)
        · rw [hk2, jsGet_jsSet_self] at hc
          rw [← Option.some.inj hc]
          exact counterOk_initSeries env _ e hctr hdrop.2
        · rw [jsGet_jsSet_ne _ _ _ _ hk2] at hc
          exact h e.pid key c hc
    · rename_i hkeep
      by_cases hk2 : key = env.counterId e.cat (ctrNameOf env e)
      · rw [hk2, jsGet_jsSet_self] at hc
        rw [← Option.some.inj hc]
        exact counterOk_addSample env _ e hctr hkeep
      · rw [jsGet_jsSet_ne _ _ _ _ hk2] at hc
        exact h e.pid key c hc
  · rw [counters_processCounter_ne env imp e pid hp] at hc
    exact h pid key c hc

theorem countersOk_importStep (env : Env) (imp : TraceEventImporter) (eI : Nat)
    (e : TraceEvent) (h : CountersOk imp.model) :
    CountersOk (importStep env imp eI e).model := by
  by_cases hC : e.ph = "C"
  · have hstep : importStep env imp eI e = processCounter env (ensureState imp e.ptid) e := by
      unfold importStep
      simp [hC]
    rw [hstep]
    apply countersOk_processCounter
    rw [model_ensureState]
    exact h
  · exact countersOk_congr _ _ (counters_importStep_other env imp eI e hC) h

theorem countersOk_stateAt (env : Env) (imp : TraceEventImporter) (h : CountersOk imp.model)
    (k : Nat) : CountersOk (stateAt env imp k).model := by
  induction k with
  | zero => exact h
  | succ k ih =>
    cases he : imp.events[k]? with
    | none => rw [stateAt_succ_none env imp k he]; exact ih
    | some e => rw [stateAt_succ env imp k e he]; exact countersOk_importStep env _ k e ih

/-! The claims. -/

/-- C1, counterexample: for a B event at 100 and its E event at 400 the slice has duration
0.30000000000000004 (the double 5404319552844596 / 2 ^ 54), the rounded difference of the
rounded quotients 0.4 and 0.1, which is neither the number 3/10 nor the double 0.3 that
`(400 - 100) / 1000` gives. -/
theorem C1_duration_is_rounded_difference :
    ((importEvents env0 (TraceEventImporter.new {} [] exampleRoundingTrace)).heap[0]?).map
      (fun s => s.duration) = some (some (5404319552844596 / 2 ^ 54)) ∧
    (5404319552844596 / 2 ^ 54 : ℚ) ≠ (400 - 100) / 1000 ∧
    (5404319552844596 / 2 ^ 54 : ℚ) ≠ jsDiv (400 - 100) 1000 ∧
    jsDiv (400 - 100) 1000 = 5404319552844595 / 2 ^ 54 := by
  decide!

/-- C1, amended: a nested B event followed on its PTID by an E event, with no other event of
that PTID in between, yields one slice pushed in the thread, with start `b.ts / 1000` and
duration `e.ts / 1000 - start`, each operation giving the nearest double, `didNotFinish` not
set, and neither event appends an import error.  Here `r` is the reference of the slice and
`d` the depth of the stack when B is processed. -/
theorem C1_begin_end_pair (env : Env) (model : TimelineModel) (heap : List TimelineSlice)
    (events : List TraceEvent) (imp : TraceEventImporter)
    (himp : imp = TraceEventImporter.new model heap events)
    (i j : Nat) (b e : TraceEvent)
    (hi : events[i]? = some b) (hj : events[j]? = some e) (hij : i < j)
    (hb : b.ph = "B") (he : e.ph = "E") (hnb : b.nonNested = false) (hne : e.nonNested = false)
    (hp : e.ptid = b.ptid)
    (hmid : ∀ k ev, i < k → k < j → events[k]? = some ev → ev.ptid ≠ b.ptid)
    (r d : Nat) (hr : r = (stateAt env imp i).heap.length)
    (hd : d = ((stateAt env imp i).getState b.ptid).openSlices.length) :
    (stateAt env imp (i + 1)).model.importErrors = (stateAt env imp i).model.importErrors ∧
    (stateAt env imp (j + 1)).model.importErrors = (stateAt env imp j).model.importErrors ∧
    (stateAt env imp (j + 1)).model.getThread b.pid b.tid =
      ((stateAt env imp i).model.getThread b.pid b.tid).pushSubrow d r ∧
    r ∈ ((importEvents env imp).model.getThread b.pid b.tid).subrow d ∧
    ∃ s, (importEvents env imp).heap[r]? = some s ∧
      s.title = b.name ∧ s.start = jsDiv b.ts 1000 ∧
      s.duration = some (jsSub (jsDiv e.ts 1000) (jsDiv b.ts 1000)) ∧
      s.didNotFinish = false := by
  subst hr hd
  have hev : imp.events = events := by rw [himp]; rfl
  have hi2 : imp.events[i]? = some b := by rw [hev]; exact hi
  have hj2 : imp.events[j]? = some e := by rw [hev]; exact hj
  have hb0 : RefsBounded (stateAt env imp i) :=
    refsBounded_stateAt env imp (by rw [himp]; exact refsBounded_new _ _ _) i
  -- the begin step
  obtain ⟨hB1, hB2, hB3⟩ := importStep_begin_nested env (stateAt env imp i) i b hb hnb
  rw [← stateAt_succ env imp i b hi2] at hB1 hB2 hB3
  have FB := stepFrame_importStep env (stateAt env imp i) i b
  rw [← stateAt_succ env imp i b hi2] at FB
  -- the slice is private to the PTID of the pair
  have hpriv : PrivateTo (stateAt env imp (i + 1)) b.ptid (stateAt env imp i).heap.length := by
    refine ⟨by rw [hB1]; simp, ?_⟩
    intro q hq hmem
    rw [FB.state_ne q hq] at hmem
    exact absurd (hb0 q _ hmem) (lt_irrefl _)
  -- the events in between
  obtain ⟨n, hn⟩ : ∃ n, j = (i + 1) + n := ⟨j - (i + 1), by omega⟩
  have hmid2 : ∀ m ev, i + 1 ≤ m → m < (i + 1) + n → imp.events[m]? = some ev →
      ev.ptid ≠ b.ptid := by
    intro m ev h1 h2 h3
    rw [hev] at h3
    exact hmid m ev (by omega) (by omega) h3
  obtain ⟨hM1, hM2, hM3⟩ := stateAt_other_ptid env imp b.ptid (i + 1) n hmid2
  rw [← hn] at hM1 hM2 hM3
  obtain ⟨hM4, hM5⟩ := hM3 _ hpriv
  -- the end step
  have hstack : ((stateAt env imp j).getState e.ptid).openSlices =
      ((stateAt env imp i).getState b.ptid).openSlices ++
        [{ index := i, slice := (stateAt env imp i).heap.length }] := by
    rw [hp, hM1, hB3]
  obtain ⟨hE1, hE2, hE3⟩ := importStep_end_nested env (stateAt env imp j) j e he hne _ _ hstack
  rw [← stateAt_succ env imp j e hj2] at hE1 hE2 hE3
  have FE := stepFrame_importStep env (stateAt env imp j) j e
  rw [← stateAt_succ env imp j e hj2] at FE
  have hpid : e.pid = b.pid := congrArg Prod.fst hp
  have htid : e.tid = b.tid := congrArg Prod.snd hp
  -- the heap object after the end step
  have hslice : ∃ s, (stateAt env imp (j + 1)).heap[(stateAt env imp i).heap.length]? = some s ∧
      s.title = b.name ∧ s.start = jsDiv b.ts 1000 ∧
      s.duration = some (jsSub (jsDiv e.ts 1000) (jsDiv b.ts 1000)) ∧
      s.didNotFinish = false := by
    have h0 : (stateAt env imp j).heap[(stateAt env imp i).heap.length]? =
        some (newSlice env b) := by
      rw [hM5, hB1]
      simp
    have h1 := getElem?_setDuration_self (stateAt env imp j).heap
      (stateAt env imp i).heap.length (jsDiv e.ts 1000)
    rw [h0, Option.map_some'] at h1
    obtain ⟨s2, h2, h3, h4, h5, h6, _, _⟩ := getElem?_setUserDuration_self _ _ e.uts _ h1
    refine ⟨s2, ?_, ?_, ?_, ?_, ?_⟩
    · rw [hE1, getElem?_addToParent_ne]
      · exact h2
      · intro w hw
        have := hb0 b.ptid w.slice (by
          simp only [ThreadState.openRefs, List.mem_append]
          exact Or.inl (List.mem_map.mpr ⟨w, hw, rfl⟩))
        exact Nat.ne_of_lt this
    · rw [h3]
      exact (newSlice_fields env b).1
    · rw [h4]
      exact (newSlice_fields env b).2.1
    · rw [h5, (newSlice_fields env b).2.1]
    · rw [h6]
      exact (newSlice_fields env b).2.2.2.1
  -- after the end step the slice is not open
  have hnot : NotOpen (stateAt env imp (j + 1)) (stateAt env imp i).heap.length := by
    refine ⟨lt_of_lt_of_le hM4.1 FE.heap_le, ?_⟩
    intro q hmem
    by_cases hq : q = b.ptid
    · subst hq
      rw [← hp, hE3, hp, hM1, hB3] at hmem
      exact absurd (hb0 b.ptid _ hmem) (lt_irrefl _)
    · rw [FE.state_ne q (by rw [hp]; exact hq)] at hmem
      exact hM4.2 q hq hmem
  have hlen : j + 1 ≤ imp.events.length := by
    have := (List.getElem?_eq_some_iff.mp hj2).1
    omega
  obtain ⟨n2, hn2⟩ : ∃ n2, imp.events.length = (j + 1) + n2 :=
    ⟨imp.events.length - (j + 1), by omega⟩
  have hfin := stateAt_notOpen env imp _ (j + 1) hnot n2
  rw [← hn2] at hfin
  have hthread : (stateAt env imp (j + 1)).model.getThread b.pid b.tid =
      ((stateAt env imp i).model.getThread b.pid b.tid).pushSubrow
        ((stateAt env imp i).getState b.ptid).openSlices.length
        (stateAt env imp i).heap.length := by
    rw [hE2, hpid, htid, getThread_withThread_self]
    have : (stateAt env imp j).model.getThread b.pid b.tid =
        (stateAt env imp i).model.getThread b.pid b.tid := by
      have := hM2
      rw [hB2] at this
      exact this
    rw [this]
  refine ⟨by rw [hB2], ?_, hthread, ?_, ?_⟩
  · rw [hE2]
    rfl
  · apply importEvents_subrow_mono
    rw [hn2]
    apply stateAt_subrow_mono
    rw [hthread, subrow_pushSubrow_self]
    simp
  · obtain ⟨s, hs1, hs2⟩ := hslice
    refine ⟨s, ?_, hs2⟩
    rw [importEvents_heap_notOpen env imp _ hfin.1, hfin.2]
    exact hs1


/-- Witness of C1: B at ts 0 and E at ts 1000 named "f" give one slice of duration 1. -/
theorem C1_begin_end_pair_witness :
    ∃ s, (importEvents env0
        (TraceEventImporter.new {} [] [exampleBegin, exampleEnd])).heap[0]? = some s ∧
      s.title = "f" ∧ s.start = 0 ∧ s.duration = some 1 ∧ s.didNotFinish = false := by
  obtain ⟨_, _, _, _, s, h1, h2, h3, h4, h5⟩ :=
    C1_begin_end_pair env0 {} [] [exampleBegin, exampleEnd] _ rfl 0 1 exampleBegin exampleEnd
      rfl rfl (by decide) rfl rfl (by decide) (by decide) rfl
      (fun k ev h1 h2 _ => absurd h1 (by omega)) 0 0 rfl rfl
  refine ⟨s, h1, h2, ?_, ?_, h5⟩
  · rw [h3]
    decide!
  · rw [h4]
    decide!


/-- C2: nested slices close last-in-first-out whatever the names of the end events.  For
nested events begin(A), begin(B), end(X), end(Y) of one PTID (events of other PTIDs may be
interleaved), the first end closes the slice of B, one level deeper than the slice of A, and
the second end closes the slice of A; the slice of B is the one child of the slice of A. -/
theorem C2_nested_close_lifo (env : Env) (model : TimelineModel) (heap : List TimelineSlice)
    (events : List TraceEvent) (imp : TraceEventImporter)
    (himp : imp = TraceEventImporter.new model heap events)
    (a b x y : Nat) (A B X Y : TraceEvent)
    (ha : events[a]? = some A) (hb : events[b]? = some B)
    (hx : events[x]? = some X) (hy : events[y]? = some Y)
    (hab : a < b) (hbx : b < x) (hxy : x < y)
    (phA : A.ph = "B") (phB : B.ph = "B") (phX : X.ph = "E") (phY : Y.ph = "E")
    (nA : A.nonNested = false) (nB : B.nonNested = false)
    (nX : X.nonNested = false) (nY : Y.nonNested = false)
    (pB : B.ptid = A.ptid) (pX : X.ptid = A.ptid) (pY : Y.ptid = A.ptid)
    (hmid : ∀ k ev, a < k → k < y → k ≠ b → k ≠ x → events[k]? = some ev → ev.ptid ≠ A.ptid)
    (rA rB d : Nat) (hrA : rA = (stateAt env imp a).heap.length)
    (hrB : rB = (stateAt env imp b).heap.length)
    (hd : d = ((stateAt env imp a).getState A.ptid).openSlices.length) :
    ((stateAt env imp (x + 1)).getState A.ptid).openSlices =
      ((stateAt env imp a).getState A.ptid).openSlices ++ [{ index := a, slice := rA }] ∧
    ((stateAt env imp (y + 1)).getState A.ptid).openSlices =
      ((stateAt env imp a).getState A.ptid).openSlices ∧
    (stateAt env imp (x + 1)).model.getThread A.pid A.tid =
      ((stateAt env imp a).model.getThread A.pid A.tid).pushSubrow (d + 1) rB ∧
    (stateAt env imp (y + 1)).model.getThread A.pid A.tid =
      (((stateAt env imp a).model.getThread A.pid A.tid).pushSubrow (d + 1) rB).pushSubrow d rA ∧
    rA ≠ rB ∧
    ∃ sA sB, (importEvents env imp).heap[rA]? = some sA ∧
      (importEvents env imp).heap[rB]? = some sB ∧
      sA.title = A.name ∧ sB.title = B.name ∧
      sB.duration = some (jsSub (jsDiv X.ts 1000) (jsDiv B.ts 1000)) ∧
      sA.duration = some (jsSub (jsDiv Y.ts 1000) (jsDiv A.ts 1000)) ∧
      sA.subSlices = [rB] ∧ sB.subSlices = [] ∧
      sA.didNotFinish = false ∧ sB.didNotFinish = false := by
  have hev : imp.events = events := by rw [himp]; rfl
  rw [← hev] at ha hb hx hy hmid
  have hbd : ∀ k, RefsBounded (stateAt env imp k) :=
    refsBounded_stateAt env imp (by rw [himp]; exact refsBounded_new _ _ _)
  have hpidB : B.pid = A.pid := congrArg Prod.fst pB
  have htidB : B.tid = A.tid := congrArg Prod.snd pB
  have hpidX : X.pid = A.pid := congrArg Prod.fst pX
  have htidX : X.tid = A.tid := congrArg Prod.snd pX
  have hpidY : Y.pid = A.pid := congrArg Prod.fst pY
  have htidY : Y.tid = A.tid := congrArg Prod.snd pY
  -- begin(A)
  obtain ⟨hA1, hA2, hA3, FA⟩ := stateAt_begin_nested env imp a A ha phA nA
  rw [← hrA] at hA3
  have privA1 : PrivateTo (stateAt env imp (a + 1)) A.ptid rA := by
    rw [hrA]
    exact privateTo_fresh (hbd a) FA (by rw [hA1]; simp)
  have heapA1 : (stateAt env imp (a + 1)).heap[rA]? = some (newSlice env A) := by
    rw [hA1, hrA]
    simp
  -- up to begin(B)
  obtain ⟨hM1, hT1, hP1⟩ := stateAt_between env imp A.ptid (a + 1) b (by omega)
    (fun m ev h1 h2 h3 => hmid m ev (by omega) (by omega) (by omega) (by omega) h3)
  obtain ⟨privA2, heapA2⟩ := hP1 rA privA1
  have hlt : rA < rB := by
    rw [hrB]
    exact privA2.1
  -- begin(B)
  obtain ⟨hB1, hB2, hB3, FB⟩ := stateAt_begin_nested env imp b B hb phB nB
  rw [pB] at hB3 FB
  rw [← hrB] at hB3
  have privB3 : PrivateTo (stateAt env imp (b + 1)) A.ptid rB := by
    rw [hrB]
    exact privateTo_fresh (hbd b) FB (by rw [hB1]; simp)
  have privA3 : PrivateTo (stateAt env imp (b + 1)) A.ptid rA := privateTo_step_self FB rA privA2
  have heapB3 : (stateAt env imp (b + 1)).heap[rB]? = some (newSlice env B) := by
    rw [hB1, hrB]
    simp
  have heapA3 : (stateAt env imp (b + 1)).heap[rA]? = some (newSlice env A) := by
    rw [hB1, List.getElem?_append_left privA2.1, heapA2, heapA1]
  -- up to end(X)
  obtain ⟨hM2, hT2, hP2⟩ := stateAt_between env imp A.ptid (b + 1) x (by omega)
    (fun m ev h1 h2 h3 => hmid m ev (by omega) (by omega) (by omega) (by omega) h3)
  obtain ⟨privA4, heapA4⟩ := hP2 rA privA3
  obtain ⟨privB4, heapB4⟩ := hP2 rB privB3
  -- end(X)
  have hstackX : ((stateAt env imp x).getState X.ptid).openSlices =
      (((stateAt env imp a).getState A.ptid).openSlices ++ [{ index := a, slice := rA }]) ++
        [{ index := b, slice := rB }] := by
    rw [pX, hM2, hB3, hM1, hA3]
  obtain ⟨hX1, hX2, hX3, FX⟩ := stateAt_end_nested env imp x X hx phX nX _ _ hstackX
  rw [pX] at hX3 FX
  have hold : ∀ w ∈ ((stateAt env imp a).getState A.ptid).openSlices, w.slice < rA := by
    intro w hw
    rw [hrA]
    exact hbd a A.ptid w.slice (by
      simp only [ThreadState.openRefs, List.mem_append]
      exact Or.inl (List.mem_map.mpr ⟨w, hw, rfl⟩))
  obtain ⟨sB, hsB1, hsB2, hsB3, hsB4, hsB5, hsB6⟩ :=
    close_slice_fields (stateAt env imp x).heap rB (jsDiv X.ts 1000) X.uts (newSlice env B)
      (by rw [heapB4, heapB3])
  have heapB5 : (stateAt env imp (x + 1)).heap[rB]? = some sB := by
    rw [hX1, getElem?_addToParent_ne]
    · exact hsB1
    · intro w hw
      rcases List.mem_append.mp hw with h | h
      · exact Nat.ne_of_lt (lt_trans (hold w h) hlt)
      · rw [List.mem_singleton.mp h]
        exact Nat.ne_of_lt hlt
  have heapA5 : (stateAt env imp (x + 1)).heap[rA]? =
      some { newSlice env A with subSlices := (newSlice env A).subSlices ++ [rB] } := by
    rw [hX1]
    have := getElem?_addToParent_self
      (setUserDuration (setDuration (stateAt env imp x).heap rB (jsDiv X.ts 1000)) rB X.uts)
      ((stateAt env imp a).getState A.ptid).openSlices { index := a, slice := rA } rB
    rw [this, getElem?_setUserDuration_ne _ _ _ _ (Ne.symm (Nat.ne_of_lt hlt)),
      getElem?_setDuration_ne _ _ _ _ (Ne.symm (Nat.ne_of_lt hlt)), heapA4, heapA3]
    rfl
  have privA5 := privateTo_step_self FX rA privA4
  have privB5 := privateTo_step_self FX rB privB4
  -- up to end(Y)
  obtain ⟨hM3, hT3, hP3⟩ := stateAt_between env imp A.ptid (x + 1) y (by omega)
    (fun m ev h1 h2 h3 => hmid m ev (by omega) (by omega) (by omega) (by omega) h3)
  obtain ⟨privA6, heapA6⟩ := hP3 rA privA5
  obtain ⟨privB6, heapB6⟩ := hP3 rB privB5
  -- end(Y)
  have hstackY : ((stateAt env imp y).getState Y.ptid).openSlices =
      ((stateAt env imp a).getState A.ptid).openSlices ++ [{ index := a, slice := rA }] := by
    rw [pY, hM3, hX3]
  obtain ⟨hY1, hY2, hY3, FY⟩ := stateAt_end_nested env imp y Y hy phY nY _ _ hstackY
  rw [pY] at hY3 FY
  obtain ⟨sA, hsA1, hsA2, hsA3, hsA4, hsA5, hsA6⟩ :=
    close_slice_fields (stateAt env imp y).heap rA (jsDiv Y.ts 1000) Y.uts _
      (by rw [heapA6, heapA5])
  have heapA7 : (stateAt env imp (y + 1)).heap[rA]? = some sA := by
    rw [hY1, getElem?_addToParent_ne]
    · exact hsA1
    · intro w hw
      exact Nat.ne_of_lt (hold w hw)
  have heapB7 : (stateAt env imp (y + 1)).heap[rB]? = some sB := by
    rw [hY1, getElem?_addToParent_ne, getElem?_setUserDuration_ne _ _ _ _ (Nat.ne_of_lt hlt),
      getElem?_setDuration_ne _ _ _ _ (Nat.ne_of_lt hlt), heapB6, heapB5]
    intro w hw
    exact Nat.ne_of_lt (lt_trans (hold w hw) hlt)
  -- neither slice is open after end(Y)
  have hrefs : ((stateAt env imp (y + 1)).getState A.ptid).openRefs =
      ((stateAt env imp a).getState A.ptid).openRefs := by
    rw [hY3, hM3, hX3, hM2, hB3, hM1, hA3]
  have hnot : ∀ r, PrivateTo (stateAt env imp y) A.ptid r →
      ((stateAt env imp a).heap.length ≤ r) → NotOpen (stateAt env imp (y + 1)) r := by
    intro r hpr hge
    refine ⟨lt_of_lt_of_le hpr.1 FY.heap_le, ?_⟩
    intro q hmem
    by_cases hq : q = A.ptid
    · subst hq
      rw [hrefs] at hmem
      have := hbd a A.ptid r hmem
      omega
    · rw [FY.state_ne q hq] at hmem
      exact hpr.2 q hq hmem
  have hnotA := hnot rA privA6 (by rw [hrA])
  have hnotB := hnot rB privB6 (by rw [← hrA]; exact le_of_lt hlt)
  have hlen : y + 1 ≤ imp.events.length := by
    have := (List.getElem?_eq_some_iff.mp hy).1
    omega
  obtain ⟨n2, hn2⟩ : ∃ n2, imp.events.length = (y + 1) + n2 :=
    ⟨imp.events.length - (y + 1), by omega⟩
  have hfinA := stateAt_notOpen env imp _ (y + 1) hnotA n2
  have hfinB := stateAt_notOpen env imp _ (y + 1) hnotB n2
  rw [← hn2] at hfinA hfinB
  -- the thread
  have hthreadX : (stateAt env imp (x + 1)).model.getThread A.pid A.tid =
      ((stateAt env imp a).model.getThread A.pid A.tid).pushSubrow (d + 1) rB := by
    rw [hX2, hpidX, htidX, getThread_withThread_self]
    have h1 : (stateAt env imp x).model.getThread A.pid A.tid =
        (stateAt env imp a).model.getThread A.pid A.tid := by
      have e1 : (stateAt env imp x).model.getThread A.pid A.tid =
          (stateAt env imp (b + 1)).model.getThread A.pid A.tid := hT2
      have e2 : (stateAt env imp b).model.getThread A.pid A.tid =
          (stateAt env imp (a + 1)).model.getThread A.pid A.tid := hT1
      rw [e1, hB2, e2, hA2]
    rw [h1, hd]
    simp
  have hthreadY : (stateAt env imp (y + 1)).model.getThread A.pid A.tid =
      (((stateAt env imp a).model.getThread A.pid A.tid).pushSubrow (d + 1) rB).pushSubrow
        d rA := by
    rw [hY2, hpidY, htidY, getThread_withThread_self]
    have e1 : (stateAt env imp y).model.getThread A.pid A.tid =
        (stateAt env imp (x + 1)).model.getThread A.pid A.tid := hT3
    rw [e1, hthreadX, hd]
  refine ⟨by rw [hX3], by rw [hY3], hthreadX, hthreadY, Nat.ne_of_lt hlt, sA, sB, ?_, ?_,
    ?_, ?_, ?_, ?_, ?_, ?_, ?_, ?_⟩
  · rw [importEvents_heap_notOpen env imp _ hfinA.1, hfinA.2]
    exact heapA7
  · rw [importEvents_heap_notOpen env imp _ hfinB.1, hfinB.2]
    exact heapB7
  · rw [hsA2]
    exact (newSlice_fields env A).1
  · rw [hsB2]
    exact (newSlice_fields env B).1
  · rw [hsB4, (newSlice_fields env B).2.1]
  · rw [hsA4]
    show some (jsSub (jsDiv Y.ts 1000) (newSlice env A).start) = _
    rw [(newSlice_fields env A).2.1]
  · rw [hsA6]
    show (newSlice env A).subSlices ++ [rB] = [rB]
    rw [(newSlice_fields env A).2.2.2.2.1]
    rfl
  · rw [hsB6]
    exact (newSlice_fields env B).2.2.2.2.1
  · rw [hsA5]
    exact (newSlice_fields env A).2.2.2.1
  · rw [hsB5]
    exact (newSlice_fields env B).2.2.2.1


/-- Witness of C2: begin "a", begin "b", end "zz", end "yy" on PTID 1:1. -/
theorem C2_nested_close_lifo_witness :
    ∃ sA sB,
      (importEvents env0 (TraceEventImporter.new {} []
        [{ ph := "B", pid := 1, tid := 1, name := "a", ts := 0 },
         { ph := "B", pid := 1, tid := 1, name := "b", ts := 1000 },
         { ph := "E", pid := 1, tid := 1, name := "zz", ts := 2000 },
         { ph := "E", pid := 1, tid := 1, name := "yy", ts := 5000 }])).heap[0]? = some sA ∧
      (importEvents env0 (TraceEventImporter.new {} []
        [{ ph := "B", pid := 1, tid := 1, name := "a", ts := 0 },
         { ph := "B", pid := 1, tid := 1, name := "b", ts := 1000 },
         { ph := "E", pid := 1, tid := 1, name := "zz", ts := 2000 },
         { ph := "E", pid := 1, tid := 1, name := "yy", ts := 5000 }])).heap[1]? = some sB ∧
      sA.title = "a" ∧ sB.title = "b" ∧ sB.duration = some 1 ∧ sA.duration = some 5 ∧
      sA.subSlices = [1] ∧ sB.subSlices = [] := by
  obtain ⟨_, _, _, _, _, sA, sB, h1, h2, h3, h4, h5, h6, h7, h8, _, _⟩ :=
    C2_nested_close_lifo env0 {} []
      [{ ph := "B", pid := 1, tid := 1, name := "a", ts := 0 },
       { ph := "B", pid := 1, tid := 1, name := "b", ts := 1000 },
       { ph := "E", pid := 1, tid := 1, name := "zz", ts := 2000 },
       { ph := "E", pid := 1, tid := 1, name := "yy", ts := 5000 }] _ rfl 0 1 2 3
      { ph := "B", pid := 1, tid := 1, name := "a", ts := 0 }
      { ph := "B", pid := 1, tid := 1, name := "b", ts := 1000 }
      { ph := "E", pid := 1, tid := 1, name := "zz", ts := 2000 }
      { ph := "E", pid := 1, tid := 1, name := "yy", ts := 5000 }
      rfl rfl rfl rfl (by decide) (by decide) (by decide) rfl rfl rfl rfl
      (by decide) (by decide) (by decide) (by decide) rfl rfl rfl
      (fun k ev h1 h2 h3 h4 _ => absurd h1 (by omega)) 0 1 0 rfl rfl rfl
  refine ⟨sA, sB, h1, h2, h3, h4, ?_, ?_, h7, h8⟩
  · rw [h5]
    decide!
  · rw [h6]
    decide!

/-- C3, counterexample: three nested slices begun at 0, 3 and 13 microseconds and never
ended are closed at time 0.013, but the end `start + duration` of the second one is
0.012999999999999998 (the double 7493989779944504 / 2 ^ 59), not the end 0.013 of the other
two. -/
theorem C3_auto_closed_ends_differ :
    ((importEvents env0 (TraceEventImporter.new {} [] exampleRoundingOpenTrace)).heap.map
      (fun s => (s.didNotFinish, s.end?))) =
      [(true, some (jsDiv 13 1000)), (true, some (7493989779944504 / 2 ^ 59)),
       (true, some (jsDiv 13 1000))] ∧
    (7493989779944504 / 2 ^ 59 : ℚ) ≠ jsDiv 13 1000 ∧
    closingTime (stateAt env0 (TraceEventImporter.new {} [] exampleRoundingOpenTrace) 3) =
      some (jsDiv 13 1000) := by
  decide!

/-- C3, amended: when the event array ends with the nested slices `ws` (bottom first, `ws`
not empty) still open on PTID `p`, `importEvents` closes all of them at one time `T`: each
gets `didNotFinish = true` and the duration `T - start` rounded to the nearest double, so
that its end is the double nearest to `start + duration`; the `k`-th opened one is the one
slice added to subrow `k - 1` of the thread, and it is appended to the `subSlices` of the one
opened before it. -/
theorem C3_auto_close_open_stack (env : Env) (model : TimelineModel)
    (heap : List TimelineSlice) (events : List TraceEvent) (imp : TraceEventImporter)
    (himp : imp = TraceEventImporter.new model heap events)
    (p : PTID) (ws : List OpenSlice)
    (hws : ((stateAt env imp events.length).getState p).openSlices = ws) (hne : ws ≠ []) :
    ∃ T : ℚ,
      ((importEvents env imp).getState p).openSlices = [] ∧
      (∀ k w, ws[k]? = some w →
        ∃ s0 s, (stateAt env imp events.length).heap[w.slice]? = some s0 ∧
          (importEvents env imp).heap[w.slice]? = some s ∧
          s.start = s0.start ∧ s.duration = some (jsSub T s0.start) ∧
          s.end? = some (jsAdd s0.start (jsSub T s0.start)) ∧
          s.didNotFinish = true ∧
          s.subSlices = s0.subSlices ++ ((ws[k + 1]?).map (fun w => w.slice)).toList) ∧
      (∀ k, ((importEvents env imp).model.getThread p.1 p.2).subrow k =
        ((stateAt env imp events.length).model.getThread p.1 p.2).subrow k ++
          ((ws[k]?).map (fun w => w.slice)).toList) := by
  have hev : imp.events.length = events.length := by rw [himp]; rfl
  have hwf : WellFormed (stateAt env imp events.length) :=
    wellFormed_stateAt env imp (by rw [himp]; exact wellFormed_new _ _ _) _
  have hne2 : ((stateAt env imp events.length).getState p).openSlices ≠ [] := by
    rw [hws]
    exact hne
  have hrun : importEvents env imp = autoCloseOpenSlices (stateAt env imp events.length) := by
    unfold importEvents
    simp only [hev, hasOpenSlices_of_open_stack _ p hne2, if_true]
  obtain ⟨T, hT⟩ := realMaxTimestamp_some
    (updateBounds (stateAt env imp events.length).model
      (stateAt env imp events.length).heap).maxTimestamp
    (openTimestamps { stateAt env imp events.length with
      model := updateBounds (stateAt env imp events.length).model
        (stateAt env imp events.length).heap })
    (openTimestamps_ne_nil _ p hwf.bounded hne2)
  have hinv := closeInv_of_wellFormed _ hwf p
  simp only [ThreadState.stackRefs, hws] at hinv
  have hkey : p ∈ (stateAt env imp events.length).threadStateByPTID.map Prod.fst :=
    List.mem_map.mpr ⟨_, entry_of_open_stack _ p hne2, rfl⟩
  obtain ⟨c1, c2, c3⟩ := autoCloseAll_spec T p ws _
    { stateAt env imp events.length with
      model := updateBounds (stateAt env imp events.length).model
        (stateAt env imp events.length).heap }
    ⟨hinv.nodup, hinv.index_ok, hinv.avoid⟩ hws hkey
  have hrun2 : importEvents env imp =
      autoCloseAll T ((stateAt env imp events.length).threadStateByPTID.map Prod.fst)
        { stateAt env imp events.length with
          model := updateBounds (stateAt env imp events.length).model
            (stateAt env imp events.length).heap } := by
    rw [hrun, autoCloseOpenSlices_eq, hT]
  rw [hrun2]
  refine ⟨T, c1, ?_, c3⟩
  intro k w hk
  have hlt : w.slice < (stateAt env imp events.length).heap.length :=
    hwf.bounded p w.slice (by
      simp only [ThreadState.openRefs, List.mem_append]
      rw [hws]
      exact Or.inl (List.mem_map.mpr ⟨w, List.getElem?_mem hk, rfl⟩))
  refine ⟨(stateAt env imp events.length).heap[w.slice],
    closedSlice T (stateAt env imp events.length).heap[w.slice]
      ((ws[k + 1]?).map (fun w : OpenSlice => w.slice)),
    List.getElem?_eq_getElem hlt, ?_, rfl, rfl, rfl, rfl, rfl⟩
  · have := c2 k w hk
    simp only [List.getElem?_eq_getElem hlt, Option.map_some'] at this
    exact this


/-- Witness of C3: three nested begin events and no end event on PTID 1:1. -/
theorem C3_auto_close_open_stack_witness :
    ∃ T : ℚ,
      ((importEvents env0 (TraceEventImporter.new {} [] exampleOpenTrace)).getState
        (1, 1)).openSlices = [] ∧
      ∀ k, k < 3 →
        ∃ s, (importEvents env0 (TraceEventImporter.new {} [] exampleOpenTrace)).heap[k]? =
            some s ∧ s.duration = some (jsSub T s.start) ∧
          s.end? = some (jsAdd s.start (jsSub T s.start)) ∧ s.didNotFinish = true ∧
          s.subSlices = (if k + 1 < 3 then [k + 1] else []) ∧
          ((importEvents env0 (TraceEventImporter.new {} [] exampleOpenTrace)).model.getThread
            1 1).subrow k = [k] := by
  obtain ⟨T, h1, h2, h3⟩ := C3_auto_close_open_stack env0 {} [] exampleOpenTrace _ rfl (1, 1)
    [{ index := 0, slice := 0 }, { index := 1, slice := 1 }, { index := 2, slice := 2 }]
    rfl (by simp)
  refine ⟨T, h1, ?_⟩
  intro k hk
  have hcases : k = 0 ∨ k = 1 ∨ k = 2 := by omega
  rcases hcases with rfl | rfl | rfl
  · obtain ⟨s0, s, e0, e1, e2, e3, e3b, e4, e5⟩ := h2 0 _ rfl
    have e7 := h3 0
    have : s0 = newSlice env0 exampleOpenTrace[0] := by
      have : some s0 = some (newSlice env0 exampleOpenTrace[0]) := by rw [← e0]; rfl
      exact Option.some.inj this
    subst this
    rw [← e2] at e3 e3b
    exact ⟨s, e1, e3, e3b, e4, e5, e7⟩
  · obtain ⟨s0, s, e0, e1, e2, e3, e3b, e4, e5⟩ := h2 1 _ rfl
    have e7 := h3 1
    have : s0 = newSlice env0 exampleOpenTrace[1] := by
      have : some s0 = some (newSlice env0 exampleOpenTrace[1]) := by rw [← e0]; rfl
      exact Option.some.inj this
    subst this
    rw [← e2] at e3 e3b
    exact ⟨s, e1, e3, e3b, e4, e5, e7⟩
  · obtain ⟨s0, s, e0, e1, e2, e3, e3b, e4, e5⟩ := h2 2 _ rfl
    have e7 := h3 2
    have : s0 = newSlice env0 exampleOpenTrace[2] := by
      have : some s0 = some (newSlice env0 exampleOpenTrace[2]) := by rw [← e0]; rfl
      exact Option.some.inj this
    subst this
    rw [← e2] at e3 e3b
    exact ⟨s, e1, e3, e3b, e4, e5, e7⟩


/-- C4, evaluated on `exampleNegativeTrace`: the slice recorded in thread 1:1 ends at time
0, the model bound is 0 and is therefore skipped by the test `if (this.model_.maxTimestamp)`,
and the slice left open on PTID 1:2 is closed at time -1, before the end of the recorded
slice. -/
theorem C4_auto_close_time_below_recorded_end :
    ((importEvents env0 (TraceEventImporter.new {} [] exampleNegativeTrace)).model.getThread
      1 1).subrow 0 = [0] ∧
    ((importEvents env0 (TraceEventImporter.new {} [] exampleNegativeTrace)).heap[0]?).map
      (fun s => (s.didNotFinish, s.end?)) = some (false, some (0 : ℚ)) ∧
    ((importEvents env0 (TraceEventImporter.new {} [] exampleNegativeTrace)).model.getThread
      1 2).subrow 0 = [1] ∧
    ((importEvents env0 (TraceEventImporter.new {} [] exampleNegativeTrace)).heap[1]?).map
      (fun s => (s.didNotFinish, s.end?)) = some (true, some (-1 : ℚ)) ∧
    (importEvents env0 (TraceEventImporter.new {} [] exampleNegativeTrace)).model.maxTimestamp =
      some 0 ∧
    ((-1 : ℚ) < 0) := by
  decide!


/-- C5: every nested slice is pushed into the subrow whose index is the number of nested
slices still open on its PTID when it closes, and is appended to the child list of the
slice on top of the remaining stack and to no other child list.  The three conjuncts are
the three places where a nested slice is closed: an E event (stack `rest ++ [top]`), an I
event (the slice is opened and closed at once, on top of the stack `st`), and the
auto-close at the end of `importEvents` (stack `ws` of PTID `p`, entry `k` closes when `k`
slices remain open). -/
theorem C5_subrow_is_open_depth (env : Env) (model : TimelineModel)
    (heap : List TimelineSlice) (events : List TraceEvent) (imp : TraceEventImporter)
    (himp : imp = TraceEventImporter.new model heap events) :
    (∀ k e rest top, events[k]? = some e → e.ph = "E" → e.nonNested = false →
      ((stateAt env imp k).getState e.ptid).openSlices = rest ++ [top] →
      ((stateAt env imp (k + 1)).getState e.ptid).openSlices = rest ∧
      (stateAt env imp (k + 1)).model.getThread e.pid e.tid =
        ((stateAt env imp k).model.getThread e.pid e.tid).pushSubrow rest.length top.slice ∧
      ∀ j, ((stateAt env imp (k + 1)).heap[j]?).map (fun s => s.subSlices) =
        if (rest.getLast?).map (fun w => w.slice) = some j then
          ((stateAt env imp k).heap[j]?).map (fun s => s.subSlices ++ [top.slice])
        else ((stateAt env imp k).heap[j]?).map (fun s => s.subSlices)) ∧
    (∀ k e st, events[k]? = some e → e.ph = "I" → e.nonNested = false →
      ((stateAt env imp k).getState e.ptid).openSlices = st →
      ((stateAt env imp (k + 1)).getState e.ptid).openSlices = st ∧
      (stateAt env imp (k + 1)).model.getThread e.pid e.tid =
        ((stateAt env imp k).model.getThread e.pid e.tid).pushSubrow st.length
          (stateAt env imp k).heap.length ∧
      ∀ j, ((stateAt env imp (k + 1)).heap[j]?).map (fun s => s.subSlices) =
        if (st.getLast?).map (fun w => w.slice) = some j then
          (((stateAt env imp k).heap ++ [newSlice env e])[j]?).map
            (fun s => s.subSlices ++ [(stateAt env imp k).heap.length])
        else (((stateAt env imp k).heap ++ [newSlice env e])[j]?).map (fun s => s.subSlices)) ∧
    (∀ p ws, ((stateAt env imp events.length).getState p).openSlices = ws →
      ((importEvents env imp).getState p).openSlices = [] ∧
      (∀ k, ((importEvents env imp).model.getThread p.1 p.2).subrow k =
        ((stateAt env imp events.length).model.getThread p.1 p.2).subrow k ++
          ((ws[k]?).map (fun w => w.slice)).toList) ∧
      (∀ k w, ws[k]? = some w →
        ((importEvents env imp).heap[w.slice]?).map (fun s => s.subSlices) =
          ((stateAt env imp events.length).heap[w.slice]?).map
            (fun s => s.subSlices ++ ((ws[k + 1]?).map (fun w => w.slice)).toList)) ∧
      (∀ r, (∀ q, r ∉ ((stateAt env imp events.length).getState q).stackRefs) →
        (importEvents env imp).heap[r]? = (stateAt env imp events.length).heap[r]?)) := by
  have hev : imp.events = events := by rw [himp]; rfl
  refine ⟨?_, ?_, ?_⟩
  · intro k e rest top hk hph hn hs
    rw [← hev] at hk
    obtain ⟨h1, h2, h3, _⟩ := stateAt_end_nested env imp k e hk hph hn rest top hs
    refine ⟨by rw [h3], ?_, ?_⟩
    · rw [h2, getThread_withThread_self]
    · intro j
      rw [h1, subSlices_addToParent, subSlices_setUserDuration, subSlices_setDuration]
      split
      · rename_i hj
        have e1 := getElem?_setDuration_self (stateAt env imp k).heap top.slice (jsDiv e.ts 1000)
        by_cases htj : top.slice = j
        · subst htj
          cases hh : (stateAt env imp k).heap[top.slice]? with
          | none =>
            rw [hh, Option.map_none'] at e1
            have : (setUserDuration (setDuration (stateAt env imp k).heap top.slice
                (jsDiv e.ts 1000)) top.slice e.uts)[top.slice]? = none := by
              rw [List.getElem?_eq_none_iff] at e1 ⊢
              rw [length_setUserDuration]
              exact e1
            rw [this]
          | some s =>
            obtain ⟨s2, c1, _, _, _, _, c6⟩ :=
              close_slice_fields (stateAt env imp k).heap top.slice (jsDiv e.ts 1000) e.uts s hh
            rw [c1]
            simp [c6]
        · rw [getElem?_setUserDuration_ne _ _ _ _ htj, getElem?_setDuration_ne _ _ _ _ htj]
      · rfl
  · intro k e st hk hph hn hs
    rw [← hev] at hk
    rw [stateAt_succ env imp k e hk]
    obtain ⟨h1, h2, h3⟩ := importStep_instant_nested env (stateAt env imp k) k e hph hn
    refine ⟨by rw [h3, hs], ?_, ?_⟩
    · rw [h2, getThread_withThread_self, hs]
    · intro j
      rw [h1, hs, subSlices_addToParent, subSlices_setUserDuration, subSlices_setDuration]
      split
      · rename_i hj
        have hmap : ∀ (H : List TimelineSlice) (H2 : List TimelineSlice)
            (hh : (H2[j]?).map (fun s => s.subSlices) = (H[j]?).map (fun s => s.subSlices)),
            (H2[j]?).map (fun s => s.subSlices ++ [(stateAt env imp k).heap.length]) =
              (H[j]?).map (fun s => s.subSlices ++ [(stateAt env imp k).heap.length]) := by
          intro H H2 hh
          cases h5 : H2[j]? with
          | none =>
            rw [h5] at hh
            cases h6 : H[j]? with
            | none => rfl
            | some s => rw [h6] at hh; cases hh
          | some s2 =>
            rw [h5] at hh
            cases h6 : H[j]? with
            | none => rw [h6] at hh; cases hh
            | some s =>
              rw [h6] at hh
              simp only [Option.map_some', Option.some.injEq] at hh ⊢
              rw [hh]
        apply hmap
        rw [subSlices_setUserDuration, subSlices_setDuration]
      · rfl
  · intro p ws hws
    have hwf : WellFormed (stateAt env imp events.length) :=
      wellFormed_stateAt env imp (by rw [himp]; exact wellFormed_new _ _ _) _
    have hlen : imp.events.length = events.length := by rw [hev]
    by_cases ho : hasOpenSlices (stateAt env imp events.length) = true
    · have hrun : importEvents env imp = autoCloseOpenSlices (stateAt env imp events.length) := by
        unfold importEvents
        simp only [hlen, ho, if_true]
      rw [hrun]
      exact autoCloseOpenSlices_placement _ hwf p ws hws
    · simp only [Bool.not_eq_true] at ho
      have hrun : importEvents env imp = stateAt env imp events.length := by
        unfold importEvents
        simp [hlen, ho]
      have hnil : ws = [] := by
        rw [← hws]
        exact no_open_stack_of_hasOpenSlices_false _ ho p
      subst hnil
      rw [hrun]
      refine ⟨hws, ?_, ?_, fun _ _ => rfl⟩
      · intro k
        simp
      · intro k w hk
        simp at hk


/-- Witness of C5 on `exampleChildTrace`: the E event closes "b" with one slice still open,
so "b" goes to subrow 1; the auto-close closes "a" with no slice open, so "a" goes to
subrow 0; and "b" is the one child of "a". -/
theorem C5_subrow_is_open_depth_witness :
    (stateAt env0 (TraceEventImporter.new {} [] exampleChildTrace) 3).model.getThread 1 1 =
      ((stateAt env0 (TraceEventImporter.new {} [] exampleChildTrace) 2).model.getThread
        1 1).pushSubrow 1 1 ∧
    ((importEvents env0 (TraceEventImporter.new {} [] exampleChildTrace)).model.getThread
      1 1).subrow 0 = [0] ∧
    ((importEvents env0 (TraceEventImporter.new {} [] exampleChildTrace)).heap[0]?).map
      (fun s => s.subSlices) = some [1] := by
  obtain ⟨h1, _, h3⟩ := C5_subrow_is_open_depth env0 {} [] exampleChildTrace _ rfl
  obtain ⟨_, a2, _⟩ := h1 2 { ph := "E", pid := 1, tid := 1, name := "b", ts := 2000 }
    [{ index := 0, slice := 0 }] { index := 1, slice := 1 } rfl rfl (by decide) rfl
  obtain ⟨_, b2, b3, _⟩ := h3 (1, 1) [{ index := 0, slice := 0 }] rfl
  refine ⟨a2, ?_, ?_⟩
  · rw [b2 0]
    rfl
  · rw [b3 0 { index := 0, slice := 0 } rfl]
    rfl


/-- C6, evaluated on `exampleDoubleEndTrace`: the slice "f;0" is begun by event 0 and ended
by event 1, so the E event at index 2 has no open slice to match; yet `processEnd` still
finds the record in `openNonNestedSlices` (the statement `delete
state.openNonNestedSlices[name]` does not remove the key `sliceID`), hands the slice to the
thread a second time and overwrites its duration. -/
theorem C6_second_end_changes_model :
    jsGet ((stateAt env0 (TraceEventImporter.new {} [] exampleDoubleEndTrace) 2).getState
      (1, 1)).openNonNestedSlices "f;0" = some { index := 0, slice := 0 } ∧
    ((stateAt env0 (TraceEventImporter.new {} [] exampleDoubleEndTrace) 2).model.getThread
      1 1).nonNestedSlices = [0] ∧
    ((stateAt env0 (TraceEventImporter.new {} [] exampleDoubleEndTrace) 3).model.getThread
      1 1).nonNestedSlices = [0, 0] ∧
    ((stateAt env0 (TraceEventImporter.new {} [] exampleDoubleEndTrace) 2).heap[0]?).map
      (fun s => s.duration) = some (some (1 : ℚ)) ∧
    ((stateAt env0 (TraceEventImporter.new {} [] exampleDoubleEndTrace) 3).heap[0]?).map
      (fun s => s.duration) = some (some (3 : ℚ)) ∧
    (stateAt env0 (TraceEventImporter.new {} [] exampleDoubleEndTrace) 3).model ≠
      (stateAt env0 (TraceEventImporter.new {} [] exampleDoubleEndTrace) 2).model := by
  decide!

/-- C7 as stated fails for an I event that carries `'ui-nest': '0'`: the slice of the
sample event goes to the non-nested track of its thread and no subrow receives it. -/
theorem C7_non_nested_instant_not_in_subrow :
    (nonNestedEvent "I" 500).nonNested = true ∧
    ((importEvents env0 (TraceEventImporter.new {} []
      [nonNestedEvent "I" 500])).model.getThread 1 1).subRows = [] ∧
    ((importEvents env0 (TraceEventImporter.new {} []
      [nonNestedEvent "I" 500])).model.getThread 1 1).nonNestedSlices = [0] ∧
    0 ∉ ((importEvents env0 (TraceEventImporter.new {} []
      [nonNestedEvent "I" 500])).model.getThread 1 1).subrow 0 := by
  decide!

/-- C7, amended: an I event leaves the open stack of its PTID as it was.  If it is nested
(no `'ui-nest': '0'`), its slice is the one slice pushed into the subrow whose index is the
number of nested slices open on its PTID, and in the model that `importEvents` returns the
slice has duration 0 and `didNotFinish` not set.  If it carries `'ui-nest': '0'`, its slice
is handed to `addNonNestedSlice` of its thread instead, with duration 0 and `didNotFinish`
not set when the event has been processed. -/
theorem C7_instant_event (env : Env) (model : TimelineModel) (heap : List TimelineSlice)
    (events : List TraceEvent) (imp : TraceEventImporter)
    (himp : imp = TraceEventImporter.new model heap events)
    (k : Nat) (e : TraceEvent) (hk : events[k]? = some e) (hph : e.ph = "I")
    (r d : Nat) (hr : r = (stateAt env imp k).heap.length)
    (hd : d = ((stateAt env imp k).getState e.ptid).openSlices.length) :
    ((stateAt env imp (k + 1)).getState e.ptid).openSlices =
      ((stateAt env imp k).getState e.ptid).openSlices ∧
    (e.nonNested = false →
      (stateAt env imp (k + 1)).model.getThread e.pid e.tid =
        ((stateAt env imp k).model.getThread e.pid e.tid).pushSubrow d r ∧
      ∃ s, (importEvents env imp).heap[r]? = some s ∧ s.title = e.name ∧
        s.start = jsDiv e.ts 1000 ∧ s.duration = some 0 ∧ s.didNotFinish = false) ∧
    (e.nonNested = true →
      (stateAt env imp (k + 1)).model.getThread e.pid e.tid =
        ((stateAt env imp k).model.getThread e.pid e.tid).addNonNestedSlice r ∧
      ∃ s, (stateAt env imp (k + 1)).heap[r]? = some s ∧ s.title = e.name ∧
        s.start = jsDiv e.ts 1000 ∧ s.duration = some 0 ∧ s.didNotFinish = false) := by
  subst hr hd
  have hev : imp.events = events := by rw [himp]; rfl
  rw [← hev] at hk
  have hb0 : RefsBounded (stateAt env imp k) :=
    refsBounded_stateAt env imp (by rw [himp]; exact refsBounded_new _ _ _) k
  have F := stepFrame_importStep env (stateAt env imp k) k e
  have hsucc := stateAt_succ env imp k e hk
  rw [← hsucc] at F
  have hnew : ((stateAt env imp k).heap ++ [newSlice env e])[(stateAt env imp k).heap.length]? =
      some (newSlice env e) := by simp
  have hdur : ∀ s : TimelineSlice, s.start = (newSlice env e).start →
      some (jsSub (jsDiv e.ts 1000) s.start) = some (0 : ℚ) := by
    intro s hs
    rw [hs, (newSlice_fields env e).2.1, jsSub_self]
  refine ⟨?_, ?_, ?_⟩
  · by_cases hn : e.nonNested = true
    · rw [hsucc]
      exact (importStep_instant_nonNested env _ k e hph hn).2.2
    · simp only [Bool.not_eq_true] at hn
      rw [hsucc, (importStep_instant_nested env _ k e hph hn).2.2]
  · intro hn
    obtain ⟨h1, h2, h3⟩ := importStep_instant_nested env (stateAt env imp k) k e hph hn
    rw [← hsucc] at h1 h2 h3
    refine ⟨by rw [h2, getThread_withThread_self], ?_⟩
    obtain ⟨s2, c1, c2, c3, c4, c5, _⟩ := close_slice_fields
      ((stateAt env imp k).heap ++ [newSlice env e]) (stateAt env imp k).heap.length
      (jsDiv e.ts 1000) e.uts (newSlice env e) hnew
    have hheap : (stateAt env imp (k + 1)).heap[(stateAt env imp k).heap.length]? =
        some s2 := by
      rw [h1, getElem?_addToParent_ne]
      · exact c1
      · intro w hw
        exact Nat.ne_of_lt (hb0 e.ptid w.slice (by
          simp only [ThreadState.openRefs, List.mem_append]
          exact Or.inl (List.mem_map.mpr ⟨w, hw, rfl⟩)))
    have hnot : NotOpen (stateAt env imp (k + 1)) (stateAt env imp k).heap.length := by
      refine ⟨?_, ?_⟩
      · rw [h1, length_addToParent, length_setUserDuration, length_setDuration]
        simp
      · intro q hmem
        by_cases hq : q = e.ptid
        · subst hq
          rw [h3] at hmem
          exact absurd (hb0 _ _ hmem) (lt_irrefl _)
        · rw [F.state_ne q hq] at hmem
          exact absurd (hb0 _ _ hmem) (lt_irrefl _)
    have hlen : k + 1 ≤ imp.events.length := by
      have := (List.getElem?_eq_some_iff.mp hk).1
      omega
    obtain ⟨n2, hn2⟩ : ∃ n2, imp.events.length = (k + 1) + n2 :=
      ⟨imp.events.length - (k + 1), by omega⟩
    have hfin := stateAt_notOpen env imp _ (k + 1) hnot n2
    rw [← hn2] at hfin
    refine ⟨s2, ?_, ?_, ?_, ?_, ?_⟩
    · rw [importEvents_heap_notOpen env imp _ hfin.1, hfin.2]
      exact hheap
    · rw [c2]
      exact (newSlice_fields env e).1
    · rw [c3]
      exact (newSlice_fields env e).2.1
    · rw [c4]
      exact hdur _ rfl
    · rw [c5]
      exact (newSlice_fields env e).2.2.2.1
  · intro hn
    obtain ⟨h1, h2, _⟩ := importStep_instant_nonNested env (stateAt env imp k) k e hph hn
    rw [← hsucc] at h1 h2
    refine ⟨h2, ?_⟩
    have e1 := getElem?_setDuration_self ((stateAt env imp k).heap ++ [newSlice env e])
      (stateAt env imp k).heap.length (jsDiv e.ts 1000)
    rw [hnew, Option.map_some'] at e1
    refine ⟨_, by rw [h1]; exact e1, ?_, ?_, ?_, ?_⟩
    · exact (newSlice_fields env e).1
    · exact (newSlice_fields env e).2.1
    · exact hdur _ rfl
    · exact (newSlice_fields env e).2.2.2.1

/-- Witness of the amended C7: an instant event inside an open slice. -/
theorem C7_instant_event_witness :
    ((stateAt env0 (TraceEventImporter.new {} []
        [exampleBegin, { ph := "I", pid := 1, tid := 1, name := "tick", ts := 500 }])
      2).model.getThread 1 1).subrow 1 = [1] ∧
    ∃ s, (importEvents env0 (TraceEventImporter.new {} []
        [exampleBegin, { ph := "I", pid := 1, tid := 1, name := "tick", ts := 500 }])).heap[1]?
        = some s ∧ s.duration = some 0 ∧ s.didNotFinish = false := by
  obtain ⟨_, h2, _⟩ := C7_instant_event env0 {} []
    [exampleBegin, { ph := "I", pid := 1, tid := 1, name := "tick", ts := 500 }] _ rfl 1
    { ph := "I", pid := 1, tid := 1, name := "tick", ts := 500 } rfl rfl 1 1 rfl rfl
  obtain ⟨a1, s, a2, _, _, a5, a6⟩ := h2 (by decide)
  refine ⟨?_, s, a2, a5, a6⟩
  rw [a1, subrow_pushSubrow_self]
  rfl

/-- C8, counterexample: a counter whose first sample is `{constructor: 1}` and whose second
sample has no arguments records for the second sample the member `constructor` that the
argument bag inherits from `Object.prototype`, not the number 0, because
`event.args[seriesName] === undefined` is false for an inherited member. -/
theorem C8_inherited_member_recorded :
    (jsGet ((importEvents env0 (TraceEventImporter.new {} []
        examplePrototypeTrace)).model.getProcess 1).counters "c.ctr").map
      (fun c => (c.seriesNames, c.samples)) =
      some (["constructor"], [.value (.num 1), .inherited "constructor"]) ∧
    jsGet (counterSample 2000 []).args "constructor" = none := by
  decide!

/-- C8, amended: for a sequence of C events of one counter whose first sample has at least
one argument, the series names of the counter are the argument keys of the first sample, in
order, whatever the later samples carry; and each sample records, for each series, the
value of `event.args[seriesName]`, or the number 0 when that is `undefined`.  The value read
is the argument of that name when the sample has one; when it has none, it is `undefined`
(so 0 is recorded) unless the name is that of a member of `Object.prototype`, which is then
what is read and recorded. -/
theorem C8_counter_series_fixed (env : Env) (imp : TraceEventImporter) (first : TraceEvent)
    (later : List TraceEvent) (hne : first.args ≠ [])
    (hnew : ((imp.model.getProcess first.pid).getCounter env first.cat
      (ctrNameOf env first)).numSeries = 0)
    (hsame : ∀ e ∈ later, e.pid = first.pid ∧
      env.counterId e.cat (ctrNameOf env e) = env.counterId first.cat (ctrNameOf env first)) :
    ∃ ctr,
      jsGet ((later.foldl (processCounter env) (processCounter env imp first)).model.getProcess
        first.pid).counters (env.counterId first.cat (ctrNameOf env first)) = some ctr ∧
      ctr.seriesNames = first.args.map Prod.fst ∧
      ctr.samples = ((imp.model.getProcess first.pid).getCounter env first.cat
          (ctrNameOf env first)).samples ++
        (first :: later).flatMap (fun e =>
          (first.args.map Prod.fst).map
            (fun n => (readProperty e.args n).getD (Sample.value (Value.num 0)))) ∧
      ctr.timestamps = ((imp.model.getProcess first.pid).getCounter env first.cat
          (ctrNameOf env first)).timestamps ++
        (first :: later).map (fun e => jsDiv e.ts 1000) ∧
      (∀ (a : Args) (n : String) (v : Value), jsGet a n = some v →
        (readProperty a n).getD (Sample.value (Value.num 0)) = Sample.value v) ∧
      (∀ (a : Args) (n : String), jsGet a n = none → n ∉ objectPrototypeNames →
        (readProperty a n).getD (Sample.value (Value.num 0)) = Sample.value (Value.num 0)) ∧
      (∀ (a : Args) (n : String), jsGet a n = none → n ∈ objectPrototypeNames →
        (readProperty a n).getD (Sample.value (Value.num 0)) = Sample.inherited n) := by
  obtain ⟨c0, h0, h1, h2, h3⟩ := processCounter_first env imp first hne hnew
  have key : ∀ (l : List TraceEvent) (s : TraceEventImporter) (c : TimelineCounter),
      (∀ e ∈ l, e.pid = first.pid ∧
        env.counterId e.cat (ctrNameOf env e) = env.counterId first.cat (ctrNameOf env first)) →
      jsGet (s.model.getProcess first.pid).counters
        (env.counterId first.cat (ctrNameOf env first)) = some c →
      c.seriesNames = first.args.map Prod.fst →
      ∃ ctr, jsGet ((l.foldl (processCounter env) s).model.getProcess first.pid).counters
          (env.counterId first.cat (ctrNameOf env first)) = some ctr ∧
        ctr.seriesNames = first.args.map Prod.fst ∧
        ctr.samples = c.samples ++ l.flatMap (fun e =>
          (first.args.map Prod.fst).map
            (fun n => (readProperty e.args n).getD (Sample.value (Value.num 0)))) ∧
        ctr.timestamps = c.timestamps ++ l.map (fun e => jsDiv e.ts 1000) := by
    intro l
    induction l with
    | nil =>
      intro s c _ hc hs
      exact ⟨c, hc, hs, by simp, by simp⟩
    | cons e l ih =>
      intro s c hl hc hs
      obtain ⟨hp, hk⟩ := hl e (List.mem_cons_self _ _)
      have hn : c.seriesNames ≠ [] := by
        rw [hs]
        simpa using hne
      have hstep := processCounter_sample env s e c (by rw [hp, hk]; exact hc) hn
      rw [hp, hk] at hstep
      obtain ⟨ctr, i1, i2, i3, i4⟩ := ih (processCounter env s e) (addSample c e)
        (fun e2 h2 => hl e2 (List.mem_cons_of_mem _ h2)) hstep hs
      refine ⟨ctr, i1, i2, ?_, ?_⟩
      · rw [i3]
        simp [addSample, sampleRow, hs]
      · rw [i4]
        simp [addSample]
  obtain ⟨ctr, k1, k2, k3, k4⟩ := key later (processCounter env imp first) c0 hsame h0 h1
  refine ⟨ctr, k1, k2, ?_, ?_, ?_, ?_, ?_⟩
  · rw [k3, h2]
    simp
  · rw [k4, h3]
    simp
  · intro a n v h
    rw [readProperty_own a n v h]
    rfl
  · intro a n h hn
    rw [readProperty_missing a n h hn]
    rfl
  · intro a n h hn
    rw [readProperty_inherited a n h hn]
    rfl


/-- Witness of C8: a first sample with series "a" and "b", then a sample that carries "a"
and a new key "c" but not "b". -/
theorem C8_counter_series_fixed_witness :
    ∃ ctr,
      jsGet (([counterSample 1000 [("a", .num 5), ("c", .num 9)]].foldl (processCounter env0)
        (processCounter env0 (TraceEventImporter.new {} [] [])
          (counterSample 0 [("a", .num 1), ("b", .num 2)]))).model.getProcess 1).counters
        "c.ctr" = some ctr ∧
      ctr.seriesNames = ["a", "b"] ∧
      ctr.samples = [.value (.num 1), .value (.num 2), .value (.num 5), .value (.num 0)] := by
  obtain ⟨ctr, h1, h2, h3, _⟩ := C8_counter_series_fixed env0 (TraceEventImporter.new {} [] [])
    (counterSample 0 [("a", .num 1), ("b", .num 2)])
    [counterSample 1000 [("a", .num 5), ("c", .num 9)]] (by decide) rfl
    (by
      intro e he
      rw [List.mem_singleton] at he
      subst he
      exact ⟨rfl, rfl⟩)
  exact ⟨ctr, h1, h2, h3⟩

/-- C9, evaluated on `exampleEmptyCounterEvent` (counter "ctr" of category "c", first
sample, no arguments): one import error is appended, but the counter stays in the registry
of its process, because `delete ctr.parent.counters[ctr.name]` removes the key "ctr" while
the counter is filed under category and name ("c.ctr", or "cctr" without a separator). -/
theorem C9_empty_counter_not_removed :
    (processCounter env0 (TraceEventImporter.new {} [] []) exampleEmptyCounterEvent).model =
      { processes := [(1, { counters := [("c.ctr", { name := "ctr" })] })],
        importErrors :=
          ["Expected counter ctr to have at least one argument to use as a value."] } ∧
    (processCounter envPlainKey (TraceEventImporter.new {} [] [])
        exampleEmptyCounterEvent).model =
      { processes := [(1, { counters := [("cctr", { name := "ctr" })] })],
        importErrors :=
          ["Expected counter ctr to have at least one argument to use as a value."] } := by
  decide!


/-- C10: when `processBegin` handles a non-nested event whose composite id is already a
key of the dictionary of open non-nested slices of its PTID, it appends exactly one import
error, and afterwards the dictionary maps the id to the record of the slice object that
this call has just created; the older heap objects are left as they are. -/
theorem C10_duplicate_non_nested_begin (env : Env) (imp : TraceEventImporter) (index : Nat)
    (p : PTID) (event : TraceEvent) (w : OpenSlice) (hn : event.nonNested = true)
    (hopen : jsGet (imp.getState p).openNonNestedSlices (sliceIDOf env event) = some w) :
    (processBegin env imp index p event).model.importErrors =
      imp.model.importErrors ++ ["Event " ++ sliceIDOf env event ++ " already open."] ∧
    jsGet ((processBegin env imp index p event).getState p).openNonNestedSlices
      (sliceIDOf env event) = some { index := index, slice := imp.heap.length } ∧
    (processBegin env imp index p event).heap[imp.heap.length]? = some (newSlice env event) ∧
    (∀ j, j < imp.heap.length → (processBegin env imp index p event).heap[j]? = imp.heap[j]?) ∧
    ((processBegin env imp index p event).getState p).openSlices =
      (imp.getState p).openSlices := by
  rw [processBegin_nonNested env imp index p event hn]
  refine ⟨?_, ?_, ?_, ?_, ?_⟩
  · simp [hopen, TimelineModel.pushError]
  · rw [getState_mk_jsSet_self]
    exact jsGet_jsSet_self _ _ _
  · simp
  · intro j hj
    simp [List.getElem?_append_left hj]
  · rw [getState_mk_jsSet_self]

/-- Witness of C10: a second non-nested begin of "f;0" while the first is open. -/
theorem C10_duplicate_non_nested_begin_witness :
    sliceIDOf env0 (nonNestedEvent "B" 500) = "f;0" ∧
    (processBegin env0 (stateAt env0 (TraceEventImporter.new {} [] [nonNestedEvent "B" 0]) 1)
      1 (1, 1) (nonNestedEvent "B" 500)).model.importErrors = ["Event f;0 already open."] ∧
    jsGet ((processBegin env0
      (stateAt env0 (TraceEventImporter.new {} [] [nonNestedEvent "B" 0]) 1)
      1 (1, 1) (nonNestedEvent "B" 500)).getState (1, 1)).openNonNestedSlices "f;0" =
        some { index := 1, slice := 1 } := by
  obtain ⟨h1, h2, _⟩ := C10_duplicate_non_nested_begin env0
    (stateAt env0 (TraceEventImporter.new {} [] [nonNestedEvent "B" 0]) 1) 1 (1, 1)
    (nonNestedEvent "B" 500) { index := 0, slice := 0 } (by decide) (by decide)
  exact ⟨by decide, h1, h2⟩

/-- C11, evaluated on `exampleReopenTrace`: the slice "f;0" is begun by event 0 and ended
by event 1, which appends no error; its record is still in `openNonNestedSlices` afterwards
(the statement `delete state.openNonNestedSlices[name]` does not remove the key `sliceID`),
so the begin event at index 2 finds the id and appends the error "Event f;0 already open.",
although no slice with that id is open. -/
theorem C11_begin_after_end_reports_open :
    (stateAt env0 (TraceEventImporter.new {} [] exampleReopenTrace) 2).model.importErrors =
      [] ∧
    ((stateAt env0 (TraceEventImporter.new {} [] exampleReopenTrace) 2).model.getThread
      1 1).nonNestedSlices = [0] ∧
    ((stateAt env0 (TraceEventImporter.new {} [] exampleReopenTrace) 2).heap[0]?).map
      (fun s => s.duration) = some (some (1 : ℚ)) ∧
    jsGet ((stateAt env0 (TraceEventImporter.new {} [] exampleReopenTrace) 2).getState
      (1, 1)).openNonNestedSlices "f;0" = some { index := 0, slice := 0 } ∧
    (stateAt env0 (TraceEventImporter.new {} [] exampleReopenTrace) 3).model.importErrors =
      ["Event f;0 already open."] ∧
    (importEvents env0 (TraceEventImporter.new {} [] exampleReopenTrace)).model.importErrors =
      ["Event f;0 already open."] := by
  decide!


/-- C12: for a text that begins with `'['` and whose last character is neither `']'` nor a
newline, the constructor parses the text with one `']'` appended; when the parser reads
that text as an array, construction succeeds, `events_` is that array, and the model is
not written to. -/
theorem C12_truncated_array_repaired (s : String) (h0 : s.data.head? = some '[')
    (h1 : s.data.getLast? ≠ some ']') (h2 : s.data.getLast? ≠ some '\n') :
    repairText s = s ++ "]" ∧
    ∀ (jsonParse : String → Except JSError JSValue) (model : TimelineModel)
      (evs : List JSValue), jsonParse (s ++ "]") = .ok (.array evs) →
      construct jsonParse model (.str s) =
        (.ok { model_ := model, events_ := .array evs, threadStateByPTID_ := [] }, model) := by
  refine ⟨repairText_append s h0 h1 h2, ?_⟩
  intro jsonParse model evs hp
  unfold construct
  simp only [repairText_append s h0 h1 h2, hp]
  rfl

/-- Witness of C12: the text `[{"ph":"B"}` without its closing bracket. -/
theorem C12_truncated_array_repaired_witness :
    repairText "[\x7b\"ph\":\"B\"\x7d" = "[\x7b\"ph\":\"B\"\x7d]" ∧
    construct sampleParse {} (.str "[\x7b\"ph\":\"B\"\x7d") =
      (.ok { model_ := {}, events_ := .array [sampleEventValue], threadStateByPTID_ := [] },
        {}) := by
  obtain ⟨h1, h2⟩ := C12_truncated_array_repaired "[\x7b\"ph\":\"B\"\x7d" (by decide)
    (by decide) (by decide)
  exact ⟨h1, h2 sampleParse {} [sampleEventValue] rfl⟩

/-- C13, evaluated: a text that ends in `"]\r\n"` is not passed to the parser unchanged.
With the last character `'\n'` the second test of the constructor looks at the character
before it, `'\r'`, finds that it is not `']'`, and appends a bracket; the third test, the
one written for `"\r\n"`, is never reached with a text ending in `"\r\n"`.  Texts ending
in `"]"` or `"]\n"` are passed unchanged. -/
theorem C13_crlf_text_gets_bracket :
    repairText "[]\r\n" = "[]\r\n]" ∧ repairText "[]" = "[]" ∧ repairText "[]\n" = "[]\n" := by
  decide

/-- C14, evaluated: `canImport` raises a `TypeError` on an empty array and on an object
whose `traceEvents` is an empty array (it reads `.ph` of the missing first element); on an
array whose first element has no `ph` and on an object without `traceEvents` it returns
`false`. -/
theorem C14_canImport_empty_array_throws :
    canImport (.array []) = .error .typeError ∧
    canImport (.object [("traceEvents", .array [])]) = .error .typeError ∧
    canImport (.array [.object []]) = .ok (.bool false) ∧
    canImport (.object []) = .ok (.bool false) ∧
    canImport (.array [sampleEventValue]) = .ok (.bool true) ∧
    canImport (.object [("traceEvents", .array [sampleEventValue])]) = .ok (.str "B") :=
  ⟨rfl, rfl, rfl, rfl, rfl, rfl⟩

/-- C15: when the parser rejects the text that the constructor hands to it (the text after
bracket repair), constructing the importer fails with the error of the parser and the model
is as it was. -/
theorem C15_parse_failure_leaves_model (jsonParse : String → Except JSError JSValue)
    (model : TimelineModel) (s : String) (e : JSError)
    (h : jsonParse (repairText s) = .error e) :
    construct jsonParse model (.str s) = (.error e, model) := by
  unfold construct
  simp only [h]
  rfl

/-- Witness of C15: the text `[oops` is repaired to `[oops]`, which the sample parser
rejects. -/
theorem C15_parse_failure_leaves_model_witness :
    repairText "[oops" = "[oops]" ∧
    construct sampleParse {} (.str "[oops") = (.error .syntaxError, {}) :=
  ⟨by decide, C15_parse_failure_leaves_model sampleParse {} "[oops" .syntaxError rfl⟩


/-- C16: an event whose phase is M with a name other than "thread_name", or whose phase is
none of B, E, I, C, M, makes its loop iteration push exactly one string onto `importErrors`
and change nothing else in the model or the heap; and `importEvents` on the whole array
yields the same heap of slices, the same thread for every pid and tid, and the same
counters for every process as on the array without that event, while its error list is the
other one with that single string inserted. -/
theorem C16_unrecognized_event_ignored (env : Env) (model : TimelineModel)
    (heap : List TimelineSlice) (pre post : List TraceEvent) (bad : TraceEvent)
    (hbad : bad.unrecognized = true) :
    (stateAt env (TraceEventImporter.new model heap (pre ++ bad :: post))
        (pre.length + 1)).model =
      (stateAt env (TraceEventImporter.new model heap (pre ++ bad :: post))
        pre.length).model.pushError (unrecognizedMessage bad) ∧
    (stateAt env (TraceEventImporter.new model heap (pre ++ bad :: post))
        (pre.length + 1)).heap =
      (stateAt env (TraceEventImporter.new model heap (pre ++ bad :: post)) pre.length).heap ∧
    (importEvents env (TraceEventImporter.new model heap (pre ++ bad :: post))).heap =
      (importEvents env (TraceEventImporter.new model heap (pre ++ post))).heap ∧
    (∀ pid tid,
      (importEvents env (TraceEventImporter.new model heap (pre ++ bad :: post))).model.getThread
          pid tid =
        (importEvents env (TraceEventImporter.new model heap (pre ++ post))).model.getThread
          pid tid) ∧
    (∀ pid,
      ((importEvents env (TraceEventImporter.new model heap
          (pre ++ bad :: post))).model.getProcess pid).counters =
        ((importEvents env (TraceEventImporter.new model heap
          (pre ++ post))).model.getProcess pid).counters) ∧
    (importEvents env (TraceEventImporter.new model heap
        (pre ++ bad :: post))).model.importErrors[
          (stateAt env (TraceEventImporter.new model heap (pre ++ bad :: post))
            pre.length).model.importErrors.length]? = some (unrecognizedMessage bad) ∧
    (importEvents env (TraceEventImporter.new model heap (pre ++ post))).model.importErrors =
      (importEvents env (TraceEventImporter.new model heap
        (pre ++ bad :: post))).model.importErrors.eraseIdx
          (stateAt env (TraceEventImporter.new model heap (pre ++ bad :: post))
            pre.length).model.importErrors.length := by
  generalize hA : TraceEventImporter.new model heap (pre ++ bad :: post) = A
  generalize hB : TraceEventImporter.new model heap (pre ++ post) = B
  have hAev : A.events = pre ++ bad :: post := by rw [← hA]; rfl
  have hBev : B.events = pre ++ post := by rw [← hB]; rfl
  have hwA : WellFormed A := by rw [← hA]; exact wellFormed_new _ _ _
  have hwB : WellFormed B := by rw [← hB]; exact wellFormed_new _ _ _
  have hkA : KeysNodup A.threadStateByPTID := by rw [← hA]; exact List.nodup_nil
  have hkB : KeysNodup B.threadStateByPTID := by rw [← hB]; exact List.nodup_nil
  have h0 : SameData Eq (stateAt env A 0) (stateAt env B 0) := by
    rw [← hA, ← hB]
    exact ⟨rfl, rfl, rfl, rfl, rfl, fun _ => rfl⟩
  have h1 : SameData Eq (stateAt env A (0 + pre.length)) (stateAt env B (0 + pre.length)) := by
    apply sameData_stateAt (fun x y d h => by rw [h]) env A B 0 0 h0
    intro j hj
    rw [hAev, hBev, Nat.zero_add, List.getElem?_append_left hj, List.getElem?_append_left hj]
  rw [Nat.zero_add] at h1
  have hbadAt : A.events[pre.length]? = some bad := by
    rw [hAev, List.getElem?_append_right (le_refl _), Nat.sub_self, List.getElem?_cons_zero]
  obtain ⟨s1, s2, _, s4⟩ := importStep_unrecognized env (stateAt env A pre.length) pre.length
    bad hbad
  rw [← stateAt_succ env A pre.length bad hbadAt] at s1 s2 s4
  have h2 : SameData
      (fun x y => x[(stateAt env A pre.length).model.importErrors.length]? =
        some (unrecognizedMessage bad) ∧
        y = x.eraseIdx (stateAt env A pre.length).model.importErrors.length)
      (stateAt env A (pre.length + 1)) (stateAt env B pre.length) := by
    refine ⟨?_, ?_, ?_, ?_, ?_, ?_⟩
    · rw [s2]
      exact h1.heap_eq
    · rw [s1]
      exact h1.procs_eq
    · rw [s1]
      exact h1.min_eq
    · rw [s1]
      exact h1.max_eq
    · rw [s1, ← h1.errs]
      refine ⟨?_, ?_⟩
      · simp [TimelineModel.pushError]
      · show _ = (_ ++ [_]).eraseIdx _
        rw [List.eraseIdx_append_of_length_le (le_refl _), Nat.sub_self]
        simp
    · intro p
      rw [s4]
      exact h1.states p
  have h3 := sameData_stateAt (eraseIdx_rel_append _ _) env A B (pre.length + 1) pre.length h2
    post.length (by
      intro j _
      rw [hAev, hBev]
      rw [List.getElem?_append_right (by omega), List.getElem?_append_right (by omega)]
      have e1 : pre.length + 1 + j - pre.length = j + 1 := by omega
      have e2 : pre.length + j - pre.length = j := by omega
      rw [e1, e2, List.getElem?_cons_succ])
  have hlenA : A.events.length = pre.length + 1 + post.length := by
    rw [hAev]
    simp
    omega
  have hlenB : B.events.length = pre.length + post.length := by
    rw [hBev]
    simp
  rw [← hlenA, ← hlenB] at h3
  have hwLA := wellFormed_stateAt env A hwA A.events.length
  have hwLB := wellFormed_stateAt env B hwB B.events.length
  have hkLA := keysNodup_stateAt env A hkA A.events.length
  have hkLB := keysNodup_stateAt env B hkB B.events.length
  obtain ⟨a1, a2, a3, _⟩ := importEvents_model env A hwA
  obtain ⟨b1, b2, b3, _⟩ := importEvents_model env B hwB
  have hthread : ∀ pid tid, (stateAt env A A.events.length).model.getThread pid tid =
      (stateAt env B B.events.length).model.getThread pid tid := by
    intro pid tid
    simp [TimelineModel.getThread, TimelineModel.getProcess, h3.procs_eq]
  refine ⟨s1, s2, ?_, ?_, ?_, ?_, ?_⟩
  · exact finish_heap_congr _ _ hwLA hwLB hkLA hkLB h3.heap_eq h3.procs_eq
      (fun p => sameData_stack h3 p)
  · intro pid tid
    rw [a1, b1, hthread, sameData_stackRefs h3]
  · intro pid
    rw [a2, b2]
    simp [TimelineModel.getProcess, h3.procs_eq]
  · rw [a3]
    exact h3.errs.1
  · rw [a3, b3]
    exact h3.errs.2

/-- Witness of C16 on `exampleUnrecognizedTrace`: the metadata event "process_name" between
the begin and the end of "f" leaves one error string, and the slice and the thread are
those of the trace without it. -/
theorem C16_unrecognized_event_ignored_witness :
    (importEvents env0 (TraceEventImporter.new {} [] exampleUnrecognizedTrace)).heap =
      (importEvents env0 (TraceEventImporter.new {} [] [exampleBegin, exampleEnd])).heap ∧
    (importEvents env0 (TraceEventImporter.new {} [] exampleUnrecognizedTrace)).model.getThread
        1 1 =
      (importEvents env0 (TraceEventImporter.new {} []
        [exampleBegin, exampleEnd])).model.getThread 1 1 ∧
    (importEvents env0
      (TraceEventImporter.new {} [] exampleUnrecognizedTrace)).model.importErrors =
      ["Unrecognized metadata name: process_name"] := by
  obtain ⟨_, _, h3, h4, _, _, _⟩ := C16_unrecognized_event_ignored env0 {} [] [exampleBegin]
    [exampleEnd] { ph := "M", pid := 1, tid := 1, name := "process_name", ts := 0 }
    (by decide)
  exact ⟨h3, h4 1 1, by decide!⟩

/-- C17 as stated fails when counter samples of one process are interleaved differently.
The two arrays hold the same events and agree on the order of the events of every PTID;
in the first the sample without arguments comes first and is dropped, in the second it is
recorded at time 9.  The open slice of thread 1:3 is in subrow 0 in both runs, but
auto-close ends it at time 5 (duration 0) in the first run and at time 9 (duration 4) in
the second. -/
theorem C17_counter_order_changes_duration :
    (∀ p, eventsOf p [exampleEmptySample, exampleFirstSample, exampleOpenBegin] =
      eventsOf p [exampleFirstSample, exampleEmptySample, exampleOpenBegin]) ∧
    ((importEvents env0 (TraceEventImporter.new {} []
      [exampleEmptySample, exampleFirstSample, exampleOpenBegin])).model.getThread 1 3).subRows
        = [[0]] ∧
    ((importEvents env0 (TraceEventImporter.new {} []
      [exampleFirstSample, exampleEmptySample, exampleOpenBegin])).model.getThread 1 3).subRows
        = [[0]] ∧
    ((importEvents env0 (TraceEventImporter.new {} []
      [exampleEmptySample, exampleFirstSample, exampleOpenBegin])).heap[0]?).map
        (fun s => s.duration) = some (some 0) ∧
    ((importEvents env0 (TraceEventImporter.new {} []
      [exampleFirstSample, exampleEmptySample, exampleOpenBegin])).heap[0]?).map
        (fun s => s.duration) = some (some 4) := by
  refine ⟨?_, by decide!, by decide!, by decide!, by decide!⟩
  intro p
  obtain ⟨p1, p2⟩ := p
  simp only [eventsOf, List.filter, TraceEvent.ptid, exampleEmptySample, exampleFirstSample,
    exampleOpenBegin, Prod.mk.injEq]
  by_cases h1 : p2 = 1
  · subst h1
    simp
  · by_cases h2 : p2 = 2
    · subst h2
      simp
    · have e1 : ¬ (1 = p2) := fun h => h1 h.symm
      have e2 : ¬ (2 = p2) := fun h => h2 h.symm
      simp [e1, e2]

/-- C17, amended: for two event arrays with the same events of every PTID in the same
order (arrays that differ only in how events of different PTIDs are interleaved), imported
from the same model and heap, and for every thread, there is a renaming `g` of slice
references, injective on the slices of the thread, under which the thread of the second
run is the thread of the first (same subrows, same order), and corresponding slices have
the same title, colour, start, arguments, `didNotFinish` flag, user times and (renamed)
`subSlices`; their durations are equal, or both were closed by `autoCloseOpenSlices` and
each has the duration `T - start` for the closing time `T` of its run.  When the two arrays
also have their C events in
the same order, the closing times are equal and corresponding slices are equal. -/
theorem C17_same_slices_up_to_closing_time (env : Env) (model : TimelineModel)
    (heap : List TimelineSlice) (eventsA eventsB : List TraceEvent)
    (hclosed : Closed (TraceEventImporter.new model heap [])) (hkeys : ModelKeys model)
    (hsame : ∀ p, eventsOf p eventsA = eventsOf p eventsB) (pid tid : Nat) :
    ∃ g : Nat → Nat,
      (importEvents env (TraceEventImporter.new model heap eventsB)).model.getThread pid tid =
        renameThread g
          ((importEvents env (TraceEventImporter.new model heap eventsA)).model.getThread
            pid tid) ∧
      (∀ r r2,
        InThread ((importEvents env (TraceEventImporter.new model heap
          eventsA)).model.getThread pid tid) r →
        InThread ((importEvents env (TraceEventImporter.new model heap
          eventsA)).model.getThread pid tid) r2 → g r = g r2 → r = r2) ∧
      (∀ r,
        InThread ((importEvents env (TraceEventImporter.new model heap
          eventsA)).model.getThread pid tid) r →
        ∃ sA sB,
          (importEvents env (TraceEventImporter.new model heap eventsA)).heap[r]? = some sA ∧
          (importEvents env (TraceEventImporter.new model heap eventsB)).heap[g r]? = some sB ∧
          SameSlice g
            (closingTime (stateAt env (TraceEventImporter.new model heap eventsA)
              eventsA.length))
            (closingTime (stateAt env (TraceEventImporter.new model heap eventsB)
              eventsB.length)) sA sB ∧
          (counterEvents eventsA = counterEvents eventsB → sB = renameSlice g sA)) := by
  have hcP : Closed (TraceEventImporter.new model heap (eventsOf (pid, tid) eventsA)) :=
    ⟨refsBounded_new _ _ _, hclosed.rows, hclosed.subs⟩
  obtain ⟨fA, _, hA⟩ := projection_loop_end env (TraceEventImporter.new model heap eventsA)
    (TraceEventImporter.new model heap (eventsOf (pid, tid) eventsA)) (pid, tid) id rfl
    (projection_new model heap _ _ _) (refsBounded_new _ _ _) hcP
  obtain ⟨fB, _, hB⟩ := projection_loop_end env (TraceEventImporter.new model heap eventsB)
    (TraceEventImporter.new model heap (eventsOf (pid, tid) eventsA)) (pid, tid) id
    (hsame (pid, tid)) (projection_new model heap _ _ _) (refsBounded_new _ _ _) hcP
  obtain ⟨g, h1, h2, h3⟩ := same_thread_of_projections env _ _ _ (wellFormed_new _ _ _)
    (wellFormed_new _ _ _) (closed_stateAt env _ hcP _) (pid, tid) fA fB hA hB
  refine ⟨g, h1, h2, ?_⟩
  intro r hr
  obtain ⟨sA, sB, e1, e2, e3⟩ := h3 r hr
  refine ⟨sA, sB, e1, e2, e3, ?_⟩
  intro hC
  have hT := closingTime_eq_of_same_events env model heap eventsA eventsB hclosed hkeys hsame hC
  have e4 : SameSlice g
      (closingTime (stateAt env (TraceEventImporter.new model heap eventsA) eventsA.length))
      (closingTime (stateAt env (TraceEventImporter.new model heap eventsB) eventsB.length))
      sA sB := e3
  rw [← hT] at e4
  exact sameSlice_eq g _ sA sB e4

/-- Witness of the amended C17: thread 1:1 of the sample trace with a begin event of thread
1:2 put before it or after it; the slice "f" of the one run is the slice "f" of the
other. -/
theorem C17_same_slices_up_to_closing_time_witness :
    ∃ g : Nat → Nat,
      (importEvents env0 (TraceEventImporter.new {} []
        [exampleBegin, exampleEnd, exampleOtherBegin])).model.getThread 1 1 =
        renameThread g
          ((importEvents env0 (TraceEventImporter.new {} []
            [exampleOtherBegin, exampleBegin, exampleEnd])).model.getThread 1 1) ∧
      ∃ sA sB,
        (importEvents env0 (TraceEventImporter.new {} []
          [exampleOtherBegin, exampleBegin, exampleEnd])).heap[1]? = some sA ∧
        (importEvents env0 (TraceEventImporter.new {} []
          [exampleBegin, exampleEnd, exampleOtherBegin])).heap[g 1]? = some sB ∧
        sB = renameSlice g sA := by
  obtain ⟨g, h1, _, h3⟩ := C17_same_slices_up_to_closing_time env0 {} []
    [exampleOtherBegin, exampleBegin, exampleEnd] [exampleBegin, exampleEnd, exampleOtherBegin]
    (closed_new []) ⟨List.nodup_nil, fun _ h => absurd h (List.not_mem_nil _)⟩
    (by
      intro p
      obtain ⟨p1, p2⟩ := p
      simp only [eventsOf, List.filter, TraceEvent.ptid, exampleBegin, exampleEnd,
        exampleOtherBegin, Prod.mk.injEq]
      by_cases h1 : p2 = 1
      · subst h1
        simp
      · have e1 : ¬ (1 = p2) := fun h => h1 h.symm
        simp [e1])
    1 1
  obtain ⟨sA, sB, e1, e2, _, e4⟩ := h3 1 (Or.inl ⟨0, by decide!⟩)
  exact ⟨g, h1, sA, sB, e1, e2, e4 (by decide)⟩

/-- C18: a non-nested slice begun by the B event `b` at index `i`, with no later non-nested
E event of the same composite id on its PTID, is left as `processBegin` built it: after
every later loop iteration and after `importEvents` its heap object is still the new slice
(no duration, `didNotFinish` false), and no thread stores it unless the model stored that
reference before the import.  Open non-nested slices do not trigger auto-close: when every
nested stack is empty after the loop, `importEvents` returns the state the loop left. -/
theorem C18_open_non_nested_abandoned (env : Env) (model : TimelineModel)
    (heap : List TimelineSlice) (events : List TraceEvent) (imp : TraceEventImporter)
    (himp : imp = TraceEventImporter.new model heap events)
    (i : Nat) (b : TraceEvent) (hi : events[i]? = some b) (hph : b.ph = "B")
    (hn : b.nonNested = true)
    (hnever : ∀ j e, i < j → events[j]? = some e → e.ph = "E" → e.ptid = b.ptid →
      e.nonNested = true → sliceIDOf env e ≠ sliceIDOf env b) :
    (newSlice env b).duration = none ∧ (newSlice env b).didNotFinish = false ∧
    (∀ k, i < k →
      (stateAt env imp k).heap[(stateAt env imp i).heap.length]? = some (newSlice env b) ∧
      ∀ pid tid,
        InThread ((stateAt env imp k).model.getThread pid tid) (stateAt env imp i).heap.length →
        InThread (model.getThread pid tid) (stateAt env imp i).heap.length) ∧
    (importEvents env imp).heap[(stateAt env imp i).heap.length]? = some (newSlice env b) ∧
    (∀ pid tid,
      InThread ((importEvents env imp).model.getThread pid tid) (stateAt env imp i).heap.length →
      InThread (model.getThread pid tid) (stateAt env imp i).heap.length) ∧
    ((∀ q, ((stateAt env imp events.length).getState q).openSlices = []) →
      importEvents env imp = stateAt env imp events.length) := by
  have hev : imp.events = events := by rw [himp]; rfl
  have hmodel : imp.model = model := by rw [himp]; rfl
  have hwf0 : WellFormed imp := by rw [himp]; exact wellFormed_new _ _ _
  have hi2 : imp.events[i]? = some b := by rw [hev]; exact hi
  have hstart : Abandoned b.ptid (sliceIDOf env b) (stateAt env imp i).heap.length
      (newSlice env b) model (stateAt env imp (i + 1)) := by
    rw [stateAt_succ env imp i b hi2]
    apply abandoned_begin env _ (refsBounded_stateAt env imp hwf0.bounded i) i b hph hn
    intro pid tid hin
    rcases inThread_stateAt env imp hwf0.bounded i pid tid _ hin with h1 | h1
    · rw [hmodel] at h1
      exact h1
    · omega
  have hall : ∀ k, i < k → Abandoned b.ptid (sliceIDOf env b) (stateAt env imp i).heap.length
      (newSlice env b) model (stateAt env imp k) := by
    intro k hk
    obtain ⟨n, rfl⟩ : ∃ n, k = i + 1 + n := ⟨k - (i + 1), by omega⟩
    apply abandoned_stateAt env imp (i + 1) hstart
    intro j e hj hje
    rw [hev] at hje
    exact hnever j e (by omega) hje
  have hlen : i < events.length := by
    by_contra hc
    rw [List.getElem?_eq_none (by omega)] at hi
    cases hi
  have hend := hall imp.events.length (by rw [hev]; exact hlen)
  have hwf := wellFormed_stateAt env imp hwf0 imp.events.length
  obtain ⟨m1, _, _, _⟩ := importEvents_model env imp hwf0
  refine ⟨(newSlice_fields env b).2.2.1, (newSlice_fields env b).2.2.2.1, ?_, ?_, ?_, ?_⟩
  · intro k hk
    exact ⟨(hall k hk).heap_eq, (hall k hk).not_added⟩
  · rw [← hend.heap_eq]
    unfold importEvents
    dsimp only
    split
    · exact (autoCloseOpenSlices_placement _ hwf b.ptid _ rfl).2.2.2 _ hend.off_stack
    · rfl
  · intro pid tid hin
    rw [m1] at hin
    rcases inThread_closeRows _ _ _ hin with h1 | h1
    · exact hend.not_added pid tid h1
    · exact absurd h1 (hend.off_stack (pid, tid))
  · intro hempty
    rw [← hev] at hempty
    have hk : KeysNodup (stateAt env imp imp.events.length).threadStateByPTID :=
      keysNodup_stateAt env imp (by rw [himp]; exact List.nodup_nil) _
    unfold importEvents
    dsimp only
    rw [hasOpenSlices_eq_false _ hk hempty]
    simp [hev]

/-- Witness of C18 on `exampleAbandonedTrace`: the slice "f;0" is begun and never ended; it
stays without duration in the heap, in no thread, and the result of `importEvents` is the
state the loop left. -/
theorem C18_open_non_nested_abandoned_witness :
    (importEvents env0 (TraceEventImporter.new {} [] exampleAbandonedTrace)).heap[0]? =
      some (newSlice env0 (nonNestedEvent "B" 0)) ∧
    (∀ pid tid, ¬ InThread
      ((importEvents env0 (TraceEventImporter.new {} [] exampleAbandonedTrace)).model.getThread
        pid tid) 0) ∧
    importEvents env0 (TraceEventImporter.new {} [] exampleAbandonedTrace) =
      stateAt env0 (TraceEventImporter.new {} [] exampleAbandonedTrace) 2 := by
  obtain ⟨_, _, _, h4, h5, h6⟩ := C18_open_non_nested_abandoned env0 {} [] exampleAbandonedTrace
    _ rfl 0 (nonNestedEvent "B" 0) rfl rfl (by decide)
    (by
      intro j e hj he hE
      have hj1 : j = 1 := by
        by_contra hc
        rw [List.getElem?_eq_none (by simp [exampleAbandonedTrace]; omega)] at he
        cases he
      subst hj1
      have h2 : (exampleAbandonedTrace[1]?).map (fun e => e.ph) = some e.ph := by
        rw [he]
        rfl
      have h3 : (exampleAbandonedTrace[1]?).map (fun e => e.ph) = some "C" := rfl
      rw [h3, hE] at h2
      exact absurd h2 (by decide))
  refine ⟨h4, ?_, h6 (no_open_stack_of_hasOpenSlices_false _ (by decide!))⟩
  intro pid tid hin
  rcases h5 pid tid hin with ⟨d, hd⟩ | hd
  · simp [TimelineModel.getThread, TimelineModel.getProcess, TimelineProcess.getThread, jsGet,
      TimelineThread.subrow] at hd
  · simp [TimelineModel.getThread, TimelineModel.getProcess, TimelineProcess.getThread, jsGet]
      at hd

/-- C24, evaluated: a bound of 0 is not used.  For every list of open timestamps,
`realMaxTimestamp` with the bound 0 is the maximum of the open timestamps alone; with the
bound 0 and the open timestamp -1 it is -1, not 0; and on `exampleNegativeTrace`, where
`updateBounds` leaves the bound 0 and the open timestamps are [-1], the closing time is
-1.  A negative bound is used: with the bound -1 and the open timestamp -2 the result is
-1. -/
theorem C24_zero_bound_not_used :
    (∀ ts : List ℚ, realMaxTimestamp (some 0) ts = mathMax ts) ∧
    realMaxTimestamp (some 0) [-1] = some (-1) ∧
    (updateBounds (stateAt env0 (TraceEventImporter.new {} [] exampleNegativeTrace) 3).model
      (stateAt env0 (TraceEventImporter.new {} [] exampleNegativeTrace) 3).heap).maxTimestamp =
      some 0 ∧
    closingTime (stateAt env0 (TraceEventImporter.new {} [] exampleNegativeTrace) 3) =
      some (-1) ∧
    realMaxTimestamp (some (-1)) [-2] = some (-1) := by
  refine ⟨fun ts => ?_, by decide!, by decide!, by decide!, by decide!⟩
  simp [realMaxTimestamp, truthyNum]

/-- C26, evaluated: for a nested B and E pair with user timestamps 1000 and 3000 the slice
stored in the thread has `startInUserTime` 1 and `durationInUserTime` 2; for the same pair
with `args['ui-nest'] === '0'` the slice handed to `addNonNestedSlice` has
`startInUserTime` 1 and no `durationInUserTime`, because the non-nested branch of
`processEnd` writes `durationInUserTime` on the record that holds the slice. -/
theorem C26_non_nested_user_duration_missing :
    ((importEvents env0 (TraceEventImporter.new {} [] exampleUserTimeTrace)).model.getThread
      1 1).subrow 0 = [0] ∧
    ((importEvents env0 (TraceEventImporter.new {} [] exampleUserTimeTrace)).heap[0]?).map
      (fun s => (s.startInUserTime, s.durationInUserTime)) =
        some (some 1, some (JSNum.num 2)) ∧
    ((importEvents env0 (TraceEventImporter.new {} []
      exampleUserTimeNonNestedTrace)).model.getThread 1 1).nonNestedSlices = [0] ∧
    ((importEvents env0 (TraceEventImporter.new {} []
      exampleUserTimeNonNestedTrace)).heap[0]?).map
      (fun s => (s.duration, s.startInUserTime, s.durationInUserTime)) =
        some (some 5, some 1, none) ∧
    (((importEvents env0 (TraceEventImporter.new {} []
      exampleUserTimeNonNestedTrace)).getState (1, 1)).openNonNestedSlices.map
        (fun kv => (kv.1, kv.2.slice, kv.2.durationInUserTime))) =
      [("f;0", 0, some (JSNum.num 2))] := by
  decide!

/-- C27: for every event array (every event carries an argument bag), `importEvents`
returns an importer in which the stack of open nested slices of every PTID is empty, and
for every thread the number of slices in its subrows has grown by exactly the number of
nested B and I events of its PTID: no nested slice is lost and none is stored twice. -/
theorem C27_nested_slices_conserved (env : Env) (model : TimelineModel)
    (heap : List TimelineSlice) (events : List TraceEvent) (pid tid : Nat) :
    (∀ q, ((importEvents env (TraceEventImporter.new model heap events)).getState
      q).openSlices = []) ∧
    ((importEvents env (TraceEventImporter.new model heap events)).model.getThread
      pid tid).subrowSlices =
      (model.getThread pid tid).subrowSlices + nestedBegins (pid, tid) events := by
  obtain ⟨hthread, _, _, hstacks⟩ :=
    importEvents_model env (TraceEventImporter.new model heap events)
      (wellFormed_new model heap events)
  refine ⟨hstacks, ?_⟩
  rw [hthread pid tid, subrowSlices_closeRows]
  have h := nestedCount_stateAt env (TraceEventImporter.new model heap events) (pid, tid)
    (TraceEventImporter.new model heap events).events.length
  unfold nestedCount at h
  rw [getState_new, List.take_length] at h
  simp only [ThreadState.stackRefs, List.length_map]
  exact h

/-- C27 on `exampleChildTrace` (two nested B events and one E event on PTID 1:1): two
slices are stored in the subrows of thread 1:1 and the stack is empty. -/
theorem C27_nested_slices_conserved_witness :
    ((importEvents env0 (TraceEventImporter.new {} [] exampleChildTrace)).model.getThread
      1 1).subrowSlices = 0 + 2 ∧
    ((importEvents env0 (TraceEventImporter.new {} [] exampleChildTrace)).getState
      (1, 1)).openSlices = [] :=
  ⟨(C27_nested_slices_conserved env0 {} [] exampleChildTrace 1 1).2,
   (C27_nested_slices_conserved env0 {} [] exampleChildTrace 1 1).1 (1, 1)⟩

/-- C25, counterexample: a counter with the series "a" and "toString" whose second sample
carries "a" only records for "toString" the member that the argument bag inherits from
`Object.prototype`, not the number 0, although the sample has no argument of that name. -/
theorem C25_inherited_member_in_row :
    (jsGet ((importEvents env0 (TraceEventImporter.new {} []
        exampleInheritedTrace)).model.getProcess 1).counters "c.ctr").map
      (fun c => (c.seriesNames, c.timestamps, c.samples)) =
      some (["a", "toString"], [1, 2],
        [.value (.num 1), .value (.num 2), .value (.num 3), .inherited "toString"]) ∧
    jsGet (counterSample 2000 [("a", .num 3)]).args "toString" = none := by
  decide!

/-- C25, amended: when the counters of the initial model have the shape `CounterOk`, every
counter of the model that `importEvents` returns has one sample value per series and
timestamp and one colour per series.  Each C event, unless it is the sample without
arguments of a counter without series (which adds no sample), leaves its counter with the
timestamp `ts / 1000` (the nearest double) appended and with one value appended per series,
in series order: the value of `event.args[seriesName]`, or the number 0 when that is
`undefined`; the series are those of the counter, or the argument keys of the event when the
counter had none.  The value read is the argument of that name when the event has one; when
it has none, 0 is recorded unless the name is that of a member of `Object.prototype`, which
is then what is recorded. -/
theorem C25_counter_samples_shape (env : Env) (model : TimelineModel)
    (heap : List TimelineSlice) (events : List TraceEvent) (hmodel : CountersOk model) :
    (∀ (pid : Nat) (key : String) (c : TimelineCounter),
      jsGet ((importEvents env (TraceEventImporter.new model heap events)).model.getProcess
        pid).counters key = some c →
      c.samples.length = c.seriesNames.length * c.timestamps.length ∧
      c.seriesColors.length = c.seriesNames.length) ∧
    (∀ (k : Nat) (e : TraceEvent), events[k]? = some e → e.ph = "C" →
      ¬ ((((stateAt env (TraceEventImporter.new model heap events) k).model.getProcess
          e.pid).getCounter env e.cat (ctrNameOf env e)).seriesNames = [] ∧ e.args = []) →
      ∃ c, jsGet ((stateAt env (TraceEventImporter.new model heap events)
          (k + 1)).model.getProcess e.pid).counters
          (env.counterId e.cat (ctrNameOf env e)) = some c ∧
        c.seriesNames =
          (if (((stateAt env (TraceEventImporter.new model heap events) k).model.getProcess
            e.pid).getCounter env e.cat (ctrNameOf env e)).seriesNames = []
          then e.args.map Prod.fst
          else (((stateAt env (TraceEventImporter.new model heap events) k).model.getProcess
            e.pid).getCounter env e.cat (ctrNameOf env e)).seriesNames) ∧
        c.timestamps =
          (((stateAt env (TraceEventImporter.new model heap events) k).model.getProcess
            e.pid).getCounter env e.cat (ctrNameOf env e)).timestamps ++ [jsDiv e.ts 1000] ∧
        c.samples =
          (((stateAt env (TraceEventImporter.new model heap events) k).model.getProcess
            e.pid).getCounter env e.cat (ctrNameOf env e)).samples ++
          c.seriesNames.map
            (fun n => (readProperty e.args n).getD (Sample.value (Value.num 0)))) ∧
    (∀ (a : Args) (n : String) (v : Value), jsGet a n = some v →
      (readProperty a n).getD (Sample.value (Value.num 0)) = Sample.value v) ∧
    (∀ (a : Args) (n : String), jsGet a n = none → n ∉ objectPrototypeNames →
      (readProperty a n).getD (Sample.value (Value.num 0)) = Sample.value (Value.num 0)) ∧
    (∀ (a : Args) (n : String), jsGet a n = none → n ∈ objectPrototypeNames →
      (readProperty a n).getD (Sample.value (Value.num 0)) = Sample.inherited n) := by
  refine ⟨?_, ?_, fun a n v h => by rw [readProperty_own a n v h]; rfl,
    fun a n h hn => by rw [readProperty_missing a n h hn]; rfl,
    fun a n h hn => by rw [readProperty_inherited a n h hn]; rfl⟩
  · intro pid key c hc
    obtain ⟨_, hcounters, _, _⟩ :=
      importEvents_model env (TraceEventImporter.new model heap events)
        (wellFormed_new model heap events)
    rw [hcounters pid] at hc
    have hok := countersOk_stateAt env (TraceEventImporter.new model heap events) hmodel
      (TraceEventImporter.new model heap events).events.length pid key c hc
    exact ⟨hok.1, hok.2.1⟩
  · intro k e he hC hnd
    have hstep : stateAt env (TraceEventImporter.new model heap events) (k + 1) =
        processCounter env
          (ensureState (stateAt env (TraceEventImporter.new model heap events) k) e.ptid)
          e := by
      rw [stateAt_succ env _ k e he]
      unfold importStep
      simp [hC]
    rw [hstep, getProcess_counters_processCounter, model_ensureState]
    generalize hS : (stateAt env (TraceEventImporter.new model heap events) k).model = M at hnd ⊢
    generalize hc0 : (M.getProcess e.pid).getCounter env e.cat (ctrNameOf env e) = c0 at hnd ⊢
    have hkeep : ¬ (c0.numSeries = 0 ∧ (initSeries env c0 e).numSeries = 0) := by
      rintro ⟨h0, h1⟩
      have hnames : c0.seriesNames = [] := List.length_eq_zero.1 h0
      apply hnd
      refine ⟨hnames, ?_⟩
      unfold initSeries at h1
      rw [if_pos h0] at h1
      simpa [TimelineCounter.numSeries, hnames] using h1
    rw [if_neg hkeep, jsGet_jsSet_self]
    refine ⟨_, rfl, ?_, ?_, ?_⟩
    · unfold addSample initSeries
      by_cases h0 : c0.numSeries = 0
      · have hnames : c0.seriesNames = [] := List.length_eq_zero.1 h0
        simp [h0, hnames]
      · have hnames : c0.seriesNames ≠ [] := fun h => h0 (by simp [TimelineCounter.numSeries, h])
        simp [h0, hnames]
    · unfold addSample initSeries
      split <;> rfl
    · unfold addSample initSeries sampleRow
      split <;> rfl

/-- C25 on `exampleCounterTrace` (two samples of the counter "ctr" with series "a" and
"b", the second without "b"): the counter holds two timestamps and four values, the missing
one being 0. -/
theorem C25_counter_samples_shape_witness :
    ∃ c, jsGet ((importEvents env0 (TraceEventImporter.new {} []
        exampleCounterTrace)).model.getProcess 1).counters "c.ctr" = some c ∧
      c.seriesNames = ["a", "b"] ∧ c.timestamps = [1, 2] ∧
      c.samples = [.value (.num 1), .value (.num 2), .value (.num 3), .value (.num 0)] ∧
      c.samples.length = c.seriesNames.length * c.timestamps.length ∧
      c.seriesColors.length = c.seriesNames.length :=
  ⟨{ name := "ctr", seriesNames := ["a", "b"], seriesColors := [0, 0], timestamps := [1, 2],
     samples := [.value (.num 1), .value (.num 2), .value (.num 3), .value (.num 0)] },
   by decide!, rfl, rfl, rfl,
   (C25_counter_samples_shape env0 {} [] exampleCounterTrace
     (fun _ _ _ h => Option.noConfusion h)).1 1 "c.ctr" _ (by decide!)⟩
end tracing

namespace ImageBuffer

theorem addOverlay_nil (o : Overlay) : addOverlay [] o = [o] := rfl

theorem addOverlay_cons (x : Overlay) (rest : List Overlay) (o : Overlay) :
    addOverlay (x :: rest) o =
      if o.getZIndex < x.getZIndex then o :: x :: rest else x :: addOverlay rest o := by
  unfold addOverlay
  simp only [insertionIndex]
  split <;> simp

theorem mem_addOverlay (overlays : List Overlay) (o a : Overlay) :
    a ∈ addOverlay overlays o ↔ a = o ∨ a ∈ overlays := by
  induction overlays with
  | nil => simp [addOverlay_nil]
  | cons x rest ih =>
    rw [addOverlay_cons]
    split
    · simp
    · simp only [List.mem_cons, ih]
      tauto

theorem zSorted_addOverlay (overlays : List Overlay) (o : Overlay) (h : ZSorted overlays) :
    ZSorted (addOverlay overlays o) := by
  induction overlays with
  | nil => simp [addOverlay_nil, ZSorted]
  | cons x rest ih =>
    unfold ZSorted at h ih ⊢
    rw [List.pairwise_cons] at h
    rw [addOverlay_cons]
    split
    · rename_i hlt
      rw [List.pairwise_cons, List.pairwise_cons]
      refine ⟨?_, h.1, h.2⟩
      intro a ha
      rcases List.mem_cons.mp ha with h1 | h1
      · rw [h1]
        exact le_of_lt hlt
      · exact le_trans (le_of_lt hlt) (h.1 a h1)
    · rename_i hge
      rw [List.pairwise_cons]
      refine ⟨?_, ih h.2⟩
      intro a ha
      rcases (mem_addOverlay rest o a).mp ha with h1 | h1
      · rw [h1]
        exact not_lt.mp hge
      · exact h.1 a h1

theorem insertionIndex_le (z : ℚ) (overlays : List Overlay) :
    insertionIndex z overlays ≤ overlays.length := by
  induction overlays with
  | nil => simp [insertionIndex]
  | cons x rest ih =>
    simp only [insertionIndex]
    split
    · simp
    · simp
      exact ih

/-- C19: `addOverlay` keeps the overlays in ascending Z-order.  On a list sorted by
non-decreasing `getZIndex()` it yields a sorted list, which is the old list with the
overlay inserted at one position; hence every list built from the empty one by
`addOverlay` calls is sorted. -/
theorem C19_addOverlay_keeps_z_order (overlays : List Overlay) (o : Overlay)
    (h : ZSorted overlays) :
    ZSorted (addOverlay overlays o) ∧
    (∃ i, i ≤ overlays.length ∧
      addOverlay overlays o = overlays.take i ++ o :: overlays.drop i) ∧
    ∀ os : List Overlay, ZSorted (os.foldl addOverlay []) := by
  refine ⟨zSorted_addOverlay overlays o h, ⟨_, insertionIndex_le _ _, rfl⟩, ?_⟩
  intro os
  have key : ∀ (l acc : List Overlay), ZSorted acc → ZSorted (l.foldl addOverlay acc) := by
    intro l
    induction l with
    | nil => intro acc hacc; exact hacc
    | cons a l ih =>
      intro acc hacc
      exact ih _ (zSorted_addOverlay acc a hacc)
  exact key os [] List.Pairwise.nil

/-- Witness of C19: an overlay of Z-index 1 added to overlays of Z-indexes 0, 1, 2 goes
after the one of Z-index 1 and before the one of Z-index 2. -/
theorem C19_addOverlay_keeps_z_order_witness :
    ZSorted (addOverlay [sampleOverlay 0 0 none, sampleOverlay 1 1 none,
      sampleOverlay 2 2 none] (sampleOverlay 3 1 none)) ∧
    (addOverlay [sampleOverlay 0 0 none, sampleOverlay 1 1 none, sampleOverlay 2 2 none]
      (sampleOverlay 3 1 none)).map (fun o => o.id) = [0, 1, 3, 2] := by
  refine ⟨(C19_addOverlay_keeps_z_order _ (sampleOverlay 3 1 none) ?_).1, by decide!⟩
  simp [ZSorted, sampleOverlay]


theorem searchCursorStyle_none (x y : ℚ) (md : Bool) (l : List Overlay)
    (h : ∀ q ∈ l, styleTruthy (q.getCursorStyle x y md) = false) :
    searchCursorStyle x y md l = ("default", l.map (fun o => o.id)) := by
  induction l with
  | nil => rfl
  | cons o below ih =>
    have ho := h o (List.mem_cons_self _ _)
    have ih2 := ih (fun q hq => h q (List.mem_cons_of_mem _ hq))
    unfold searchCursorStyle
    cases hs : o.getCursorStyle x y md with
    | none => simp [ih2]
    | some s =>
      rw [hs] at ho
      simp only [styleTruthy, decide_eq_false_iff_not, not_not] at ho
      simp [ho, ih2]

theorem searchCursorStyle_found (x y : ℚ) (md : Bool) (above : List Overlay) (o : Overlay)
    (below : List Overlay) (s : String) (hs : o.getCursorStyle x y md = some s) (hne : s ≠ "")
    (h : ∀ q ∈ above, styleTruthy (q.getCursorStyle x y md) = false) :
    searchCursorStyle x y md (above ++ o :: below) =
      (s, above.map (fun o => o.id) ++ [o.id]) := by
  induction above with
  | nil =>
    simp only [List.nil_append, List.map_nil]
    unfold searchCursorStyle
    simp [hs, hne]
  | cons a above ih =>
    have ha := h a (List.mem_cons_self _ _)
    have ih2 := ih (fun q hq => h q (List.mem_cons_of_mem _ hq))
    simp only [List.cons_append]
    unfold searchCursorStyle
    cases has : a.getCursorStyle x y md with
    | none => simp [ih2]
    | some t =>
      rw [has] at ha
      simp only [styleTruthy, decide_eq_false_iff_not, not_not] at ha
      simp [ha, ih2]

/-- C20 as stated fails in its last part: an overlay whose cursor style is the (truthy)
string "default" makes `getCursorStyle` return "default" although an overlay gives a
truthy style. -/
theorem C20_default_from_overlay :
    styleTruthy ((sampleOverlay 0 0 (some "default")).getCursorStyle 0 0 false) = true ∧
    getCursorStyle [sampleOverlay 0 0 (some "default")] 0 0 false = ("default", [0]) := by
  decide!

/-- C20, amended: `getCursorStyle` searches in descending Z-order.  If `o` is the last
overlay of the list whose style is truthy, the result is the style of `o`, and the overlays
consulted are those after `o`, last first, and then `o`: no overlay before `o` is
consulted.  If no overlay gives a truthy style, every overlay is consulted, last first, and
the result is "default".  So the result is "default" exactly when no overlay gives a truthy
style or the last overlay with a truthy style gives "default". -/
theorem C20_getCursorStyle_descending (x y : ℚ) (mouseDown : Bool) :
    (∀ (before : List Overlay) (o : Overlay) (after : List Overlay) (s : String),
      o.getCursorStyle x y mouseDown = some s → s ≠ "" →
      (∀ q ∈ after, styleTruthy (q.getCursorStyle x y mouseDown) = false) →
      getCursorStyle (before ++ o :: after) x y mouseDown =
        (s, after.reverse.map (fun o => o.id) ++ [o.id])) ∧
    (∀ overlays : List Overlay,
      (∀ q ∈ overlays, styleTruthy (q.getCursorStyle x y mouseDown) = false) →
      getCursorStyle overlays x y mouseDown =
        ("default", overlays.reverse.map (fun o => o.id))) := by
  refine ⟨?_, ?_⟩
  · intro before o after s hs hne h
    unfold getCursorStyle
    rw [List.reverse_append, List.reverse_cons, List.append_assoc, List.singleton_append]
    exact searchCursorStyle_found x y mouseDown after.reverse o before.reverse s hs hne
      (fun q hq => h q (List.mem_reverse.mp hq))
  · intro overlays h
    unfold getCursorStyle
    exact searchCursorStyle_none x y mouseDown overlays.reverse
      (fun q hq => h q (List.mem_reverse.mp hq))

/-- Witness of the amended C20: of three overlays the middle one gives "move" and the top
one gives no style; the bottom one is not consulted. -/
theorem C20_getCursorStyle_descending_witness :
    getCursorStyle [sampleOverlay 0 0 (some "crosshair"), sampleOverlay 1 1 (some "move"),
      sampleOverlay 2 2 none] 0 0 false = ("move", [2, 1]) :=
  (C20_getCursorStyle_descending 0 0 false).1 [sampleOverlay 0 0 (some "crosshair")]
    (sampleOverlay 1 1 (some "move")) [sampleOverlay 2 2 none] "move" rfl (by decide)
    (by decide)

end ImageBuffer

/-! Removal from the overlay stack. -/

namespace ImageBuffer

theorem findOverlay_eq_none (o : Overlay) (l : List Overlay) :
    findOverlay o l = none ↔ ∀ x ∈ l, x.id ≠ o.id := by
  induction l with
  | nil => simp [findOverlay]
  | cons a rest ih =>
    by_cases h : a.id = o.id
    · simp [findOverlay, h]
    · simp [findOverlay, h, ih]

theorem findOverlay_eq_some (o : Overlay) (l : List Overlay) (i : Nat)
    (h : findOverlay o l = some i) :
    ∃ pre x post, l = pre ++ x :: post ∧ x.id = o.id ∧ (∀ y ∈ pre, y.id ≠ o.id) ∧
      l.eraseIdx i = pre ++ post := by
  induction l generalizing i with
  | nil => simp [findOverlay] at h
  | cons a rest ih =>
    by_cases ha : a.id = o.id
    · simp only [findOverlay, ha, if_true, Option.some.injEq] at h
      subst h
      exact ⟨[], a, rest, rfl, ha, by simp, rfl⟩
    · simp only [findOverlay, ha, if_false, Option.map_eq_some'] at h
      obtain ⟨j, hj, rfl⟩ := h
      obtain ⟨pre, x, post, hl, hx, hpre, he⟩ := ih j hj
      refine ⟨a :: pre, x, post, by rw [hl]; rfl, hx, ?_, ?_⟩
      · intro y hy
        rcases List.mem_cons.1 hy with e | e
        · rw [e]; exact ha
        · exact hpre y e
      · rw [List.eraseIdx_cons_succ, he]; rfl

theorem removeOverlay_sublist (overlays : List Overlay) (o : Overlay) :
    (removeOverlay overlays o).2.Sublist overlays := by
  unfold removeOverlay
  split
  · exact List.eraseIdx_sublist _ _
  · exact List.Sublist.refl _

theorem findOverlay_addOverlay (overlays : List Overlay) (o : Overlay)
    (h : ∀ x ∈ overlays, x.id ≠ o.id) :
    ∃ i, findOverlay o (addOverlay overlays o) = some i ∧
      (addOverlay overlays o).eraseIdx i = overlays := by
  induction overlays with
  | nil => exact ⟨0, by simp [addOverlay_nil, findOverlay], by simp [addOverlay_nil]⟩
  | cons a rest ih =>
    have ha : a.id ≠ o.id := h a (by simp)
    obtain ⟨i, hi, he⟩ := ih (fun x hx => h x (by simp [hx]))
    rw [addOverlay_cons]
    split
    · exact ⟨0, by simp [findOverlay], by simp⟩
    · exact ⟨i + 1, by simp [findOverlay, ha, hi], by rw [List.eraseIdx_cons_succ, he]⟩

/-- C28: `removeOverlay(o)` throws exactly when `o` is not in the list (overlays are told
apart by identity), and then the list is unchanged; otherwise it returns normally and the
list loses the first occurrence of `o` only, the overlays before and after it keeping
their order.  A list sorted by Z-index stays sorted, and `removeOverlay(o)` right after
`addOverlay(o)` restores the list when `o` was not in it. -/
theorem C28_removeOverlay_first_occurrence (overlays : List Overlay) (o : Overlay) :
    ((∃ msg, (removeOverlay overlays o).1 = .error msg) ↔ ∀ x ∈ overlays, x.id ≠ o.id) ∧
    ((∀ x ∈ overlays, x.id ≠ o.id) → (removeOverlay overlays o).2 = overlays) ∧
    ((∃ x ∈ overlays, x.id = o.id) →
      (removeOverlay overlays o).1 = .ok () ∧
      ∃ pre x post, overlays = pre ++ x :: post ∧ x.id = o.id ∧
        (∀ y ∈ pre, y.id ≠ o.id) ∧ (removeOverlay overlays o).2 = pre ++ post) ∧
    (ZSorted overlays → ZSorted (removeOverlay overlays o).2) ∧
    ((∀ x ∈ overlays, x.id ≠ o.id) →
      removeOverlay (addOverlay overlays o) o = (.ok (), overlays)) := by
  refine ⟨?_, ?_, ?_, ?_, ?_⟩
  · rw [← findOverlay_eq_none]
    unfold removeOverlay
    cases hf : findOverlay o overlays with
    | none => simp
    | some i => simp
  · intro h
    unfold removeOverlay
    rw [(findOverlay_eq_none o overlays).2 h]
  · rintro ⟨x, hx, hxo⟩
    cases hf : findOverlay o overlays with
    | none => exact absurd hxo ((findOverlay_eq_none o overlays).1 hf x hx)
    | some i =>
      obtain ⟨pre, y, post, hl, hy, hpre, he⟩ := findOverlay_eq_some o overlays i hf
      unfold removeOverlay
      rw [hf]
      exact ⟨rfl, pre, y, post, hl, hy, hpre, he⟩
  · intro h
    exact List.Pairwise.sublist (removeOverlay_sublist overlays o) h
  · intro h
    obtain ⟨i, hi, he⟩ := findOverlay_addOverlay overlays o h
    unfold removeOverlay
    rw [hi]
    simp only [he]

/-- C28 at sample inputs: removing overlay 3 from overlays 0, 1, 2 throws; removing
overlay 1 leaves overlays 0 and 2; adding overlay 3 and removing it restores the list. -/
theorem C28_removeOverlay_first_occurrence_witness :
    (∃ msg, (removeOverlay [sampleOverlay 0 0 none, sampleOverlay 1 1 none,
      sampleOverlay 2 2 none] (sampleOverlay 3 1 none)).1 = .error msg) ∧
    ((removeOverlay [sampleOverlay 0 0 none, sampleOverlay 1 1 none,
      sampleOverlay 2 2 none] (sampleOverlay 1 1 none)).2.map (fun o => o.id) = [0, 2]) ∧
    removeOverlay (addOverlay [sampleOverlay 0 0 none, sampleOverlay 1 1 none,
        sampleOverlay 2 2 none] (sampleOverlay 3 1 none)) (sampleOverlay 3 1 none) =
      (.ok (), [sampleOverlay 0 0 none, sampleOverlay 1 1 none, sampleOverlay 2 2 none]) :=
  ⟨(C28_removeOverlay_first_occurrence _ (sampleOverlay 3 1 none)).1.2
      (by simp [sampleOverlay]),
   by decide,
   (C28_removeOverlay_first_occurrence _ (sampleOverlay 3 1 none)).2.2.2.2
      (by simp [sampleOverlay])⟩

end ImageBuffer

/-! The flags of the expandable bubble. -/

namespace ExpandableBubble

/-- C21, evaluated: after `decorate()`, `show()`, `suppressed = true`, `show()` the bubble
is suppressed and not hidden, because `show()` clears `hidden` without writing
`bubbleSuppressed` (while `hide()` resets it); after the first three calls the bubble is
suppressed and hidden. -/
theorem C21_show_keeps_suppressed :
    run [.showCall, .suppressedSet true] = { hidden := true, bubbleSuppressed := true } ∧
    run [.showCall, .suppressedSet true, .showCall] =
      { hidden := false, bubbleSuppressed := true } ∧
    run [.showCall, .suppressedSet true, .hideCall] =
      { hidden := true, bubbleSuppressed := false } := by
  decide

end ExpandableBubble

/-! The selection element. -/

namespace PolymerSelection

theorem strictEq_of_ne_nan (x item : Item) (h : item ≠ .nan) :
    strictEq x item = decide (x = item) := by
  cases x <;> cases item <;> simp_all [strictEq]

theorem indexOf_eq_none (l : List Item) (item : Item) (h : item ≠ .nan) (hm : item ∉ l) :
    indexOf l item = none := by
  induction l with
  | nil => rfl
  | cons x xs ih =>
    have hx : x ≠ item := fun e => hm (by simp [e])
    have hxs : item ∉ xs := fun e => hm (by simp [e])
    simp [indexOf, strictEq_of_ne_nan x item h, hx, ih hxs]

theorem indexOf_of_mem (l : List Item) (item : Item) (h : item ≠ .nan) (hm : item ∈ l) :
    ∃ i, indexOf l item = some i ∧ l.eraseIdx i = l.erase item := by
  induction l with
  | nil => simp at hm
  | cons x xs ih =>
    by_cases hx : x = item
    · subst hx
      exact ⟨0, by simp [indexOf, strictEq_of_ne_nan x x h], by simp⟩
    · have hxs : item ∈ xs := by
        rcases List.mem_cons.1 hm with e | e
        · exact absurd e.symm hx
        · exact e
      obtain ⟨i, hi, he⟩ := ih hxs
      refine ⟨i + 1, by simp [indexOf, strictEq_of_ne_nan x item h, hx, hi], ?_⟩
      rw [List.eraseIdx_cons_succ, he, List.erase_cons_tail]
      simpa using hx

theorem isSelected_iff_mem (s : Selection) (item : Item) (h : item ≠ .nan) :
    isSelected s item = true ↔ item ∈ s.selection := by
  unfold isSelected
  by_cases hm : item ∈ s.selection
  · obtain ⟨i, hi, _⟩ := indexOf_of_mem s.selection item h hm
    simp [hi, hm]
  · simp [indexOf_eq_none s.selection item h hm, hm]

theorem setItemSelected_invalid (s : Selection) (item : Item) (b : Bool)
    (h : item = .undefined ∨ item = .null) : setItemSelected s item b = s := by
  rcases h with h | h <;> subst h <;> simp [setItemSelected]

theorem multi_select (s : Selection) (item : Item) : (select s item).multi = s.multi := by
  unfold select toggle setItemSelected
  split
  · split <;> rfl
  · split
    · dsimp only
      split <;> split <;> rfl
    · rfl

/-- The states of an element with `multi = false` that `select` calls reach from
`clear()`: nothing selected, or one item that is a proper value. -/
theorem single_select (s : Selection) (item : Item) (hm : s.multi = false)
    (hi : item ≠ .nan)
    (hs : s.selection = [] ∨
      ∃ v, s.selection = [v] ∧ v ≠ .undefined ∧ v ≠ .null ∧ v ≠ .nan) :
    ((select s item).selection = [] ∧ (item = .undefined ∨ item = .null)) ∨
    ((select s item).selection = [item] ∧ item ≠ .undefined ∧ item ≠ .null) := by
  obtain ⟨multi, sel, fired⟩ := s
  simp only at hm hs
  subst hm
  rcases hs with hs | ⟨v, hs, hv1, hv2, hv3⟩
  · subst hs
    cases item with
    | undefined => left; simp [select, first, strictEq]
    | null => left; simp [select, first, strictEq, setItemSelected]
    | nan => exact absurd rfl hi
    | value id => right; simp [select, first, strictEq, setItemSelected]
  · subst hs
    by_cases hvi : v = item
    · subst hvi
      right
      refine ⟨?_, hv1, hv2⟩
      simp [select, first, strictEq_of_ne_nan v v hv3]
    · have h0 : indexOf [v] v = some 0 := by
        simp [indexOf, strictEq_of_ne_nan v v hv3]
      by_cases hitem : item = .undefined ∨ item = .null
      · left
        refine ⟨?_, hitem⟩
        simp only [select, first, strictEq_of_ne_nan v item hi, List.getElem?_cons_zero,
          Option.getD_some, decide_eq_true_eq, hvi]
        rw [setItemSelected_invalid _ item true hitem]
        simp [setItemSelected, hv1, hv2, h0]
      · right
        have h1 : item ≠ .undefined := fun e => hitem (Or.inl e)
        have h2 : item ≠ .null := fun e => hitem (Or.inr e)
        refine ⟨?_, h1, h2⟩
        simp [select, first, strictEq_of_ne_nan v item hi, hvi, setItemSelected, hv1, hv2, h0,
          h1, h2]

theorem single_selectAll (s : Selection) (hm : s.multi = false) (items : List Item)
    (hn : Item.nan ∉ items) :
    (selectAll s items).multi = false ∧
    ((selectAll s items).selection = [] ∨
      ∃ v, (selectAll s items).selection = [v] ∧ v ≠ .undefined ∧ v ≠ .null ∧ v ≠ .nan) := by
  induction items using List.reverseRecOn with
  | nil => exact ⟨hm, Or.inl rfl⟩
  | append_singleton items item ih =>
    have hn1 : Item.nan ∉ items := fun e => hn (by simp [e])
    have hi : item ≠ .nan := fun e => hn (by simp [e])
    obtain ⟨ihm, ihs⟩ := ih hn1
    have hstep : selectAll s (items ++ [item]) = select (selectAll s items) item := by
      simp [selectAll, List.foldl_append]
    rw [hstep]
    refine ⟨by rw [multi_select]; exact ihm, ?_⟩
    rcases single_select _ item ihm hi ihs with ⟨h, _⟩ | ⟨h, h1, h2⟩
    · exact Or.inl h
    · exact Or.inr ⟨item, h, h1, h2, hi⟩

theorem toggle_valid (s : Selection) (item : Item) (hm : s.multi = true)
    (hi : item ≠ .nan) (h1 : item ≠ .undefined) (h2 : item ≠ .null) :
    (select s item).selection =
      if item ∈ s.selection then s.selection.erase item else s.selection ++ [item] := by
  by_cases hmem : item ∈ s.selection
  · obtain ⟨i, hidx, he⟩ := indexOf_of_mem s.selection item hi hmem
    simp [select, hm, toggle, setItemSelected, h1, h2, isSelected, hidx, he, hmem]
  · simp [select, hm, toggle, setItemSelected, h1, h2, isSelected,
      indexOf_eq_none s.selection item hi hmem, hmem]

theorem multi_selectAll (s : Selection) (hm : s.multi = true) (items : List Item)
    (hn : Item.nan ∉ items) :
    (selectAll s items).multi = true ∧ (selectAll s items).selection.Nodup := by
  induction items using List.reverseRecOn with
  | nil => exact ⟨hm, List.nodup_nil⟩
  | append_singleton items item ih =>
    have hn1 : Item.nan ∉ items := fun e => hn (by simp [e])
    have hi : item ≠ .nan := fun e => hn (by simp [e])
    obtain ⟨ihm, ihs⟩ := ih hn1
    have hstep : selectAll s (items ++ [item]) = select (selectAll s items) item := by
      simp [selectAll, List.foldl_append]
    rw [hstep]
    refine ⟨by rw [multi_select]; exact ihm, ?_⟩
    by_cases hv : item = .undefined ∨ item = .null
    · have : select (selectAll s items) item = selectAll s items := by
        simp only [select, ihm, if_true, toggle]
        exact setItemSelected_invalid _ _ _ hv
      rw [this]; exact ihs
    · have h1 : item ≠ .undefined := fun e => hv (Or.inl e)
      have h2 : item ≠ .null := fun e => hv (Or.inr e)
      rw [toggle_valid _ item ihm hi h1 h2]
      split
      · exact ihs.erase item
      · rename_i hmem
        exact List.Nodup.append ihs (List.nodup_singleton item) (by simpa using hmem)

/-- C22, counterexamples: with `multi = true`, `select(undefined)` and `select(null)` do
not toggle (the item is not selected before and not selected after, because
`setItemSelected` ignores both values); and the number `NaN`, which `indexOf` never finds,
is not selected after `select(NaN)` and is stored twice by two `select(NaN)` calls on an
element with `multi = false`. -/
theorem C22_select_ignores_undefined_and_null :
    isSelected (clear { multi := true }) .undefined = false ∧
    isSelected (select (clear { multi := true }) .undefined) .undefined = false ∧
    isSelected (select (clear { multi := true }) .null) .null = false ∧
    isSelected (select (clear { multi := true }) .nan) .nan = false ∧
    isSelected (select (clear { multi := false }) .nan) .nan = false ∧
    (selectAll { multi := false } [.nan, .nan]).selection = [.nan, .nan] := by
  decide

/-- C22, amended: let the element be in a state reached from `clear()` by `select` calls
on items other than `NaN`, and let `item` be neither `undefined`, `null` nor `NaN`.  With
`multi = false` the selection holds at most one item, and after `select(item)` the
selection is exactly `[item]`: `getSelection()` is `item`, `isSelected(item)` is true and
no other item is selected.  With `multi = true`, `isSelected(item)` after `select(item)` is
the negation of `isSelected(item)` before it, the selected state of every other item is
unchanged, and `select(undefined)` and `select(null)` change nothing. -/
theorem C22_select_single_and_toggle (s : Selection) (items : List Item) (item : Item)
    (hitems : Item.nan ∉ items)
    (hitem : item ≠ .undefined ∧ item ≠ .null ∧ item ≠ .nan) :
    (s.multi = false →
      (selectAll s items).selection.length ≤ 1 ∧
      (select (selectAll s items) item).selection = [item] ∧
      getSelection (select (selectAll s items) item) = .inr item ∧
      isSelected (select (selectAll s items) item) item = true ∧
      ∀ x, x ≠ item → isSelected (select (selectAll s items) item) x = false) ∧
    (s.multi = true →
      isSelected (select (selectAll s items) item) item =
        !isSelected (selectAll s items) item ∧
      (∀ x, x ≠ item → x ≠ .nan → isSelected (select (selectAll s items) item) x =
        isSelected (selectAll s items) x) ∧
      select (selectAll s items) .undefined = selectAll s items ∧
      select (selectAll s items) .null = selectAll s items) := by
  obtain ⟨h1, h2, h3⟩ := hitem
  constructor
  · intro hm
    obtain ⟨hmulti, hsel⟩ := single_selectAll s hm items hitems
    have hlen : (selectAll s items).selection.length ≤ 1 := by
      rcases hsel with h | ⟨v, h, _⟩ <;> simp [h]
    have hone : (select (selectAll s items) item).selection = [item] := by
      rcases single_select _ item hmulti h3 hsel with ⟨_, h | h⟩ | ⟨h, _, _⟩
      · exact absurd h h1
      · exact absurd h h2
      · exact h
    have hmulti2 : (select (selectAll s items) item).multi = false := by
      rw [multi_select]; exact hmulti
    refine ⟨hlen, hone, ?_, ?_, ?_⟩
    · simp [getSelection, hmulti2, first, hone]
    · rw [isSelected_iff_mem _ _ h3, hone]; simp
    · intro x hx
      cases hsx : isSelected (select (selectAll s items) item) x with
      | false => rfl
      | true =>
        exfalso
        unfold isSelected at hsx
        rw [hone] at hsx
        cases x <;> cases item <;> simp_all [indexOf, strictEq]
  · intro hm
    obtain ⟨hmulti, hnodup⟩ := multi_selectAll s hm items hitems
    have htog := toggle_valid (selectAll s items) item hmulti h3 h1 h2
    refine ⟨?_, ?_, ?_, ?_⟩
    · by_cases hmem : item ∈ (selectAll s items).selection
      · have hb : isSelected (selectAll s items) item = true :=
          (isSelected_iff_mem _ _ h3).2 hmem
        have ha : ¬ isSelected (select (selectAll s items) item) item = true := by
          rw [isSelected_iff_mem _ _ h3, htog, if_pos hmem]
          exact fun e => (List.Nodup.mem_erase_iff hnodup).1 e |>.1 rfl
        rw [hb]
        simpa using ha
      · have hb : ¬ isSelected (selectAll s items) item = true := fun e =>
          hmem ((isSelected_iff_mem _ _ h3).1 e)
        have ha : isSelected (select (selectAll s items) item) item = true := by
          rw [isSelected_iff_mem _ _ h3, htog, if_neg hmem]
          simp
        rw [ha]
        simpa using hb
    · intro x hx hxn
      have key : x ∈ (select (selectAll s items) item).selection ↔
          x ∈ (selectAll s items).selection := by
        rw [htog]
        split
        · rw [List.mem_erase_of_ne hx]
        · simp [hx]
      cases ha : isSelected (select (selectAll s items) item) x <;>
        cases hb : isSelected (selectAll s items) x <;> try rfl
      · exact absurd (key.2 ((isSelected_iff_mem _ _ hxn).1 hb))
          (fun e => by rw [(isSelected_iff_mem _ _ hxn).2 e] at ha; exact Bool.noConfusion ha)
      · exact absurd (key.1 ((isSelected_iff_mem _ _ hxn).1 ha))
          (fun e => by rw [(isSelected_iff_mem _ _ hxn).2 e] at hb; exact Bool.noConfusion hb)
    · simp only [select, hmulti, if_true, toggle]
      exact setItemSelected_invalid _ _ _ (Or.inl rfl)
    · simp only [select, hmulti, if_true, toggle]
      exact setItemSelected_invalid _ _ _ (Or.inr rfl)

/-- C22 at sample inputs: after `clear()` and `select` calls on item 1, `null` and item 2,
`select` is called on item 3. -/
theorem C22_select_single_and_toggle_witness :
    (selectAll { multi := false } [.value 1, .null, .value 2]).selection.length ≤ 1 ∧
    (select (selectAll { multi := false } [.value 1, .null, .value 2]) (.value 3)).selection =
      [.value 3] ∧
    isSelected (select (selectAll { multi := true } [.value 1, .null, .value 2]) (.value 2))
        (.value 2) =
      !isSelected (selectAll { multi := true } [.value 1, .null, .value 2]) (.value 2) ∧
    isSelected (selectAll { multi := true } [.value 1, .null, .value 2]) (.value 2) = true :=
  ⟨((C22_select_single_and_toggle { multi := false } [.value 1, .null, .value 2] (.value 3)
      (by decide) (by decide)).1 rfl).1,
   ((C22_select_single_and_toggle { multi := false } [.value 1, .null, .value 2] (.value 3)
      (by decide) (by decide)).1 rfl).2.1,
   ((C22_select_single_and_toggle { multi := true } [.value 1, .null, .value 2] (.value 2)
      (by decide) (by decide)).2 rfl).1,
   by decide⟩

end PolymerSelection

/-! The fit-to-page ticket item. -/

namespace FitToPage

/-- C23: `isCapabilityAvailable()` returns true exactly when the document is not modifiable
and either no destination is selected or the id of the selected destination is not
SAVE_AS_PDF; and when `getCapabilityNotAvailableValueInternal()` yields true,
`isCapabilityAvailable()` returns false. -/
theorem C23_fit_to_page_availability (SAVE_AS_PDF : String) (documentInfo : DocumentInfo)
    (destinationStore : DestinationStore) :
    (isCapabilityAvailable SAVE_AS_PDF documentInfo destinationStore = true ↔
      documentInfo.isModifiable = false ∧
        (destinationStore.selectedDestination = none ∨
          ∃ d, destinationStore.selectedDestination = some d ∧ d.id ≠ SAVE_AS_PDF)) ∧
    (getCapabilityNotAvailableValueInternal SAVE_AS_PDF destinationStore = some true →
      isCapabilityAvailable SAVE_AS_PDF documentInfo destinationStore = false) ∧
    (getCapabilityNotAvailableValueInternal SAVE_AS_PDF destinationStore = some true ↔
      ∃ d, destinationStore.selectedDestination = some d ∧ d.id = SAVE_AS_PDF) := by
  obtain ⟨sel⟩ := destinationStore
  obtain ⟨m⟩ := documentInfo
  cases sel with
  | none =>
    simp [isCapabilityAvailable, getCapabilityNotAvailableValueInternal]
  | some d =>
    by_cases h : d.id = SAVE_AS_PDF
    · simp [isCapabilityAvailable, getCapabilityNotAvailableValueInternal, h]
    · simp [isCapabilityAvailable, getCapabilityNotAvailableValueInternal, h]

/-- C23 at sample inputs: with "Save as PDF" selected the not-available value is true and
the capability is not available; with another destination and a document that is not
modifiable the capability is available. -/
theorem C23_fit_to_page_availability_witness :
    getCapabilityNotAvailableValueInternal "Save as PDF"
        { selectedDestination := some { id := "Save as PDF" } } = some true ∧
    isCapabilityAvailable "Save as PDF" { isModifiable := false }
        { selectedDestination := some { id := "Save as PDF" } } = false ∧
    isCapabilityAvailable "Save as PDF" { isModifiable := false }
        { selectedDestination := some { id := "printer" } } = true :=
  ⟨by decide,
   (C23_fit_to_page_availability "Save as PDF" { isModifiable := false }
      { selectedDestination := some { id := "Save as PDF" } }).2.1 (by decide),
   (C23_fit_to_page_availability "Save as PDF" { isModifiable := false }
      { selectedDestination := some { id := "printer" } }).1.2
      ⟨rfl, Or.inr ⟨{ id := "printer" }, rfl, by decide⟩⟩⟩

end FitToPage

/-! The API page generator. -/

namespace ApiPageGenerator

theorem channelLoop_eq (sc : String) (m : Nat) (l : List String) :
    ∀ j, channelLoop sc m j l = if sc ∈ l then min m (j + l.indexOf sc) else m := by
  induction l with
  | nil => intro j; simp [channelLoop]
  | cons c rest ih =>
    intro j
    by_cases h : sc = c
    · subst h
      simp [channelLoop]
    · have hne : ¬ c = sc := fun e => h e.symm
      simp only [channelLoop, h, if_false, ih (j + 1), List.mem_cons, false_or]
      split
      · rw [List.indexOf_cons_ne _ hne]
        congr 1
        omega
      · rfl

theorem countedChannel_mem (pf : List (String × Feature)) (p : String) :
    countedChannel pf p ∈ allChannels := by
  unfold countedChannel
  split
  · split
    · split
      · assumption
      · simp [allChannels]
    · simp [allChannels]
  · simp [allChannels]

theorem indexOf_le_four (c : String) (h : c ∈ allChannels) : allChannels.indexOf c ≤ 4 := by
  simp only [allChannels, List.mem_cons, List.mem_singleton, List.not_mem_nil, or_false] at h
  rcases h with h | h | h | h | h <;> subst h <;> decide

theorem take_indexOf (c : String) (h : c ∈ allChannels) :
    (allChannels.take (allChannels.indexOf c + 1)).getLast? = some c := by
  simp only [allChannels, List.mem_cons, List.mem_singleton, List.not_mem_nil, or_false] at h
  rcases h with h | h | h | h | h <;> subst h <;> decide

/-- One pass of the outer loop of `getPermittedChannels`, in terms of the channel a
permission counts for. -/
theorem channelLoop_counted (pf : List (String × Feature)) (p : String) (m : Nat)
    (hm : m ≤ 4) :
    channelLoop (supportedChannelOf pf p) m 0 allChannels =
      min m (allChannels.indexOf (countedChannel pf p)) := by
  rw [channelLoop_eq]
  have h4 : allChannels.indexOf "stable" = 4 := by decide
  have hs : "stable" ∈ allChannels := by simp [allChannels]
  unfold supportedChannelOf countedChannel
  cases hl : pf.lookup p with
  | none => simp [hs, h4]
  | some feature =>
    obtain ⟨ch⟩ := feature
    cases ch with
    | none => simp [hs, h4]
    | some channel =>
      by_cases he : channel = ""
      · subst he
        have : "" ∉ allChannels := by decide
        simp [hs, h4, this]
      · by_cases hmem : channel ∈ allChannels
        · simp [hmem, he]
        · simp [hmem, h4, hm, he]

theorem foldl_channelLoop (pf : List (String × Feature)) (perms : List String) :
    ∀ m, m ≤ 4 →
      perms.foldl (fun m p => channelLoop (supportedChannelOf pf p) m 0 allChannels) m =
        (perms.map (fun p => allChannels.indexOf (countedChannel pf p))).foldl min m := by
  induction perms with
  | nil => intro m _; rfl
  | cons p rest ih =>
    intro m hm
    simp only [List.foldl_cons, List.map_cons]
    rw [channelLoop_counted pf p m hm]
    exact ih _ (le_trans (Nat.min_le_left _ _) hm)

theorem foldl_min_spec (l : List Nat) :
    ∀ m, l.foldl min m ≤ m ∧ (∀ x ∈ l, l.foldl min m ≤ x) ∧
      (l.foldl min m = m ∨ l.foldl min m ∈ l) := by
  induction l with
  | nil => intro m; simp
  | cons a rest ih =>
    intro m
    obtain ⟨h1, h2, h3⟩ := ih (min m a)
    simp only [List.foldl_cons, List.mem_cons, forall_eq_or_imp]
    refine ⟨le_trans h1 (Nat.min_le_left _ _), ⟨le_trans h1 (Nat.min_le_right _ _), h2⟩, ?_⟩
    rcases h3 with h | h
    · rcases Nat.le_total m a with hma | hma
      · left; rw [h, Nat.min_eq_left hma]
      · right; left; rw [h, Nat.min_eq_right hma]
    · right; right; exact h

theorem foldl_min_append_self (l : List Nat) (m a : Nat) (ha : a ∈ l) :
    (l ++ [a]).foldl min m = l.foldl min m := by
  rw [List.foldl_append]
  simp only [List.foldl_cons, List.foldl_nil]
  exact Nat.min_eq_left ((foldl_min_spec l m).2.1 a ha)

/-- The value of `maximumSupportedChannel` after the outer loop. -/
theorem getPermittedChannels_fst (pf : List (String × Feature)) (module : Module) :
    (getPermittedChannels pf module).1 =
      allChannels.take (((consideredPermissions module).map
        (fun p => allChannels.indexOf (countedChannel pf p))).foldl min 4 + 1) := by
  unfold getPermittedChannels consideredPermissions
  simp only
  rw [foldl_channelLoop pf _ 4 (le_refl 4)]

/-- The loop of `getPrimitiveValue` ends: fuel above the length of the text suffices. -/
theorem groupLoop_total :
    ∀ (fuel : Nat) (value : List Char) (groupsOfThree : List String), value.length < fuel →
      ∃ r, groupLoop fuel value groupsOfThree = some r := by
  intro fuel
  induction fuel with
  | zero => intro value _ h; exact absurd h (Nat.not_lt_zero _)
  | succ fuel ih =>
    intro value groupsOfThree h
    unfold groupLoop
    split
    · rename_i hlen
      apply ih
      rw [List.length_take]
      omega
    · exact ⟨_, rfl⟩

/-- C29: for every integer the loop of `getPrimitiveValue` ends and the function returns a
string.  Evaluated: for the value -100 it returns "-,100" and for -123456 it returns
"-,123,456": the minus sign is counted as a character of a group, so a comma follows it;
for 5000000 the result is "5,000,000", for -1234 it is "-1,234" and for 0 it is "0". -/
theorem C29_comma_after_minus_sign :
    (∀ n : Int, ∃ s, getPrimitiveValue ((toString n).length + 1) (.number n) =
      some (.string s)) ∧
    getPrimitiveValue 5 (.number (-100)) = some (.string "-,100") ∧
    getPrimitiveValue 5 (.number (-123456)) = some (.string "-,123,456") ∧
    getPrimitiveValue 5 (.number 5000000) = some (.string "5,000,000") ∧
    getPrimitiveValue 5 (.number (-1234)) = some (.string "-1,234") ∧
    getPrimitiveValue 5 (.number 0) = some (.string "0") := by
  refine ⟨fun n => ?_, by decide, by decide, by decide, by decide, by decide⟩
  obtain ⟨r, hr⟩ := groupLoop_total ((toString n).length + 1) (toString n).data []
    (Nat.lt_succ_self _)
  refine ⟨",".intercalate (String.mk r.1 :: r.2), ?_⟩
  simp only [getPrimitiveValue, hr, Option.map_some']

/-- C30: `getPermittedChannels()` returns the prefix of `allChannels` that ends at a channel
`c` counted for one of the permissions considered (the entries of
`documentation_permissions_required` and the namespace of the module) such that no
considered permission counts for a channel listed before `c`; the list is not empty, starts
with 'trunk', and a second call on the module as the first call left it returns the same
list. -/
theorem C30_permitted_channels_upto_earliest (permissionFeatures : List (String × Feature))
    (module : Module) :
    (∃ c ∈ (consideredPermissions module).map (countedChannel permissionFeatures),
      (∀ c2 ∈ (consideredPermissions module).map (countedChannel permissionFeatures),
        allChannels.indexOf c ≤ allChannels.indexOf c2) ∧
      (getPermittedChannels permissionFeatures module).1 =
        allChannels.take (allChannels.indexOf c + 1) ∧
      (getPermittedChannels permissionFeatures module).1.getLast? = some c) ∧
    (getPermittedChannels permissionFeatures module).1 ≠ [] ∧
    (getPermittedChannels permissionFeatures module).1.head? = some "trunk" ∧
    (getPermittedChannels permissionFeatures
        (getPermittedChannels permissionFeatures module).2).1 =
      (getPermittedChannels permissionFeatures module).1 := by
  have hfst := getPermittedChannels_fst permissionFeatures module
  obtain ⟨hle, hall, hmem⟩ := foldl_min_spec
    ((consideredPermissions module).map
      (fun p => allChannels.indexOf (countedChannel permissionFeatures p))) 4
  have hns : module.apiNamespace ∈ consideredPermissions module := by
    simp [consideredPermissions]
  -- the final value is the index of the channel of a considered permission
  have hex : ∃ p ∈ consideredPermissions module,
      allChannels.indexOf (countedChannel permissionFeatures p) =
        ((consideredPermissions module).map
          (fun p => allChannels.indexOf (countedChannel permissionFeatures p))).foldl min 4 := by
    rcases hmem with h | h
    · refine ⟨module.apiNamespace, hns, ?_⟩
      have h1 := hall _ (List.mem_map.2 ⟨module.apiNamespace, hns, rfl⟩)
      have h2 := indexOf_le_four _ (countedChannel_mem permissionFeatures module.apiNamespace)
      omega
    · obtain ⟨p, hp, he⟩ := List.mem_map.1 h
      exact ⟨p, hp, he⟩
  obtain ⟨p, hp, hpe⟩ := hex
  refine ⟨⟨countedChannel permissionFeatures p, List.mem_map.2 ⟨p, hp, rfl⟩, ?_, ?_, ?_⟩,
    ?_, ?_, ?_⟩
  · intro c2 hc2
    obtain ⟨p2, hp2, rfl⟩ := List.mem_map.1 hc2
    rw [hpe]
    exact hall _ (List.mem_map.2 ⟨p2, hp2, rfl⟩)
  · rw [hfst, hpe]
  · rw [hfst, ← hpe]
    exact take_indexOf _ (countedChannel_mem permissionFeatures p)
  · rw [hfst]
    simp [allChannels]
  · rw [hfst]
    simp [allChannels]
  · rw [getPermittedChannels_fst permissionFeatures (getPermittedChannels _ module).2, hfst]
    cases hd : module.documentation_permissions_required with
    | none =>
      have : (getPermittedChannels permissionFeatures module).2 = module := by
        simp [getPermittedChannels, hd]
      rw [this]
    | some l =>
      have h2 : consideredPermissions (getPermittedChannels permissionFeatures module).2 =
          consideredPermissions module ++ [module.apiNamespace] := by
        simp [getPermittedChannels, consideredPermissions, hd]
      rw [h2, List.map_append, List.map_singleton,
        foldl_min_append_self _ _ _ (List.mem_map.2 ⟨module.apiNamespace, hns, rfl⟩)]

/-- C30 at a sample module: namespace "tabs" (no channel) requiring the permission
"experimental" (channel 'dev') is permitted on trunk, canary and dev, also on a second
call. -/
theorem C30_permitted_channels_upto_earliest_witness :
    (getPermittedChannels sampleFeatures
      { documentation_permissions_required := some ["experimental"],
        apiNamespace := "tabs" }).1 = ["trunk", "canary", "dev"] ∧
    (getPermittedChannels sampleFeatures
      (getPermittedChannels sampleFeatures
        { documentation_permissions_required := some ["experimental"],
          apiNamespace := "tabs" }).2).1 =
      (getPermittedChannels sampleFeatures
        { documentation_permissions_required := some ["experimental"],
          apiNamespace := "tabs" }).1 :=
  ⟨by decide,
   (C30_permitted_channels_upto_earliest sampleFeatures
      { documentation_permissions_required := some ["experimental"],
        apiNamespace := "tabs" }).2.2.2⟩

end ApiPageGenerator
